import Mathlib

/-!
# Graph algorithm visualisation: step-driven BFS and Ford-Fulkerson

A shallow embedding of the algorithmic core of the repository
(`PathGraph`, `FlowGraph`, `BFSGraphAlgorithm`, `FordFulkersonGraphAlgorithm`).

Conventions of the embedding:

* `std::vector` is a `List`; an index that is out of range (undefined behaviour in the
  source) is the fault `Fault.outOfBounds`.
* `std::size_t` is a `Nat`; the arithmetic the algorithms do on flows is taken modulo `2 ^ 64`.
* `while` / `for` loops whose trip count is not syntactically bounded take a `fuel` argument
  and yield `Fault.outOfFuel` when it is exhausted.
* Private rendering fields (sizes, colour palettes, edge geometry) are not part of the model;
  node coordinates are kept.
-/

namespace GraphViz

/-- Ways in which a run of the source can leave its defined behaviour. -/
inductive Fault where
  | outOfBounds
  | edgeNotFound
  | outOfFuel
  deriving DecidableEq, Repr

/-- Number of values of `std::size_t`. -/
def SIZE_MOD : Nat := 2 ^ 64

/-- Value of `std::numeric_limits<std::size_t>::max()`. -/
def SIZE_MAX : Nat := 2 ^ 64 - 1

/-- Subtraction of `std::size_t`. -/
def sizeSub (a b : Nat) : Nat := (a + SIZE_MOD - b % SIZE_MOD) % SIZE_MOD

/-- Addition of `std::size_t`. -/
def sizeAdd (a b : Nat) : Nat := (a + b) % SIZE_MOD

/-! ## PathGraph -/

inductive PathNodeState where
  | NotFound
  | Found
  | Visited
  | OnShortestPath
  deriving DecidableEq, Repr

inductive PathEdgeState where
  | Default
  | Peeked
  | Used
  | OnShortestPath
  deriving DecidableEq, Repr

structure PathEdge where
  state : PathEdgeState
  from_node_index : Nat
  to_node_index : Nat
  deriving DecidableEq, Repr

structure PathNode where
  pos_x : Nat
  pos_y : Nat
  state : PathNodeState
  is_start_node : Bool
  is_end_node : Bool
  entered_by : Nat
  edges : List Nat
  deriving DecidableEq, Repr

structure PathGraphConfig where
  nodes : List (Nat × Nat)
  edges : List (Nat × Nat)
  start_node : Nat
  end_node : Nat
  node_size : Nat
  edge_length : Nat
  deriving DecidableEq, Repr

structure PathGraph where
  edge_count : Nat
  node_count : Nat
  start_node : Nat
  end_node : Nat
  edges : List PathEdge
  nodes : List PathNode
  deriving DecidableEq, Repr

/-- Grid position of a node, `PathGraph::getNodePosition` (the same code as
`FlowGraph::getNodePosition`). -/
def getNodePosition (indecies : Nat × Nat) (node_size edge_length : Nat) : Nat × Nat :=
  let margin := sizeAdd node_size (node_size / 2)
  let step := sizeAdd node_size edge_length
  (sizeAdd margin ((indecies.1 * step) % SIZE_MOD), sizeAdd margin ((indecies.2 * step) % SIZE_MOD))

/-- First loop of `PathGraph::populateNodesAndEdges`: node `i` of the configuration.
The field `entered_by` is left uninitialised by the source; `garbage i` stands for whatever
value it holds. -/
def PathGraph.populateNodes (config : PathGraphConfig) (garbage : Nat → Nat) :
    Nat → List (Nat × Nat) → List PathNode
  | _, [] => []
  | i, c :: rest =>
    let position := getNodePosition c config.node_size config.edge_length
    { pos_x := position.1, pos_y := position.2, state := PathNodeState.NotFound,
      is_start_node := decide (i = config.start_node),
      is_end_node := decide (i = config.end_node),
      entered_by := garbage i, edges := [] } :: PathGraph.populateNodes config garbage (i + 1) rest

/-- Second loop of `PathGraph::populateNodesAndEdges`: edge `i` is built and pushed on the
adjacency list of its source node. Both endpoints are read from `nodes`. -/
def PathGraph.populateEdges :
    Nat → List (Nat × Nat) → List PathNode → List PathEdge → Except Fault (List PathNode × List PathEdge)
  | _, [], nodes, edges => .ok (nodes, edges)
  | i, (from_index, to_index) :: rest, nodes, edges =>
    match nodes[from_index]?, nodes[to_index]? with
    | some from_node, some _ =>
      PathGraph.populateEdges (i + 1) rest
        (nodes.set from_index { from_node with edges := from_node.edges ++ [i] })
        (edges ++ [{ state := PathEdgeState.Default, from_node_index := from_index,
                     to_node_index := to_index }])
    | _, _ => .error Fault.outOfBounds

/-- Constructor `PathGraph::PathGraph(const PathGraphConfig&)`. -/
def PathGraph.new (config : PathGraphConfig) (garbage : Nat → Nat) : Except Fault PathGraph :=
  match PathGraph.populateEdges 0 config.edges (PathGraph.populateNodes config garbage 0 config.nodes) [] with
  | .ok (nodes, edges) =>
    .ok { edge_count := config.edges.length, node_count := config.nodes.length,
          start_node := config.start_node, end_node := config.end_node,
          edges := edges, nodes := nodes }
  | .error e => .error e

/-! ## BFSGraphAlgorithm -/

structure BFSGraphAlgorithm where
  m_graph : PathGraph
  m_unvisited_node_queue : List Nat
  m_first_step : Bool
  m_found_end : Bool
  deriving DecidableEq, Repr

/-- Constructor `BFSGraphAlgorithm::BFSGraphAlgorithm(PathGraph&&)`. -/
def BFSGraphAlgorithm.new (graph : PathGraph) : BFSGraphAlgorithm :=
  { m_graph := graph, m_unvisited_node_queue := [], m_first_step := true, m_found_end := false }

/-- The backtracking `while` loop of `BFSGraphAlgorithm::nextStep` together with the
assignment that follows it; `i` is the loop variable (an edge index). -/
def BFSGraphAlgorithm.backtrack : Nat → PathGraph → Nat → Except Fault PathGraph
  | 0, _, _ => .error Fault.outOfFuel
  | fuel + 1, g, i =>
    match g.edges[i]? with
    | none => .error Fault.outOfBounds
    | some e =>
      match g.nodes[e.from_node_index]? with
      | none => .error Fault.outOfBounds
      | some node =>
        if node.is_start_node then
          .ok { g with edges := g.edges.set i { e with state := PathEdgeState.OnShortestPath } }
        else
          BFSGraphAlgorithm.backtrack fuel
            { g with
              edges := g.edges.set i { e with state := PathEdgeState.OnShortestPath },
              nodes := g.nodes.set e.from_node_index
                { node with state := PathNodeState.OnShortestPath } }
            node.entered_by

/-- The `for (auto edge_index : node.edges)` loop of `BFSGraphAlgorithm::nextStep`. -/
def BFSGraphAlgorithm.scanNeighbours :
    List Nat → PathGraph → List Nat → Except Fault (PathGraph × List Nat)
  | [], g, queue => .ok (g, queue)
  | edge_index :: rest, g, queue =>
    match g.edges[edge_index]? with
    | none => .error Fault.outOfBounds
    | some edge =>
      match g.nodes[edge.to_node_index]? with
      | none => .error Fault.outOfBounds
      | some neighbour =>
        if neighbour.state = PathNodeState.NotFound then
          BFSGraphAlgorithm.scanNeighbours rest
            { g with
              edges := g.edges.set edge_index { edge with state := PathEdgeState.Peeked },
              nodes := g.nodes.set edge.to_node_index
                { neighbour with state := PathNodeState.Found, entered_by := edge_index } }
            (queue ++ [edge.to_node_index])
        else
          BFSGraphAlgorithm.scanNeighbours rest g queue

/-- The statement `if (!node.is_start_node) m_graph.edges[node.entered_by].state = Used;` of
`BFSGraphAlgorithm::nextStep`. -/
def BFSGraphAlgorithm.markUsed (g : PathGraph) (node : PathNode) : Except Fault PathGraph :=
  if node.is_start_node then .ok g
  else
    match g.edges[node.entered_by]? with
    | none => .error Fault.outOfBounds
    | some e =>
      .ok { g with edges := g.edges.set node.entered_by { e with state := PathEdgeState.Used } }

/-- One call of `BFSGraphAlgorithm::nextStep`: the returned flag and the state after the call. -/
def BFSGraphAlgorithm.nextStep (fuel : Nat) (s : BFSGraphAlgorithm) :
    Except Fault (Bool × BFSGraphAlgorithm) :=
  if s.m_first_step then
    .ok (true, { s with
      m_unvisited_node_queue := s.m_unvisited_node_queue ++ [s.m_graph.start_node],
      m_first_step := false })
  else
    match s.m_unvisited_node_queue with
    | [] => .ok (false, s)
    | node_index :: queue =>
      if s.m_found_end then .ok (false, s)
      else
        match s.m_graph.nodes[node_index]? with
        | none => .error Fault.outOfBounds
        | some node0 =>
          let node := { node0 with state := PathNodeState.Visited }
          let g1 := { s.m_graph with nodes := s.m_graph.nodes.set node_index node }
          match BFSGraphAlgorithm.markUsed g1 node with
          | .error f => .error f
          | .ok g2 =>
            if node.is_end_node then
              if node.is_start_node then
                let node1 := { node with state := PathNodeState.OnShortestPath }
                let g3 := { g2 with nodes := g2.nodes.set node_index node1 }
                .ok (true, { s with m_graph := g3, m_unvisited_node_queue := queue,
                                    m_found_end := true })
              else
                match BFSGraphAlgorithm.backtrack fuel g2 node.entered_by with
                | .error f => .error f
                | .ok g3 =>
                  .ok (true, { s with m_graph := g3, m_unvisited_node_queue := queue,
                                      m_found_end := true })
            else
              match BFSGraphAlgorithm.scanNeighbours node.edges g2 queue with
              | .error f => .error f
              | .ok (g3, queue3) =>
                .ok (true, { s with m_graph := g3, m_unvisited_node_queue := queue3 })

/-- State after `k` calls of `nextStep`, whatever they return. -/
def BFSGraphAlgorithm.steps (fuel : Nat) : Nat → BFSGraphAlgorithm → Except Fault BFSGraphAlgorithm
  | 0, s => .ok s
  | k + 1, s =>
    match BFSGraphAlgorithm.nextStep fuel s with
    | .error f => .error f
    | .ok (_, s1) => BFSGraphAlgorithm.steps fuel k s1

/-- Calls `nextStep` until it first returns `false`, at most `budget` times; yields the number
of calls made (the failing one included) and the state after the last call. -/
def BFSGraphAlgorithm.runUntilFalse (fuel : Nat) :
    Nat → BFSGraphAlgorithm → Except Fault (Nat × BFSGraphAlgorithm)
  | 0, _ => .error Fault.outOfFuel
  | budget + 1, s =>
    match BFSGraphAlgorithm.nextStep fuel s with
    | .error f => .error f
    | .ok (false, s1) => .ok (1, s1)
    | .ok (true, s1) =>
      match BFSGraphAlgorithm.runUntilFalse fuel budget s1 with
      | .error f => .error f
      | .ok (n, s2) => .ok (n + 1, s2)

/-! ## FlowGraph -/

inductive FlowNodeState where
  | Default
  | OnUnsaturatedPath
  deriving DecidableEq, Repr

inductive FlowNodeType where
  | Normal
  | Start
  | End
  deriving DecidableEq, Repr

inductive FlowEdgeState where
  | Default
  | Saturated
  | OnUnsaturatedPath
  deriving DecidableEq, Repr

structure FlowNode where
  pos_x : Nat
  pos_y : Nat
  state : FlowNodeState
  type : FlowNodeType
  edges : List Nat
  deriving DecidableEq, Repr

structure FlowEdge where
  capacity : Nat
  current_flow : Nat
  state : FlowEdgeState
  from_node_index : Nat
  to_node_index : Nat
  deriving DecidableEq, Repr

structure FlowGraphConfig where
  nodes : List (Nat × Nat)
  edges : List ((Nat × Nat) × Nat)
  start_node : Nat
  end_node : Nat
  node_size : Nat
  edge_length : Nat
  deriving DecidableEq, Repr

structure FlowGraph where
  edge_count : Nat
  node_count : Nat
  start_node : Nat
  end_node : Nat
  edges : List FlowEdge
  nodes : List FlowNode
  deriving DecidableEq, Repr

/-- First loop of `FlowGraph::populateNodesAndEdges`. -/
def FlowGraph.populateNodes (config : FlowGraphConfig) : Nat → List (Nat × Nat) → List FlowNode
  | _, [] => []
  | i, c :: rest =>
    let position := getNodePosition c config.node_size config.edge_length
    let type := if i = config.start_node then FlowNodeType.Start else FlowNodeType.Normal
    let type := if i = config.end_node then FlowNodeType.End else type
    { pos_x := position.1, pos_y := position.2, state := FlowNodeState.Default, type := type,
      edges := [] } :: FlowGraph.populateNodes config (i + 1) rest

/-- Second loop of `FlowGraph::populateNodesAndEdges`; the constructor of `FlowEdge` sets
`current_flow` to `0`. -/
def FlowGraph.populateEdges :
    Nat → List ((Nat × Nat) × Nat) → List FlowNode → List FlowEdge →
      Except Fault (List FlowNode × List FlowEdge)
  | _, [], nodes, edges => .ok (nodes, edges)
  | i, ((from_index, to_index), edge_capacity) :: rest, nodes, edges =>
    match nodes[from_index]?, nodes[to_index]? with
    | some from_node, some _ =>
      FlowGraph.populateEdges (i + 1) rest
        (nodes.set from_index { from_node with edges := from_node.edges ++ [i] })
        (edges ++ [{ capacity := edge_capacity, current_flow := 0,
                     state := FlowEdgeState.Default, from_node_index := from_index,
                     to_node_index := to_index }])
    | _, _ => .error Fault.outOfBounds

/-- Constructor `FlowGraph::FlowGraph(const FlowGraphConfig&)`. -/
def FlowGraph.new (config : FlowGraphConfig) : Except Fault FlowGraph :=
  match FlowGraph.populateEdges 0 config.edges (FlowGraph.populateNodes config 0 config.nodes) [] with
  | .ok (nodes, edges) =>
    .ok { edge_count := config.edges.length, node_count := config.nodes.length,
          start_node := config.start_node, end_node := config.end_node,
          edges := edges, nodes := nodes }
  | .error e => .error e

/-! ## FordFulkersonGraphAlgorithm -/

inductive NextStepState where
  | CleanGraph
  | PathFind
  | UpdatePath
  deriving DecidableEq, Repr

structure FordFulkersonGraphAlgorithm where
  m_graph : FlowGraph
  m_start_node : Nat
  m_end_node : Nat
  m_parent : List Nat
  m_max_flow : Nat
  m_next_step_state : NextStepState
  deriving DecidableEq, Repr

/-- Constructor `FordFulkersonGraphAlgorithm::FordFulkersonGraphAlgorithm(FlowGraph&&)`. -/
def FordFulkersonGraphAlgorithm.new (graph : FlowGraph) : FordFulkersonGraphAlgorithm :=
  { m_graph := graph, m_start_node := graph.start_node, m_end_node := graph.end_node,
    m_parent := [], m_max_flow := 0, m_next_step_state := NextStepState.CleanGraph }

/-- Local state of the search in `FordFulkersonGraphAlgorithm::BFS`. -/
structure BFSLocals where
  queue : List Nat
  visited : List Bool
  parent : List Nat
  deriving DecidableEq, Repr

/-- The inner `for (std::size_t edge_index : m_graph.nodes[current_node].edges)` loop of
`FordFulkersonGraphAlgorithm::BFS`. The flag is `true` when the loop left through
`return true`. -/
def FordFulkersonGraphAlgorithm.bfsScan (g : FlowGraph) (end_node current_node : Nat) :
    List Nat → BFSLocals → Except Fault (Bool × BFSLocals)
  | [], l => .ok (false, l)
  | edge_index :: rest, l =>
    match g.edges[edge_index]? with
    | none => .error Fault.outOfBounds
    | some edge =>
      let to_node := edge.to_node_index
      match l.visited[to_node]? with
      | none => .error Fault.outOfBounds
      | some seen =>
        if !seen && decide (edge.current_flow < edge.capacity) then
          if to_node < l.parent.length then
            let l1 : BFSLocals :=
              { queue := l.queue ++ [to_node], visited := l.visited.set to_node true,
                parent := l.parent.set to_node current_node }
            if to_node = end_node then .ok (true, l1)
            else FordFulkersonGraphAlgorithm.bfsScan g end_node current_node rest l1
          else .error Fault.outOfBounds
        else FordFulkersonGraphAlgorithm.bfsScan g end_node current_node rest l

/-- The `while (!queue.empty())` loop of `FordFulkersonGraphAlgorithm::BFS`. -/
def FordFulkersonGraphAlgorithm.bfsLoop (g : FlowGraph) (end_node : Nat) :
    Nat → BFSLocals → Except Fault (Bool × List Nat)
  | 0, _ => .error Fault.outOfFuel
  | fuel + 1, l =>
    match l.queue with
    | [] => .ok (false, l.parent)
    | current_node :: queue =>
      match g.nodes[current_node]? with
      | none => .error Fault.outOfBounds
      | some node =>
        match FordFulkersonGraphAlgorithm.bfsScan g end_node current_node node.edges
            { l with queue := queue } with
        | .error f => .error f
        | .ok (true, l1) => .ok (true, l1.parent)
        | .ok (false, l1) => FordFulkersonGraphAlgorithm.bfsLoop g end_node fuel l1

/-- The method `FordFulkersonGraphAlgorithm::BFS`: the returned flag and the new `m_parent`. -/
def FordFulkersonGraphAlgorithm.BFS (fuel : Nat) (s : FordFulkersonGraphAlgorithm) :
    Except Fault (Bool × List Nat) :=
  let visited := List.replicate s.m_graph.node_count false
  if s.m_start_node < visited.length then
    FordFulkersonGraphAlgorithm.bfsLoop s.m_graph s.m_end_node fuel
      { queue := [s.m_start_node], visited := visited.set s.m_start_node true,
        parent := List.replicate s.m_graph.node_count SIZE_MAX }
  else .error Fault.outOfBounds

/-- The method `FordFulkersonGraphAlgorithm::findEdge`, as the index of the edge it returns a
reference to; the `for` loop runs over the adjacency list `adjacency` of `from_node`. -/
def FordFulkersonGraphAlgorithm.findEdgeIn (g : FlowGraph) (to_node : Nat) :
    List Nat → Except Fault Nat
  | [] => .error Fault.edgeNotFound
  | edge_index :: rest =>
    match g.edges[edge_index]? with
    | none => .error Fault.outOfBounds
    | some edge =>
      if edge.to_node_index = to_node then .ok edge_index
      else FordFulkersonGraphAlgorithm.findEdgeIn g to_node rest

def FordFulkersonGraphAlgorithm.findEdge (g : FlowGraph) (from_node to_node : Nat) :
    Except Fault Nat :=
  match g.nodes[from_node]? with
  | none => .error Fault.outOfBounds
  | some node => FordFulkersonGraphAlgorithm.findEdgeIn g to_node node.edges

/-- First loop of `FordFulkersonGraphAlgorithm::updateFlow`: the bottleneck along the parent
chain, starting from the accumulator `flow` at node `node`. -/
def FordFulkersonGraphAlgorithm.bottleneck (g : FlowGraph) (start_node : Nat) (parent : List Nat) :
    Nat → Nat → Nat → Except Fault Nat
  | 0, _, _ => .error Fault.outOfFuel
  | fuel + 1, node, flow =>
    if node = start_node then .ok flow
    else
      match parent[node]? with
      | none => .error Fault.outOfBounds
      | some parent_node =>
        match FordFulkersonGraphAlgorithm.findEdge g parent_node node with
        | .error f => .error f
        | .ok edge_index =>
          match g.edges[edge_index]? with
          | none => .error Fault.outOfBounds
          | some edge =>
            FordFulkersonGraphAlgorithm.bottleneck g start_node parent fuel parent_node
              (min flow (sizeSub edge.capacity edge.current_flow))

/-- Second loop of `FordFulkersonGraphAlgorithm::updateFlow`: adds `flow` on every edge of the
parent chain. -/
def FordFulkersonGraphAlgorithm.augment (start_node : Nat) (parent : List Nat) (flow : Nat) :
    Nat → Nat → FlowGraph → Except Fault FlowGraph
  | 0, _, _ => .error Fault.outOfFuel
  | fuel + 1, node, g =>
    if node = start_node then .ok g
    else
      match parent[node]? with
      | none => .error Fault.outOfBounds
      | some parent_node =>
        match FordFulkersonGraphAlgorithm.findEdge g parent_node node with
        | .error f => .error f
        | .ok edge_index =>
          match g.edges[edge_index]? with
          | none => .error Fault.outOfBounds
          | some edge =>
            let current_flow := sizeAdd edge.current_flow flow
            let state := if current_flow = edge.capacity then FlowEdgeState.Saturated else edge.state
            let edge1 := { edge with current_flow := current_flow, state := state }
            FordFulkersonGraphAlgorithm.augment start_node parent flow fuel parent_node
              { g with edges := g.edges.set edge_index edge1 }

/-- The method `FordFulkersonGraphAlgorithm::updateFlow`: the returned bottleneck and the graph
after the update. -/
def FordFulkersonGraphAlgorithm.updateFlow (fuel : Nat) (s : FordFulkersonGraphAlgorithm) :
    Except Fault (Nat × FlowGraph) :=
  match FordFulkersonGraphAlgorithm.bottleneck s.m_graph s.m_start_node s.m_parent fuel
      s.m_end_node SIZE_MAX with
  | .error f => .error f
  | .ok flow =>
    match FordFulkersonGraphAlgorithm.augment s.m_start_node s.m_parent flow fuel s.m_end_node
        s.m_graph with
    | .error f => .error f
    | .ok g => .ok (flow, g)

/-- The free function `cleanGraph`. -/
def cleanGraph (graph : FlowGraph) : FlowGraph :=
  { graph with
    nodes := graph.nodes.map (fun node => { node with state := FlowNodeState.Default }),
    edges := graph.edges.map (fun edge =>
      if edge.current_flow = edge.capacity then { edge with state := FlowEdgeState.Saturated }
      else { edge with state := FlowEdgeState.Default }) }

/-- The method `FordFulkersonGraphAlgorithm::showFoundPath`, from node `node` on. -/
def FordFulkersonGraphAlgorithm.showFoundPath (start_node : Nat) (parent : List Nat) :
    Nat → Nat → FlowGraph → Except Fault FlowGraph
  | 0, _, _ => .error Fault.outOfFuel
  | fuel + 1, node, g =>
    if node = start_node then .ok g
    else
      match parent[node]? with
      | none => .error Fault.outOfBounds
      | some parent_node =>
        match g.nodes[parent_node]? with
        | none => .error Fault.outOfBounds
        | some pnode =>
          let pnode1 := { pnode with state := FlowNodeState.OnUnsaturatedPath }
          let g1 := { g with nodes := g.nodes.set parent_node pnode1 }
          match FordFulkersonGraphAlgorithm.findEdge g1 parent_node node with
          | .error f => .error f
          | .ok edge_index =>
            match g1.edges[edge_index]? with
            | none => .error Fault.outOfBounds
            | some edge =>
              let edge1 := { edge with state := FlowEdgeState.OnUnsaturatedPath }
              FordFulkersonGraphAlgorithm.showFoundPath start_node parent fuel parent_node
                { g1 with edges := g1.edges.set edge_index edge1 }

/-- One call of `FordFulkersonGraphAlgorithm::nextStep`. -/
def FordFulkersonGraphAlgorithm.nextStep (fuel : Nat) (s : FordFulkersonGraphAlgorithm) :
    Except Fault (Bool × FordFulkersonGraphAlgorithm) :=
  match s.m_next_step_state with
  | NextStepState.CleanGraph =>
    .ok (true, { s with m_graph := cleanGraph s.m_graph,
                        m_next_step_state := NextStepState.PathFind })
  | NextStepState.PathFind =>
    match FordFulkersonGraphAlgorithm.BFS fuel s with
    | .error f => .error f
    | .ok (false, parent) => .ok (false, { s with m_parent := parent })
    | .ok (true, parent) =>
      match FordFulkersonGraphAlgorithm.showFoundPath s.m_start_node parent fuel s.m_end_node
          s.m_graph with
      | .error f => .error f
      | .ok g =>
        .ok (true, { s with m_graph := g, m_parent := parent,
                            m_next_step_state := NextStepState.UpdatePath })
  | NextStepState.UpdatePath =>
    match FordFulkersonGraphAlgorithm.updateFlow fuel s with
    | .error f => .error f
    | .ok (flow, g) =>
      .ok (true, { s with m_graph := g, m_max_flow := sizeAdd s.m_max_flow flow,
                          m_next_step_state := NextStepState.CleanGraph })

/-- State after `k` calls of `nextStep`, whatever they return. -/
def FordFulkersonGraphAlgorithm.steps (fuel : Nat) :
    Nat → FordFulkersonGraphAlgorithm → Except Fault FordFulkersonGraphAlgorithm
  | 0, s => .ok s
  | k + 1, s =>
    match FordFulkersonGraphAlgorithm.nextStep fuel s with
    | .error f => .error f
    | .ok (_, s1) => FordFulkersonGraphAlgorithm.steps fuel k s1

/-- Calls `nextStep` until it first returns `false`, at most `budget` times; yields the number
of calls made (the failing one included) and the state after the last call. -/
def FordFulkersonGraphAlgorithm.runUntilFalse (fuel : Nat) :
    Nat → FordFulkersonGraphAlgorithm → Except Fault (Nat × FordFulkersonGraphAlgorithm)
  | 0, _ => .error Fault.outOfFuel
  | budget + 1, s =>
    match FordFulkersonGraphAlgorithm.nextStep fuel s with
    | .error f => .error f
    | .ok (false, s1) => .ok (1, s1)
    | .ok (true, s1) =>
      match FordFulkersonGraphAlgorithm.runUntilFalse fuel budget s1 with
      | .error f => .error f
      | .ok (n, s2) => .ok (n + 1, s2)

/-! ## Specification vocabulary: walks, distances, well-formedness -/

/-- `Walk E u v k`: there is a directed walk with `k` edges from `u` to `v`, every edge of
which is listed in `E` as a pair `(from, to)`. -/
inductive Walk (E : List (Nat × Nat)) : Nat → Nat → Nat → Prop where
  | refl (u : Nat) : Walk E u u 0
  | step {u v w k : Nat} : Walk E u v k → (v, w) ∈ E → Walk E u w (k + 1)

/-- The node `v` can be reached from `s`. -/
def Reachable (E : List (Nat × Nat)) (s v : Nat) : Prop := ∃ k, Walk E s v k

/-- The number `d` is the shortest edge-count distance from `s` to `v`. -/
def IsDist (E : List (Nat × Nat)) (s v d : Nat) : Prop :=
  Walk E s v d ∧ ∀ k, Walk E s v k → d ≤ k

/-- `PathFrom E s v P V`: the edge indices `P`, in path order, form a directed path from `s` to
`v` (edge `i` being the pair `E[i]`), and `V` lists the nodes this path enters, in order
(so `V` ends in `v` unless the path is empty). -/
inductive PathFrom (E : List (Nat × Nat)) (s : Nat) : Nat → List Nat → List Nat → Prop where
  | nil : PathFrom E s s [] []
  | snoc {v w ei : Nat} {P V : List Nat} : PathFrom E s v P V → E[ei]? = some (v, w) →
      PathFrom E s w (P ++ [ei]) (V ++ [w])

/-- Indices of the edges of a path graph whose state is `s`, in increasing order. -/
def PathGraph.edgesInState (g : PathGraph) (s : PathEdgeState) : List Nat :=
  (List.range g.edges.length).filter
    (fun ei => decide ((g.edges[ei]?).map (fun e => e.state) = some s))

/-- Indices of the nodes of a path graph whose state is `s`, in increasing order. -/
def PathGraph.nodesInState (g : PathGraph) (s : PathNodeState) : List Nat :=
  (List.range g.nodes.length).filter
    (fun v => decide ((g.nodes[v]?).map (fun n => n.state) = some s))

/-- A configuration whose start, end and edge endpoints are valid node indices. -/
def PathGraphConfig.WellFormed (c : PathGraphConfig) : Prop :=
  c.start_node < c.nodes.length ∧ c.end_node < c.nodes.length ∧
    ∀ e ∈ c.edges, e.1 < c.nodes.length ∧ e.2 < c.nodes.length

instance (c : PathGraphConfig) : Decidable c.WellFormed := by
  unfold PathGraphConfig.WellFormed; infer_instance

/-- Endpoints `(from, to)` of the edges of a path graph, in edge order. -/
def PathGraph.ends (g : PathGraph) : List (Nat × Nat) :=
  g.edges.map (fun e => (e.from_node_index, e.to_node_index))

/-- The part of a path graph that no algorithm step writes: endpoints, adjacency lists,
role flags, start and end. -/
def PathGraph.skel (g : PathGraph) : List (Nat × Nat) × List (List Nat × Bool × Bool) × Nat × Nat :=
  (g.ends, g.nodes.map (fun n => (n.edges, n.is_start_node, n.is_end_node)),
    g.start_node, g.end_node)

/-- Structural well-formedness of a path graph: indices are valid, the adjacency list of a node
lists exactly the edges leaving it, and the role flags agree with `start_node` / `end_node`. -/
structure PathGraph.WF (g : PathGraph) : Prop where
  start_lt : g.start_node < g.nodes.length
  end_lt : g.end_node < g.nodes.length
  adj_sound : ∀ (v : Nat) (node : PathNode) (ei : Nat), g.nodes[v]? = some node →
    ei ∈ node.edges → ∃ e : PathEdge, g.edges[ei]? = some e ∧ e.from_node_index = v
  adj_complete : ∀ (ei : Nat) (e : PathEdge), g.edges[ei]? = some e →
    ∃ node : PathNode, g.nodes[e.from_node_index]? = some node ∧ ei ∈ node.edges
  to_lt : ∀ (ei : Nat) (e : PathEdge), g.edges[ei]? = some e →
    e.to_node_index < g.nodes.length
  flags : ∀ (v : Nat) (node : PathNode), g.nodes[v]? = some node →
    node.is_start_node = decide (v = g.start_node) ∧ node.is_end_node = decide (v = g.end_node)

/-! ## Invariants used by the proofs about `BFSGraphAlgorithm` -/

/-- Invariant of the edge loop of `PathGraph::populateNodesAndEdges`. -/
structure PathPopInv (n start_node end_node : Nat) (nodes : List PathNode) (edges : List PathEdge) :
    Prop where
  len : nodes.length = n
  node_init : ∀ (v : Nat) (node : PathNode), nodes[v]? = some node →
    node.state = PathNodeState.NotFound ∧ node.is_start_node = decide (v = start_node) ∧
      node.is_end_node = decide (v = end_node)
  adj_sound : ∀ (v : Nat) (node : PathNode) (ei : Nat), nodes[v]? = some node →
    ei ∈ node.edges → ∃ e : PathEdge, edges[ei]? = some e ∧ e.from_node_index = v
  edge_init : ∀ (ei : Nat) (e : PathEdge), edges[ei]? = some e →
    e.state = PathEdgeState.Default ∧ e.to_node_index < n ∧
      ∃ node : PathNode, nodes[e.from_node_index]? = some node ∧ ei ∈ node.edges

/-- Facts about a freshly constructed path graph. -/
structure PathGraph.Fresh (c : PathGraphConfig) (g : PathGraph) : Prop where
  wf : g.WF
  ends_eq : g.ends = c.edges
  start_eq : g.start_node = c.start_node
  end_eq : g.end_node = c.end_node
  len : g.nodes.length = c.nodes.length
  edges_len : g.edges.length = c.edges.length
  node_init : ∀ (v : Nat) (node : PathNode), g.nodes[v]? = some node →
    node.state = PathNodeState.NotFound
  edge_init : ∀ (ei : Nat) (e : PathEdge), g.edges[ei]? = some e →
    e.state = PathEdgeState.Default

/-- Target node of the edge with index `ei`, when that edge exists. -/
def PathGraph.targetOf (g : PathGraph) (ei : Nat) : Option Nat :=
  (g.edges[ei]?).map (fun e => e.to_node_index)

/-- What the neighbour loop of `BFSGraphAlgorithm::nextStep` does when run over the edge list
`es` from graph `g` and queue `q`, yielding `g1` and `q1`. -/
structure ScanSpec (es : List Nat) (g : PathGraph) (q : List Nat) (g1 : PathGraph)
    (q1 : List Nat) : Prop where
  skel : g1.skel = g.skel
  keep : ∀ (v : Nat) (node : PathNode), g.nodes[v]? = some node →
    (node.state ≠ PathNodeState.NotFound ∨ ∀ ei ∈ es, g.targetOf ei ≠ some v) →
    g1.nodes[v]? = some node
  found : ∀ (v : Nat) (node : PathNode), g.nodes[v]? = some node →
    node.state = PathNodeState.NotFound → (∃ ei ∈ es, g.targetOf ei = some v) →
    ∃ ei ∈ es, g.targetOf ei = some v ∧
      g1.nodes[v]? = some { node with state := PathNodeState.Found, entered_by := ei }
  queue : ∃ N : List Nat, q1 = q ++ N ∧ N.Nodup ∧
    ∀ x, x ∈ N ↔ ((∃ ei ∈ es, g.targetOf ei = some x) ∧
      ∃ node : PathNode, g.nodes[x]? = some node ∧ node.state = PathNodeState.NotFound)
  edges : ∀ (ei : Nat) (e1 : PathEdge), g1.edges[ei]? = some e1 →
    e1.state = PathEdgeState.Peeked ∨ g.edges[ei]? = some e1

/-- Number of nodes whose state is not `Visited`. -/
def PathGraph.unvisited (g : PathGraph) : Nat :=
  (g.nodes.map (fun n => decide (n.state = PathNodeState.Visited))).count false

/-- Invariant of the traversal phase of `BFSGraphAlgorithm`: the queue is `A ++ B`, the nodes of
`A` are at distance `k` from the start and those of `B` at distance `k + 1`. -/
structure BFSInv (st : BFSGraphAlgorithm) (k : Nat) (A B : List Nat) : Prop where
  wf : st.m_graph.WF
  first : st.m_first_step = false
  not_found : st.m_found_end = false
  queue_eq : st.m_unvisited_node_queue = A ++ B
  nodup : (A ++ B).Nodup
  distA : ∀ a ∈ A, IsDist st.m_graph.ends st.m_graph.start_node a k
  distB : ∀ b ∈ B, IsDist st.m_graph.ends st.m_graph.start_node b (k + 1)
  no_osp_node : ∀ (v : Nat) (node : PathNode), st.m_graph.nodes[v]? = some node →
    node.state ≠ PathNodeState.OnShortestPath
  no_osp_edge : ∀ (ei : Nat) (e : PathEdge), st.m_graph.edges[ei]? = some e →
    e.state ≠ PathEdgeState.OnShortestPath
  found_queue : ∀ (v : Nat) (node : PathNode), st.m_graph.nodes[v]? = some node →
    node.state = PathNodeState.Found → v ∈ A ++ B
  queue_state : ∀ v ∈ A ++ B, ∃ node : PathNode, st.m_graph.nodes[v]? = some node ∧
    (node.state = PathNodeState.Found ∨
      (node.state = PathNodeState.NotFound ∧ v = st.m_graph.start_node ∧
        A ++ B = [st.m_graph.start_node]))
  parent : ∀ (v : Nat) (node : PathNode), st.m_graph.nodes[v]? = some node →
    node.state ≠ PathNodeState.NotFound → v ≠ st.m_graph.start_node →
    ∃ (e : PathEdge) (unode : PathNode) (d : Nat),
      st.m_graph.edges[node.entered_by]? = some e ∧ e.to_node_index = v ∧
      st.m_graph.nodes[e.from_node_index]? = some unode ∧
      unode.state = PathNodeState.Visited ∧
      IsDist st.m_graph.ends st.m_graph.start_node e.from_node_index d ∧
      IsDist st.m_graph.ends st.m_graph.start_node v (d + 1)
  visited_dist : ∀ (v : Nat) (node : PathNode), st.m_graph.nodes[v]? = some node →
    node.state = PathNodeState.Visited →
    ∃ d, d ≤ k ∧ IsDist st.m_graph.ends st.m_graph.start_node v d
  complete : ∀ (v d : Nat), IsDist st.m_graph.ends st.m_graph.start_node v d → d ≤ k →
    v ∈ A ++ B ∨ ∃ node : PathNode, st.m_graph.nodes[v]? = some node ∧
      node.state = PathNodeState.Visited
  closed : ∀ (u : Nat) (unode : PathNode), st.m_graph.nodes[u]? = some unode →
    unode.state = PathNodeState.Visited → ∀ w, (u, w) ∈ st.m_graph.ends →
    ∃ wnode : PathNode, st.m_graph.nodes[w]? = some wnode ∧
      wnode.state ≠ PathNodeState.NotFound
  end_fresh : ∀ node : PathNode, st.m_graph.nodes[st.m_graph.end_node]? = some node →
    node.state ≠ PathNodeState.Visited

/-- Every discovered node other than the start node records, in `entered_by`, an edge that
enters it from a discovered node one step closer to the start. -/
def ParentLinks (g : PathGraph) : Prop :=
  ∀ (v : Nat) (node : PathNode), g.nodes[v]? = some node →
    node.state ≠ PathNodeState.NotFound → v ≠ g.start_node →
    ∃ (e : PathEdge) (unode : PathNode) (d : Nat),
      g.edges[node.entered_by]? = some e ∧ e.to_node_index = v ∧
      g.nodes[e.from_node_index]? = some unode ∧
      unode.state ≠ PathNodeState.NotFound ∧
      IsDist g.ends g.start_node e.from_node_index d ∧
      IsDist g.ends g.start_node v (d + 1)

/-- The state in which `BFSGraphAlgorithm` stops after it has dequeued the end node: the edges
in state `OnShortestPath` are the edges `P` of a shortest path from start to end, the nodes in
state `OnShortestPath` are the inner nodes of that path (or the single node when start and end
coincide). -/
structure BFSFound (st : BFSGraphAlgorithm) (P V : List Nat) (d : Nat) : Prop where
  wf : st.m_graph.WF
  first : st.m_first_step = false
  found : st.m_found_end = true
  path : PathFrom st.m_graph.ends st.m_graph.start_node st.m_graph.end_node P V
  len : P.length = d
  dist : IsDist st.m_graph.ends st.m_graph.start_node st.m_graph.end_node d
  edges : ∀ (ei : Nat) (e : PathEdge), st.m_graph.edges[ei]? = some e →
    (e.state = PathEdgeState.OnShortestPath ↔ ei ∈ P)
  nodes_ne : st.m_graph.start_node ≠ st.m_graph.end_node →
    ∀ (v : Nat) (node : PathNode), st.m_graph.nodes[v]? = some node →
      (node.state = PathNodeState.OnShortestPath ↔ v ∈ V.dropLast)
  nodes_eq : st.m_graph.start_node = st.m_graph.end_node →
    ∀ (v : Nat) (node : PathNode), st.m_graph.nodes[v]? = some node →
      (node.state = PathNodeState.OnShortestPath ↔ v = st.m_graph.start_node)

/-! ## Specification vocabulary for flow graphs -/

/-- A flow configuration whose start, end and edge endpoints are valid node indices and whose
capacities are values of `std::size_t`. -/
def FlowGraphConfig.WellFormed (c : FlowGraphConfig) : Prop :=
  c.start_node < c.nodes.length ∧ c.end_node < c.nodes.length ∧
    ∀ e ∈ c.edges, e.1.1 < c.nodes.length ∧ e.1.2 < c.nodes.length ∧ e.2 < SIZE_MOD

instance (c : FlowGraphConfig) : Decidable c.WellFormed := by
  unfold FlowGraphConfig.WellFormed; infer_instance

/-- No two edges of the configuration share the same ordered pair `(from, to)`. -/
def FlowGraphConfig.NoParallel (c : FlowGraphConfig) : Prop :=
  (c.edges.map (fun e => e.1)).Nodup

instance (c : FlowGraphConfig) : Decidable c.NoParallel := by
  unfold FlowGraphConfig.NoParallel; infer_instance

/-- Endpoints `(from, to)` of the edges of a flow graph, in edge order. -/
def FlowGraph.ends (g : FlowGraph) : List (Nat × Nat) :=
  g.edges.map (fun e => (e.from_node_index, e.to_node_index))

/-- The part of a flow graph that no algorithm step writes: endpoints and capacities,
adjacency lists and node types, start, end and the two counts. -/
def FlowGraph.skel (g : FlowGraph) :
    List (Nat × Nat × Nat) × List (List Nat × FlowNodeType) × Nat × Nat × Nat × Nat :=
  (g.edges.map (fun e => (e.from_node_index, e.to_node_index, e.capacity)),
    g.nodes.map (fun n => (n.edges, n.type)), g.start_node, g.end_node, g.node_count,
    g.edge_count)

/-- Sum of `current_flow` over the edges entering node `v`. -/
def FlowGraph.inflow (g : FlowGraph) (v : Nat) : Nat :=
  ((g.edges.filter (fun e => decide (e.to_node_index = v))).map (fun e => e.current_flow)).sum

/-- Sum of `current_flow` over the edges leaving node `v`. -/
def FlowGraph.outflow (g : FlowGraph) (v : Nat) : Nat :=
  ((g.edges.filter (fun e => decide (e.from_node_index = v))).map (fun e => e.current_flow)).sum

/-- Structural well-formedness of a flow graph. -/
structure FlowGraph.WF (g : FlowGraph) : Prop where
  count : g.node_count = g.nodes.length
  start_lt : g.start_node < g.nodes.length
  end_lt : g.end_node < g.nodes.length
  adj_sound : ∀ (v : Nat) (node : FlowNode) (ei : Nat), g.nodes[v]? = some node →
    ei ∈ node.edges → ∃ e : FlowEdge, g.edges[ei]? = some e ∧ e.from_node_index = v
  adj_complete : ∀ (ei : Nat) (e : FlowEdge), g.edges[ei]? = some e →
    ∃ node : FlowNode, g.nodes[e.from_node_index]? = some node ∧ ei ∈ node.edges
  to_lt : ∀ (ei : Nat) (e : FlowEdge), g.edges[ei]? = some e →
    e.to_node_index < g.nodes.length
  cap_lt : ∀ (ei : Nat) (e : FlowEdge), g.edges[ei]? = some e → e.capacity < SIZE_MOD

/-- `ParentChain g parent start v es L`: following `parent` from `v` reaches `start`; `L` lists
the nodes met before `start` (beginning with `v`) and `es` the edge that `findEdge` returns for
each link `(parent[x], x)`, in the same order. These are the links and edges that
`showFoundPath` and `updateFlow` walk. -/
inductive ParentChain (g : FlowGraph) (parent : List Nat) (start : Nat) :
    Nat → List Nat → List Nat → Prop where
  | nil : ParentChain g parent start start [] []
  | cons {v p ei : Nat} {es L : List Nat} : v ≠ start → parent[v]? = some p →
      FordFulkersonGraphAlgorithm.findEdge g p v = .ok ei →
      ParentChain g parent start p es L → ParentChain g parent start v (ei :: es) (v :: L)

/-- Every link `(parent[v], v)` of the nodes `L` was set through an edge with residual
capacity. -/
def UnsatLinks (g : FlowGraph) (parent : List Nat) (L : List Nat) : Prop :=
  ∀ v ∈ L, ∃ (p ej : Nat) (e : FlowEdge), parent[v]? = some p ∧ g.edges[ej]? = some e ∧
    e.from_node_index = p ∧ e.to_node_index = v ∧ e.current_flow < e.capacity

/-- Residual capacity `capacity - current_flow` of edge `ei` as `updateFlow` computes it
(`0` when there is no such edge). -/
def FlowGraph.residual (g : FlowGraph) (ei : Nat) : Nat :=
  match g.edges[ei]? with
  | some e => sizeSub e.capacity e.current_flow
  | none => 0

/-- The edge `e` after `updateFlow` has added `flow` to it. -/
def FlowEdge.augmented (e : FlowEdge) (flow : Nat) : FlowEdge :=
  { e with current_flow := sizeAdd e.current_flow flow,
           state := if sizeAdd e.current_flow flow = e.capacity then FlowEdgeState.Saturated
                    else e.state }

/-- Sum of the values `f` assigns to the edges of the configuration that enter `v`. -/
def FlowGraphConfig.inSum (c : FlowGraphConfig) (f : List Nat) (v : Nat) : Nat :=
  (((c.edges.zip f).filter (fun p => decide (p.1.1.2 = v))).map (fun p => p.2)).sum

/-- Sum of the values `f` assigns to the edges of the configuration that leave `v`. -/
def FlowGraphConfig.outSum (c : FlowGraphConfig) (f : List Nat) (v : Nat) : Nat :=
  (((c.edges.zip f).filter (fun p => decide (p.1.1.1 = v))).map (fun p => p.2)).sum

/-- The list `f` (one value per edge, in edge order) is a feasible flow of the configuration:
it respects every capacity and is conserved at every node other than start and end. -/
def FlowGraphConfig.IsFlow (c : FlowGraphConfig) (f : List Nat) : Prop :=
  f.length = c.edges.length ∧ (∀ p ∈ c.edges.zip f, p.2 ≤ p.1.2) ∧
    ∀ v ∈ List.range c.nodes.length, v ≠ c.start_node → v ≠ c.end_node →
      c.inSum f v = c.outSum f v

instance (c : FlowGraphConfig) (f : List Nat) : Decidable (c.IsFlow f) := by
  unfold FlowGraphConfig.IsFlow; infer_instance

/-- Value of a flow: what leaves the start node minus what enters it. -/
def FlowGraphConfig.flowValue (c : FlowGraphConfig) (f : List Nat) : Nat :=
  c.outSum f c.start_node - c.inSum f c.start_node

/-! ## Invariants used by the proofs about `FordFulkersonGraphAlgorithm` -/

/-- Invariant of the edge loop of `FlowGraph::populateNodesAndEdges`. -/
structure FlowPopInv (n : Nat) (nodes : List FlowNode) (edges : List FlowEdge) : Prop where
  len : nodes.length = n
  node_init : ∀ (v : Nat) (node : FlowNode), nodes[v]? = some node →
    node.state = FlowNodeState.Default
  adj_sound : ∀ (v : Nat) (node : FlowNode) (ei : Nat), nodes[v]? = some node →
    ei ∈ node.edges → ∃ e : FlowEdge, edges[ei]? = some e ∧ e.from_node_index = v
  edge_init : ∀ (ei : Nat) (e : FlowEdge), edges[ei]? = some e →
    e.state = FlowEdgeState.Default ∧ e.current_flow = 0 ∧ e.to_node_index < n ∧
      ∃ node : FlowNode, nodes[e.from_node_index]? = some node ∧ ei ∈ node.edges

/-- Facts about a freshly constructed flow graph. -/
structure FlowGraph.Fresh (c : FlowGraphConfig) (g : FlowGraph) : Prop where
  wf : g.WF
  edges_eq : g.edges.map (fun e => ((e.from_node_index, e.to_node_index), e.capacity)) = c.edges
  start_eq : g.start_node = c.start_node
  end_eq : g.end_node = c.end_node
  len : g.nodes.length = c.nodes.length
  node_init : ∀ (v : Nat) (node : FlowNode), g.nodes[v]? = some node →
    node.state = FlowNodeState.Default
  edge_init : ∀ (ei : Nat) (e : FlowEdge), g.edges[ei]? = some e →
    e.state = FlowEdgeState.Default ∧ e.current_flow = 0

/-- Invariant of the search in `FordFulkersonGraphAlgorithm::BFS`. -/
structure BFSTreeInv (g : FlowGraph) (start_node end_node : Nat) (l : BFSLocals) : Prop where
  vlen : l.visited.length = g.nodes.length
  plen : l.parent.length = g.nodes.length
  start_seen : l.visited[start_node]? = some true
  queue : ∀ v ∈ l.queue, l.visited[v]? = some true
  end_fresh : end_node ≠ start_node → l.visited[end_node]? = some false
  chain : ∀ (v : Nat), l.visited[v]? = some true →
    ∃ (es L : List Nat), ParentChain g l.parent start_node v es L ∧ L.Nodup ∧
      UnsatLinks g l.parent L ∧ ∀ x ∈ L, l.visited[x]? = some true

/-- Invariant of the states of `FordFulkersonGraphAlgorithm`. -/
structure FFInv (s : FordFulkersonGraphAlgorithm) : Prop where
  wf : s.m_graph.WF
  start_eq : s.m_start_node = s.m_graph.start_node
  end_eq : s.m_end_node = s.m_graph.end_node
  cap : ∀ (ei : Nat) (e : FlowEdge), s.m_graph.edges[ei]? = some e →
    e.current_flow ≤ e.capacity
  conserve : ∀ (v : Nat), v ≠ s.m_start_node → v ≠ s.m_end_node →
    s.m_graph.inflow v = s.m_graph.outflow v
  chain : s.m_next_step_state = NextStepState.UpdatePath →
    ∃ (es L : List Nat), ParentChain s.m_graph s.m_parent s.m_start_node s.m_end_node es L ∧
      L.Nodup ∧ es ≠ [] ∧ UnsatLinks s.m_graph s.m_parent L

/-- Display states of the edges of a flow graph without parallel edges, by phase: after
`cleanGraph` the state is recomputed from the flow; after a path was found its edges are
`OnUnsaturatedPath` and not full; after the update an edge is `Saturated` exactly when full. -/
structure FFMarks (s : FordFulkersonGraphAlgorithm) : Prop where
  pathFind : s.m_next_step_state = NextStepState.PathFind →
    ∀ (j : Nat) (e : FlowEdge), s.m_graph.edges[j]? = some e →
      e.state = if e.current_flow = e.capacity then FlowEdgeState.Saturated
                else FlowEdgeState.Default
  update : s.m_next_step_state = NextStepState.UpdatePath →
    ∀ (es L : List Nat), ParentChain s.m_graph s.m_parent s.m_start_node s.m_end_node es L →
      ∀ (j : Nat) (e : FlowEdge), s.m_graph.edges[j]? = some e →
        (j ∈ es → e.state = FlowEdgeState.OnUnsaturatedPath ∧ e.current_flow < e.capacity) ∧
        (j ∉ es → e.state = if e.current_flow = e.capacity then FlowEdgeState.Saturated
                            else FlowEdgeState.Default)
  clean : s.m_next_step_state = NextStepState.CleanGraph →
    ∀ (j : Nat) (e : FlowEdge), s.m_graph.edges[j]? = some e →
      (e.state = FlowEdgeState.Saturated ↔ e.current_flow = e.capacity)

/-! ## Concrete configurations -/

/-- The diamond `0 -> 1`, `0 -> 2`, `1 -> 3`, `2 -> 3` with start `0` and end `3`. -/
def diamondPathConfig : PathGraphConfig :=
  { nodes := [(0, 1), (1, 0), (1, 2), (2, 1)], edges := [(0, 1), (0, 2), (1, 3), (2, 3)],
    start_node := 0, end_node := 3, node_size := 10, edge_length := 20 }

/-- A single edge `0 -> 1` from the start node to the end node. -/
def singleEdgePathConfig : PathGraphConfig :=
  { nodes := [(0, 0), (1, 0)], edges := [(0, 1)], start_node := 0, end_node := 1,
    node_size := 10, edge_length := 20 }

/-- Three nodes, one edge `0 -> 1`; the end node `2` cannot be reached from the start `0`. -/
def isolatedEndPathConfig : PathGraphConfig :=
  { nodes := [(0, 0), (1, 0), (2, 0)], edges := [(0, 1)], start_node := 0, end_node := 2,
    node_size := 10, edge_length := 20 }

/-- The diamond `0 -> 1`, `0 -> 2`, `1 -> 3`, `2 -> 3`, every capacity `1`. -/
def diamondFlowConfig : FlowGraphConfig :=
  { nodes := [(0, 1), (1, 0), (1, 2), (2, 1)],
    edges := [((0, 1), 1), ((0, 2), 1), ((1, 3), 1), ((2, 3), 1)],
    start_node := 0, end_node := 3, node_size := 10, edge_length := 20 }

/-- Six nodes, unit capacities, start `0`, end `3`. The two disjoint paths `0 -> 1 -> 5 -> 3`
and `0 -> 4 -> 2 -> 3` carry a flow of value `2`; the breadth-first search first finds
`0 -> 1 -> 2 -> 3`, which crosses both. -/
def crossingFlowConfig : FlowGraphConfig :=
  { nodes := [(0, 1), (1, 1), (2, 1), (3, 1), (1, 2), (2, 0)],
    edges := [((0, 1), 1), ((0, 4), 1), ((1, 2), 1), ((1, 5), 1), ((4, 2), 1), ((2, 3), 1),
              ((5, 3), 1)],
    start_node := 0, end_node := 3, node_size := 10, edge_length := 20 }

/-- A single edge `0 -> 1` of capacity `0`. -/
def zeroCapacityFlowConfig : FlowGraphConfig :=
  { nodes := [(0, 0), (1, 0)], edges := [((0, 1), 0)], start_node := 0, end_node := 1,
    node_size := 10, edge_length := 20 }

/-- Two parallel edges `0 -> 1`, the first of capacity `0`, the second of capacity `1`. -/
def parallelFlowConfig : FlowGraphConfig :=
  { nodes := [(0, 0), (1, 0)], edges := [((0, 1), 0), ((0, 1), 1)], start_node := 0,
    end_node := 1, node_size := 10, edge_length := 20 }

/-- The diamond with every capacity `2 ^ 64 - 1`. -/
def hugeDiamondFlowConfig : FlowGraphConfig :=
  { nodes := [(0, 1), (1, 0), (1, 2), (2, 1)],
    edges := [((0, 1), SIZE_MAX), ((0, 2), SIZE_MAX), ((1, 3), SIZE_MAX), ((2, 3), SIZE_MAX)],
    start_node := 0, end_node := 3, node_size := 10, edge_length := 20 }

/-! ## Further concrete configurations -/

/-- The chain `0 -> 1 -> 2 -> 3` with capacities `5`, `3`, `5`. -/
def chainFlowConfig : FlowGraphConfig :=
  { nodes := [(0, 0), (1, 0), (2, 0), (3, 0)],
    edges := [((0, 1), 5), ((1, 2), 3), ((2, 3), 5)],
    start_node := 0, end_node := 3, node_size := 10, edge_length := 20 }

/-- Three nodes with edges `0 -> 1` and `1 -> 2`; node `0` is both the start and the end. -/
def startIsEndPathConfig : PathGraphConfig :=
  { nodes := [(0, 0), (1, 0), (2, 0)], edges := [(0, 1), (1, 2)], start_node := 0, end_node := 0,
    node_size := 10, edge_length := 20 }

/-! ## Reachable states of `BFSGraphAlgorithm` -/

/-- The states `BFSGraphAlgorithm` passes through on the graph `g`: the constructed state, the
traversal states, and the final state after the end node was dequeued. No state changes what
`PathGraph.skel` and the two counts record. -/
def BFSReach (g : PathGraph) (s : BFSGraphAlgorithm) : Prop :=
  s.m_graph.skel = g.skel ∧ s.m_graph.node_count = g.node_count ∧
    s.m_graph.edge_count = g.edge_count ∧
    (s = BFSGraphAlgorithm.new g ∨ (∃ (k : Nat) (A B : List Nat), BFSInv s k A B) ∨
      ∃ (P V : List Nat) (d : Nat), BFSFound s P V d)

/-! ## Pending discoveries of `BFSGraphAlgorithm` -/

/-- Bookkeeping of the discoveries that are still pending in graph `g` with queue `q`: a
`Peeked` edge is the `entered_by` edge of its target node, which is `Found`; a `Found` node
is in the queue and is not the node `start`. -/
structure PeekQ (start : Nat) (g : PathGraph) (q : List Nat) : Prop where
  peeked : ∀ (ei : Nat) (e : PathEdge), g.edges[ei]? = some e →
    e.state = PathEdgeState.Peeked →
    ∃ node : PathNode, g.nodes[e.to_node_index]? = some node ∧
      node.state = PathNodeState.Found ∧ node.entered_by = ei
  found : ∀ (v : Nat) (node : PathNode), g.nodes[v]? = some node →
    node.state = PathNodeState.Found → v ∈ q ∧ v ≠ start

/-- Invariant of `BFSGraphAlgorithm` as long as the end node has not been dequeued: the
pending discoveries are exactly those of the queue, and the start node is `NotFound` only
until it is dequeued. -/
structure PeekInv (s : BFSGraphAlgorithm) : Prop where
  wf : s.m_graph.WF
  pending : PeekQ s.m_graph.start_node s.m_graph s.m_unvisited_node_queue
  first_queue : s.m_first_step = true → s.m_unvisited_node_queue = []
  start_state : s.m_first_step = false →
    ∀ node : PathNode, s.m_graph.nodes[s.m_graph.start_node]? = some node →
      node.state = PathNodeState.NotFound →
      s.m_unvisited_node_queue = [s.m_graph.start_node]

/-! ## GraphAlgorithmVisualizer -/

/-- Exceptions a loader can leave through: `std::runtime_error` thrown by the loader itself,
with its message `what`, and `std::invalid_argument` and `std::out_of_range` thrown by
`std::stoul`. -/
inductive LoadError where
  | runtimeError (what : List Char)
  | invalidArgument
  | outOfRange
  deriving DecidableEq, Repr

/-- Membership in `" \t\n\r"`, the characters `trim` strips. -/
def isTrimChar (c : Char) : Bool :=
  c.toNat = 32 || c.toNat = 9 || c.toNat = 10 || c.toNat = 13

/-- The static function `trim`. -/
def trim (str : List Char) : List Char :=
  ((str.dropWhile isTrimChar).reverse.dropWhile isTrimChar).reverse

/-- `std::isspace` in the classic locale: the characters formatted extraction skips. -/
def isSpace (c : Char) : Bool :=
  c.toNat = 32 || (9 ≤ c.toNat && c.toNat ≤ 13)

/-- Longest prefix of decimal digits of the text: its value (continuing from `acc`), its
length, and the text after it. -/
def readDigits : List Char → Nat → Nat × Nat × List Char
  | [], acc => (acc, 0, [])
  | c :: rest, acc =>
    -- 48 to 57 are the codes of the digits
    if 48 ≤ c.toNat && c.toNat ≤ 57 then
      let r := readDigits rest (10 * acc + (c.toNat - 48))
      (r.1, r.2.1 + 1, r.2.2)
    else (acc, 0, c :: rest)

/-- A decimal number as `strtoull` and formatted extraction read it: white space, an optional
sign, digits. Yields whether the sign is a minus, the magnitude and the text after the digits;
`none` when there is no digit. -/
def readNumber (l : List Char) : Option (Bool × Nat × List Char) :=
  let l1 := l.dropWhile isSpace
  let signed : Bool × List Char :=
    match l1 with
    | c :: rest =>
      -- 45 and 43 are the codes of the minus and the plus sign
      if c.toNat = 45 then (true, rest) else if c.toNat = 43 then (false, rest) else (false, l1)
    | [] => (false, [])
  let r := readDigits signed.2 0
  if r.2.1 = 0 then none else some (signed.1, r.1, r.2.2)

/-- The extraction `iss >> x` for a `std::size_t x`: the value and the rest of the stream, or
`none` when the stream fails (no number, or a magnitude that does not fit). A minus sign
negates modulo `2 ^ 64`. -/
def extractSize (l : List Char) : Option (Nat × List Char) :=
  match readNumber l with
  | none => none
  | some (negative, v, rest) =>
    if v < SIZE_MOD then some (if negative then sizeSub 0 v else v, rest) else none

/-- The extraction `iss >> x` for an `int x`. -/
def extractInt (l : List Char) : Option (Int × List Char) :=
  match readNumber l with
  | none => none
  | some (negative, v, rest) =>
    if negative then (if v ≤ 2 ^ 31 then some (- (v : Int), rest) else none)
    else (if v < 2 ^ 31 then some ((v : Int), rest) else none)

/-- The extraction `iss >> r >> g >> b` of three `int`s: whether the stream is still good. -/
def extractColor (line : List Char) : Bool :=
  match extractInt line with
  | none => false
  | some (_, l1) =>
    match extractInt l1 with
    | none => false
    | some (_, l2) => (extractInt l2).isSome

/-- The extraction `iss >> word` for a `std::string`: the next run of non-space characters. -/
def extractWord (l : List Char) : List Char :=
  (l.dropWhile isSpace).takeWhile (fun c => !isSpace c)

/-- The library function `std::stoul` (base 10): the value, or the exception it throws. -/
def stoul (str : List Char) : Except LoadError Nat :=
  match readNumber str with
  | none => .error LoadError.invalidArgument
  | some (negative, v, _) =>
    if v < SIZE_MOD then .ok (if negative then sizeSub 0 v else v)
    else .error LoadError.outOfRange

/-- Row `0` of the section `[GRID DATA]`, `WIDTHxHEIGHT`: both numbers, which are grid
dimensions and are not kept in the configuration. -/
def parseGridSize (line : List Char) : Except LoadError (Nat × Nat) :=
  let width_height := extractWord line
  -- 120 is the code of the letter x
  if width_height.any (fun c => c.toNat = 120) then
    match stoul (width_height.takeWhile (fun c => c.toNat ≠ 120)) with
    | .error e => .error e
    | .ok w =>
      match stoul ((width_height.dropWhile (fun c => c.toNat ≠ 120)).drop 1) with
      | .error e => .error e
      | .ok h => .ok (w, h)
  else
    .error (LoadError.runtimeError ("Invalid format for grid data: ".toList ++ width_height))

/-- A palette section: row `i` holds the colour named `colors[i]`; any further row is an
error. `format` and `unexpected` are the two messages of the section. -/
def parsePalette (format unexpected : List Char) (colors : List (List Char))
    (line : List Char) (section_row : Nat) : Except LoadError Unit :=
  match colors[section_row]? with
  | some color =>
    if extractColor line then .ok () else .error (LoadError.runtimeError (format ++ color))
  | none => .error (LoadError.runtimeError unexpected)

/-- The function `parseNodePalette(const std::string&, PathNodeColorPalette&, std::size_t)`. -/
def PathGraphConfig.parseNodePalette (line : List Char) (section_row : Nat) :
    Except LoadError Unit :=
  parsePalette "Invalid format for node palette: ".toList
    "Invalid node palette data: unexpected line in the section".toList
    ["unfound node color".toList, "found node color".toList, "visited node color".toList,
      "shortest path color".toList, "start node color".toList, "end node color".toList]
    line section_row

/-- The function `parseEdgePalette(const std::string&, PathEdgeColorPalette&, std::size_t)`. -/
def PathGraphConfig.parseEdgePalette (line : List Char) (section_row : Nat) :
    Except LoadError Unit :=
  parsePalette "Invalid format for edge palette: ".toList
    "Invalid edge palette data: unexpected line in the section".toList
    ["default edge color".toList, "on peeked edge color".toList, "used edge color".toList,
      "on shortest path color".toList, "arrow color".toList]
    line section_row

/-- The function `parseNodePalette(const std::string&, FlowNodeColorPalette&, std::size_t)`. -/
def FlowGraphConfig.parseNodePalette (line : List Char) (section_row : Nat) :
    Except LoadError Unit :=
  parsePalette "Invalid format for node palette: ".toList
    "Invalid node palette data: unexpected line in the section".toList
    ["default node color".toList, "on unsaturated path color".toList,
      "start node color".toList, "end node color".toList]
    line section_row

/-- The function `parseEdgePalette(const std::string&, FlowEdgeColorPalette&, std::size_t)`. -/
def FlowGraphConfig.parseEdgePalette (line : List Char) (section_row : Nat) :
    Except LoadError Unit :=
  parsePalette "Invalid format for edge palette: ".toList
    "Invalid edge palette data: unexpected line in the section".toList
    ["default edge color".toList, "on unsaturated path color".toList,
      "saturated color".toList, "border color offset".toList, "arrow color".toList]
    line section_row

/-- Rows `0` to `3` of the section `[VISUALIZATION]`: a `std::size_t` that must be positive.
`format` is the message for a line that does not hold a number (the line is appended to it),
`positive` the message for the value `0`. -/
def parsePositive (format positive : List Char) (line : List Char) : Except LoadError Nat :=
  match extractSize line with
  | none => .error (LoadError.runtimeError (format ++ line))
  | some (v, _) => if 0 < v then .ok v else .error (LoadError.runtimeError positive)

/-- Row `4` of the section `[VISUALIZATION]`: the background colour. -/
def parseBackground (line : List Char) : Except LoadError Unit :=
  if extractColor line then .ok ()
  else .error (LoadError.runtimeError ("Invalid format for visualization data: ".toList ++ line))

/-- Variables of the loop of `loadPathGraphConfig` / `loadFlowGraphConfig`; `section_name` is
the variable `section`. -/
structure LoaderState (C : Type) where
  config : C
  section_name : List Char
  section_row : Nat

/-- The function `parseGridData(const std::string&, PathGraphConfig&, std::size_t)`. -/
def PathGraphConfig.parseGridData (line : List Char) (config : PathGraphConfig)
    (section_row : Nat) : Except LoadError PathGraphConfig :=
  match section_row with
  | 0 =>
    match parseGridSize line with
    | .error e => .error e
    | .ok _ => .ok config
  | 1 =>
    match extractSize line with
    | none =>
      .error (LoadError.runtimeError
        "Invalid format for grid data: missing start node index".toList)
    | some (v, _) => .ok { config with start_node := v }
  | 2 =>
    match extractSize line with
    | none =>
      .error (LoadError.runtimeError
        "Invalid format for grid data: missing end node index".toList)
    | some (v, _) => .ok { config with end_node := v }
  | _ =>
    .error (LoadError.runtimeError "Invalid grid data: unexpected line in the section".toList)

/-- The function `parseNodes(const std::string&, PathGraphConfig&)`. -/
def PathGraphConfig.parseNodes (line : List Char) (config : PathGraphConfig) :
    Except LoadError PathGraphConfig :=
  match extractSize line with
  | none => .error (LoadError.runtimeError ("Invalid format for node data: ".toList ++ line))
  | some (node_x, l1) =>
    match extractSize l1 with
    | none => .error (LoadError.runtimeError ("Invalid format for node data: ".toList ++ line))
    | some (node_y, _) => .ok { config with nodes := config.nodes ++ [(node_x, node_y)] }

/-- The function `parseEdges(const std::string&, PathGraphConfig&)`. -/
def PathGraphConfig.parseEdges (line : List Char) (config : PathGraphConfig) :
    Except LoadError PathGraphConfig :=
  match extractSize line with
  | none => .error (LoadError.runtimeError ("Invalid format for edge data: ".toList ++ line))
  | some (from_node, l1) =>
    match extractSize l1 with
    | none => .error (LoadError.runtimeError ("Invalid format for edge data: ".toList ++ line))
    | some (to_node, _) =>
      if from_node ≥ config.nodes.length || to_node ≥ config.nodes.length then
        .error (LoadError.runtimeError ("Invalid node index in edge data: ".toList ++ line))
      else .ok { config with edges := config.edges ++ [(from_node, to_node)] }

/-- The function `parseVisualization(const std::string&, PathGraphConfig&, std::size_t)`. -/
def PathGraphConfig.parseVisualization (line : List Char) (config : PathGraphConfig)
    (section_row : Nat) : Except LoadError PathGraphConfig :=
  match section_row with
  | 0 =>
    match parsePositive "Invalid format for visualization data node size: ".toList
        "Invalid node size. Value must be bigger than 0".toList line with
    | .error e => .error e
    | .ok v => .ok { config with node_size := v }
  | 1 =>
    match parsePositive "Invalid format for visualization data edge length: ".toList
        "Invalid edge length. Value must be bigger than 0".toList line with
    | .error e => .error e
    | .ok v => .ok { config with edge_length := v }
  | 2 =>
    match parsePositive "Invalid format for visualization data edge width: ".toList
        "Invalid edge width. Value must be bigger than 0".toList line with
    | .error e => .error e
    | .ok _ => .ok config
  | 3 =>
    match parsePositive "Invalid format for visualization data frame delay: ".toList
        "Invalid frame delay. Value must be bigger than 0".toList line with
    | .error e => .error e
    | .ok _ => .ok config
  | 4 =>
    match parseBackground line with
    | .error e => .error e
    | .ok _ => .ok config
  | _ =>
    .error (LoadError.runtimeError
      "Invalid visualization data: unexpected line in the section".toList)

/-- One iteration of the `while (std::getline(input, line))` loop of `loadPathGraphConfig`. -/
def PathGraphConfig.loadLine (st : LoaderState PathGraphConfig) (raw : List Char) :
    Except LoadError (LoaderState PathGraphConfig) :=
  let line := trim raw
  match line with
  | [] => .ok st
  | c :: _ =>
    -- 35, 91 and 93 are the codes of the hash sign and of the two square brackets
    if c.toNat = 35 then .ok st
    else if c.toNat = 91 && line.getLast? = some (Char.ofNat 93) then
      .ok { st with section_name := line, section_row := 0 }
    else if st.section_name = "[GRID DATA]".toList then
      match PathGraphConfig.parseGridData line st.config st.section_row with
      | .error e => .error e
      | .ok config => .ok { st with config := config, section_row := sizeAdd st.section_row 1 }
    else if st.section_name = "[NODES]".toList then
      match PathGraphConfig.parseNodes line st.config with
      | .error e => .error e
      | .ok config => .ok { st with config := config }
    else if st.section_name = "[EDGES]".toList then
      match PathGraphConfig.parseEdges line st.config with
      | .error e => .error e
      | .ok config => .ok { st with config := config }
    else if st.section_name = "[VISUALIZATION]".toList then
      match PathGraphConfig.parseVisualization line st.config st.section_row with
      | .error e => .error e
      | .ok config => .ok { st with config := config, section_row := sizeAdd st.section_row 1 }
    else if st.section_name = "[NODE PALETTE]".toList then
      match PathGraphConfig.parseNodePalette line st.section_row with
      | .error e => .error e
      | .ok _ => .ok { st with section_row := sizeAdd st.section_row 1 }
    else if st.section_name = "[EDGE PALETTE]".toList then
      match PathGraphConfig.parseEdgePalette line st.section_row with
      | .error e => .error e
      | .ok _ => .ok { st with section_row := sizeAdd st.section_row 1 }
    else .error (LoadError.runtimeError ("Unknown section: ".toList ++ st.section_name))

/-- The lines `std::getline` delivers from the text `input`; `cur` is the current line so
far, reversed, and `started` tells whether any character of it has been read. -/
def getlines : List Char → List Char → Bool → List (List Char)
  | [], cur, started => if started then [cur.reverse] else []
  | c :: rest, cur, _ =>
    if c.toNat = 10 then cur.reverse :: getlines rest [] false
    else getlines rest (c :: cur) true

def PathGraphConfig.loadLines :
    List (List Char) → LoaderState PathGraphConfig → Except LoadError (LoaderState PathGraphConfig)
  | [], st => .ok st
  | raw :: rest, st =>
    match PathGraphConfig.loadLine st raw with
    | .error e => .error e
    | .ok st1 => PathGraphConfig.loadLines rest st1

/-- The function `loadPathGraphConfig`. The scalar fields of the local `PathGraphConfig config;`
start with the indeterminate values `uninit`; its vectors start empty. -/
def loadPathGraphConfig (uninit : PathGraphConfig) (input : List Char) :
    Except LoadError PathGraphConfig :=
  match PathGraphConfig.loadLines (getlines input [] false)
      { config := { uninit with nodes := [], edges := [] }, section_name := [],
        section_row := 0 } with
  | .error e => .error e
  | .ok st => .ok st.config

/-- The function `parseGridData(const std::string&, FlowGraphConfig&, std::size_t)`. -/
def FlowGraphConfig.parseGridData (line : List Char) (config : FlowGraphConfig)
    (section_row : Nat) : Except LoadError FlowGraphConfig :=
  match section_row with
  | 0 =>
    match parseGridSize line with
    | .error e => .error e
    | .ok _ => .ok config
  | 1 =>
    match extractSize line with
    | none =>
      .error (LoadError.runtimeError
        "Invalid format for grid data: missing start node index".toList)
    | some (v, _) => .ok { config with start_node := v }
  | 2 =>
    match extractSize line with
    | none =>
      .error (LoadError.runtimeError
        "Invalid format for grid data: missing end node index".toList)
    | some (v, _) => .ok { config with end_node := v }
  | _ =>
    .error (LoadError.runtimeError "Invalid grid data: unexpected line in the section".toList)

/-- The function `parseNodes(const std::string&, FlowGraphConfig&)`. -/
def FlowGraphConfig.parseNodes (line : List Char) (config : FlowGraphConfig) :
    Except LoadError FlowGraphConfig :=
  match extractSize line with
  | none => .error (LoadError.runtimeError ("Invalid format for node data: ".toList ++ line))
  | some (node_x, l1) =>
    match extractSize l1 with
    | none => .error (LoadError.runtimeError ("Invalid format for node data: ".toList ++ line))
    | some (node_y, _) => .ok { config with nodes := config.nodes ++ [(node_x, node_y)] }

/-- The function `parseEdges(const std::string&, FlowGraphConfig&, std::size_t)`: the new
`max_capacity` and the configuration. -/
def FlowGraphConfig.parseEdges (line : List Char) (config : FlowGraphConfig)
    (max_capacity : Nat) : Except LoadError (Nat × FlowGraphConfig) :=
  match extractSize line with
  | none => .error (LoadError.runtimeError ("Invalid format for edge data: ".toList ++ line))
  | some (from_node, l1) =>
    match extractSize l1 with
    | none => .error (LoadError.runtimeError ("Invalid format for edge data: ".toList ++ line))
    | some (to_node, l2) =>
      match extractSize l2 with
      | none =>
        .error (LoadError.runtimeError ("Invalid format for edge data: ".toList ++ line))
      | some (capacity, _) =>
        if from_node ≥ config.nodes.length || to_node ≥ config.nodes.length then
          .error (LoadError.runtimeError ("Invalid node index in edge data: ".toList ++ line))
        else
          .ok (max max_capacity capacity,
            { config with edges := config.edges ++ [((from_node, to_node), capacity)] })

/-- The function `parseVisualization(const std::string&, FlowGraphConfig&, std::size_t)`. -/
def FlowGraphConfig.parseVisualization (line : List Char) (config : FlowGraphConfig)
    (section_row : Nat) : Except LoadError FlowGraphConfig :=
  match section_row with
  | 0 =>
    match parsePositive "Invalid format for visualization data node size: ".toList
        "Invalid node size. Value must be bigger than 0".toList line with
    | .error e => .error e
    | .ok v => .ok { config with node_size := v }
  | 1 =>
    match parsePositive "Invalid format for visualization data edge length: ".toList
        "Invalid edge length. Value must be bigger than 0".toList line with
    | .error e => .error e
    | .ok v => .ok { config with edge_length := v }
  | 2 =>
    match parsePositive "Invalid format for visualization data edge width: ".toList
        "Invalid edge width. Value must be bigger than 0".toList line with
    | .error e => .error e
    | .ok _ => .ok config
  | 3 =>
    match parsePositive "Invalid format for visualization data frame delay: ".toList
        "Invalid frame delay. Value must be bigger than 0".toList line with
    | .error e => .error e
    | .ok _ => .ok config
  | 4 =>
    match parseBackground line with
    | .error e => .error e
    | .ok _ => .ok config
  | _ =>
    .error (LoadError.runtimeError
      "Invalid visualization data: unexpected line in the section".toList)

/-- One iteration of the `while (std::getline(input, line))` loop of `loadFlowGraphConfig`,
on the loop variables and the local `max_capacity`. -/
def FlowGraphConfig.loadLine (st : LoaderState FlowGraphConfig) (max_capacity : Nat)
    (raw : List Char) : Except LoadError (LoaderState FlowGraphConfig × Nat) :=
  let line := trim raw
  match line with
  | [] => .ok (st, max_capacity)
  | c :: _ =>
    if c.toNat = 35 then .ok (st, max_capacity)
    else if c.toNat = 91 && line.getLast? = some (Char.ofNat 93) then
      .ok ({ st with section_name := line, section_row := 0 }, max_capacity)
    else if st.section_name = "[GRID DATA]".toList then
      match FlowGraphConfig.parseGridData line st.config st.section_row with
      | .error e => .error e
      | .ok config =>
        .ok ({ st with config := config, section_row := sizeAdd st.section_row 1 }, max_capacity)
    else if st.section_name = "[NODES]".toList then
      match FlowGraphConfig.parseNodes line st.config with
      | .error e => .error e
      | .ok config => .ok ({ st with config := config }, max_capacity)
    else if st.section_name = "[EDGES]".toList then
      match FlowGraphConfig.parseEdges line st.config max_capacity with
      | .error e => .error e
      | .ok (max_capacity1, config) => .ok ({ st with config := config }, max_capacity1)
    else if st.section_name = "[VISUALIZATION]".toList then
      match FlowGraphConfig.parseVisualization line st.config st.section_row with
      | .error e => .error e
      | .ok config =>
        .ok ({ st with config := config, section_row := sizeAdd st.section_row 1 }, max_capacity)
    else if st.section_name = "[NODE PALETTE]".toList then
      match FlowGraphConfig.parseNodePalette line st.section_row with
      | .error e => .error e
      | .ok _ => .ok ({ st with section_row := sizeAdd st.section_row 1 }, max_capacity)
    else if st.section_name = "[EDGE PALETTE]".toList then
      match FlowGraphConfig.parseEdgePalette line st.section_row with
      | .error e => .error e
      | .ok _ => .ok ({ st with section_row := sizeAdd st.section_row 1 }, max_capacity)
    else .error (LoadError.runtimeError ("Unknown section: ".toList ++ st.section_name))

def FlowGraphConfig.loadLines :
    List (List Char) → LoaderState FlowGraphConfig → Nat →
      Except LoadError (LoaderState FlowGraphConfig × Nat)
  | [], st, max_capacity => .ok (st, max_capacity)
  | raw :: rest, st, max_capacity =>
    match FlowGraphConfig.loadLine st max_capacity raw with
    | .error e => .error e
    | .ok (st1, max_capacity1) => FlowGraphConfig.loadLines rest st1 max_capacity1

/-- The function `loadFlowGraphConfig`; the final `config.max_capacity = max_capacity` writes a
field that is not kept. -/
def loadFlowGraphConfig (uninit : FlowGraphConfig) (input : List Char) :
    Except LoadError FlowGraphConfig :=
  match FlowGraphConfig.loadLines (getlines input [] false)
      { config := { uninit with nodes := [], edges := [] }, section_name := [],
        section_row := 0 } 0 with
  | .error e => .error e
  | .ok (st, _) => .ok st.config

/-- A path graph file with two nodes whose start index is `5` and whose end index is `7`. -/
def strayStartPathFile : List Char :=
  ("[GRID DATA]\n2x1\n5\n7\n[NODES]\n0 0\n1 0\n[EDGES]\n0 1\n" ++
    "[VISUALIZATION]\n10\n20\n4\n10\n255 255 255\n").toList

/-- A flow graph file with two nodes whose start index is `5` and whose end index is `7`. -/
def strayStartFlowFile : List Char :=
  ("[GRID DATA]\n2x1\n5\n7\n[NODES]\n0 0\n1 0\n[EDGES]\n0 1 3\n" ++
    "[VISUALIZATION]\n10\n20\n4\n10\n255 255 255\n").toList

/-- A path graph file whose second edge line names node `2` while only two nodes exist. -/
def strayEdgePathFile : List Char :=
  "[NODES]\n0 0\n1 0\n[EDGES]\n0 1\n1 2\n".toList

/-- A flow graph file whose second edge line names node `2` while only two nodes exist. -/
def strayEdgeFlowFile : List Char :=
  "[NODES]\n0 0\n1 0\n[EDGES]\n0 1 3\n1 2 4\n".toList

/-! ## Residual reachability in a flow graph -/

/-- Endpoints `(from, to)` of the edges of a flow graph that are not full
(`current_flow < capacity`). -/
def FlowGraph.unsatEnds (g : FlowGraph) : List (Nat × Nat) :=
  (g.edges.filter (fun e => decide (e.current_flow < e.capacity))).map
    (fun e => (e.from_node_index, e.to_node_index))

/-- Invariant of the search of `FordFulkersonGraphAlgorithm::BFS` while it has not reached the
end node: every edge that is not full and leaves a visited node that is no longer queued
leads to a visited node, except the edges `pend` of the node `cur` that the inner loop has
still to look at. -/
structure ScanClosed (g : FlowGraph) (start_node end_node cur : Nat) (pend : List Nat)
    (l : BFSLocals) : Prop where
  start_seen : l.visited[start_node]? = some true
  end_fresh : l.visited[end_node]? ≠ some true
  closed : ∀ (ei : Nat) (e : FlowEdge), g.edges[ei]? = some e →
    e.current_flow < e.capacity → l.visited[e.from_node_index]? = some true →
    e.from_node_index ∉ l.queue → (e.from_node_index = cur → ei ∉ pend) →
    l.visited[e.to_node_index]? = some true

/-! ## Back-pointer chains of `BFSGraphAlgorithm` -/

/-- `BackChain g v es vs`: following the `entered_by` back-pointers from node `v` leads to the
start node. `es` lists the edges traversed and `vs` the nodes they were followed from, both
beginning at `v`; the start node, where the chain stops, is not listed in `vs`. -/
inductive BackChain (g : PathGraph) : Nat → List Nat → List Nat → Prop where
  | start : BackChain g g.start_node [] []
  | link {v : Nat} {node : PathNode} {e : PathEdge} {es vs : List Nat} :
      v ≠ g.start_node → g.nodes[v]? = some node → g.edges[node.entered_by]? = some e →
      e.to_node_index = v → BackChain g e.from_node_index es vs →
      BackChain g v (node.entered_by :: es) (v :: vs)

/-! ## The value accumulated by `FordFulkersonGraphAlgorithm` -/

/-- What one call of `nextStep` adds to `m_max_flow`, as a number without wrap-around: the value
returned by `updateFlow` in the `UpdatePath` phase, nothing in the other two phases. -/
def FordFulkersonGraphAlgorithm.addedBy (fuel : Nat) (s : FordFulkersonGraphAlgorithm) :
    Except Fault Nat :=
  match s.m_next_step_state with
  | NextStepState.UpdatePath =>
    match FordFulkersonGraphAlgorithm.updateFlow fuel s with
    | .error f => .error f
    | .ok (flow, _) => .ok flow
  | _ => .ok 0

/-- Exact (unbounded) sum of the amounts that the first `k` calls of `nextStep`, made from
state `s`, add to `m_max_flow`. -/
def FordFulkersonGraphAlgorithm.addedSoFar (fuel : Nat) :
    Nat → FordFulkersonGraphAlgorithm → Except Fault Nat
  | 0, _ => .ok 0
  | k + 1, s =>
    match FordFulkersonGraphAlgorithm.addedBy fuel s with
    | .error f => .error f
    | .ok a =>
      match FordFulkersonGraphAlgorithm.nextStep fuel s with
      | .error f => .error f
      | .ok (_, s1) =>
        match FordFulkersonGraphAlgorithm.addedSoFar fuel k s1 with
        | .error f => .error f
        | .ok r => .ok (a + r)

/-- Sum of the capacities of the edges of the configuration that leave the start node. -/
def FlowGraphConfig.startCapacity (c : FlowGraphConfig) : Nat :=
  ((c.edges.filter (fun e => decide (e.1.1 = c.start_node))).map (fun e => e.2)).sum

/-- Capacity of the cut given by the node set `S`: the sum of the capacities of the edges that
lead from a node in `S` to a node outside `S`. -/
def FlowGraphConfig.cutCapacity (c : FlowGraphConfig) (S : Nat → Bool) : Nat :=
  ((c.edges.filter (fun e => S e.1.1 && !S e.1.2)).map (fun e => e.2)).sum

/-- Number of edges of a flow graph that are not full. -/
def FlowGraph.unsatCount (g : FlowGraph) : Nat :=
  (g.edges.filter (fun e => decide (e.current_flow < e.capacity))).length

/-- Number of edges of the configuration with positive capacity. -/
def FlowGraphConfig.positiveCount (c : FlowGraphConfig) : Nat :=
  (c.edges.filter (fun e => decide (0 < e.2))).length

/-- The flows of the edges of a flow graph, in edge order. -/
def FlowGraph.flows (g : FlowGraph) : List Nat := g.edges.map (fun e => e.current_flow)

/-- Invariant of `FordFulkersonGraphAlgorithm` at the two distinguished nodes: nothing flows
into the start node or out of the end node, what leaves the start node arrives at the end
node, and `m_max_flow` is that amount reduced modulo `2 ^ 64`. -/
structure FlowEnds (s : FordFulkersonGraphAlgorithm) : Prop where
  value : s.m_max_flow = s.m_graph.outflow s.m_start_node % SIZE_MOD
  into_end : s.m_graph.inflow s.m_end_node = s.m_graph.outflow s.m_start_node
  start_in : s.m_graph.inflow s.m_start_node = 0
  end_out : s.m_graph.outflow s.m_end_node = 0

/-- A flow configuration whose start node is also its end node. -/
def startIsEndFlowConfig : FlowGraphConfig :=
  { nodes := [(0, 0), (1, 0)], edges := [((0, 1), 1)], start_node := 0, end_node := 0,
    node_size := 10, edge_length := 20 }

/-! ## Order of the display states of a path graph -/

/-- Position of a node state in the order `NotFound < Found < Visited < OnShortestPath`. -/
def PathNodeState.rank : PathNodeState → Nat
  | PathNodeState.NotFound => 0
  | PathNodeState.Found => 1
  | PathNodeState.Visited => 2
  | PathNodeState.OnShortestPath => 3

/-- Position of an edge state in the order `Default < Peeked < Used < OnShortestPath`. -/
def PathEdgeState.rank : PathEdgeState → Nat
  | PathEdgeState.Default => 0
  | PathEdgeState.Peeked => 1
  | PathEdgeState.Used => 2
  | PathEdgeState.OnShortestPath => 3

/-- Every edge that is no longer `Default` leads to a node that is no longer `NotFound`. -/
def PathGraph.Touched (g : PathGraph) : Prop :=
  ∀ (ei : Nat) (e : PathEdge), g.edges[ei]? = some e → e.state ≠ PathEdgeState.Default →
    ∃ node : PathNode, g.nodes[e.to_node_index]? = some node ∧
      node.state ≠ PathNodeState.NotFound

/-! ## What two runs on graphs with the same topology have in common -/

/-- A path node without what the algorithm never reads: the position, and the field
`entered_by` as long as it holds the uninitialised value (the node is `NotFound`, or it is the
start node, which is never entered through an edge). -/
def PathNode.core (n : PathNode) : PathNode :=
  { n with pos_x := 0, pos_y := 0,
           entered_by := if n.state = PathNodeState.NotFound ∨ n.is_start_node = true then 0
                         else n.entered_by }

def PathGraph.core (g : PathGraph) : PathGraph :=
  { g with nodes := g.nodes.map PathNode.core }

def BFSGraphAlgorithm.core (s : BFSGraphAlgorithm) : BFSGraphAlgorithm :=
  { s with m_graph := s.m_graph.core }

/-- A flow node without its position. -/
def FlowNode.core (n : FlowNode) : FlowNode := { n with pos_x := 0, pos_y := 0 }

def FlowGraph.core (g : FlowGraph) : FlowGraph :=
  { g with nodes := g.nodes.map FlowNode.core }

def FordFulkersonGraphAlgorithm.core (s : FordFulkersonGraphAlgorithm) :
    FordFulkersonGraphAlgorithm :=
  { s with m_graph := s.m_graph.core }

/-- Two path configurations that agree on the number of nodes, the edge list, the start node
and the end node; node coordinates and sizes may differ. -/
def PathGraphConfig.SameTopology (c1 c2 : PathGraphConfig) : Prop :=
  c1.nodes.length = c2.nodes.length ∧ c1.edges = c2.edges ∧ c1.start_node = c2.start_node ∧
    c1.end_node = c2.end_node

/-- Two flow configurations that agree on the number of nodes, the edge list with its
capacities, the start node and the end node; node coordinates and sizes may differ. -/
def FlowGraphConfig.SameTopology (c1 c2 : FlowGraphConfig) : Prop :=
  c1.nodes.length = c2.nodes.length ∧ c1.edges = c2.edges ∧ c1.start_node = c2.start_node ∧
    c1.end_node = c2.end_node

/-- The diamond path graph drawn elsewhere: other coordinates, node size and edge length. -/
def movedDiamondPathConfig : PathGraphConfig :=
  { nodes := [(5, 5), (7, 1), (2, 9), (4, 4)], edges := [(0, 1), (0, 2), (1, 3), (2, 3)],
    start_node := 0, end_node := 3, node_size := 3, edge_length := 8 }

/-- The diamond flow graph drawn elsewhere: other coordinates, node size and edge length. -/
def movedDiamondFlowConfig : FlowGraphConfig :=
  { nodes := [(5, 5), (7, 1), (2, 9), (4, 4)],
    edges := [((0, 1), 1), ((0, 2), 1), ((1, 3), 1), ((2, 3), 1)],
    start_node := 0, end_node := 3, node_size := 3, edge_length := 8 }

/-- The states of graph `g1` are, node by node and edge by edge, at least as far in the order
of `PathNodeState.rank` and `PathEdgeState.rank` as those of graph `g`. -/
def PathGraph.StatesLe (g g1 : PathGraph) : Prop :=
  (∀ (v : Nat) (n : PathNode), g.nodes[v]? = some n →
    ∃ n1 : PathNode, g1.nodes[v]? = some n1 ∧ n.state.rank ≤ n1.state.rank) ∧
  (∀ (ei : Nat) (e : PathEdge), g.edges[ei]? = some e →
    ∃ e1 : PathEdge, g1.edges[ei]? = some e1 ∧ e.state.rank ≤ e1.state.rank)

/-! ## Queue traffic of `BFSGraphAlgorithm` -/

/-- The node that a call of `nextStep` from state `s` pops from the queue: none in the first
call, none once the end node was found, none when the queue is empty. -/
def BFSGraphAlgorithm.dequeued (s : BFSGraphAlgorithm) : List Nat :=
  if s.m_first_step then []
  else if s.m_found_end then []
  else s.m_unvisited_node_queue.take 1

/-- The nodes that a call of `nextStep` leading from `s` to `s1` pushed: the queue is popped at
the front and pushed at the back only, so these are the entries of the new queue behind what
was left of the old one. -/
def BFSGraphAlgorithm.enqueued (s s1 : BFSGraphAlgorithm) : List Nat :=
  s1.m_unvisited_node_queue.drop (s.m_unvisited_node_queue.length - s.dequeued.length)

/-- The nodes popped and the nodes pushed by `k` consecutive calls of `nextStep` from `s`, in
the order of the calls. -/
def BFSGraphAlgorithm.queueTrace (fuel : Nat) :
    Nat → BFSGraphAlgorithm → Except Fault (List Nat × List Nat)
  | 0, _ => .ok ([], [])
  | k + 1, s =>
    match BFSGraphAlgorithm.nextStep fuel s with
    | .error f => .error f
    | .ok (_, s1) =>
      match BFSGraphAlgorithm.queueTrace fuel k s1 with
      | .error f => .error f
      | .ok (D, E) => .ok (s.dequeued ++ D, s.enqueued s1 ++ E)

/-- Bookkeeping for the queue traffic: `Dq` lists the nodes popped so far. They are pairwise
different and different from the queued nodes, and each of them is `Visited` or
`OnShortestPath`. -/
structure BFSHistory (s : BFSGraphAlgorithm) (Dq : List Nat) : Prop where
  nodup : (Dq ++ s.m_unvisited_node_queue).Nodup
  done : ∀ v ∈ Dq, ∃ n : PathNode, s.m_graph.nodes[v]? = some n ∧ 2 ≤ n.state.rank
  touched : s.m_found_end = false → s.m_graph.Touched

/-! ## Reading a list after `List.set` -/

theorem getElem?_set_some {α : Type} {l : List α} {i j : Nat} {a b : α}
    (h : (l.set i a)[j]? = some b) :
    (i = j ∧ b = a ∧ i < l.length) ∨ (i ≠ j ∧ l[j]? = some b) := by
  by_cases hij : i = j
  · subst hij
    have hlt : i < l.length := by
      have := (List.getElem?_eq_some.1 h).1
      simpa using this
    rw [List.getElem?_set_self hlt] at h
    cases h
    exact Or.inl ⟨rfl, rfl, hlt⟩
  · rw [List.getElem?_set_ne hij] at h
    exact Or.inr ⟨hij, h⟩

theorem getElem?_lt {α : Type} {l : List α} {i : Nat} {a : α} (h : l[i]? = some a) :
    i < l.length := (List.getElem?_eq_some.1 h).1

theorem getElem?_of_lt {α : Type} {l : List α} {i : Nat} (h : i < l.length) :
    ∃ a, l[i]? = some a := ⟨l[i], List.getElem?_eq_getElem h⟩

/-! ## Construction of a path graph -/

theorem PathGraph.populateNodes_length (c : PathGraphConfig) (gb : Nat → Nat) (l : List (Nat × Nat)) :
    ∀ i, (PathGraph.populateNodes c gb i l).length = l.length := by
  induction l with
  | nil => intro i; rfl
  | cons a l ih => intro i; simp [PathGraph.populateNodes, ih]

theorem PathGraph.populateNodes_getElem (c : PathGraphConfig) (gb : Nat → Nat) (l : List (Nat × Nat)) :
    ∀ i v node, (PathGraph.populateNodes c gb i l)[v]? = some node →
      node.state = PathNodeState.NotFound ∧ node.edges = [] ∧
      node.is_start_node = decide (i + v = c.start_node) ∧
      node.is_end_node = decide (i + v = c.end_node) := by
  induction l with
  | nil => intro i v node h; simp [PathGraph.populateNodes] at h
  | cons a l ih =>
    intro i v node h
    cases v with
    | zero =>
      simp [PathGraph.populateNodes] at h
      subst h
      simp
    | succ v =>
      simp [PathGraph.populateNodes] at h
      have := ih (i + 1) v node h
      have e : i + 1 + v = i + (v + 1) := by omega
      rw [e] at this
      exact this

theorem PathGraph.populateEdges_spec (n start_node end_node : Nat) (rest : List (Nat × Nat)) :
    ∀ (i : Nat) (nodes : List PathNode) (edges : List PathEdge), i = edges.length →
      PathPopInv n start_node end_node nodes edges →
      (∀ e ∈ rest, e.1 < n ∧ e.2 < n) →
      ∃ nodes1 edges1, PathGraph.populateEdges i rest nodes edges = .ok (nodes1, edges1) ∧
        PathPopInv n start_node end_node nodes1 edges1 ∧
        edges1.map (fun e => (e.from_node_index, e.to_node_index)) =
          edges.map (fun e => (e.from_node_index, e.to_node_index)) ++ rest := by
  induction rest with
  | nil =>
    intro i nodes edges _ hinv _
    exact ⟨nodes, edges, rfl, hinv, by simp⟩
  | cons a rest ih =>
    intro i nodes edges hi hinv hvalid
    obtain ⟨a1, a2⟩ := a
    have ha := hvalid (a1, a2) (List.mem_cons_self _ _)
    simp only at ha
    have h1 : a1 < nodes.length := by rw [hinv.len]; exact ha.1
    have h2 : a2 < nodes.length := by rw [hinv.len]; exact ha.2
    obtain ⟨fn, hfn⟩ : ∃ fn, nodes[a1]? = some fn := ⟨nodes[a1], List.getElem?_eq_getElem h1⟩
    obtain ⟨tn, htn⟩ : ∃ tn, nodes[a2]? = some tn := ⟨nodes[a2], List.getElem?_eq_getElem h2⟩
    have hinv1 : PathPopInv n start_node end_node
        (nodes.set a1 { fn with edges := fn.edges ++ [i] })
        (edges ++ [{ state := PathEdgeState.Default, from_node_index := a1,
                     to_node_index := a2 }]) := by
      constructor
      · rw [List.length_set]; exact hinv.len
      · intro v node hv
        rcases getElem?_set_some hv with ⟨hva, hnode, _⟩ | ⟨_, hv1⟩
        · subst hva; subst hnode
          exact hinv.node_init a1 fn hfn
        · exact hinv.node_init v node hv1
      · intro v node ei hv hei
        rcases getElem?_set_some hv with ⟨hva, hnode, _⟩ | ⟨_, hv⟩
        · subst hva; subst hnode
          simp only [List.mem_append, List.mem_singleton] at hei
          rcases hei with hei | hei
          · obtain ⟨e, he, hef⟩ := hinv.adj_sound a1 fn ei hfn hei
            refine ⟨e, ?_, hef⟩
            rw [List.getElem?_append_left]
            · exact he
            · exact (List.getElem?_eq_some.1 he).1
          · subst hei
            subst hi
            exact ⟨_, List.getElem?_concat_length _ _, rfl⟩
        · obtain ⟨e, he, hef⟩ := hinv.adj_sound v node ei hv hei
          refine ⟨e, ?_, hef⟩
          rw [List.getElem?_append_left]
          · exact he
          · exact (List.getElem?_eq_some.1 he).1
      · intro ei e he
        rw [List.getElem?_append] at he
        split at he
        · obtain ⟨hs, ht, node, hnode, hmem⟩ := hinv.edge_init ei e he
          refine ⟨hs, ht, ?_⟩
          by_cases hc : a1 = e.from_node_index
          · refine ⟨{ fn with edges := fn.edges ++ [i] }, ?_, ?_⟩
            · rw [← hc, List.getElem?_set_self h1]
            · rw [← hc, hfn] at hnode
              cases hnode
              simp [hmem]
          · exact ⟨node, by rw [List.getElem?_set_ne hc]; exact hnode, hmem⟩
        · rename_i hlt
          have hei : ei = edges.length := by
            have := (List.getElem?_eq_some.1 he).1
            simp at this
            omega
          subst hei
          simp at he
          subst he
          refine ⟨rfl, ha.2, { fn with edges := fn.edges ++ [i] }, ?_, ?_⟩
          · simp only
            rw [List.getElem?_set_self h1]
          · simp [hi]
    obtain ⟨nodes1, edges1, hrun, hinv2, hends⟩ :=
      ih (i + 1) _ _ (by simp [hi]) hinv1 (fun e he => hvalid e (List.mem_cons_of_mem _ he))
    refine ⟨nodes1, edges1, ?_, hinv2, ?_⟩
    · simp only [PathGraph.populateEdges, hfn, htn]
      exact hrun
    · rw [hends]; simp

theorem PathGraph.new_spec (c : PathGraphConfig) (gb : Nat → Nat) (hc : c.WellFormed) :
    ∃ g, PathGraph.new c gb = .ok g ∧ PathGraph.Fresh c g := by
  obtain ⟨hs, he, hedges⟩ := hc
  have hinit : PathPopInv c.nodes.length c.start_node c.end_node
      (PathGraph.populateNodes c gb 0 c.nodes) [] := by
    constructor
    · exact PathGraph.populateNodes_length c gb c.nodes 0
    · intro v node hv
      have := PathGraph.populateNodes_getElem c gb c.nodes 0 v node hv
      rw [Nat.zero_add] at this
      exact ⟨this.1, this.2.2⟩
    · intro v node ei hv hei
      have := PathGraph.populateNodes_getElem c gb c.nodes 0 v node hv
      rw [this.2.1] at hei
      cases hei
    · intro ei e h
      simp at h
  obtain ⟨nodes1, edges1, hrun, hinv, hends⟩ :=
    PathGraph.populateEdges_spec c.nodes.length c.start_node c.end_node c.edges 0 _ []
      rfl hinit hedges
  refine ⟨{ edge_count := c.edges.length, node_count := c.nodes.length,
            start_node := c.start_node, end_node := c.end_node,
            edges := edges1, nodes := nodes1 }, by simp only [PathGraph.new, hrun], ?_⟩
  constructor
  · constructor
    · simp only; rw [hinv.len]; exact hs
    · simp only; rw [hinv.len]; exact he
    · intro v node ei hv hei
      exact hinv.adj_sound v node ei hv hei
    · intro ei e h
      exact (hinv.edge_init ei e h).2.2
    · intro ei e h
      simp only
      rw [hinv.len]
      exact (hinv.edge_init ei e h).2.1
    · intro v node hv
      exact (hinv.node_init v node hv).2
  · simpa [PathGraph.ends] using hends
  · rfl
  · rfl
  · exact hinv.len
  · have := congrArg List.length hends
    simpa using this
  · intro v node hv
    exact (hinv.node_init v node hv).1
  · intro ei e h
    exact (hinv.edge_init ei e h).1

/-! ## Walks and distances -/

theorem Walk.eq_of_zero {E : List (Nat × Nat)} {s v : Nat} (h : Walk E s v 0) : v = s := by
  cases h
  rfl

theorem Walk.last {E : List (Nat × Nat)} {s v k : Nat} (h : Walk E s v (k + 1)) :
    ∃ x, Walk E s x k ∧ (x, v) ∈ E := by
  cases h with
  | step hw he => exact ⟨_, hw, he⟩

theorem IsDist.self (E : List (Nat × Nat)) (s : Nat) : IsDist E s s 0 :=
  ⟨Walk.refl s, fun _ _ => Nat.zero_le _⟩

theorem IsDist.unique {E : List (Nat × Nat)} {s v d1 d2 : Nat} (h1 : IsDist E s v d1)
    (h2 : IsDist E s v d2) : d1 = d2 :=
  Nat.le_antisymm (h1.2 _ h2.1) (h2.2 _ h1.1)

theorem IsDist.eq_start {E : List (Nat × Nat)} {s v : Nat} (h : IsDist E s v 0) : v = s :=
  h.1.eq_of_zero

theorem exists_isDist {E : List (Nat × Nat)} {s v : Nat} (h : Reachable E s v) :
    ∃ d, IsDist E s v d := by
  classical
  exact ⟨Nat.find h, Nat.find_spec h, fun k hk => Nat.find_min' h hk⟩

theorem IsDist.reachable {E : List (Nat × Nat)} {s v d : Nat} (h : IsDist E s v d) :
    Reachable E s v := ⟨d, h.1⟩

theorem IsDist.succ_le {E : List (Nat × Nat)} {s u w k d : Nat} (hu : IsDist E s u k)
    (he : (u, w) ∈ E) (hw : IsDist E s w d) : d ≤ k + 1 :=
  hw.2 _ (Walk.step hu.1 he)

theorem IsDist.pred {E : List (Nat × Nat)} {s v d : Nat} (h : IsDist E s v (d + 1)) :
    ∃ x, IsDist E s x d ∧ (x, v) ∈ E := by
  obtain ⟨x, hx, hxe⟩ := h.1.last
  refine ⟨x, ⟨hx, ?_⟩, hxe⟩
  intro k hk
  have := h.2 _ (Walk.step hk hxe)
  omega

/-! ## The skeleton of a path graph -/

theorem PathGraph.mem_ends {g : PathGraph} {u w : Nat} :
    (u, w) ∈ g.ends ↔
      ∃ (ei : Nat) (e : PathEdge), g.edges[ei]? = some e ∧ e.from_node_index = u ∧
        e.to_node_index = w := by
  unfold PathGraph.ends
  constructor
  · intro h
    obtain ⟨e, he, heq⟩ := List.mem_map.1 h
    obtain ⟨ei, hei⟩ := List.mem_iff_getElem?.1 he
    simp only [Prod.mk.injEq] at heq
    exact ⟨ei, e, hei, heq.1, heq.2⟩
  · rintro ⟨ei, e, hei, h1, h2⟩
    exact List.mem_map.2 ⟨e, List.getElem?_mem hei, by simp [h1, h2]⟩

theorem PathGraph.skel_nodes {g g1 : PathGraph} (h : g1.skel = g.skel) {v : Nat} {node1 : PathNode}
    (hv : g1.nodes[v]? = some node1) :
    ∃ node, g.nodes[v]? = some node ∧ node.edges = node1.edges ∧
      node.is_start_node = node1.is_start_node ∧ node.is_end_node = node1.is_end_node := by
  have h2 : g1.nodes.map (fun n => (n.edges, n.is_start_node, n.is_end_node)) =
      g.nodes.map (fun n => (n.edges, n.is_start_node, n.is_end_node)) := by
    have := congrArg (fun p => p.2.1) h
    simpa [PathGraph.skel] using this
  have h3 := congrArg (fun l => l[v]?) h2
  simp only [List.getElem?_map, hv, Option.map_some'] at h3
  cases hn : g.nodes[v]? with
  | none => rw [hn] at h3; simp at h3
  | some node =>
    rw [hn] at h3
    simp only [Option.map_some', Option.some.injEq, Prod.mk.injEq] at h3
    exact ⟨node, rfl, h3.1.symm, h3.2.1.symm, h3.2.2.symm⟩

theorem PathGraph.skel_edges {g g1 : PathGraph} (h : g1.skel = g.skel) {ei : Nat} {e1 : PathEdge}
    (he : g1.edges[ei]? = some e1) :
    ∃ e, g.edges[ei]? = some e ∧ e.from_node_index = e1.from_node_index ∧
      e.to_node_index = e1.to_node_index := by
  have h2 : g1.ends = g.ends := by
    have := congrArg (fun p => p.1) h
    simpa [PathGraph.skel] using this
  have h3 := congrArg (fun l => l[ei]?) h2
  simp only [PathGraph.ends, List.getElem?_map, he, Option.map_some'] at h3
  cases hn : g.edges[ei]? with
  | none => rw [hn] at h3; simp at h3
  | some e =>
    rw [hn] at h3
    simp only [Option.map_some', Option.some.injEq, Prod.mk.injEq] at h3
    exact ⟨e, rfl, h3.1.symm, h3.2.symm⟩

theorem PathGraph.skel_ends {g g1 : PathGraph} (h : g1.skel = g.skel) : g1.ends = g.ends := by
  have := congrArg (fun p => p.1) h
  simpa [PathGraph.skel] using this

theorem PathGraph.skel_start {g g1 : PathGraph} (h : g1.skel = g.skel) :
    g1.start_node = g.start_node := by
  have := congrArg (fun p => p.2.2.1) h
  simpa [PathGraph.skel] using this

theorem PathGraph.skel_end {g g1 : PathGraph} (h : g1.skel = g.skel) :
    g1.end_node = g.end_node := by
  have := congrArg (fun p => p.2.2.2) h
  simpa [PathGraph.skel] using this

theorem PathGraph.skel_nodes_length {g g1 : PathGraph} (h : g1.skel = g.skel) :
    g1.nodes.length = g.nodes.length := by
  have h2 := congrArg (fun p => p.2.1.length) h
  simpa [PathGraph.skel] using h2

theorem PathGraph.skel_edges_length {g g1 : PathGraph} (h : g1.skel = g.skel) :
    g1.edges.length = g.edges.length := by
  have h2 := congrArg (fun p => p.1.length) h
  simpa [PathGraph.skel, PathGraph.ends] using h2

theorem PathGraph.WF.of_skel {g g1 : PathGraph} (hwf : g.WF) (h : g1.skel = g.skel) : g1.WF := by
  have hs := PathGraph.skel_start h
  have he := PathGraph.skel_end h
  have hn := PathGraph.skel_nodes_length h
  constructor
  · rw [hs, hn]; exact hwf.start_lt
  · rw [he, hn]; exact hwf.end_lt
  · intro v node1 ei hv hei
    obtain ⟨node, hnode, hedges, _, _⟩ := PathGraph.skel_nodes h hv
    obtain ⟨e, hge, hfrom⟩ := hwf.adj_sound v node ei hnode (by rw [hedges]; exact hei)
    obtain ⟨e1, he1, hf1, _⟩ := @PathGraph.skel_edges g1 g h.symm _ _ hge
    exact ⟨e1, he1, by rw [hf1]; exact hfrom⟩
  · intro ei e1 he1
    obtain ⟨e, hge, hf, _⟩ := PathGraph.skel_edges h he1
    obtain ⟨node, hnode, hmem⟩ := hwf.adj_complete ei e hge
    rw [hf] at hnode
    obtain ⟨node1, hnode1, hedges, _, _⟩ := @PathGraph.skel_nodes g1 g h.symm _ _ hnode
    exact ⟨node1, hnode1, by rw [hedges]; exact hmem⟩
  · intro ei e1 he1
    obtain ⟨e, hge, _, ht⟩ := PathGraph.skel_edges h he1
    rw [hn, ← ht]
    exact hwf.to_lt ei e hge
  · intro v node1 hv
    obtain ⟨node, hnode, _, hfs, hfe⟩ := PathGraph.skel_nodes h hv
    rw [← hfs, ← hfe, hs, he]
    exact hwf.flags v node hnode

theorem PathGraph.skel_set_node (g : PathGraph) {v : Nat} {node node1 : PathNode}
    (hv : g.nodes[v]? = some node) (h1 : node1.edges = node.edges)
    (h2 : node1.is_start_node = node.is_start_node) (h3 : node1.is_end_node = node.is_end_node) :
    PathGraph.skel { g with nodes := g.nodes.set v node1 } = g.skel := by
  have : (g.nodes.set v node1).map (fun n => (n.edges, n.is_start_node, n.is_end_node)) =
      g.nodes.map (fun n => (n.edges, n.is_start_node, n.is_end_node)) := by
    rw [List.map_set]
    apply List.ext_getElem?
    intro j
    by_cases hj : v = j
    · subst hj
      rw [List.getElem?_set_self (by simpa using getElem?_lt hv)]
      simp [hv, h1, h2, h3]
    · rw [List.getElem?_set_ne hj]
  simp only [PathGraph.skel, PathGraph.ends, this]

theorem PathGraph.skel_set_edge (g : PathGraph) {ei : Nat} {e e1 : PathEdge}
    (he : g.edges[ei]? = some e) (h1 : e1.from_node_index = e.from_node_index)
    (h2 : e1.to_node_index = e.to_node_index) :
    PathGraph.skel { g with edges := g.edges.set ei e1 } = g.skel := by
  have : (g.edges.set ei e1).map (fun e => (e.from_node_index, e.to_node_index)) =
      g.edges.map (fun e => (e.from_node_index, e.to_node_index)) := by
    rw [List.map_set]
    apply List.ext_getElem?
    intro j
    by_cases hj : ei = j
    · subst hj
      rw [List.getElem?_set_self (by simpa using getElem?_lt he)]
      simp [he, h1, h2]
    · rw [List.getElem?_set_ne hj]
  simp only [PathGraph.skel, PathGraph.ends, this]

/-! ## The neighbour loop of `BFSGraphAlgorithm::nextStep` -/

theorem PathGraph.targetOf_skel {g g1 : PathGraph} (h : g1.skel = g.skel) (ei : Nat) :
    g1.targetOf ei = g.targetOf ei := by
  have h2 := congrArg (fun l => (l[ei]?).map Prod.snd) (PathGraph.skel_ends h)
  simpa [PathGraph.targetOf, PathGraph.ends, List.getElem?_map] using h2

theorem PathGraph.targetOf_eq_some {g : PathGraph} {ei w : Nat} :
    g.targetOf ei = some w ↔ ∃ e : PathEdge, g.edges[ei]? = some e ∧ e.to_node_index = w := by
  unfold PathGraph.targetOf
  cases h : g.edges[ei]? with
  | none => simp
  | some e => simp

theorem BFSGraphAlgorithm.scanNeighbours_spec (es : List Nat) :
    ∀ (g : PathGraph) (q : List Nat),
      (∀ ei ∈ es, ∃ e : PathEdge, g.edges[ei]? = some e ∧ e.to_node_index < g.nodes.length) →
      ∃ g1 q1, BFSGraphAlgorithm.scanNeighbours es g q = .ok (g1, q1) ∧
        ScanSpec es g q g1 q1 := by
  induction es with
  | nil =>
    intro g q _
    refine ⟨g, q, rfl, ?_⟩
    constructor
    · rfl
    · intro v node hv _; exact hv
    · intro v node _ _ h
      obtain ⟨ei, hei, _⟩ := h
      cases hei
    · exact ⟨[], by simp, List.nodup_nil, by simp⟩
    · intro ei e1 h; exact Or.inr h
  | cons ei rest ih =>
    intro g q hvalid
    obtain ⟨edge, hedge, hto⟩ := hvalid ei (List.mem_cons_self _ _)
    obtain ⟨nb, hnb⟩ := getElem?_of_lt hto
    have htarget : g.targetOf ei = some edge.to_node_index :=
      PathGraph.targetOf_eq_some.2 ⟨edge, hedge, rfl⟩
    by_cases hstate : nb.state = PathNodeState.NotFound
    · -- the neighbour is discovered through this edge
      let ga : PathGraph := { g with edges := g.edges.set ei { edge with state := PathEdgeState.Peeked } }
      have hska : ga.skel = g.skel := PathGraph.skel_set_edge g hedge rfl rfl
      let nb1 : PathNode := { nb with state := PathNodeState.Found, entered_by := ei }
      let g0 : PathGraph := { ga with nodes := ga.nodes.set edge.to_node_index nb1 }
      have hsk0 : g0.skel = g.skel := by
        have : g0.skel = ga.skel := @PathGraph.skel_set_node ga _ nb _ hnb rfl rfl rfl
        rw [this, hska]
      have hvalid0 : ∀ ej ∈ rest, ∃ e : PathEdge, g0.edges[ej]? = some e ∧
          e.to_node_index < g0.nodes.length := by
        intro ej hej
        obtain ⟨e, he, hlt⟩ := hvalid ej (List.mem_cons_of_mem _ hej)
        have hlen : g0.nodes.length = g.nodes.length := PathGraph.skel_nodes_length hsk0
        obtain ⟨e0, he0⟩ : ∃ e0, g0.edges[ej]? = some e0 := by
          apply getElem?_of_lt
          rw [PathGraph.skel_edges_length hsk0]
          exact getElem?_lt he
        obtain ⟨e', he', _, ht'⟩ := PathGraph.skel_edges hsk0 he0
        rw [he] at he'
        cases he'
        exact ⟨e0, he0, by rw [hlen, ← ht']; exact hlt⟩
      obtain ⟨g1, q1, hrun, hspec⟩ := ih g0 (q ++ [edge.to_node_index]) hvalid0
      have hnode0 : ∀ v node, g.nodes[v]? = some node → v ≠ edge.to_node_index →
          g0.nodes[v]? = some node := by
        intro v node hv hne
        show (g.nodes.set edge.to_node_index _)[v]? = some node
        rw [List.getElem?_set_ne (Ne.symm hne)]
        exact hv
      have hnode0w : g0.nodes[edge.to_node_index]? =
          some { nb with state := PathNodeState.Found, entered_by := ei } := by
        show (g.nodes.set edge.to_node_index _)[edge.to_node_index]? = _
        rw [List.getElem?_set_self hto]
      have htgt : ∀ ej, g0.targetOf ej = g.targetOf ej := PathGraph.targetOf_skel hsk0
      refine ⟨g1, q1, ?_, ?_⟩
      · simp only [BFSGraphAlgorithm.scanNeighbours, hedge, hnb, hstate, if_true]
        exact hrun
      · constructor
        · rw [hspec.skel, hsk0]
        · intro v node hv hcond
          have hne : v ≠ edge.to_node_index := by
            intro heq
            subst heq
            rw [hnb] at hv
            cases hv
            rcases hcond with hc | hc
            · exact hc hstate
            · exact hc ei (List.mem_cons_self _ _) htarget
          apply hspec.keep v node (hnode0 v node hv hne)
          rcases hcond with hc | hc
          · exact Or.inl hc
          · right
            intro ej hej
            rw [htgt]
            exact hc ej (List.mem_cons_of_mem _ hej)
        · intro v node hv hnf hex
          by_cases hvw : v = edge.to_node_index
          · subst hvw
            rw [hnb] at hv
            cases hv
            refine ⟨ei, List.mem_cons_self _ _, htarget, ?_⟩
            exact hspec.keep _ _ hnode0w (Or.inl (by simp))
          · obtain ⟨ej, hej, htj⟩ := hex
            have hej' : ej ∈ rest := by
              rcases List.mem_cons.1 hej with h | h
              · subst h
                rw [htarget] at htj
                cases htj
                exact absurd rfl hvw
              · exact h
            obtain ⟨ek, hek, htk, hres⟩ := hspec.found v node (hnode0 v node hv hvw) hnf
              ⟨ej, hej', by rw [htgt]; exact htj⟩
            exact ⟨ek, List.mem_cons_of_mem _ hek, by rw [← htgt]; exact htk, hres⟩
        · obtain ⟨N, hq1, hnd, hmem⟩ := hspec.queue
          refine ⟨edge.to_node_index :: N, by rw [hq1]; simp, ?_, ?_⟩
          · refine List.nodup_cons.2 ⟨?_, hnd⟩
            intro hin
            obtain ⟨_, node, hnode, hst⟩ := (hmem _).1 hin
            rw [hnode0w] at hnode
            cases hnode
            simp at hst
          · intro x
            constructor
            · intro hx
              rcases List.mem_cons.1 hx with h | h
              · subst h
                exact ⟨⟨ei, List.mem_cons_self _ _, htarget⟩, nb, hnb, hstate⟩
              · obtain ⟨⟨ej, hej, htj⟩, node, hnode, hst⟩ := (hmem x).1 h
                have hxw : x ≠ edge.to_node_index := by
                  intro heq
                  subst heq
                  rw [hnode0w] at hnode
                  cases hnode
                  simp at hst
                refine ⟨⟨ej, List.mem_cons_of_mem _ hej, by rw [← htgt]; exact htj⟩, node, ?_, hst⟩
                have : g0.nodes[x]? = g.nodes[x]? := by
                  show (g.nodes.set edge.to_node_index _)[x]? = _
                  rw [List.getElem?_set_ne (Ne.symm hxw)]
                rw [← this]
                exact hnode
            · rintro ⟨⟨ej, hej, htj⟩, node, hnode, hst⟩
              by_cases hxw : x = edge.to_node_index
              · exact List.mem_cons.2 (Or.inl hxw)
              · refine List.mem_cons.2 (Or.inr ((hmem x).2 ⟨⟨ej, ?_, by rw [htgt]; exact htj⟩,
                  node, hnode0 x node hnode hxw, hst⟩))
                rcases List.mem_cons.1 hej with h | h
                · subst h
                  rw [htarget] at htj
                  cases htj
                  exact absurd rfl hxw
                · exact h
        · intro ej e1 he1
          rcases hspec.edges ej e1 he1 with h | h
          · exact Or.inl h
          · have h' : (g.edges.set ei { edge with state := PathEdgeState.Peeked })[ej]? = some e1 := h
            rcases getElem?_set_some h' with ⟨_, hb, _⟩ | ⟨_, hb⟩
            · left; rw [hb]
            · exact Or.inr hb
    · -- the neighbour was discovered before
      obtain ⟨g1, q1, hrun, hspec⟩ := ih g q (fun ej hej => hvalid ej (List.mem_cons_of_mem _ hej))
      refine ⟨g1, q1, ?_, ?_⟩
      · simp only [BFSGraphAlgorithm.scanNeighbours, hedge, hnb, hstate, if_false]
        exact hrun
      · constructor
        · exact hspec.skel
        · intro v node hv hcond
          apply hspec.keep v node hv
          rcases hcond with hc | hc
          · exact Or.inl hc
          · exact Or.inr (fun ej hej => hc ej (List.mem_cons_of_mem _ hej))
        · intro v node hv hnf hex
          obtain ⟨ej, hej, htj⟩ := hex
          have hej' : ej ∈ rest := by
            rcases List.mem_cons.1 hej with h | h
            · subst h
              rw [htarget] at htj
              cases htj
              rw [hnb] at hv
              cases hv
              exact absurd hnf hstate
            · exact h
          obtain ⟨ek, hek, htk, hres⟩ := hspec.found v node hv hnf ⟨ej, hej', htj⟩
          exact ⟨ek, List.mem_cons_of_mem _ hek, htk, hres⟩
        · obtain ⟨N, hq1, hnd, hmem⟩ := hspec.queue
          refine ⟨N, hq1, hnd, ?_⟩
          intro x
          rw [hmem x]
          constructor
          · rintro ⟨⟨ej, hej, htj⟩, hnode⟩
            exact ⟨⟨ej, List.mem_cons_of_mem _ hej, htj⟩, hnode⟩
          · rintro ⟨⟨ej, hej, htj⟩, node, hnode, hst⟩
            refine ⟨⟨ej, ?_, htj⟩, node, hnode, hst⟩
            rcases List.mem_cons.1 hej with h | h
            · subst h
              rw [htarget] at htj
              cases htj
              rw [hnb] at hnode
              cases hnode
              exact absurd hst hstate
            · exact h
        · exact hspec.edges

/-! ## The traversal invariant of `BFSGraphAlgorithm` -/

theorem count_false_set_true (l : List Bool) :
    ∀ u, l[u]? = some false → (l.set u true).count false + 1 = l.count false := by
  induction l with
  | nil => intro u h; simp at h
  | cons a l ih =>
    intro u h
    cases u with
    | zero =>
      simp at h
      subst h
      simp
    | succ u =>
      simp at h
      have := ih u h
      cases a <;> simp [List.count_cons] <;> omega

theorem PathGraph.unvisited_set_visited (g : PathGraph) {u : Nat} {node0 node : PathNode}
    (h0 : g.nodes[u]? = some node0) (hs0 : node0.state ≠ PathNodeState.Visited)
    (hs : node.state = PathNodeState.Visited) :
    PathGraph.unvisited { g with nodes := g.nodes.set u node } + 1 = g.unvisited := by
  unfold PathGraph.unvisited
  simp only [List.map_set, hs, decide_True]
  apply count_false_set_true
  simp [List.getElem?_map, h0, hs0]

theorem PathGraph.unvisited_congr {g g1 : PathGraph}
    (h : ∀ v : Nat,
      (g1.nodes[v]?).map (fun n : PathNode => decide (n.state = PathNodeState.Visited)) =
      (g.nodes[v]?).map (fun n : PathNode => decide (n.state = PathNodeState.Visited))) :
    g1.unvisited = g.unvisited := by
  unfold PathGraph.unvisited
  congr 1
  apply List.ext_getElem?
  intro v
  simpa [List.getElem?_map] using h v

/-- When the part `A` of the queue is exhausted the next level begins. -/
theorem BFSInv.relevel {st : BFSGraphAlgorithm} {k : Nat} {B : List Nat}
    (h : BFSInv st k [] B) : BFSInv st (k + 1) B [] := by
  have hq : ([] : List Nat) ++ B = B ++ [] := by simp
  constructor
  · exact h.wf
  · exact h.first
  · exact h.not_found
  · rw [h.queue_eq, hq]
  · rw [← hq]; exact h.nodup
  · exact h.distB
  · intro b hb; cases hb
  · exact h.no_osp_node
  · exact h.no_osp_edge
  · rw [← hq]; exact h.found_queue
  · rw [← hq]; exact h.queue_state
  · exact h.parent
  · intro v node hv hs
    obtain ⟨d, hd, hdist⟩ := h.visited_dist v node hv hs
    exact ⟨d, by omega, hdist⟩
  · intro v d hdist hd
    rw [← hq]
    by_cases hdk : d ≤ k
    · exact h.complete v d hdist hdk
    · have hdk1 : d = k + 1 := by omega
      subst hdk1
      obtain ⟨x, hx, hxe⟩ := hdist.pred
      rcases h.complete x k hx (Nat.le_refl _) with hxq | ⟨xnode, hxnode, hxs⟩
      · have := h.distB x (by simpa using hxq)
        have := IsDist.unique hx this
        omega
      · obtain ⟨wnode, hw, hws⟩ := h.closed x xnode hxnode hxs v hxe
        cases hst : wnode.state with
        | NotFound => exact absurd hst hws
        | Found => exact Or.inl (h.found_queue v wnode hw hst)
        | Visited => exact Or.inr ⟨wnode, hw, hst⟩
        | OnShortestPath => exact absurd hst (h.no_osp_node v wnode hw)
  · exact h.closed
  · exact h.end_fresh

/-- The state after the first call of `nextStep` satisfies the traversal invariant. -/
theorem BFSInv.init (c : PathGraphConfig) (g : PathGraph) (hf : PathGraph.Fresh c g) :
    BFSInv { m_graph := g, m_unvisited_node_queue := [g.start_node], m_first_step := false,
             m_found_end := false } 0 [g.start_node] [] := by
  obtain ⟨node, hnode⟩ := getElem?_of_lt hf.wf.start_lt
  constructor
  · exact hf.wf
  · rfl
  · rfl
  · rfl
  · simp
  · intro a ha
    simp at ha
    subst ha
    exact IsDist.self _ _
  · intro b hb; cases hb
  · intro v nd hv hs
    have := hf.node_init v nd hv
    rw [this] at hs
    cases hs
  · intro ei e he hs
    have := hf.edge_init ei e he
    rw [this] at hs
    cases hs
  · intro v nd hv hs
    have := hf.node_init v nd hv
    simp only at hv
    rw [this] at hs
    cases hs
  · intro v hv
    simp at hv
    subst hv
    exact ⟨node, hnode, Or.inr ⟨hf.node_init _ _ hnode, rfl, rfl⟩⟩
  · intro v nd hv hs
    exact absurd (hf.node_init v nd hv) hs
  · intro v nd hv hs
    have := hf.node_init v nd hv
    simp only at hv
    rw [this] at hs
    cases hs
  · intro v d hd _
    left
    have : d = 0 := by omega
    subst this
    simp [hd.eq_start]
  · intro u unode hu hs
    have := hf.node_init u unode hu
    simp only at hu
    rw [this] at hs
    cases hs
  · intro nd hnd hs
    have := hf.node_init _ nd hnd
    rw [this] at hs
    cases hs

/-! ## Unfolding one call of `BFSGraphAlgorithm::nextStep` -/

theorem BFSGraphAlgorithm.nextStep_scan {fuel : Nat} {st : BFSGraphAlgorithm} {u : Nat} {q : List Nat}
    {node0 : PathNode} {g2 g3 : PathGraph} {q3 : List Nat}
    (hfirst : st.m_first_step = false) (hfound : st.m_found_end = false)
    (hq : st.m_unvisited_node_queue = u :: q) (hnode : st.m_graph.nodes[u]? = some node0)
    (hend : node0.is_end_node = false)
    (hmark : BFSGraphAlgorithm.markUsed
      { st.m_graph with nodes := st.m_graph.nodes.set u { node0 with state := PathNodeState.Visited } }
      { node0 with state := PathNodeState.Visited } = .ok g2)
    (hscan : BFSGraphAlgorithm.scanNeighbours node0.edges g2 q = .ok (g3, q3)) :
    BFSGraphAlgorithm.nextStep fuel st =
      .ok (true, { st with m_graph := g3, m_unvisited_node_queue := q3 }) := by
  unfold BFSGraphAlgorithm.nextStep
  simp only [hfirst, hq, hfound, hnode]
  rw [hmark]
  simp only [hend, hscan]
  simp

theorem BFSGraphAlgorithm.nextStep_end_start {fuel : Nat} {st : BFSGraphAlgorithm} {u : Nat} {q : List Nat}
    {node0 : PathNode} {g2 : PathGraph}
    (hfirst : st.m_first_step = false) (hfound : st.m_found_end = false)
    (hq : st.m_unvisited_node_queue = u :: q) (hnode : st.m_graph.nodes[u]? = some node0)
    (hend : node0.is_end_node = true) (hstart : node0.is_start_node = true)
    (hmark : BFSGraphAlgorithm.markUsed
      { st.m_graph with nodes := st.m_graph.nodes.set u { node0 with state := PathNodeState.Visited } }
      { node0 with state := PathNodeState.Visited } = .ok g2) :
    BFSGraphAlgorithm.nextStep fuel st =
      .ok (true, { st with
        m_graph := { g2 with nodes := g2.nodes.set u { node0 with state := PathNodeState.OnShortestPath } },
        m_unvisited_node_queue := q, m_found_end := true }) := by
  unfold BFSGraphAlgorithm.nextStep
  simp only [hfirst, hq, hfound, hnode]
  rw [hmark]
  simp only [hend, hstart]
  simp

theorem BFSGraphAlgorithm.nextStep_end {fuel : Nat} {st : BFSGraphAlgorithm} {u : Nat} {q : List Nat}
    {node0 : PathNode} {g2 g3 : PathGraph}
    (hfirst : st.m_first_step = false) (hfound : st.m_found_end = false)
    (hq : st.m_unvisited_node_queue = u :: q) (hnode : st.m_graph.nodes[u]? = some node0)
    (hend : node0.is_end_node = true) (hstart : node0.is_start_node = false)
    (hmark : BFSGraphAlgorithm.markUsed
      { st.m_graph with nodes := st.m_graph.nodes.set u { node0 with state := PathNodeState.Visited } }
      { node0 with state := PathNodeState.Visited } = .ok g2)
    (hback : BFSGraphAlgorithm.backtrack fuel g2 node0.entered_by = .ok g3) :
    BFSGraphAlgorithm.nextStep fuel st =
      .ok (true, { st with m_graph := g3, m_unvisited_node_queue := q, m_found_end := true }) := by
  unfold BFSGraphAlgorithm.nextStep
  simp only [hfirst, hq, hfound, hnode]
  rw [hmark]
  simp only [hend, hstart, hback]
  simp

theorem BFSGraphAlgorithm.nextStep_empty {fuel : Nat} {st : BFSGraphAlgorithm}
    (hfirst : st.m_first_step = false) (hq : st.m_unvisited_node_queue = []) :
    BFSGraphAlgorithm.nextStep fuel st = .ok (false, st) := by
  unfold BFSGraphAlgorithm.nextStep
  simp only [hfirst, hq]
  simp

theorem BFSGraphAlgorithm.nextStep_found {fuel : Nat} {st : BFSGraphAlgorithm}
    (hfirst : st.m_first_step = false) (hfound : st.m_found_end = true) :
    BFSGraphAlgorithm.nextStep fuel st = .ok (false, st) := by
  unfold BFSGraphAlgorithm.nextStep
  simp only [hfirst, hfound]
  cases st.m_unvisited_node_queue <;> simp

theorem BFSGraphAlgorithm.markUsed_spec {g : PathGraph} {node : PathNode}
    (h : node.is_start_node = true ∨ ∃ e : PathEdge, g.edges[node.entered_by]? = some e) :
    ∃ g2, BFSGraphAlgorithm.markUsed g node = .ok g2 ∧ g2.nodes = g.nodes ∧ g2.skel = g.skel ∧
      ∀ (ej : Nat) (e2 : PathEdge), g2.edges[ej]? = some e2 →
        e2.state = PathEdgeState.Used ∨ g.edges[ej]? = some e2 := by
  unfold BFSGraphAlgorithm.markUsed
  by_cases hs : node.is_start_node = true
  · exact ⟨g, by simp [hs], rfl, rfl, fun ej e2 h2 => Or.inr h2⟩
  · rcases h with h | ⟨e, he⟩
    · exact absurd h hs
    · refine ⟨{ g with edges := g.edges.set node.entered_by { e with state := PathEdgeState.Used } },
        by simp [hs, he], rfl, PathGraph.skel_set_edge g he rfl rfl, ?_⟩
      intro ej e2 h2
      rcases getElem?_set_some h2 with ⟨_, hb, _⟩ | ⟨_, hb⟩
      · left; rw [hb]
      · exact Or.inr hb

/-! ## A traversal step preserves the invariant -/

theorem BFSInv.step {fuel : Nat} {st : BFSGraphAlgorithm} {k u : Nat} {A B : List Nat}
    (h : BFSInv st k (u :: A) B) (hu : u ≠ st.m_graph.end_node) :
    ∃ st1 N, BFSGraphAlgorithm.nextStep fuel st = .ok (true, st1) ∧ BFSInv st1 k A (B ++ N) ∧
      st1.m_graph.unvisited + 1 = st.m_graph.unvisited ∧
      st1.m_graph.skel = st.m_graph.skel := by
  obtain ⟨g, q0, f0, e0⟩ := st
  have hwf : g.WF := h.wf
  have hnd0 : (u :: (A ++ B)).Nodup := h.nodup
  have hqu : u ∈ u :: A ++ B := List.mem_cons_self _ _
  obtain ⟨node0, hnode0, hstate0⟩ := h.queue_state u hqu
  simp only at hnode0 hstate0 hu
  have hflags := hwf.flags u node0 hnode0
  have hend0 : node0.is_end_node = false := by rw [hflags.2]; simp [hu]
  have hnv0 : node0.state ≠ PathNodeState.Visited := by
    rcases hstate0 with hs | ⟨hs, _, _⟩ <;> rw [hs] <;> simp
  have hdu : IsDist g.ends g.start_node u k := h.distA u (List.mem_cons_self _ _)
  -- a queue that holds a second element is not the initial queue
  have hnotinit : ∀ x ∈ A ++ B, ¬ (u :: A ++ B = [g.start_node]) := by
    intro x hx heq
    have : A ++ B = [] := by simpa using (List.cons.inj heq).2
    rw [this] at hx
    cases hx
  have hune : ∀ x ∈ A ++ B, x ≠ u := by
    intro x hx heq
    subst heq
    exact (List.nodup_cons.1 hnd0).1 hx
  let node : PathNode := { node0 with state := PathNodeState.Visited }
  let g1 : PathGraph := { g with nodes := g.nodes.set u node }
  have hsk1 : g1.skel = g.skel := PathGraph.skel_set_node g hnode0 rfl rfl rfl
  have hmarkpre : node.is_start_node = true ∨ ∃ e : PathEdge, g1.edges[node.entered_by]? = some e := by
    by_cases hus : u = g.start_node
    · left
      show node0.is_start_node = true
      rw [hflags.1]; simp [hus]
    · right
      have hs0 : node0.state ≠ PathNodeState.NotFound := by
        rcases hstate0 with hs | ⟨_, hs, _⟩
        · rw [hs]; simp
        · exact absurd hs hus
      obtain ⟨e, _, _, he, _⟩ := h.parent u node0 hnode0 hs0 hus
      exact ⟨e, he⟩
  obtain ⟨g2, hmark, hnodes2, hsk2, hedges2⟩ := BFSGraphAlgorithm.markUsed_spec hmarkpre
  have hsk2g : g2.skel = g.skel := hsk2.trans hsk1
  have hwf2 : g2.WF := hwf.of_skel hsk2g
  have hnode2u : g2.nodes[u]? = some node := by
    rw [hnodes2]
    show (g.nodes.set u node)[u]? = _
    rw [List.getElem?_set_self (getElem?_lt hnode0)]
  have hnode2ne : ∀ v, v ≠ u → g2.nodes[v]? = g.nodes[v]? := by
    intro v hv
    rw [hnodes2]
    show (g.nodes.set u node)[v]? = _
    rw [List.getElem?_set_ne (Ne.symm hv)]
  have hvalid : ∀ ei ∈ node0.edges, ∃ e : PathEdge, g2.edges[ei]? = some e ∧
      e.to_node_index < g2.nodes.length := by
    intro ei hei
    obtain ⟨e, he, _⟩ := hwf2.adj_sound u node ei hnode2u hei
    exact ⟨e, he, hwf2.to_lt ei e he⟩
  obtain ⟨g3, q3, hscan, hspec⟩ :=
    BFSGraphAlgorithm.scanNeighbours_spec node0.edges g2 (A ++ B) hvalid
  obtain ⟨N, hq3, hNnd, hNmem⟩ := hspec.queue
  have hsk3 : g3.skel = g.skel := hspec.skel.trans hsk2g
  have hends3 : g3.ends = g.ends := PathGraph.skel_ends hsk3
  have hstart3 : g3.start_node = g.start_node := PathGraph.skel_start hsk3
  have hend3 : g3.end_node = g.end_node := PathGraph.skel_end hsk3
  have hends2 : g2.ends = g.ends := PathGraph.skel_ends hsk2g
  -- targets of the scanned adjacency list are the successors of `u`
  have hT : ∀ x, (∃ ei ∈ node0.edges, g2.targetOf ei = some x) ↔ (u, x) ∈ g.ends := by
    intro x
    constructor
    · rintro ⟨ei, hei, ht⟩
      obtain ⟨e, he, hto⟩ := PathGraph.targetOf_eq_some.1 ht
      obtain ⟨e', he', hfrom⟩ := hwf2.adj_sound u node ei hnode2u hei
      rw [he] at he'
      cases he'
      rw [← hends2]
      exact PathGraph.mem_ends.2 ⟨ei, e, he, hfrom, hto⟩
    · intro hx
      rw [← hends2] at hx
      obtain ⟨ei, e, he, hfrom, hto⟩ := PathGraph.mem_ends.1 hx
      obtain ⟨nd, hnd, hmem⟩ := hwf2.adj_complete ei e he
      rw [hfrom, hnode2u] at hnd
      cases hnd
      exact ⟨ei, hmem, PathGraph.targetOf_eq_some.2 ⟨e, he, hto⟩⟩
  have hN : ∀ x, x ∈ N ↔ x ≠ u ∧ (u, x) ∈ g.ends ∧
      ∃ nd : PathNode, g.nodes[x]? = some nd ∧ nd.state = PathNodeState.NotFound := by
    intro x
    rw [hNmem x, hT x]
    constructor
    · rintro ⟨hx, nd, hnd, hs⟩
      have hxu : x ≠ u := by
        intro heq
        subst heq
        rw [hnode2u] at hnd
        cases hnd
        cases hs
      exact ⟨hxu, hx, nd, by rw [← hnode2ne x hxu]; exact hnd, hs⟩
    · rintro ⟨hxu, hx, nd, hnd, hs⟩
      exact ⟨hx, nd, by rw [hnode2ne x hxu]; exact hnd, hs⟩
  have hu3 : g3.nodes[u]? = some node := hspec.keep u node hnode2u (Or.inl (by simp [node]))
  have hkeep : ∀ (v : Nat) (nd : PathNode), g.nodes[v]? = some nd →
      nd.state ≠ PathNodeState.NotFound → v ≠ u → g3.nodes[v]? = some nd := by
    intro v nd hv hs hvu
    exact hspec.keep v nd (by rw [hnode2ne v hvu]; exact hv) (Or.inl hs)
  have hfoundN : ∀ x ∈ N, ∃ (nd : PathNode) (ei : Nat), g.nodes[x]? = some nd ∧
      nd.state = PathNodeState.NotFound ∧ ei ∈ node0.edges ∧ g2.targetOf ei = some x ∧
      g3.nodes[x]? = some { nd with state := PathNodeState.Found, entered_by := ei } := by
    intro x hx
    obtain ⟨hxu, hxe, nd, hnd, hs⟩ := (hN x).1 hx
    have hnd2 : g2.nodes[x]? = some nd := by rw [hnode2ne x hxu]; exact hnd
    obtain ⟨ei, hei, ht, hres⟩ := hspec.found x nd hnd2 hs ((hT x).2 hxe)
    exact ⟨nd, ei, hnd, hs, hei, ht, hres⟩
  have hcase : ∀ (v : Nat) (nd3 : PathNode), g3.nodes[v]? = some nd3 →
      (v = u ∧ nd3 = node) ∨ (v ≠ u ∧ v ∉ N ∧ g.nodes[v]? = some nd3) ∨
      (v ≠ u ∧ v ∈ N ∧ ∃ (nd : PathNode) (ei : Nat), g.nodes[v]? = some nd ∧
        nd.state = PathNodeState.NotFound ∧ ei ∈ node0.edges ∧ g2.targetOf ei = some v ∧
        nd3 = { nd with state := PathNodeState.Found, entered_by := ei }) := by
    intro v nd3 hv3
    by_cases hvu : v = u
    · subst hvu
      rw [hu3] at hv3
      cases hv3
      exact Or.inl ⟨rfl, rfl⟩
    · right
      by_cases hvN : v ∈ N
      · right
        obtain ⟨nd, ei, hnd, hs, hei, ht, hres⟩ := hfoundN v hvN
        rw [hres] at hv3
        cases hv3
        exact ⟨hvu, hvN, nd, ei, hnd, hs, hei, ht, rfl⟩
      · left
        refine ⟨hvu, hvN, ?_⟩
        have hlt : v < g.nodes.length := by
          rw [← PathGraph.skel_nodes_length hsk3]
          exact getElem?_lt hv3
        obtain ⟨nd, hnd⟩ := getElem?_of_lt hlt
        have hnd2 : g2.nodes[v]? = some nd := by rw [hnode2ne v hvu]; exact hnd
        have : g3.nodes[v]? = some nd := by
          apply hspec.keep v nd hnd2
          by_cases hs : nd.state = PathNodeState.NotFound
          · right
            intro ei hei ht
            exact hvN ((hN v).2 ⟨hvu, (hT v).1 ⟨ei, hei, ht⟩, nd, hnd, hs⟩)
          · exact Or.inl hs
        rw [this] at hv3
        cases hv3
        exact hnd
  have hedge3 : ∀ (ej : Nat) (e : PathEdge), g.edges[ej]? = some e →
      ∃ e3 : PathEdge, g3.edges[ej]? = some e3 ∧ e3.from_node_index = e.from_node_index ∧
        e3.to_node_index = e.to_node_index := by
    intro ej e he
    obtain ⟨e3, he3⟩ : ∃ e3, g3.edges[ej]? = some e3 := by
      apply getElem?_of_lt
      rw [PathGraph.skel_edges_length hsk3]
      exact getElem?_lt he
    obtain ⟨e', he', hf, ht⟩ := PathGraph.skel_edges hsk3 he3
    rw [he] at he'
    cases he'
    exact ⟨e3, he3, hf.symm, ht.symm⟩
  have hvis3 : ∀ (x : Nat) (nd : PathNode), g.nodes[x]? = some nd →
      nd.state = PathNodeState.Visited →
      ∃ nd3 : PathNode, g3.nodes[x]? = some nd3 ∧ nd3.state = PathNodeState.Visited := by
    intro x nd hx hs
    by_cases hxu : x = u
    · subst hxu
      exact ⟨node, hu3, rfl⟩
    · exact ⟨nd, hkeep x nd hx (by rw [hs]; simp) hxu, hs⟩
  have hnf3 : ∀ (x : Nat) (nd : PathNode), g.nodes[x]? = some nd →
      nd.state ≠ PathNodeState.NotFound →
      ∃ nd3 : PathNode, g3.nodes[x]? = some nd3 ∧ nd3.state ≠ PathNodeState.NotFound := by
    intro x nd hx hs
    by_cases hxu : x = u
    · subst hxu
      exact ⟨node, hu3, by simp [node]⟩
    · exact ⟨nd, hkeep x nd hx hs hxu, hs⟩
  have hdistN : ∀ x ∈ N, IsDist g.ends g.start_node x (k + 1) := by
    intro x hx
    obtain ⟨hxu, hxe, nd, hnd, hs⟩ := (hN x).1 hx
    obtain ⟨d, hd⟩ := @exists_isDist g.ends g.start_node x
      ⟨k + 1, Walk.step hdu.1 hxe⟩
    have hle : d ≤ k + 1 := IsDist.succ_le hdu hxe hd
    by_cases hdk : d ≤ k
    · exfalso
      rcases h.complete x d hd hdk with hq | ⟨nd', hnd', hs'⟩
      · obtain ⟨nd', hnd', hs'⟩ := h.queue_state x hq
        simp only at hnd'
        rw [hnd] at hnd'
        cases hnd'
        rcases hs' with hs' | ⟨_, hxs, hinit⟩
        · rw [hs] at hs'; cases hs'
        · have : u = g.start_node := by
            have := (List.cons.inj hinit).1
            exact this
          exact hxu (hxs.trans this.symm)
      · simp only at hnd'
        rw [hnd] at hnd'
        cases hnd'
        rw [hs] at hs'
        cases hs'
    · have : d = k + 1 := by omega
      rw [← this]
      exact hd
  refine ⟨{ m_graph := g3, m_unvisited_node_queue := q3, m_first_step := f0, m_found_end := e0 },
    N, ?_, ?_, ?_, hsk3⟩
  · exact BFSGraphAlgorithm.nextStep_scan h.first h.not_found h.queue_eq hnode0 hend0 hmark hscan
  · constructor
    · exact hwf.of_skel hsk3
    · exact h.first
    · exact h.not_found
    · show q3 = A ++ (B ++ N)
      rw [hq3, List.append_assoc]
    · rw [← List.append_assoc]
      refine List.nodup_append.2 ⟨hnd0.of_cons, hNnd, ?_⟩
      intro x hx hxN
      obtain ⟨_, _, nd, hnd, hs⟩ := (hN x).1 hxN
      obtain ⟨nd', hnd', hs'⟩ := h.queue_state x (List.mem_cons_of_mem _ hx)
      simp only at hnd'
      rw [hnd] at hnd'
      cases hnd'
      rcases hs' with hs' | ⟨_, _, hinit⟩
      · rw [hs] at hs'; cases hs'
      · exact hnotinit x hx hinit
    · intro a ha
      show IsDist g3.ends g3.start_node a k
      rw [hends3, hstart3]
      exact h.distA a (List.mem_cons_of_mem _ ha)
    · intro b hb
      show IsDist g3.ends g3.start_node b (k + 1)
      rw [hends3, hstart3]
      rcases List.mem_append.1 hb with hb | hb
      · exact h.distB b hb
      · exact hdistN b hb
    · intro v nd3 hv3
      rcases hcase v nd3 hv3 with ⟨_, hn⟩ | ⟨_, _, hn⟩ | ⟨_, _, nd, ei, _, _, _, _, hn⟩
      · rw [hn]; simp [node]
      · exact h.no_osp_node v nd3 hn
      · rw [hn]; simp
    · intro ej e3 he3
      rcases hspec.edges ej e3 he3 with hp | he2
      · rw [hp]; simp
      · rcases hedges2 ej e3 he2 with hp | he1
        · rw [hp]; simp
        · exact h.no_osp_edge ej e3 he1
    · intro v nd3 hv3 hs3
      rw [← List.append_assoc]
      rcases hcase v nd3 hv3 with ⟨_, hn⟩ | ⟨hvu, _, hn⟩ | ⟨_, hvN, _⟩
      · rw [hn] at hs3; cases hs3
      · have := h.found_queue v nd3 hn hs3
        rcases List.mem_cons.1 this with hv | hv
        · exact absurd hv hvu
        · exact List.mem_append_left _ hv
      · exact List.mem_append_right _ hvN
    · intro v hv
      rw [← List.append_assoc] at hv
      rcases List.mem_append.1 hv with hv | hv
      · obtain ⟨nd, hnd, hs⟩ := h.queue_state v (List.mem_cons_of_mem _ hv)
        rcases hs with hs | ⟨_, _, hinit⟩
        · exact ⟨nd, hkeep v nd hnd (by rw [hs]; simp) (hune v hv), Or.inl hs⟩
        · exact absurd hinit (hnotinit v hv)
      · obtain ⟨nd, ei, _, _, _, _, hres⟩ := hfoundN v hv
        exact ⟨_, hres, Or.inl rfl⟩
    · intro v nd3 hv3 hs3 hvs
      show ∃ (e : PathEdge) (unode : PathNode) (d : Nat),
        g3.edges[nd3.entered_by]? = some e ∧ e.to_node_index = v ∧
        g3.nodes[e.from_node_index]? = some unode ∧ unode.state = PathNodeState.Visited ∧
        IsDist g3.ends g3.start_node e.from_node_index d ∧
        IsDist g3.ends g3.start_node v (d + 1)
      rw [hstart3] at hvs
      rw [hends3, hstart3]
      have hold : ∀ nd : PathNode, g.nodes[v]? = some nd → nd.state ≠ PathNodeState.NotFound →
          nd3.entered_by = nd.entered_by →
          ∃ (e : PathEdge) (unode : PathNode) (d : Nat),
            g3.edges[nd3.entered_by]? = some e ∧ e.to_node_index = v ∧
            g3.nodes[e.from_node_index]? = some unode ∧ unode.state = PathNodeState.Visited ∧
            IsDist g.ends g.start_node e.from_node_index d ∧
            IsDist g.ends g.start_node v (d + 1) := by
        intro nd hnd hs hent
        obtain ⟨e, unode, d, he, hto, hun, hus, hd1, hd2⟩ := h.parent v nd hnd hs hvs
        obtain ⟨e3, he3, hf3, ht3⟩ := hedge3 _ e he
        obtain ⟨un3, hun3, hus3⟩ := hvis3 _ unode hun hus
        refine ⟨e3, un3, d, by rw [hent]; exact he3, by rw [ht3]; exact hto,
          by rw [hf3]; exact hun3, hus3, by rw [hf3]; exact hd1, hd2⟩
      rcases hcase v nd3 hv3 with ⟨hvu, hn⟩ | ⟨_, _, hn⟩ | ⟨hvu, hvN, nd, ei, hnd, _, hei, ht, hn⟩
      · subst hvu
        have hs0 : node0.state ≠ PathNodeState.NotFound := by
          rcases hstate0 with hs | ⟨_, hs, _⟩
          · rw [hs]; simp
          · exact absurd hs hvs
        exact hold node0 hnode0 hs0 (by rw [hn])
      · exact hold nd3 hn hs3 rfl
      · obtain ⟨e2, he2, hto2⟩ := PathGraph.targetOf_eq_some.1 ht
        obtain ⟨e2', he2', hfrom2⟩ := hwf2.adj_sound u node ei hnode2u hei
        rw [he2] at he2'
        cases he2'
        obtain ⟨e3, he3⟩ : ∃ e3, g3.edges[ei]? = some e3 := by
          apply getElem?_of_lt
          rw [PathGraph.skel_edges_length hspec.skel]
          exact getElem?_lt he2
        obtain ⟨e', he', hf, ht'⟩ := PathGraph.skel_edges hspec.skel he3
        rw [he2] at he'
        cases he'
        refine ⟨e3, node, k, by rw [hn]; exact he3, by rw [← ht']; exact hto2, ?_, rfl, ?_, ?_⟩
        · rw [← hf, hfrom2]; exact hu3
        · rw [← hf, hfrom2]; exact hdu
        · exact hdistN v hvN
    · intro v nd3 hv3 hs3
      show ∃ d, d ≤ k ∧ IsDist g3.ends g3.start_node v d
      rw [hends3, hstart3]
      rcases hcase v nd3 hv3 with ⟨hvu, _⟩ | ⟨_, _, hn⟩ | ⟨_, _, nd, ei, _, _, _, _, hn⟩
      · subst hvu
        exact ⟨k, Nat.le_refl _, hdu⟩
      · exact h.visited_dist v nd3 hn hs3
      · rw [hn] at hs3; cases hs3
    · intro v d hd hdk
      rw [← List.append_assoc]
      have hd' : IsDist g.ends g.start_node v d := by
        have : IsDist g3.ends g3.start_node v d := hd
        rw [hends3, hstart3] at this
        exact this
      rcases h.complete v d hd' hdk with hq | ⟨nd, hnd, hs⟩
      · rcases List.mem_cons.1 hq with hv | hv
        · subst hv
          exact Or.inr ⟨node, hu3, rfl⟩
        · exact Or.inl (List.mem_append_left _ hv)
      · exact Or.inr (hvis3 v nd hnd hs)
    · intro x nd3 hx3 hs3 w hxw
      have hxw' : (x, w) ∈ g.ends := by
        have : (x, w) ∈ g3.ends := hxw
        rw [hends3] at this
        exact this
      show ∃ wnode : PathNode, g3.nodes[w]? = some wnode ∧ wnode.state ≠ PathNodeState.NotFound
      rcases hcase x nd3 hx3 with ⟨hxu, _⟩ | ⟨_, _, hn⟩ | ⟨_, _, nd, ei, _, _, _, _, hn⟩
      · subst hxu
        obtain ⟨ei, e, he, hf, ht⟩ := PathGraph.mem_ends.1 hxw'
        have hlt : w < g.nodes.length := by rw [← ht]; exact hwf.to_lt ei e he
        obtain ⟨ndw, hndw⟩ := getElem?_of_lt hlt
        by_cases hsw : ndw.state = PathNodeState.NotFound
        · by_cases hwu : w = x
          · subst hwu
            exact ⟨node, hu3, by simp [node]⟩
          · obtain ⟨nd, ej, _, _, _, _, hres⟩ := hfoundN w ((hN w).2 ⟨hwu, hxw', ndw, hndw, hsw⟩)
            exact ⟨_, hres, by simp⟩
        · exact hnf3 w ndw hndw hsw
      · obtain ⟨wnode, hw, hws⟩ := h.closed x nd3 hn hs3 w hxw'
        exact hnf3 w wnode hw hws
      · rw [hn] at hs3; cases hs3
    · intro nd3 hnd3
      have hnd3' : g3.nodes[g.end_node]? = some nd3 := by
        have : g3.nodes[g3.end_node]? = some nd3 := hnd3
        rw [hend3] at this
        exact this
      rcases hcase _ nd3 hnd3' with ⟨hvu, _⟩ | ⟨_, _, hn⟩ | ⟨_, _, nd, ei, _, _, _, _, hn⟩
      · exact absurd hvu.symm hu
      · exact h.end_fresh nd3 hn
      · rw [hn]; simp
  · show g3.unvisited + 1 = g.unvisited
    have h1 : g1.unvisited + 1 = g.unvisited :=
      PathGraph.unvisited_set_visited g hnode0 hnv0 rfl
    have h2 : g2.unvisited = g1.unvisited := by
      unfold PathGraph.unvisited
      rw [hnodes2]
    have h3 : g3.unvisited = g2.unvisited := by
      apply PathGraph.unvisited_congr
      intro v
      cases hv2 : g2.nodes[v]? with
      | none =>
        have : g3.nodes[v]? = none := by
          rw [List.getElem?_eq_none_iff] at hv2 ⊢
          rw [PathGraph.skel_nodes_length hspec.skel]
          exact hv2
        rw [this]
      | some nd2 =>
        by_cases hc : nd2.state = PathNodeState.NotFound ∧
            ∃ ei ∈ node0.edges, g2.targetOf ei = some v
        · obtain ⟨_, _, _, hres⟩ := hspec.found v nd2 hv2 hc.1 hc.2
          rw [hres]
          simp [hc.1]
        · have : g3.nodes[v]? = some nd2 := by
            apply hspec.keep v nd2 hv2
            by_cases hs : nd2.state = PathNodeState.NotFound
            · right
              intro ei hei ht
              exact hc ⟨hs, ei, hei, ht⟩
            · exact Or.inl hs
          rw [this]
    omega

/-! ## Shortest distances are smaller than the number of nodes -/

theorem IsDist.prefix {E : List (Nat × Nat)} {s : Nat} :
    ∀ (d v : Nat), IsDist E s v d → ∀ j, j ≤ d → ∃ x, IsDist E s x j := by
  intro d
  induction d with
  | zero =>
    intro v h j hj
    have : j = 0 := by omega
    subst this
    exact ⟨v, h⟩
  | succ d ih =>
    intro v h j hj
    by_cases hjd : j = d + 1
    · subst hjd
      exact ⟨v, h⟩
    · obtain ⟨x, hx, _⟩ := h.pred
      exact ih x hx j (by omega)

theorem IsDist.node_lt {g : PathGraph} (hwf : g.WF) {v d : Nat}
    (h : IsDist g.ends g.start_node v d) : v < g.nodes.length := by
  cases d with
  | zero =>
    rw [h.eq_start]
    exact hwf.start_lt
  | succ d =>
    obtain ⟨x, _, hxe⟩ := h.pred
    obtain ⟨ei, e, he, _, ht⟩ := PathGraph.mem_ends.1 hxe
    rw [← ht]
    exact hwf.to_lt ei e he

theorem IsDist.lt_length {g : PathGraph} (hwf : g.WF) {v d : Nat}
    (h : IsDist g.ends g.start_node v d) : d < g.nodes.length := by
  by_contra hge
  have hge : g.nodes.length ≤ d := Nat.le_of_not_lt hge
  have hex : ∀ j : Fin (g.nodes.length + 1), ∃ x : Fin g.nodes.length,
      IsDist g.ends g.start_node x.1 j.1 := by
    intro j
    obtain ⟨x, hx⟩ := IsDist.prefix d v h j.1 (by have := j.2; omega)
    exact ⟨⟨x, IsDist.node_lt hwf hx⟩, hx⟩
  choose f hf using hex
  have hinj : Function.Injective f := by
    intro a b hab
    have h1 := hf a
    have h2 := hf b
    rw [hab] at h1
    exact Fin.ext (IsDist.unique h1 h2)
  have := Fintype.card_le_of_injective f hinj
  simp at this

/-! ## Paths -/

theorem PathFrom.walk {E : List (Nat × Nat)} {s v : Nat} {P V : List Nat}
    (h : PathFrom E s v P V) : Walk E s v P.length := by
  induction h with
  | nil => exact Walk.refl s
  | snoc _ he ih =>
    rw [List.length_append]
    exact Walk.step ih (List.getElem?_mem he)

theorem PathFrom.length_eq {E : List (Nat × Nat)} {s v : Nat} {P V : List Nat}
    (h : PathFrom E s v P V) : P.length = V.length := by
  induction h with
  | nil => rfl
  | snoc _ _ ih => simp [ih]

/-! ## The backtracking loop -/

theorem ParentLinks.of_marked {g g1 : PathGraph} (h : ParentLinks g) (hsk : g1.skel = g.skel)
    (hnodes : ∀ (v : Nat) (nd1 : PathNode), g1.nodes[v]? = some nd1 →
      ∃ nd : PathNode, g.nodes[v]? = some nd ∧ nd.entered_by = nd1.entered_by ∧
        (nd1.state ≠ PathNodeState.NotFound → nd.state ≠ PathNodeState.NotFound))
    (hback : ∀ (v : Nat) (nd : PathNode), g.nodes[v]? = some nd →
      nd.state ≠ PathNodeState.NotFound →
      ∃ nd1 : PathNode, g1.nodes[v]? = some nd1 ∧ nd1.state ≠ PathNodeState.NotFound) :
    ParentLinks g1 := by
  intro v nd1 hv1 hs1 hvs
  rw [PathGraph.skel_start hsk] at hvs
  rw [PathGraph.skel_ends hsk, PathGraph.skel_start hsk]
  obtain ⟨nd, hnd, hent, hst⟩ := hnodes v nd1 hv1
  obtain ⟨e, unode, d, he, hto, hun, hus, hd1, hd2⟩ := h v nd hnd (hst hs1) hvs
  obtain ⟨e1, he1⟩ : ∃ e1, g1.edges[nd1.entered_by]? = some e1 := by
    apply getElem?_of_lt
    rw [PathGraph.skel_edges_length hsk, ← hent]
    exact getElem?_lt he
  obtain ⟨e', he', hf, ht⟩ := PathGraph.skel_edges hsk he1
  rw [← hent, he] at he'
  cases he'
  obtain ⟨un1, hun1, hus1⟩ := hback _ unode hun hus
  exact ⟨e1, un1, d, he1, by rw [← ht]; exact hto, by rw [← hf]; exact hun1, hus1,
    by rw [← hf]; exact hd1, hd2⟩

theorem BFSGraphAlgorithm.backtrack_spec :
    ∀ (d fuel : Nat) (g : PathGraph) (i : Nat) (e : PathEdge), d < fuel → g.WF → ParentLinks g →
      g.edges[i]? = some e →
      (∃ unode : PathNode, g.nodes[e.from_node_index]? = some unode ∧
        unode.state ≠ PathNodeState.NotFound) →
      IsDist g.ends g.start_node e.from_node_index d →
      ∃ (g1 : PathGraph) (P V : List Nat), BFSGraphAlgorithm.backtrack fuel g i = .ok g1 ∧
        g1.skel = g.skel ∧ PathFrom g.ends g.start_node e.from_node_index P V ∧ P.length = d ∧
        (∀ (ej : Nat) (ee : PathEdge), g.edges[ej]? = some ee →
          g1.edges[ej]? = some (if ej ∈ P ++ [i] then
            { ee with state := PathEdgeState.OnShortestPath } else ee)) ∧
        (∀ (v : Nat) (nd : PathNode), g.nodes[v]? = some nd →
          g1.nodes[v]? = some (if v ∈ V then
            { nd with state := PathNodeState.OnShortestPath } else nd)) := by
  intro d
  induction d with
  | zero =>
    intro fuel g i e hfuel hwf _ he hun hd
    obtain ⟨unode, hunode, _⟩ := hun
    obtain ⟨fuel, rfl⟩ : ∃ f, fuel = f + 1 := ⟨fuel - 1, by omega⟩
    have hfrom : e.from_node_index = g.start_node := hd.eq_start
    have hflag : unode.is_start_node = true := by
      rw [(hwf.flags _ unode hunode).1]; simp [hfrom]
    refine ⟨{ g with edges := g.edges.set i { e with state := PathEdgeState.OnShortestPath } },
      [], [], ?_, PathGraph.skel_set_edge g he rfl rfl, ?_, rfl, ?_, ?_⟩
    · simp only [BFSGraphAlgorithm.backtrack, he, hunode, hflag, if_true]
    · rw [hfrom]; exact PathFrom.nil
    · intro ej ee hej
      show (g.edges.set i _)[ej]? = _
      by_cases hij : i = ej
      · subst hij
        rw [List.getElem?_set_self (getElem?_lt he)]
        rw [he] at hej
        cases hej
        simp
      · rw [List.getElem?_set_ne hij, hej]
        have : ej ∉ ([] : List Nat) ++ [i] := by simp [Ne.symm hij]
        rw [if_neg this]
    · intro v nd hv
      simpa using hv
  | succ d ih =>
    intro fuel g i e hfuel hwf hpl he hun hd
    obtain ⟨unode, hunode, hustate⟩ := hun
    obtain ⟨fuel, rfl⟩ : ∃ f, fuel = f + 1 := ⟨fuel - 1, by omega⟩
    have hfrom : e.from_node_index ≠ g.start_node := by
      intro heq
      rw [heq] at hd
      have := IsDist.unique hd (IsDist.self _ _)
      omega
    have hflag : unode.is_start_node = false := by
      rw [(hwf.flags _ unode hunode).1]; simp [hfrom]
    obtain ⟨e', unode', d', he', hto', hun', hus', hd1', hd2'⟩ :=
      hpl _ unode hunode hustate hfrom
    have hdd : d' = d := by
      have := IsDist.unique hd hd2'
      omega
    rw [hdd] at hd1' hd2'
    let ga : PathGraph :=
      { g with edges := g.edges.set i { e with state := PathEdgeState.OnShortestPath } }
    have hska : ga.skel = g.skel := PathGraph.skel_set_edge g he rfl rfl
    let unode1 : PathNode := { unode with state := PathNodeState.OnShortestPath }
    let g0 : PathGraph := { ga with nodes := ga.nodes.set e.from_node_index unode1 }
    have hsk0 : g0.skel = g.skel := by
      have : g0.skel = ga.skel := @PathGraph.skel_set_node ga _ unode _ hunode rfl rfl rfl
      rw [this, hska]
    have hnode0 : ∀ (v : Nat) (nd : PathNode), g.nodes[v]? = some nd →
        g0.nodes[v]? = some (if v = e.from_node_index then
          { nd with state := PathNodeState.OnShortestPath } else nd) := by
      intro v nd hv
      show (g.nodes.set e.from_node_index unode1)[v]? = _
      by_cases hvu : v = e.from_node_index
      · subst hvu
        rw [List.getElem?_set_self (getElem?_lt hunode)]
        rw [hunode] at hv
        cases hv
        simp [unode1]
      · rw [List.getElem?_set_ne (Ne.symm hvu), hv, if_neg hvu]
    have hedge0 : ∀ (ej : Nat) (ee : PathEdge), g.edges[ej]? = some ee →
        g0.edges[ej]? = some (if ej = i then
          { ee with state := PathEdgeState.OnShortestPath } else ee) := by
      intro ej ee hej
      show (g.edges.set i _)[ej]? = _
      by_cases hij : ej = i
      · subst hij
        rw [List.getElem?_set_self (getElem?_lt he)]
        rw [he] at hej
        cases hej
        simp
      · rw [List.getElem?_set_ne (Ne.symm hij), hej, if_neg hij]
    have hpl0 : ParentLinks g0 := by
      apply hpl.of_marked hsk0
      · intro v nd1 hv1
        have hlt : v < g.nodes.length := by
          rw [← PathGraph.skel_nodes_length hsk0]
          exact getElem?_lt hv1
        obtain ⟨nd, hnd⟩ := getElem?_of_lt hlt
        have := hnode0 v nd hnd
        rw [hv1] at this
        cases this
        refine ⟨nd, hnd, ?_, ?_⟩
        · split <;> rfl
        · intro hs
          by_cases hvu : v = e.from_node_index
          · subst hvu
            rw [hunode] at hnd
            cases hnd
            exact hustate
          · rw [if_neg hvu] at hs
            exact hs
      · intro v nd hv hs
        refine ⟨_, hnode0 v nd hv, ?_⟩
        split
        · simp
        · exact hs
    have he0 := hedge0 _ e' he'
    have hun0 : ∃ un0 : PathNode, g0.nodes[e'.from_node_index]? = some un0 ∧
        un0.state ≠ PathNodeState.NotFound := by
      refine ⟨_, hnode0 _ unode' hun', ?_⟩
      split
      · simp
      · exact hus'
    have hd0 : IsDist g0.ends g0.start_node e'.from_node_index d := by
      rw [PathGraph.skel_ends hsk0, PathGraph.skel_start hsk0]
      exact hd1'
    obtain ⟨g1, P, V, hrun, hsk1, hpath, hlen, hedges, hnodes⟩ :=
      ih fuel g0 unode.entered_by _ (by omega) (hwf.of_skel hsk0) hpl0 he0
        (by
          obtain ⟨un0, h1, h2⟩ := hun0
          refine ⟨un0, ?_, h2⟩
          split <;> exact h1)
        (by split <;> exact hd0)
    have hpath' : PathFrom g.ends g.start_node e'.from_node_index P V := by
      have : PathFrom g0.ends g0.start_node e'.from_node_index P V := by
        revert hpath
        split <;> exact id
      rw [PathGraph.skel_ends hsk0, PathGraph.skel_start hsk0] at this
      exact this
    have hends : g.ends[unode.entered_by]? = some (e'.from_node_index, e.from_node_index) := by
      simp [PathGraph.ends, List.getElem?_map, he', hto']
    refine ⟨g1, P ++ [unode.entered_by], V ++ [e.from_node_index], ?_, hsk1.trans hsk0,
      PathFrom.snoc hpath' hends, by simp [hlen], ?_, ?_⟩
    · simp only [BFSGraphAlgorithm.backtrack, he, hunode]
      rw [if_neg (by rw [hflag]; simp)]
      exact hrun
    · intro ej ee hej
      rw [hedges ej _ (hedge0 ej ee hej)]
      by_cases hij : ej = i
      · subst hij
        simp
      · simp only [if_neg hij]
        by_cases hm : ej ∈ P ++ [unode.entered_by]
        · rw [if_pos hm, if_pos (List.mem_append_left _ hm)]
        · rw [if_neg hm, if_neg]
          intro hc
          rcases List.mem_append.1 hc with hc | hc
          · exact hm hc
          · exact hij (by simpa using hc)
    · intro v nd hv
      rw [hnodes v _ (hnode0 v nd hv)]
      by_cases hvu : v = e.from_node_index
      · subst hvu
        simp
      · simp only [if_neg hvu]
        by_cases hm : v ∈ V
        · rw [if_pos hm, if_pos (List.mem_append_left _ hm)]
        · rw [if_neg hm, if_neg]
          intro hc
          rcases List.mem_append.1 hc with hc | hc
          · exact hm hc
          · exact hvu (by simpa using hc)

/-! ## The step that dequeues the end node -/

theorem BFSInv.parentLinks {st : BFSGraphAlgorithm} {k : Nat} {A B : List Nat}
    (h : BFSInv st k A B) : ParentLinks st.m_graph := by
  intro v node hv hs hvs
  obtain ⟨e, unode, d, he, hto, hun, hus, hd1, hd2⟩ := h.parent v node hv hs hvs
  exact ⟨e, unode, d, he, hto, hun, by rw [hus]; simp, hd1, hd2⟩

theorem BFSInv.finish {fuel : Nat} {st : BFSGraphAlgorithm} {k u : Nat} {A B : List Nat}
    (h : BFSInv st k (u :: A) B) (hu : u = st.m_graph.end_node)
    (hfuel : ∀ d, IsDist st.m_graph.ends st.m_graph.start_node st.m_graph.end_node d →
      d ≤ fuel) :
    ∃ (st1 : BFSGraphAlgorithm) (P V : List Nat) (d : Nat),
      BFSGraphAlgorithm.nextStep fuel st = .ok (true, st1) ∧ BFSFound st1 P V d ∧
      st1.m_graph.skel = st.m_graph.skel := by
  obtain ⟨g, q0, f0, e0⟩ := st
  have hwf : g.WF := h.wf
  have hqu : u ∈ u :: A ++ B := List.mem_cons_self _ _
  obtain ⟨node0, hnode0, hstate0⟩ := h.queue_state u hqu
  simp only at hnode0 hstate0 hu hfuel
  have hflags := hwf.flags u node0 hnode0
  have hend0 : node0.is_end_node = true := by rw [hflags.2]; simp [hu]
  have hdu : IsDist g.ends g.start_node u k := h.distA u (List.mem_cons_self _ _)
  let node : PathNode := { node0 with state := PathNodeState.Visited }
  let g1 : PathGraph := { g with nodes := g.nodes.set u node }
  have hsk1 : g1.skel = g.skel := PathGraph.skel_set_node g hnode0 rfl rfl rfl
  have hmarkpre : node.is_start_node = true ∨
      ∃ e : PathEdge, g1.edges[node.entered_by]? = some e := by
    by_cases hus : u = g.start_node
    · left
      show node0.is_start_node = true
      rw [hflags.1]; simp [hus]
    · right
      have hs0 : node0.state ≠ PathNodeState.NotFound := by
        rcases hstate0 with hs | ⟨_, hs, _⟩
        · rw [hs]; simp
        · exact absurd hs hus
      obtain ⟨e, _, _, he, _⟩ := h.parent u node0 hnode0 hs0 hus
      exact ⟨e, he⟩
  obtain ⟨g2, hmark, hnodes2, hsk2, hedges2⟩ := BFSGraphAlgorithm.markUsed_spec hmarkpre
  have hsk2g : g2.skel = g.skel := hsk2.trans hsk1
  have hwf2 : g2.WF := hwf.of_skel hsk2g
  have hnode2 : ∀ (v : Nat) (nd : PathNode), g.nodes[v]? = some nd →
      g2.nodes[v]? = some (if v = u then node else nd) := by
    intro v nd hv
    rw [hnodes2]
    show (g.nodes.set u node)[v]? = _
    by_cases hvu : v = u
    · subst hvu
      rw [List.getElem?_set_self (getElem?_lt hnode0), if_pos rfl]
    · rw [List.getElem?_set_ne (Ne.symm hvu), hv, if_neg hvu]
  have hnode2' : ∀ (v : Nat) (nd2 : PathNode), g2.nodes[v]? = some nd2 →
      ∃ nd : PathNode, g.nodes[v]? = some nd ∧ nd2 = if v = u then node else nd := by
    intro v nd2 hv2
    have hlt : v < g.nodes.length := by
      rw [← PathGraph.skel_nodes_length hsk2g]
      exact getElem?_lt hv2
    obtain ⟨nd, hnd⟩ := getElem?_of_lt hlt
    have := hnode2 v nd hnd
    rw [hv2] at this
    cases this
    exact ⟨nd, hnd, rfl⟩
  have hnosp2 : ∀ (v : Nat) (nd2 : PathNode), g2.nodes[v]? = some nd2 →
      nd2.state ≠ PathNodeState.OnShortestPath := by
    intro v nd2 hv2
    obtain ⟨nd, hnd, heq⟩ := hnode2' v nd2 hv2
    rw [heq]
    split
    · simp [node]
    · exact h.no_osp_node v nd hnd
  have hnoospe2 : ∀ (ej : Nat) (e2 : PathEdge), g2.edges[ej]? = some e2 →
      e2.state ≠ PathEdgeState.OnShortestPath := by
    intro ej e2 he2
    rcases hedges2 ej e2 he2 with hp | he1
    · rw [hp]; simp
    · exact h.no_osp_edge ej e2 he1
  by_cases hus : u = g.start_node
  · -- start and end coincide
    have hstart0 : node0.is_start_node = true := by rw [hflags.1]; simp [hus]
    let node3 : PathNode := { node0 with state := PathNodeState.OnShortestPath }
    let g3 : PathGraph := { g2 with nodes := g2.nodes.set u node3 }
    have hnode2u : g2.nodes[u]? = some node := by
      have := hnode2 u node0 hnode0
      rwa [if_pos rfl] at this
    have hsk3 : g3.skel = g.skel := by
      have : g3.skel = g2.skel := @PathGraph.skel_set_node g2 _ node _ hnode2u rfl rfl rfl
      rw [this, hsk2g]
    have hse : g.start_node = g.end_node := by rw [← hus, ← hu]
    refine ⟨{ m_graph := g3, m_unvisited_node_queue := A ++ B, m_first_step := f0,
              m_found_end := true }, [], [], 0, ?_, ?_, hsk3⟩
    · exact BFSGraphAlgorithm.nextStep_end_start h.first h.not_found h.queue_eq hnode0 hend0
        hstart0 hmark
    · constructor
      · exact hwf.of_skel hsk3
      · exact h.first
      · rfl
      · show PathFrom g3.ends g3.start_node g3.end_node [] []
        rw [PathGraph.skel_end hsk3, PathGraph.skel_start hsk3, ← hse]
        exact PathFrom.nil
      · rfl
      · show IsDist g3.ends g3.start_node g3.end_node 0
        rw [PathGraph.skel_end hsk3, PathGraph.skel_start hsk3, ← hse]
        exact IsDist.self _ _
      · intro ej e3 he3
        have : e3.state ≠ PathEdgeState.OnShortestPath := hnoospe2 ej e3 he3
        simp [this]
      · intro hne
        exact absurd (by
          show g3.start_node = g3.end_node
          rw [PathGraph.skel_end hsk3, PathGraph.skel_start hsk3]; exact hse) hne
      · intro _ v nd3 hv3
        show nd3.state = PathNodeState.OnShortestPath ↔ v = g3.start_node
        rw [PathGraph.skel_start hsk3, ← hus]
        have hv3' : (g2.nodes.set u node3)[v]? = some nd3 := hv3
        rcases getElem?_set_some hv3' with ⟨hvu, hb, _⟩ | ⟨hvu, hb⟩
        · rw [hb]
          simp [node3, hvu.symm]
        · have := hnosp2 v nd3 hb
          simp [this, Ne.symm hvu]
  · -- the end node was entered through an edge
    have hstart0 : node0.is_start_node = false := by rw [hflags.1]; simp [hus]
    have hs0 : node0.state ≠ PathNodeState.NotFound := by
      rcases hstate0 with hs | ⟨_, hs, _⟩
      · rw [hs]; simp
      · exact absurd hs hus
    obtain ⟨e, unode, d, he, hto, hun, hustate, hd1, hd2⟩ := h.parent u node0 hnode0 hs0 hus
    simp only at he hun hd1 hd2
    obtain ⟨e2, he2⟩ : ∃ e2, g2.edges[node0.entered_by]? = some e2 := by
      apply getElem?_of_lt
      rw [PathGraph.skel_edges_length hsk2g]
      exact getElem?_lt he
    obtain ⟨e', he', hf2, ht2⟩ := PathGraph.skel_edges hsk2g he2
    rw [he] at he'
    cases he'
    have hpl2 : ParentLinks g2 := by
      apply h.parentLinks.of_marked hsk2g
      · intro v nd2 hv2
        obtain ⟨nd, hnd, heq⟩ := hnode2' v nd2 hv2
        refine ⟨nd, hnd, ?_, ?_⟩
        · rw [heq]
          split
          · rename_i hvu
            subst hvu
            rw [hnode0] at hnd
            cases hnd
            rfl
          · rfl
        · intro hs
          by_cases hvu : v = u
          · subst hvu
            rw [hnode0] at hnd
            cases hnd
            exact hs0
          · rw [heq, if_neg hvu] at hs
            exact hs
      · intro v nd hv hs
        refine ⟨_, hnode2 v nd hv, ?_⟩
        split
        · simp [node]
        · exact hs
    have hdk : d + 1 ≤ fuel := hfuel (d + 1) (by rw [← hu]; exact hd2)
    have hun2 : ∃ un2 : PathNode, g2.nodes[e2.from_node_index]? = some un2 ∧
        un2.state ≠ PathNodeState.NotFound := by
      rw [← hf2]
      refine ⟨_, hnode2 _ unode hun, ?_⟩
      split
      · simp [node]
      · rw [hustate]; simp
    have hd2' : IsDist g2.ends g2.start_node e2.from_node_index d := by
      rw [PathGraph.skel_ends hsk2g, PathGraph.skel_start hsk2g, ← hf2]
      exact hd1
    obtain ⟨g3, P, V, hrun, hsk3, hpath, hlen, hedges, hnodes⟩ :=
      BFSGraphAlgorithm.backtrack_spec d fuel g2 node0.entered_by e2 (by omega) hwf2 hpl2 he2
        hun2 hd2'
    have hsk3g : g3.skel = g.skel := hsk3.trans hsk2g
    have hends : g.ends[node0.entered_by]? = some (e.from_node_index, u) := by
      simp [PathGraph.ends, List.getElem?_map, he, hto]
    have hpath' : PathFrom g.ends g.start_node e.from_node_index P V := by
      rw [PathGraph.skel_ends hsk2g, PathGraph.skel_start hsk2g, ← hf2] at hpath
      exact hpath
    refine ⟨{ m_graph := g3, m_unvisited_node_queue := A ++ B, m_first_step := f0,
              m_found_end := true }, P ++ [node0.entered_by], V ++ [u], d + 1, ?_, ?_, hsk3g⟩
    · exact BFSGraphAlgorithm.nextStep_end h.first h.not_found h.queue_eq hnode0 hend0
        hstart0 hmark hrun
    · constructor
      · exact hwf.of_skel hsk3g
      · exact h.first
      · rfl
      · show PathFrom g3.ends g3.start_node g3.end_node _ _
        rw [PathGraph.skel_ends hsk3g, PathGraph.skel_start hsk3g, PathGraph.skel_end hsk3g, ← hu]
        exact PathFrom.snoc hpath' hends
      · simp [hlen]
      · show IsDist g3.ends g3.start_node g3.end_node _
        rw [PathGraph.skel_ends hsk3g, PathGraph.skel_start hsk3g, PathGraph.skel_end hsk3g, ← hu]
        exact hd2
      · intro ej e3 he3
        have hlt : ej < g2.edges.length := by
          rw [← PathGraph.skel_edges_length hsk3]
          exact getElem?_lt he3
        obtain ⟨ee, hee⟩ := getElem?_of_lt hlt
        have := hedges ej ee hee
        have he3' : g3.edges[ej]? = some e3 := he3
        rw [he3'] at this
        cases this
        have hno := hnoospe2 ej ee hee
        split
        · rename_i hm; simp [hm]
        · rename_i hm; simp [hm, hno]
      · intro _ v nd3 hv3
        rw [List.dropLast_concat]
        have hlt : v < g2.nodes.length := by
          rw [← PathGraph.skel_nodes_length hsk3]
          exact getElem?_lt hv3
        obtain ⟨nd2, hnd2⟩ := getElem?_of_lt hlt
        have := hnodes v nd2 hnd2
        have hv3' : g3.nodes[v]? = some nd3 := hv3
        rw [hv3'] at this
        cases this
        have hno := hnosp2 v nd2 hnd2
        split
        · rename_i hm; simp [hm]
        · rename_i hm; simp [hm, hno]
      · intro hse
        exfalso
        apply hus
        have : g3.start_node = g3.end_node := hse
        rw [PathGraph.skel_start hsk3g, PathGraph.skel_end hsk3g] at this
        rw [hu, this]

/-! ## Running to completion -/

theorem BFSGraphAlgorithm.runUntilFalse_false {fuel : Nat} {st st1 : BFSGraphAlgorithm}
    (h : BFSGraphAlgorithm.nextStep fuel st = .ok (false, st1)) :
    ∀ budget, 1 ≤ budget → BFSGraphAlgorithm.runUntilFalse fuel budget st = .ok (1, st1) := by
  intro budget hb
  obtain ⟨b, rfl⟩ : ∃ b, budget = b + 1 := ⟨budget - 1, by omega⟩
  simp only [BFSGraphAlgorithm.runUntilFalse, h]

theorem BFSGraphAlgorithm.runUntilFalse_true {fuel cnt : Nat} {st st1 st2 : BFSGraphAlgorithm}
    (h : BFSGraphAlgorithm.nextStep fuel st = .ok (true, st1))
    (h2 : ∀ budget, cnt ≤ budget →
      BFSGraphAlgorithm.runUntilFalse fuel budget st1 = .ok (cnt, st2)) :
    ∀ budget, cnt + 1 ≤ budget →
      BFSGraphAlgorithm.runUntilFalse fuel budget st = .ok (cnt + 1, st2) := by
  intro budget hb
  obtain ⟨b, rfl⟩ : ∃ b, budget = b + 1 := ⟨budget - 1, by omega⟩
  simp only [BFSGraphAlgorithm.runUntilFalse, h, h2 b (by omega)]

theorem BFSInv.run (fuel : Nat) :
    ∀ (m : Nat) (st : BFSGraphAlgorithm) (k : Nat) (A B : List Nat), BFSInv st k A B →
      st.m_graph.unvisited < m →
      (∀ d, IsDist st.m_graph.ends st.m_graph.start_node st.m_graph.end_node d → d ≤ fuel) →
      ∃ (cnt : Nat) (st1 : BFSGraphAlgorithm), cnt ≤ m + 1 ∧
        (∀ budget, cnt ≤ budget →
          BFSGraphAlgorithm.runUntilFalse fuel budget st = .ok (cnt, st1)) ∧
        st1.m_graph.skel = st.m_graph.skel ∧
        ((∃ (P V : List Nat) (d : Nat), BFSFound st1 P V d) ∨ ∃ k1, BFSInv st1 k1 [] []) := by
  intro m
  induction m with
  | zero => intro st k A B _ hm; omega
  | succ m ih =>
    intro st k A B h hm hfuel
    -- bring the queue into the form `u :: A ++ B`
    have hnorm : (A = [] ∧ B = []) ∨ ∃ k1 u A1 B1, BFSInv st k1 (u :: A1) B1 := by
      cases A with
      | nil =>
        cases B with
        | nil => exact Or.inl ⟨rfl, rfl⟩
        | cons b B1 => exact Or.inr ⟨k + 1, b, B1, [], h.relevel⟩
      | cons a A1 => exact Or.inr ⟨k, a, A1, B, h⟩
    rcases hnorm with ⟨hA, hB⟩ | ⟨k1, u, A1, B1, h1⟩
    · subst hA; subst hB
      refine ⟨1, st, by omega, ?_, rfl, Or.inr ⟨k, h⟩⟩
      exact BFSGraphAlgorithm.runUntilFalse_false
        (BFSGraphAlgorithm.nextStep_empty h.first h.queue_eq)
    · by_cases hu : u = st.m_graph.end_node
      · obtain ⟨st1, P, V, d, hstep, hfound, hsk⟩ := h1.finish hu hfuel
        refine ⟨2, st1, by omega, ?_, hsk, Or.inl ⟨P, V, d, hfound⟩⟩
        exact BFSGraphAlgorithm.runUntilFalse_true hstep
          (BFSGraphAlgorithm.runUntilFalse_false
            (BFSGraphAlgorithm.nextStep_found hfound.first hfound.found))
      · obtain ⟨st1, N, hstep, hinv1, hcount, hsk⟩ := @BFSInv.step fuel _ _ _ _ _ h1 hu
        have hfuel1 : ∀ d, IsDist st1.m_graph.ends st1.m_graph.start_node
            st1.m_graph.end_node d → d ≤ fuel := by
          rw [PathGraph.skel_ends hsk, PathGraph.skel_start hsk, PathGraph.skel_end hsk]
          exact hfuel
        obtain ⟨cnt, st2, hcnt, hrun, hsk2, hres⟩ := ih st1 k1 A1 (B1 ++ N) hinv1 (by omega) hfuel1
        exact ⟨cnt + 1, st2, by omega, BFSGraphAlgorithm.runUntilFalse_true hstep hrun,
          hsk2.trans hsk, hres⟩

/-- When the queue runs empty every reachable node has been visited. -/
theorem BFSInv.exhausted_visited {st : BFSGraphAlgorithm} {k : Nat} (h : BFSInv st k [] []) :
    ∀ (v j : Nat), Walk st.m_graph.ends st.m_graph.start_node v j →
      ∃ node : PathNode, st.m_graph.nodes[v]? = some node ∧
        node.state = PathNodeState.Visited := by
  intro v j hw
  induction hw with
  | refl =>
    rcases h.complete _ 0 (IsDist.self _ _) (Nat.zero_le _) with hq | hv
    · cases hq
    · exact hv
  | step _ he ih =>
    obtain ⟨unode, hun, hus⟩ := ih
    obtain ⟨wnode, hw, hws⟩ := h.closed _ unode hun hus _ he
    refine ⟨wnode, hw, ?_⟩
    cases hst : wnode.state with
    | NotFound => exact absurd hst hws
    | Found =>
      have := h.found_queue _ wnode hw hst
      cases this
    | Visited => rfl
    | OnShortestPath => exact absurd hst (h.no_osp_node _ wnode hw)

theorem BFSInv.exhausted_unreachable {st : BFSGraphAlgorithm} {k : Nat} (h : BFSInv st k [] []) :
    ¬ Reachable st.m_graph.ends st.m_graph.start_node st.m_graph.end_node := by
  rintro ⟨j, hw⟩
  obtain ⟨node, hnode, hs⟩ := h.exhausted_visited _ j hw
  exact h.end_fresh node hnode hs

/-! ## Shortest paths are simple -/

theorem PathFrom.mem_nodes_walk {E : List (Nat × Nat)} {s v : Nat} {P V : List Nat}
    (h : PathFrom E s v P V) : ∀ x ∈ V, ∃ j, j ≤ P.length ∧ 0 < j ∧ Walk E s x j := by
  induction h with
  | nil => intro x hx; cases hx
  | @snoc v w ei P V hp he ih =>
    intro x hx
    rcases List.mem_append.1 hx with hx | hx
    · obtain ⟨j, hj, hj0, hw⟩ := ih x hx
      exact ⟨j, by simp; omega, hj0, hw⟩
    · have : x = w := by simpa using hx
      subst this
      exact ⟨_, by simp, by omega, Walk.step hp.walk (List.getElem?_mem he)⟩

theorem PathFrom.mem_edges_target {E : List (Nat × Nat)} {s v : Nat} {P V : List Nat}
    (h : PathFrom E s v P V) : ∀ ei ∈ P, ∃ a b, E[ei]? = some (a, b) ∧ b ∈ V := by
  induction h with
  | nil => intro x hx; cases hx
  | @snoc v w ei P V _ he ih =>
    intro x hx
    rcases List.mem_append.1 hx with hx | hx
    · obtain ⟨a, b, hab, hb⟩ := ih x hx
      exact ⟨a, b, hab, List.mem_append_left _ hb⟩
    · have : x = ei := by simpa using hx
      subst this
      exact ⟨_, _, he, by simp⟩

theorem PathFrom.nodup_of_shortest {E : List (Nat × Nat)} {s v : Nat} {P V : List Nat}
    (h : PathFrom E s v P V) :
    (∀ k, Walk E s v k → P.length ≤ k) → P.Nodup ∧ V.Nodup ∧ s ∉ V := by
  induction h with
  | nil => intro _; simp
  | @snoc v w ei P V hp he ih =>
    intro hmin
    have hminv : ∀ k, Walk E s v k → P.length ≤ k := by
      intro k hk
      have := hmin _ (Walk.step hk (List.getElem?_mem he))
      simp at this
      omega
    obtain ⟨hP, hV, hs⟩ := ih hminv
    have hwV : w ∉ V := by
      intro hw
      obtain ⟨j, hj, _, hwalk⟩ := hp.mem_nodes_walk w hw
      have := hmin j hwalk
      simp at this
      omega
    refine ⟨?_, ?_, ?_⟩
    · rw [List.nodup_append]
      refine ⟨hP, by simp, ?_⟩
      intro x hx hx'
      have : x = ei := by simpa using hx'
      subst this
      obtain ⟨a, b, hab, hb⟩ := hp.mem_edges_target x hx
      rw [he] at hab
      cases hab
      exact hwV hb
    · rw [List.nodup_append]
      refine ⟨hV, by simp, ?_⟩
      intro x hx hx'
      have : x = w := by simpa using hx'
      subst this
      exact hwV hx
    · intro hmem
      rcases List.mem_append.1 hmem with hm | hm
      · exact hs hm
      · have : s = w := by simpa using hm
        subst this
        have := hmin 0 (Walk.refl s)
        simp at this

/-! ## Counting marked edges -/

theorem PathGraph.edgesInState_length_eq {g : PathGraph} {s : PathEdgeState} {P : List Nat}
    (hP : P.Nodup) (hlt : ∀ ei ∈ P, ei < g.edges.length)
    (hiff : ∀ (ei : Nat) (e : PathEdge), g.edges[ei]? = some e → (e.state = s ↔ ei ∈ P)) :
    (g.edgesInState s).length = P.length := by
  apply List.Perm.length_eq
  unfold PathGraph.edgesInState
  rw [List.perm_ext_iff_of_nodup ((List.nodup_range _).filter _) hP]
  intro ei
  rw [List.mem_filter, List.mem_range]
  constructor
  · rintro ⟨hl, hd⟩
    obtain ⟨e, he⟩ := getElem?_of_lt hl
    rw [he] at hd
    simp only [Option.map_some', decide_eq_true_eq, Option.some.injEq] at hd
    exact (hiff ei e he).1 hd
  · intro hm
    have hl := hlt ei hm
    obtain ⟨e, he⟩ := getElem?_of_lt hl
    refine ⟨hl, ?_⟩
    rw [he]
    simp only [Option.map_some', decide_eq_true_eq, Option.some.injEq]
    exact (hiff ei e he).2 hm

/-! ## From a configuration to the end of the run -/

theorem PathGraph.unvisited_le (g : PathGraph) : g.unvisited ≤ g.nodes.length := by
  unfold PathGraph.unvisited
  have := List.count_le_length false
    (g.nodes.map (fun n => decide (n.state = PathNodeState.Visited)))
  simpa using this

theorem BFSGraphAlgorithm.nextStep_first (fuel : Nat) (g : PathGraph) :
    BFSGraphAlgorithm.nextStep fuel (BFSGraphAlgorithm.new g) =
      .ok (true, { m_graph := g, m_unvisited_node_queue := [g.start_node],
                   m_first_step := false, m_found_end := false }) := by
  simp [BFSGraphAlgorithm.nextStep, BFSGraphAlgorithm.new]

/-- The whole run of `BFSGraphAlgorithm` on a well-formed configuration: it stops after at most
`n + 3` calls, either having found the end node or with the queue exhausted. -/
theorem BFSGraphAlgorithm.run_spec (c : PathGraphConfig) (gb : Nat → Nat) (fuel : Nat)
    (hc : c.WellFormed)
    (hfuel : ∀ d, IsDist c.edges c.start_node c.end_node d → d ≤ fuel) :
    ∃ (g : PathGraph) (cnt : Nat) (st : BFSGraphAlgorithm),
      PathGraph.new c gb = .ok g ∧ PathGraph.Fresh c g ∧ cnt ≤ c.nodes.length + 3 ∧
      (∀ budget, cnt ≤ budget →
        BFSGraphAlgorithm.runUntilFalse fuel budget (BFSGraphAlgorithm.new g) = .ok (cnt, st)) ∧
      st.m_graph.skel = g.skel ∧
      ((∃ (P V : List Nat) (d : Nat), BFSFound st P V d) ∨ ∃ k, BFSInv st k [] []) := by
  obtain ⟨g, hnew, hfresh⟩ := PathGraph.new_spec c gb hc
  have hinit := BFSInv.init c g hfresh
  have hfuel' : ∀ d, IsDist g.ends g.start_node g.end_node d → d ≤ fuel := by
    rw [hfresh.ends_eq, hfresh.start_eq, hfresh.end_eq]
    exact hfuel
  obtain ⟨cnt, st, hcnt, hrun, hsk, hres⟩ :=
    BFSInv.run fuel (g.unvisited + 1) _ 0 [g.start_node] [] hinit (Nat.lt_succ_self _) hfuel'
  have hle := g.unvisited_le
  rw [hfresh.len] at hle
  exact ⟨g, cnt + 1, st, hnew, hfresh, by omega,
    BFSGraphAlgorithm.runUntilFalse_true (BFSGraphAlgorithm.nextStep_first fuel g) hrun,
    hsk, hres⟩

/-! ## Claims about `BFSGraphAlgorithm` -/

theorem Walk.mem_or_eq {E : List (Nat × Nat)} {s v k : Nat} (h : Walk E s v k) :
    v = s ∨ ∃ x, (x, v) ∈ E := by
  cases h with
  | refl => exact Or.inl rfl
  | step _ he => exact Or.inr ⟨_, he⟩

/-- C2 (as stated, refuted): on the single edge `0 -> 1` with start `0` and end `1` the run
ends after four calls with both nodes in state `Visited` and no node in state
`OnShortestPath`; so the nodes marked `OnShortestPath` are not the nodes of a path from start
to end (such a path contains the start node). -/
theorem bfs_marked_nodes_not_a_path :
    ∃ (g : PathGraph) (st : BFSGraphAlgorithm),
      PathGraph.new singleEdgePathConfig (fun _ => 0) = .ok g ∧
      BFSGraphAlgorithm.runUntilFalse 2 10 (BFSGraphAlgorithm.new g) = .ok (4, st) ∧
      st.m_graph.nodes.map (fun n => n.state) =
        [PathNodeState.Visited, PathNodeState.Visited] ∧
      st.m_graph.nodesInState PathNodeState.OnShortestPath = [] ∧
      ¬ ∃ (P V : List Nat),
        PathFrom singleEdgePathConfig.edges singleEdgePathConfig.start_node
          singleEdgePathConfig.end_node P V ∧
        ∀ (v : Nat) (node : PathNode), st.m_graph.nodes[v]? = some node →
          (node.state = PathNodeState.OnShortestPath ↔
            v ∈ singleEdgePathConfig.start_node :: V) := by
  refine ⟨_, _, rfl, rfl, by decide, by decide, ?_⟩
  rintro ⟨P, V, _, hiff⟩
  have h0 := (hiff 0 _ rfl).2 (List.mem_cons_self _ _)
  revert h0
  decide

theorem diamond_walk : Walk diamondPathConfig.edges 0 3 2 :=
  Walk.step (v := 1) (Walk.step (v := 0) (Walk.refl 0) (by decide)) (by decide)

/-- C3: for every well-formed path graph in which the end node is reachable from the start
node, the run of `nextStep` stops, and the edges in state `OnShortestPath` are exactly the edges
`P` of one directed path from the start node to the end node; these edges are pairwise
distinct and their number is the shortest edge-count distance `d` from start to end. (The
statement does not need `start != end`: when they coincide `P` is empty.) -/
theorem bfs_marked_edges_shortest_path (c : PathGraphConfig) (gb : Nat → Nat)
    (fuel : Nat) (hc : c.WellFormed) (hreach : Reachable c.edges c.start_node c.end_node)
    (hfuel : c.nodes.length ≤ fuel) :
    ∃ (g : PathGraph) (cnt : Nat) (st : BFSGraphAlgorithm) (P V : List Nat) (d : Nat),
      PathGraph.new c gb = .ok g ∧
      (∀ budget, cnt ≤ budget →
        BFSGraphAlgorithm.runUntilFalse fuel budget (BFSGraphAlgorithm.new g) = .ok (cnt, st)) ∧
      PathFrom c.edges c.start_node c.end_node P V ∧ P.Nodup ∧
      IsDist c.edges c.start_node c.end_node d ∧ P.length = d ∧
      (∀ (ei : Nat) (e : PathEdge), st.m_graph.edges[ei]? = some e →
        (e.state = PathEdgeState.OnShortestPath ↔ ei ∈ P)) ∧
      (st.m_graph.edgesInState PathEdgeState.OnShortestPath).length = d := by
  obtain ⟨g, cnt, st, hnew, hfresh, _, hrun, hsk, hres⟩ :=
    BFSGraphAlgorithm.run_spec c gb fuel hc (by
      intro d hd
      obtain ⟨g, _, hfresh⟩ := PathGraph.new_spec c gb hc
      have := IsDist.lt_length hfresh.wf
        (by rw [hfresh.ends_eq, hfresh.start_eq]; exact hd : IsDist g.ends g.start_node _ d)
      rw [hfresh.len] at this
      omega)
  have hends : st.m_graph.ends = c.edges := (PathGraph.skel_ends hsk).trans hfresh.ends_eq
  have hstart : st.m_graph.start_node = c.start_node :=
    (PathGraph.skel_start hsk).trans hfresh.start_eq
  have hend : st.m_graph.end_node = c.end_node := (PathGraph.skel_end hsk).trans hfresh.end_eq
  rcases hres with ⟨P, V, d, hfound⟩ | ⟨k, hinv⟩
  · have hpath := hfound.path
    have hdist := hfound.dist
    have hlt : ∀ ei ∈ P, ei < st.m_graph.edges.length := by
      intro ei hei
      obtain ⟨a, b, hab, _⟩ := hpath.mem_edges_target ei hei
      have := getElem?_lt hab
      simpa [PathGraph.ends] using this
    rw [hends, hstart, hend] at hpath hdist
    have hsimple := hpath.nodup_of_shortest (by rw [hfound.len]; exact hdist.2)
    refine ⟨g, cnt, st, P, V, d, hnew, hrun, hpath, hsimple.1, hdist, hfound.len,
      hfound.edges, ?_⟩
    rw [PathGraph.edgesInState_length_eq hsimple.1 hlt hfound.edges, hfound.len]
  · exfalso
    apply hinv.exhausted_unreachable
    rw [hends, hstart, hend]
    exact hreach

theorem diamond_dist : IsDist diamondPathConfig.edges 0 3 2 := by
  refine ⟨diamond_walk, ?_⟩
  intro k hk
  match k, hk with
  | 0, hk => exact absurd hk.eq_of_zero (by decide)
  | 1, hk =>
    obtain ⟨x, hx, hxe⟩ := hk.last
    have := hx.eq_of_zero
    subst this
    exact absurd hxe (by decide)
  | k + 2, _ => omega

theorem bfs_marked_edges_shortest_path_witness :
    diamondPathConfig.WellFormed ∧
    Reachable diamondPathConfig.edges diamondPathConfig.start_node diamondPathConfig.end_node ∧
    ∃ (g : PathGraph) (cnt : Nat) (st : BFSGraphAlgorithm) (P V : List Nat),
      PathGraph.new diamondPathConfig (fun _ => 0) = .ok g ∧
      (∀ budget, cnt ≤ budget →
        BFSGraphAlgorithm.runUntilFalse 4 budget (BFSGraphAlgorithm.new g) = .ok (cnt, st)) ∧
      PathFrom diamondPathConfig.edges diamondPathConfig.start_node
        diamondPathConfig.end_node P V ∧ P.Nodup ∧
      IsDist diamondPathConfig.edges diamondPathConfig.start_node diamondPathConfig.end_node 2 ∧
      P.length = 2 ∧
      (∀ (ei : Nat) (e : PathEdge), st.m_graph.edges[ei]? = some e →
        (e.state = PathEdgeState.OnShortestPath ↔ ei ∈ P)) ∧
      (st.m_graph.edgesInState PathEdgeState.OnShortestPath).length = 2 := by
  refine ⟨by decide, ⟨2, diamond_walk⟩, ?_⟩
  obtain ⟨g, cnt, st, P, V, d, h1, h2, h3, h4, h5, h6, h7, h8⟩ :=
    bfs_marked_edges_shortest_path diamondPathConfig (fun _ => 0) 4 (by decide)
      ⟨2, diamond_walk⟩ (by decide)
  have hd : d = 2 := IsDist.unique h5 diamond_dist
  subst hd
  exact ⟨g, cnt, st, P, V, h1, h2, h3, h4, h5, h6, h7, h8⟩

/-- C4: for every well-formed path graph in which the end node is not reachable from the start
node, repeated calls of `nextStep` return `false` after finitely many calls (the call number
`cnt`, at most `n + 3`, is the first to return `false`, whatever the loop bound `fuel`), and at
that point no node and no edge has state `OnShortestPath`. -/
theorem bfs_unreachable_end_terminates (c : PathGraphConfig) (gb : Nat → Nat) (fuel : Nat)
    (hc : c.WellFormed) (hunreach : ¬ Reachable c.edges c.start_node c.end_node) :
    ∃ (g : PathGraph) (cnt : Nat) (st : BFSGraphAlgorithm),
      PathGraph.new c gb = .ok g ∧ cnt ≤ c.nodes.length + 3 ∧
      (∀ budget, cnt ≤ budget →
        BFSGraphAlgorithm.runUntilFalse fuel budget (BFSGraphAlgorithm.new g) = .ok (cnt, st)) ∧
      st.m_graph.nodes.length = c.nodes.length ∧
      st.m_graph.edges.length = c.edges.length ∧
      (∀ (v : Nat) (node : PathNode), st.m_graph.nodes[v]? = some node →
        node.state ≠ PathNodeState.OnShortestPath) ∧
      (∀ (ei : Nat) (e : PathEdge), st.m_graph.edges[ei]? = some e →
        e.state ≠ PathEdgeState.OnShortestPath) := by
  obtain ⟨g, cnt, st, hnew, hfresh, hcnt, hrun, hsk, hres⟩ :=
    BFSGraphAlgorithm.run_spec c gb fuel hc (fun d hd => absurd hd.reachable hunreach)
  have hends : st.m_graph.ends = c.edges := (PathGraph.skel_ends hsk).trans hfresh.ends_eq
  have hstart : st.m_graph.start_node = c.start_node :=
    (PathGraph.skel_start hsk).trans hfresh.start_eq
  have hend : st.m_graph.end_node = c.end_node := (PathGraph.skel_end hsk).trans hfresh.end_eq
  rcases hres with ⟨P, V, d, hfound⟩ | ⟨k, hinv⟩
  · exfalso
    apply hunreach
    have := hfound.dist.reachable
    rw [hends, hstart, hend] at this
    exact this
  · exact ⟨g, cnt, st, hnew, hcnt, hrun, (PathGraph.skel_nodes_length hsk).trans hfresh.len,
      (PathGraph.skel_edges_length hsk).trans hfresh.edges_len,
      hinv.no_osp_node, hinv.no_osp_edge⟩

theorem isolatedEnd_unreachable :
    ¬ Reachable isolatedEndPathConfig.edges isolatedEndPathConfig.start_node
      isolatedEndPathConfig.end_node := by
  rintro ⟨k, hk⟩
  rcases hk.mem_or_eq with h | ⟨x, hx⟩
  · exact absurd h (by decide)
  · have : (x, 2) ∈ [(0, 1)] := hx
    simp at this

theorem bfs_unreachable_end_terminates_witness :
    isolatedEndPathConfig.WellFormed ∧
    ¬ Reachable isolatedEndPathConfig.edges isolatedEndPathConfig.start_node
      isolatedEndPathConfig.end_node ∧
    ∃ (g : PathGraph) (cnt : Nat) (st : BFSGraphAlgorithm),
      PathGraph.new isolatedEndPathConfig (fun _ => 0) = .ok g ∧
      cnt ≤ isolatedEndPathConfig.nodes.length + 3 ∧
      (∀ budget, cnt ≤ budget →
        BFSGraphAlgorithm.runUntilFalse 0 budget (BFSGraphAlgorithm.new g) = .ok (cnt, st)) ∧
      st.m_graph.nodes.length = isolatedEndPathConfig.nodes.length ∧
      st.m_graph.edges.length = isolatedEndPathConfig.edges.length ∧
      (∀ (v : Nat) (node : PathNode), st.m_graph.nodes[v]? = some node →
        node.state ≠ PathNodeState.OnShortestPath) ∧
      (∀ (ei : Nat) (e : PathEdge), st.m_graph.edges[ei]? = some e →
        e.state ≠ PathEdgeState.OnShortestPath) :=
  ⟨by decide, isolatedEnd_unreachable,
    bfs_unreachable_end_terminates isolatedEndPathConfig (fun _ => 0) 0 (by decide)
      isolatedEnd_unreachable⟩

/-- C9: in every state of `BFSGraphAlgorithm` (over any path graph, well-formed or not) in
which `nextStep` has returned `false`, that call left the state unchanged, and every further
call (with any loop bound) returns `false` again and leaves the whole state (node states, edge
states, back-pointers and the queue) unchanged. -/
theorem bfs_false_is_final (fuel : Nat) (st st1 : BFSGraphAlgorithm)
    (h : BFSGraphAlgorithm.nextStep fuel st = .ok (false, st1)) :
    st1 = st ∧ ∀ (fuel2 n : Nat),
      BFSGraphAlgorithm.nextStep fuel2 st1 = .ok (false, st1) ∧
      BFSGraphAlgorithm.steps fuel2 n st1 = .ok st1 := by
  have key : st1 = st ∧ st.m_first_step = false ∧
      (st.m_unvisited_node_queue = [] ∨ st.m_found_end = true) := by
    unfold BFSGraphAlgorithm.nextStep at h
    split at h
    · simp at h
    · rename_i hfirst
      split at h
      · rename_i hq
        simp only [Except.ok.injEq, Prod.mk.injEq, true_and] at h
        exact ⟨h.symm, by simpa using hfirst, Or.inl hq⟩
      · split at h
        · rename_i hfound
          simp only [Except.ok.injEq, Prod.mk.injEq, true_and] at h
          exact ⟨h.symm, by simpa using hfirst, Or.inr hfound⟩
        · exfalso
          dsimp only at h
          repeat' (first | (simp at h) | split at h)
  obtain ⟨heq, hfirst, hstop⟩ := key
  subst heq
  have hstep : ∀ fuel2, BFSGraphAlgorithm.nextStep fuel2 st1 = .ok (false, st1) := by
    intro fuel2
    rcases hstop with hq | hf
    · exact BFSGraphAlgorithm.nextStep_empty hfirst hq
    · exact BFSGraphAlgorithm.nextStep_found hfirst hf
  refine ⟨rfl, fun fuel2 n => ⟨hstep fuel2, ?_⟩⟩
  induction n with
  | zero => rfl
  | succ n ih => simp only [BFSGraphAlgorithm.steps, hstep fuel2, ih]

theorem bfs_false_is_final_witness :
    ∃ (g : PathGraph) (st : BFSGraphAlgorithm),
      PathGraph.new isolatedEndPathConfig (fun _ => 0) = .ok g ∧
      BFSGraphAlgorithm.steps 0 3 (BFSGraphAlgorithm.new g) = .ok st ∧
      BFSGraphAlgorithm.nextStep 0 st = .ok (false, st) ∧
      (st = st ∧ ∀ (fuel2 n : Nat),
        BFSGraphAlgorithm.nextStep fuel2 st = .ok (false, st) ∧
        BFSGraphAlgorithm.steps fuel2 n st = .ok st) :=
  ⟨_, _, rfl, rfl, rfl, bfs_false_is_final 0 _ _ rfl⟩

/-! ## Construction of a flow graph -/

theorem FlowGraph.populateNodes_len (c : FlowGraphConfig) (l : List (Nat × Nat)) :
    ∀ i, (FlowGraph.populateNodes c i l).length = l.length := by
  induction l with
  | nil => intro i; rfl
  | cons a l ih => intro i; simp [FlowGraph.populateNodes, ih]

theorem FlowGraph.populateNodes_get (c : FlowGraphConfig) (l : List (Nat × Nat)) :
    ∀ (i v : Nat) (node : FlowNode), (FlowGraph.populateNodes c i l)[v]? = some node →
      node.state = FlowNodeState.Default ∧ node.edges = [] := by
  induction l with
  | nil => intro i v node h; simp [FlowGraph.populateNodes] at h
  | cons a l ih =>
    intro i v node h
    cases v with
    | zero =>
      simp [FlowGraph.populateNodes] at h
      subst h
      simp
    | succ v =>
      simp [FlowGraph.populateNodes] at h
      exact ih (i + 1) v node h

theorem FlowGraph.populateEdges_inv (n : Nat) (rest : List ((Nat × Nat) × Nat)) :
    ∀ (i : Nat) (nodes : List FlowNode) (edges : List FlowEdge), i = edges.length →
      FlowPopInv n nodes edges →
      (∀ e ∈ rest, e.1.1 < n ∧ e.1.2 < n) →
      ∃ nodes1 edges1, FlowGraph.populateEdges i rest nodes edges = .ok (nodes1, edges1) ∧
        FlowPopInv n nodes1 edges1 ∧
        edges1.map (fun e => ((e.from_node_index, e.to_node_index), e.capacity)) =
          edges.map (fun e => ((e.from_node_index, e.to_node_index), e.capacity)) ++ rest := by
  induction rest with
  | nil =>
    intro i nodes edges _ hinv _
    exact ⟨nodes, edges, rfl, hinv, by simp⟩
  | cons a rest ih =>
    intro i nodes edges hi hinv hvalid
    obtain ⟨⟨a1, a2⟩, cp⟩ := a
    have ha := hvalid ((a1, a2), cp) (List.mem_cons_self _ _)
    simp only at ha
    have h1 : a1 < nodes.length := by rw [hinv.len]; exact ha.1
    have h2 : a2 < nodes.length := by rw [hinv.len]; exact ha.2
    obtain ⟨fn, hfn⟩ := getElem?_of_lt h1
    obtain ⟨tn, htn⟩ := getElem?_of_lt h2
    have hinv1 : FlowPopInv n
        (nodes.set a1 { fn with edges := fn.edges ++ [i] })
        (edges ++ [{ capacity := cp, current_flow := 0, state := FlowEdgeState.Default,
                     from_node_index := a1, to_node_index := a2 }]) := by
      constructor
      · rw [List.length_set]; exact hinv.len
      · intro v node hv
        rcases getElem?_set_some hv with ⟨hva, hnode, _⟩ | ⟨_, hv1⟩
        · subst hva; subst hnode
          exact hinv.node_init a1 fn hfn
        · exact hinv.node_init v node hv1
      · intro v node ei hv hei
        rcases getElem?_set_some hv with ⟨hva, hnode, _⟩ | ⟨_, hv⟩
        · subst hva; subst hnode
          simp only [List.mem_append, List.mem_singleton] at hei
          rcases hei with hei | hei
          · obtain ⟨e, he, hef⟩ := hinv.adj_sound a1 fn ei hfn hei
            refine ⟨e, ?_, hef⟩
            rw [List.getElem?_append_left (getElem?_lt he)]
            exact he
          · subst hei
            subst hi
            exact ⟨_, List.getElem?_concat_length _ _, rfl⟩
        · obtain ⟨e, he, hef⟩ := hinv.adj_sound v node ei hv hei
          refine ⟨e, ?_, hef⟩
          rw [List.getElem?_append_left (getElem?_lt he)]
          exact he
      · intro ei e he
        rw [List.getElem?_append] at he
        split at he
        · obtain ⟨hs, hfl, ht, node, hnode, hmem⟩ := hinv.edge_init ei e he
          refine ⟨hs, hfl, ht, ?_⟩
          by_cases hc : a1 = e.from_node_index
          · refine ⟨{ fn with edges := fn.edges ++ [i] }, ?_, ?_⟩
            · rw [← hc, List.getElem?_set_self h1]
            · rw [← hc, hfn] at hnode
              cases hnode
              simp [hmem]
          · exact ⟨node, by rw [List.getElem?_set_ne hc]; exact hnode, hmem⟩
        · rename_i hlt
          have hei : ei = edges.length := by
            have := getElem?_lt he
            simp at this
            omega
          subst hei
          simp at he
          subst he
          refine ⟨rfl, rfl, ha.2, { fn with edges := fn.edges ++ [i] }, ?_, ?_⟩
          · simp only
            rw [List.getElem?_set_self h1]
          · simp [hi]
    obtain ⟨nodes1, edges1, hrun, hinv2, hends⟩ :=
      ih (i + 1) _ _ (by simp [hi]) hinv1 (fun e he => hvalid e (List.mem_cons_of_mem _ he))
    refine ⟨nodes1, edges1, ?_, hinv2, ?_⟩
    · simp only [FlowGraph.populateEdges, hfn, htn]
      exact hrun
    · rw [hends]; simp

theorem FlowGraph.new_fresh (c : FlowGraphConfig) (hc : c.WellFormed) :
    ∃ g, FlowGraph.new c = .ok g ∧ FlowGraph.Fresh c g := by
  obtain ⟨hs, he, hedges⟩ := hc
  have hinit : FlowPopInv c.nodes.length (FlowGraph.populateNodes c 0 c.nodes) [] := by
    constructor
    · exact FlowGraph.populateNodes_len c c.nodes 0
    · intro v node hv
      exact (FlowGraph.populateNodes_get c c.nodes 0 v node hv).1
    · intro v node ei hv hei
      have := FlowGraph.populateNodes_get c c.nodes 0 v node hv
      rw [this.2] at hei
      cases hei
    · intro ei e h
      simp at h
  obtain ⟨nodes1, edges1, hrun, hinv, hends⟩ :=
    FlowGraph.populateEdges_inv c.nodes.length c.edges 0 _ []
      rfl hinit (fun e he => ⟨(hedges e he).1, (hedges e he).2.1⟩)
  simp only [List.map_nil, List.nil_append] at hends
  refine ⟨{ edge_count := c.edges.length, node_count := c.nodes.length,
            start_node := c.start_node, end_node := c.end_node,
            edges := edges1, nodes := nodes1 }, by simp only [FlowGraph.new, hrun], ?_⟩
  constructor
  · constructor
    · exact hinv.len.symm
    · simp only; rw [hinv.len]; exact hs
    · simp only; rw [hinv.len]; exact he
    · intro v node ei hv hei
      exact hinv.adj_sound v node ei hv hei
    · intro ei e h
      exact (hinv.edge_init ei e h).2.2.2
    · intro ei e h
      simp only
      rw [hinv.len]
      exact (hinv.edge_init ei e h).2.2.1
    · intro ei e h
      have hmem : ((e.from_node_index, e.to_node_index), e.capacity) ∈ c.edges := by
        rw [← hends]
        exact List.mem_map.2 ⟨e, List.getElem?_mem h, rfl⟩
      exact (hedges _ hmem).2.2
  · exact hends
  · rfl
  · rfl
  · exact hinv.len
  · intro v node hv
    exact hinv.node_init v node hv
  · intro ei e h
    exact ⟨(hinv.edge_init ei e h).1, (hinv.edge_init ei e h).2.1⟩

/-! ## The skeleton of a flow graph -/

theorem FlowGraph.flow_skel_nodes {g g1 : FlowGraph} (h : g1.skel = g.skel) {v : Nat}
    {node1 : FlowNode} (hv : g1.nodes[v]? = some node1) :
    ∃ node, g.nodes[v]? = some node ∧ node.edges = node1.edges := by
  have h2 : g1.nodes.map (fun n => (n.edges, n.type)) =
      g.nodes.map (fun n => (n.edges, n.type)) := by
    have := congrArg (fun p => p.2.1) h
    simpa [FlowGraph.skel] using this
  have h3 := congrArg (fun l => l[v]?) h2
  simp only [List.getElem?_map, hv, Option.map_some'] at h3
  cases hn : g.nodes[v]? with
  | none => rw [hn] at h3; simp at h3
  | some node =>
    rw [hn] at h3
    simp only [Option.map_some', Option.some.injEq, Prod.mk.injEq] at h3
    exact ⟨node, rfl, h3.1.symm⟩

theorem FlowGraph.flow_skel_edges {g g1 : FlowGraph} (h : g1.skel = g.skel) {ei : Nat}
    {e1 : FlowEdge} (he : g1.edges[ei]? = some e1) :
    ∃ e, g.edges[ei]? = some e ∧ e.from_node_index = e1.from_node_index ∧
      e.to_node_index = e1.to_node_index ∧ e.capacity = e1.capacity := by
  have h2 : g1.edges.map (fun e => (e.from_node_index, e.to_node_index, e.capacity)) =
      g.edges.map (fun e => (e.from_node_index, e.to_node_index, e.capacity)) := by
    have := congrArg (fun p => p.1) h
    simpa [FlowGraph.skel] using this
  have h3 := congrArg (fun l => l[ei]?) h2
  simp only [List.getElem?_map, he, Option.map_some'] at h3
  cases hn : g.edges[ei]? with
  | none => rw [hn] at h3; simp at h3
  | some e =>
    rw [hn] at h3
    simp only [Option.map_some', Option.some.injEq, Prod.mk.injEq] at h3
    exact ⟨e, rfl, h3.1.symm, h3.2.1.symm, h3.2.2.symm⟩

theorem FlowGraph.flow_skel_start {g g1 : FlowGraph} (h : g1.skel = g.skel) :
    g1.start_node = g.start_node := by
  have := congrArg (fun p => p.2.2.1) h
  simpa [FlowGraph.skel] using this

theorem FlowGraph.flow_skel_end {g g1 : FlowGraph} (h : g1.skel = g.skel) :
    g1.end_node = g.end_node := by
  have := congrArg (fun p => p.2.2.2.1) h
  simpa [FlowGraph.skel] using this

theorem FlowGraph.skel_node_count {g g1 : FlowGraph} (h : g1.skel = g.skel) :
    g1.node_count = g.node_count := by
  have := congrArg (fun p => p.2.2.2.2.1) h
  simpa [FlowGraph.skel] using this

theorem FlowGraph.flow_skel_nodes_length {g g1 : FlowGraph} (h : g1.skel = g.skel) :
    g1.nodes.length = g.nodes.length := by
  have h2 := congrArg (fun p => p.2.1.length) h
  simpa [FlowGraph.skel] using h2

theorem FlowGraph.flow_skel_edges_length {g g1 : FlowGraph} (h : g1.skel = g.skel) :
    g1.edges.length = g.edges.length := by
  have h2 := congrArg (fun p => p.1.length) h
  simpa [FlowGraph.skel] using h2

theorem FlowGraph.skel_edges_exists {g g1 : FlowGraph} (h : g1.skel = g.skel) {ei : Nat}
    {e : FlowEdge} (he : g.edges[ei]? = some e) :
    ∃ e1, g1.edges[ei]? = some e1 ∧ e1.from_node_index = e.from_node_index ∧
      e1.to_node_index = e.to_node_index ∧ e1.capacity = e.capacity := by
  obtain ⟨e1, he1⟩ : ∃ e1, g1.edges[ei]? = some e1 := by
    apply getElem?_of_lt
    rw [FlowGraph.flow_skel_edges_length h]
    exact getElem?_lt he
  obtain ⟨e', he', h1, h2, h3⟩ := FlowGraph.flow_skel_edges h he1
  rw [he] at he'
  cases he'
  exact ⟨e1, he1, h1.symm, h2.symm, h3.symm⟩

theorem FlowGraph.skel_nodes_exists {g g1 : FlowGraph} (h : g1.skel = g.skel) {v : Nat}
    {node : FlowNode} (hv : g.nodes[v]? = some node) :
    ∃ node1, g1.nodes[v]? = some node1 ∧ node1.edges = node.edges := by
  obtain ⟨n1, hn1⟩ : ∃ n1, g1.nodes[v]? = some n1 := by
    apply getElem?_of_lt
    rw [FlowGraph.flow_skel_nodes_length h]
    exact getElem?_lt hv
  obtain ⟨n', hn', h1⟩ := FlowGraph.flow_skel_nodes h hn1
  rw [hv] at hn'
  cases hn'
  exact ⟨n1, hn1, h1.symm⟩

theorem FlowGraph.WF.flow_of_skel {g g1 : FlowGraph} (hwf : g.WF) (h : g1.skel = g.skel) : g1.WF := by
  have hs := FlowGraph.flow_skel_start h
  have he := FlowGraph.flow_skel_end h
  have hn := FlowGraph.flow_skel_nodes_length h
  constructor
  · rw [FlowGraph.skel_node_count h, hn]; exact hwf.count
  · rw [hs, hn]; exact hwf.start_lt
  · rw [he, hn]; exact hwf.end_lt
  · intro v node1 ei hv hei
    obtain ⟨node, hnode, hedges⟩ := FlowGraph.flow_skel_nodes h hv
    obtain ⟨e, hge, hfrom⟩ := hwf.adj_sound v node ei hnode (by rw [hedges]; exact hei)
    obtain ⟨e1, he1, hf1, _, _⟩ := FlowGraph.skel_edges_exists h hge
    exact ⟨e1, he1, by rw [hf1]; exact hfrom⟩
  · intro ei e1 he1
    obtain ⟨e, hge, hf, _, _⟩ := FlowGraph.flow_skel_edges h he1
    obtain ⟨node, hnode, hmem⟩ := hwf.adj_complete ei e hge
    rw [hf] at hnode
    obtain ⟨node1, hnode1, hedges⟩ := FlowGraph.skel_nodes_exists h hnode
    exact ⟨node1, hnode1, by rw [hedges]; exact hmem⟩
  · intro ei e1 he1
    obtain ⟨e, hge, _, ht, _⟩ := FlowGraph.flow_skel_edges h he1
    rw [hn, ← ht]
    exact hwf.to_lt ei e hge
  · intro ei e1 he1
    obtain ⟨e, hge, _, _, hc⟩ := FlowGraph.flow_skel_edges h he1
    rw [← hc]
    exact hwf.cap_lt ei e hge

theorem FlowGraph.flow_skel_set_node (g : FlowGraph) {v : Nat} {node node1 : FlowNode}
    (hv : g.nodes[v]? = some node) (h1 : node1.edges = node.edges)
    (h2 : node1.type = node.type) :
    FlowGraph.skel { g with nodes := g.nodes.set v node1 } = g.skel := by
  have : (g.nodes.set v node1).map (fun n => (n.edges, n.type)) =
      g.nodes.map (fun n => (n.edges, n.type)) := by
    rw [List.map_set]
    apply List.ext_getElem?
    intro j
    by_cases hj : v = j
    · subst hj
      rw [List.getElem?_set_self (by simpa using getElem?_lt hv)]
      simp [hv, h1, h2]
    · rw [List.getElem?_set_ne hj]
  simp only [FlowGraph.skel, this]

theorem FlowGraph.flow_skel_set_edge (g : FlowGraph) {ei : Nat} {e e1 : FlowEdge}
    (he : g.edges[ei]? = some e) (h1 : e1.from_node_index = e.from_node_index)
    (h2 : e1.to_node_index = e.to_node_index) (h3 : e1.capacity = e.capacity) :
    FlowGraph.skel { g with edges := g.edges.set ei e1 } = g.skel := by
  have : (g.edges.set ei e1).map (fun e => (e.from_node_index, e.to_node_index, e.capacity)) =
      g.edges.map (fun e => (e.from_node_index, e.to_node_index, e.capacity)) := by
    rw [List.map_set]
    apply List.ext_getElem?
    intro j
    by_cases hj : ei = j
    · subst hj
      rw [List.getElem?_set_self (by simpa using getElem?_lt he)]
      simp [he, h1, h2, h3]
    · rw [List.getElem?_set_ne hj]
  simp only [FlowGraph.skel, this]

/-! ## `findEdge` -/

theorem FordFulkersonGraphAlgorithm.findEdgeIn_skel {g g1 : FlowGraph} (h : g1.skel = g.skel)
    (to_node : Nat) (adj : List Nat) :
    FordFulkersonGraphAlgorithm.findEdgeIn g1 to_node adj =
      FordFulkersonGraphAlgorithm.findEdgeIn g to_node adj := by
  induction adj with
  | nil => rfl
  | cons ei rest ih =>
    cases he : g.edges[ei]? with
    | none =>
      have : g1.edges[ei]? = none := by
        rw [List.getElem?_eq_none_iff] at he ⊢
        rw [FlowGraph.flow_skel_edges_length h]
        exact he
      simp only [FordFulkersonGraphAlgorithm.findEdgeIn, he, this]
    | some e =>
      obtain ⟨e1, he1, _, ht, _⟩ := FlowGraph.skel_edges_exists h he
      simp only [FordFulkersonGraphAlgorithm.findEdgeIn, he, he1, ht, ih]

theorem FordFulkersonGraphAlgorithm.findEdge_skel {g g1 : FlowGraph} (h : g1.skel = g.skel)
    (from_node to_node : Nat) :
    FordFulkersonGraphAlgorithm.findEdge g1 from_node to_node =
      FordFulkersonGraphAlgorithm.findEdge g from_node to_node := by
  unfold FordFulkersonGraphAlgorithm.findEdge
  cases hn : g.nodes[from_node]? with
  | none =>
    have : g1.nodes[from_node]? = none := by
      rw [List.getElem?_eq_none_iff] at hn ⊢
      rw [FlowGraph.flow_skel_nodes_length h]
      exact hn
    rw [this]
  | some node =>
    obtain ⟨node1, hn1, hedges⟩ := FlowGraph.skel_nodes_exists h hn
    rw [hn1]
    simp only [hedges]
    exact FordFulkersonGraphAlgorithm.findEdgeIn_skel h to_node node.edges

theorem FordFulkersonGraphAlgorithm.findEdgeIn_ok {g : FlowGraph} {to_node ei : Nat}
    (adj : List Nat) (h : FordFulkersonGraphAlgorithm.findEdgeIn g to_node adj = .ok ei) :
    ei ∈ adj ∧ ∃ e : FlowEdge, g.edges[ei]? = some e ∧ e.to_node_index = to_node := by
  induction adj with
  | nil => simp [FordFulkersonGraphAlgorithm.findEdgeIn] at h
  | cons ej rest ih =>
    unfold FordFulkersonGraphAlgorithm.findEdgeIn at h
    cases he : g.edges[ej]? with
    | none => rw [he] at h; simp at h
    | some e =>
      rw [he] at h
      simp only at h
      by_cases hto : e.to_node_index = to_node
      · rw [if_pos hto] at h
        cases h
        exact ⟨List.mem_cons_self _ _, e, he, hto⟩
      · rw [if_neg hto] at h
        obtain ⟨hm, hres⟩ := ih h
        exact ⟨List.mem_cons_of_mem _ hm, hres⟩

theorem FordFulkersonGraphAlgorithm.findEdgeIn_exists {g : FlowGraph} {to_node : Nat}
    (adj : List Nat) (hvalid : ∀ ej ∈ adj, ∃ e : FlowEdge, g.edges[ej]? = some e)
    (hex : ∃ ej ∈ adj, ∃ e : FlowEdge, g.edges[ej]? = some e ∧ e.to_node_index = to_node) :
    ∃ ei, FordFulkersonGraphAlgorithm.findEdgeIn g to_node adj = .ok ei := by
  induction adj with
  | nil =>
    obtain ⟨ej, hej, _⟩ := hex
    cases hej
  | cons ej rest ih =>
    obtain ⟨e, he⟩ := hvalid ej (List.mem_cons_self _ _)
    by_cases hto : e.to_node_index = to_node
    · exact ⟨ej, by simp [FordFulkersonGraphAlgorithm.findEdgeIn, he, hto]⟩
    · obtain ⟨ek, hek, e', he', hto'⟩ := hex
      have hek' : ek ∈ rest := by
        rcases List.mem_cons.1 hek with h | h
        · subst h
          rw [he] at he'
          cases he'
          exact absurd hto' hto
        · exact h
      obtain ⟨ei, hei⟩ := ih (fun x hx => hvalid x (List.mem_cons_of_mem _ hx))
        ⟨ek, hek', e', he', hto'⟩
      exact ⟨ei, by simp [FordFulkersonGraphAlgorithm.findEdgeIn, he, hto, hei]⟩

theorem FordFulkersonGraphAlgorithm.findEdge_ok {g : FlowGraph} (hwf : g.WF)
    {from_node to_node ei : Nat}
    (h : FordFulkersonGraphAlgorithm.findEdge g from_node to_node = .ok ei) :
    ∃ e : FlowEdge, g.edges[ei]? = some e ∧ e.from_node_index = from_node ∧
      e.to_node_index = to_node := by
  unfold FordFulkersonGraphAlgorithm.findEdge at h
  cases hn : g.nodes[from_node]? with
  | none => rw [hn] at h; simp at h
  | some node =>
    rw [hn] at h
    obtain ⟨hm, e, he, hto⟩ := FordFulkersonGraphAlgorithm.findEdgeIn_ok node.edges h
    obtain ⟨e', he', hfrom⟩ := hwf.adj_sound from_node node ei hn hm
    rw [he] at he'
    cases he'
    exact ⟨e, he, hfrom, hto⟩

theorem FordFulkersonGraphAlgorithm.findEdge_exists {g : FlowGraph} (hwf : g.WF)
    {ej : Nat} {e : FlowEdge} (he : g.edges[ej]? = some e) :
    ∃ ei, FordFulkersonGraphAlgorithm.findEdge g e.from_node_index e.to_node_index = .ok ei := by
  obtain ⟨node, hnode, hmem⟩ := hwf.adj_complete ej e he
  unfold FordFulkersonGraphAlgorithm.findEdge
  rw [hnode]
  apply FordFulkersonGraphAlgorithm.findEdgeIn_exists
  · intro ek hek
    obtain ⟨e', he', _⟩ := hwf.adj_sound _ node ek hnode hek
    exact ⟨e', he'⟩
  · exact ⟨ej, hmem, e, he, rfl⟩

/-! ## Parent chains -/

theorem ParentChain.chain_of_skel {g g1 : FlowGraph} (h : g1.skel = g.skel) {parent : List Nat}
    {start v : Nat} {es L : List Nat} (hc : ParentChain g parent start v es L) :
    ParentChain g1 parent start v es L := by
  induction hc with
  | nil => exact ParentChain.nil
  | cons hne hp hf _ ih =>
    exact ParentChain.cons hne hp
      (by rw [FordFulkersonGraphAlgorithm.findEdge_skel h]; exact hf) ih

theorem ParentChain.set_parent {g : FlowGraph} {parent : List Nat} {start v : Nat}
    {es L : List Nat} (hc : ParentChain g parent start v es L) (w c : Nat) (hw : w ∉ L) :
    ParentChain g (parent.set w c) start v es L := by
  induction hc with
  | nil => exact ParentChain.nil
  | @cons v p ei es L hne hp hf _ ih =>
    have hvw : w ≠ v := fun h => hw (by rw [h]; exact List.mem_cons_self _ _)
    exact ParentChain.cons hne (by rw [List.getElem?_set_ne hvw]; exact hp) hf
      (ih (fun h => hw (List.mem_cons_of_mem _ h)))

theorem ParentChain.chain_length {g : FlowGraph} {parent : List Nat} {start v : Nat}
    {es L : List Nat} (hc : ParentChain g parent start v es L) : es.length = L.length := by
  induction hc with
  | nil => rfl
  | cons _ _ _ _ ih => simp [ih]

theorem ParentChain.start_not_mem {g : FlowGraph} {parent : List Nat} {start v : Nat}
    {es L : List Nat} (hc : ParentChain g parent start v es L) : start ∉ L := by
  induction hc with
  | nil => simp
  | cons hne _ _ _ ih =>
    intro h
    rcases List.mem_cons.1 h with h | h
    · exact hne h.symm
    · exact ih h

theorem ParentChain.edge_target {g : FlowGraph} (hwf : g.WF) {parent : List Nat} {start v : Nat}
    {es L : List Nat} (hc : ParentChain g parent start v es L) :
    ∀ ei ∈ es, ∃ e : FlowEdge, g.edges[ei]? = some e ∧ e.to_node_index ∈ L := by
  induction hc with
  | nil => intro ei h; cases h
  | @cons v p ei es L _ _ hf _ ih =>
    intro ej hej
    rcases List.mem_cons.1 hej with h | h
    · subst h
      obtain ⟨e, he, _, hto⟩ := FordFulkersonGraphAlgorithm.findEdge_ok hwf hf
      exact ⟨e, he, by rw [hto]; exact List.mem_cons_self _ _⟩
    · obtain ⟨e, he, hm⟩ := ih ej h
      exact ⟨e, he, List.mem_cons_of_mem _ hm⟩

theorem ParentChain.edges_nodup {g : FlowGraph} (hwf : g.WF) {parent : List Nat} {start v : Nat}
    {es L : List Nat} (hc : ParentChain g parent start v es L) (hL : L.Nodup) : es.Nodup := by
  induction hc with
  | nil => exact List.nodup_nil
  | @cons v p ei es L _ _ hf hrest ih =>
    have hL' := List.nodup_cons.1 hL
    refine List.nodup_cons.2 ⟨?_, ih hL'.2⟩
    intro hmem
    obtain ⟨e, he, hm⟩ := hrest.edge_target hwf ei hmem
    obtain ⟨e', he', _, hto⟩ := FordFulkersonGraphAlgorithm.findEdge_ok hwf hf
    rw [he] at he'
    cases he'
    rw [hto] at hm
    exact hL'.1 hm

theorem ParentChain.chain_node_lt {g : FlowGraph} (hwf : g.WF) {parent : List Nat} {start v : Nat}
    {es L : List Nat} (hc : ParentChain g parent start v es L) :
    ∀ x ∈ L, x < g.nodes.length := by
  induction hc with
  | nil => intro x h; cases h
  | @cons v p ei es L _ _ hf _ ih =>
    intro x hx
    rcases List.mem_cons.1 hx with h | h
    · subst h
      obtain ⟨e, he, _, hto⟩ := FordFulkersonGraphAlgorithm.findEdge_ok hwf hf
      rw [← hto]
      exact hwf.to_lt ei e he
    · exact ih x h

theorem nodup_length_le {L : List Nat} {n : Nat} (hL : L.Nodup) (hlt : ∀ x ∈ L, x < n) :
    L.length ≤ n := by
  have hsub : L ⊆ List.range n := fun x hx => List.mem_range.2 (hlt x hx)
  have := (List.Nodup.subperm hL hsub).length_le
  simpa using this

theorem UnsatLinks.links_set_parent {g : FlowGraph} {parent : List Nat} {L : List Nat}
    (h : UnsatLinks g parent L) (w c : Nat) (hw : w ∉ L) :
    UnsatLinks g (parent.set w c) L := by
  intro v hv
  obtain ⟨p, ej, e, hp, he, hf, ht, hlt⟩ := h v hv
  have hvw : w ≠ v := fun h => hw (by rw [h]; exact hv)
  exact ⟨p, ej, e, by rw [List.getElem?_set_ne hvw]; exact hp, he, hf, ht, hlt⟩

/-! ## The search of `FordFulkersonGraphAlgorithm::BFS` -/

/-- What a successful search leaves in `parent`: a chain from the end node to the start
node. -/
theorem FordFulkersonGraphAlgorithm.bfsScan_spec {g : FlowGraph} (hwf : g.WF)
    {start_node end_node cur : Nat} {node : FlowNode} (hcur : g.nodes[cur]? = some node) :
    ∀ (rest : List Nat) (l : BFSLocals), (∀ ei ∈ rest, ei ∈ node.edges) →
      BFSTreeInv g start_node end_node l → l.visited[cur]? = some true →
      ∃ (b : Bool) (l1 : BFSLocals),
        FordFulkersonGraphAlgorithm.bfsScan g end_node cur rest l = .ok (b, l1) ∧
        (b = false → BFSTreeInv g start_node end_node l1 ∧
          l1.queue.length + l1.visited.count false = l.queue.length + l.visited.count false) ∧
        (b = true → ∃ (es L : List Nat), ParentChain g l1.parent start_node end_node es L ∧
          L.Nodup ∧ es ≠ [] ∧ UnsatLinks g l1.parent L) := by
  intro rest
  induction rest with
  | nil =>
    intro l _ hinv _
    exact ⟨false, l, rfl, fun _ => ⟨hinv, rfl⟩, fun h => by cases h⟩
  | cons ei rest ih =>
    intro l hsub hinv hcurv
    have hei : ei ∈ node.edges := hsub ei (List.mem_cons_self _ _)
    obtain ⟨edge, hedge, hfrom⟩ := hwf.adj_sound cur node ei hcur hei
    have hto : edge.to_node_index < l.visited.length := by
      rw [hinv.vlen]; exact hwf.to_lt ei edge hedge
    obtain ⟨seen, hseen⟩ := getElem?_of_lt hto
    have hrest : ∀ ej ∈ rest, ej ∈ node.edges := fun ej hej => hsub ej (List.mem_cons_of_mem _ hej)
    by_cases hcond : (!seen && decide (edge.current_flow < edge.capacity)) = true
    · -- the target is discovered through this edge
      have hseenf : seen = false := by
        cases seen
        · rfl
        · simp at hcond
      subst hseenf
      have hunsat : edge.current_flow < edge.capacity := by simpa using hcond
      have hplt : edge.to_node_index < l.parent.length := by
        rw [hinv.plen, ← hinv.vlen]; exact hto
      let l1 : BFSLocals :=
        { queue := l.queue ++ [edge.to_node_index],
          visited := l.visited.set edge.to_node_index true,
          parent := l.parent.set edge.to_node_index cur }
      have hvis1 : ∀ x : Nat, l.visited[x]? = some true → l1.visited[x]? = some true := by
        intro x hx
        show (l.visited.set edge.to_node_index true)[x]? = some true
        by_cases hxe : edge.to_node_index = x
        · rw [hxe, List.getElem?_set_self (getElem?_lt hx)]
        · rw [List.getElem?_set_ne hxe]; exact hx
      have hvis1' : ∀ x : Nat, l1.visited[x]? = some true →
          x = edge.to_node_index ∨ l.visited[x]? = some true := by
        intro x hx
        have hx' : (l.visited.set edge.to_node_index true)[x]? = some true := hx
        rcases getElem?_set_some hx' with ⟨h, _, _⟩ | ⟨_, h⟩
        · exact Or.inl h.symm
        · exact Or.inr h
      have htostart : edge.to_node_index ≠ start_node := by
        intro h
        rw [h, hinv.start_seen] at hseen
        cases hseen
      have hnotin : ∀ (L : List Nat), (∀ x ∈ L, l.visited[x]? = some true) →
          edge.to_node_index ∉ L := by
        intro L hL hmem
        have := hL _ hmem
        rw [hseen] at this
        cases this
      -- the chain of the newly discovered node
      obtain ⟨esc, Lc, hchainc, hLc, hunsatc, hvisc⟩ := hinv.chain cur hcurv
      obtain ⟨ei', hfind⟩ := FordFulkersonGraphAlgorithm.findEdge_exists hwf hedge
      rw [hfrom] at hfind
      have hnew : ParentChain g l1.parent start_node edge.to_node_index (ei' :: esc)
          (edge.to_node_index :: Lc) := by
        refine ParentChain.cons htostart ?_ hfind
          (hchainc.set_parent edge.to_node_index cur (hnotin Lc hvisc))
        show (l.parent.set edge.to_node_index cur)[edge.to_node_index]? = some cur
        rw [List.getElem?_set_self hplt]
      have hnewL : (edge.to_node_index :: Lc).Nodup :=
        List.nodup_cons.2 ⟨hnotin Lc hvisc, hLc⟩
      have hnewU : UnsatLinks g l1.parent (edge.to_node_index :: Lc) := by
        intro v hv
        rcases List.mem_cons.1 hv with h | h
        · subst h
          refine ⟨cur, ei, edge, ?_, hedge, hfrom, rfl, hunsat⟩
          show (l.parent.set edge.to_node_index cur)[edge.to_node_index]? = some cur
          rw [List.getElem?_set_self hplt]
        · exact hunsatc.links_set_parent edge.to_node_index cur (hnotin Lc hvisc) v h
      have hcore : ∀ (v : Nat), l1.visited[v]? = some true →
          ∃ (es L : List Nat), ParentChain g l1.parent start_node v es L ∧ L.Nodup ∧
            UnsatLinks g l1.parent L ∧ ∀ x ∈ L, l1.visited[x]? = some true := by
        intro v hv
        by_cases hvt : v = edge.to_node_index
        · subst hvt
          refine ⟨_, _, hnew, hnewL, hnewU, ?_⟩
          intro x hx
          rcases List.mem_cons.1 hx with h | h
          · subst h; exact hv
          · exact hvis1 x (hvisc x h)
        · rcases hvis1' v hv with h | h
          · exact absurd h hvt
          · obtain ⟨es, L, hch, hL, hU, hvs⟩ := hinv.chain v h
            exact ⟨es, L, hch.set_parent _ _ (hnotin L hvs), hL,
              hU.links_set_parent _ _ (hnotin L hvs), fun x hx => hvis1 x (hvs x hx)⟩
      have hstep : FordFulkersonGraphAlgorithm.bfsScan g end_node cur (ei :: rest) l =
          if edge.to_node_index = end_node then .ok (true, l1)
          else FordFulkersonGraphAlgorithm.bfsScan g end_node cur rest l1 := by
        simp only [FordFulkersonGraphAlgorithm.bfsScan, hedge, hseen]
        rw [if_pos (by simpa using hunsat), if_pos hplt]
      by_cases hend : edge.to_node_index = end_node
      · refine ⟨true, l1, by rw [hstep, if_pos hend], (fun h => by cases h), fun _ => ?_⟩
        rw [← hend]
        exact ⟨_, _, hnew, hnewL, by simp, hnewU⟩
      · have hinv1 : BFSTreeInv g start_node end_node l1 := by
          constructor
          · show (l.visited.set _ _).length = _
            rw [List.length_set]; exact hinv.vlen
          · show (l.parent.set _ _).length = _
            rw [List.length_set]; exact hinv.plen
          · exact hvis1 _ hinv.start_seen
          · intro v hv
            rcases List.mem_append.1 hv with h | h
            · exact hvis1 v (hinv.queue v h)
            · have : v = edge.to_node_index := by simpa using h
              subst this
              show (l.visited.set _ true)[_]? = some true
              rw [List.getElem?_set_self hto]
          · intro hne
            show (l.visited.set edge.to_node_index true)[end_node]? = some false
            rw [List.getElem?_set_ne hend]
            exact hinv.end_fresh hne
          · exact hcore
        obtain ⟨b, l2, hrun, hf, ht⟩ := ih l1 hrest hinv1 (hvis1 cur hcurv)
        refine ⟨b, l2, by rw [hstep, if_neg hend]; exact hrun, ?_, ht⟩
        intro hb
        obtain ⟨hinv2, hmeas⟩ := hf hb
        refine ⟨hinv2, ?_⟩
        have hcount : l1.visited.count false + 1 = l.visited.count false :=
          count_false_set_true l.visited edge.to_node_index hseen
        have hq : l1.queue.length = l.queue.length + 1 := by simp [l1]
        omega
    · -- the edge is skipped
      obtain ⟨b, l2, hrun, hf, ht⟩ := ih l hrest hinv hcurv
      refine ⟨b, l2, ?_, hf, ht⟩
      simp only [FordFulkersonGraphAlgorithm.bfsScan, hedge, hseen]
      rw [if_neg hcond]
      exact hrun

theorem FordFulkersonGraphAlgorithm.bfsLoop_spec {g : FlowGraph} (hwf : g.WF)
    {start_node end_node : Nat} :
    ∀ (fuel : Nat) (l : BFSLocals), BFSTreeInv g start_node end_node l →
      l.queue.length + l.visited.count false < fuel →
      ∃ (b : Bool) (parent : List Nat),
        FordFulkersonGraphAlgorithm.bfsLoop g end_node fuel l = .ok (b, parent) ∧
        (b = true → ∃ (es L : List Nat), ParentChain g parent start_node end_node es L ∧
          L.Nodup ∧ es ≠ [] ∧ UnsatLinks g parent L) := by
  intro fuel
  induction fuel with
  | zero => intro l _ h; omega
  | succ fuel ih =>
    intro l hinv hmeas
    cases hq : l.queue with
    | nil =>
      exact ⟨false, l.parent, by simp [FordFulkersonGraphAlgorithm.bfsLoop, hq],
        fun h => by cases h⟩
    | cons cur queue =>
      have hcurv : l.visited[cur]? = some true := hinv.queue cur (by rw [hq]; simp)
      have hcurlt : cur < g.nodes.length := by
        rw [← hinv.vlen]; exact getElem?_lt hcurv
      obtain ⟨node, hnode⟩ := getElem?_of_lt hcurlt
      have hinv0 : BFSTreeInv g start_node end_node { l with queue := queue } := by
        constructor
        · exact hinv.vlen
        · exact hinv.plen
        · exact hinv.start_seen
        · intro v hv
          exact hinv.queue v (by rw [hq]; exact List.mem_cons_of_mem _ hv)
        · exact hinv.end_fresh
        · exact hinv.chain
      obtain ⟨b, l1, hscan, hf, ht⟩ :=
        FordFulkersonGraphAlgorithm.bfsScan_spec hwf hnode node.edges { l with queue := queue }
          (fun _ h => h) hinv0 hcurv
      cases b with
      | true =>
        refine ⟨true, l1.parent, ?_, fun _ => ht rfl⟩
        simp only [FordFulkersonGraphAlgorithm.bfsLoop, hq, hnode, hscan]
      | false =>
        obtain ⟨hinv1, hm1⟩ := hf rfl
        have hm : l1.queue.length + l1.visited.count false < fuel := by
          have : l.queue.length = queue.length + 1 := by rw [hq]; simp
          simp only at hm1
          omega
        obtain ⟨b2, parent, hrun, hres⟩ := ih l1 hinv1 hm
        refine ⟨b2, parent, ?_, hres⟩
        simp only [FordFulkersonGraphAlgorithm.bfsLoop, hq, hnode, hscan]
        exact hrun

theorem count_false_replicate_set (n i : Nat) (h : i < n) :
    ((List.replicate n false).set i true).count false + 1 = n := by
  have := count_false_set_true (List.replicate n false) i
    (by rw [List.getElem?_replicate, if_pos h])
  rw [this]
  simp

theorem FordFulkersonGraphAlgorithm.BFS_spec {s : FordFulkersonGraphAlgorithm}
    (hwf : s.m_graph.WF) (hs : s.m_start_node = s.m_graph.start_node)
    (he : s.m_end_node = s.m_graph.end_node) {fuel : Nat}
    (hfuel : s.m_graph.nodes.length < fuel) :
    ∃ (b : Bool) (parent : List Nat), FordFulkersonGraphAlgorithm.BFS fuel s = .ok (b, parent) ∧
      (b = true → ∃ (es L : List Nat),
        ParentChain s.m_graph parent s.m_start_node s.m_end_node es L ∧
        L.Nodup ∧ es ≠ [] ∧ UnsatLinks s.m_graph parent L) := by
  have hslt : s.m_start_node < s.m_graph.node_count := by
    rw [hs, hwf.count]; exact hwf.start_lt
  have helt : s.m_end_node < s.m_graph.node_count := by
    rw [he, hwf.count]; exact hwf.end_lt
  let l0 : BFSLocals :=
    { queue := [s.m_start_node],
      visited := (List.replicate s.m_graph.node_count false).set s.m_start_node true,
      parent := List.replicate s.m_graph.node_count SIZE_MAX }
  have hstartv : l0.visited[s.m_start_node]? = some true := by
    show ((List.replicate s.m_graph.node_count false).set s.m_start_node true)[s.m_start_node]?
      = some true
    rw [List.getElem?_set_self (by simpa using hslt)]
  have hother : ∀ v : Nat, l0.visited[v]? = some true → v = s.m_start_node := by
    intro v hv
    have hv' : ((List.replicate s.m_graph.node_count false).set s.m_start_node true)[v]?
      = some true := hv
    rcases getElem?_set_some hv' with ⟨h, _, _⟩ | ⟨_, h⟩
    · exact h.symm
    · rw [List.getElem?_replicate] at h
      split at h <;> simp at h
  have hinv0 : BFSTreeInv s.m_graph s.m_start_node s.m_end_node l0 := by
    constructor
    · show ((List.replicate _ false).set _ true).length = _
      rw [List.length_set, List.length_replicate, hwf.count]
    · show (List.replicate _ SIZE_MAX).length = _
      rw [List.length_replicate, hwf.count]
    · exact hstartv
    · intro v hv
      have : v = s.m_start_node := by simpa [l0] using hv
      rw [this]
      exact hstartv
    · intro hne
      show ((List.replicate s.m_graph.node_count false).set s.m_start_node true)[s.m_end_node]?
        = some false
      rw [List.getElem?_set_ne (Ne.symm hne), List.getElem?_replicate, if_pos helt]
    · intro v hv
      rw [hother v hv]
      refine ⟨[], [], ParentChain.nil, List.nodup_nil, ?_, ?_⟩
      · intro x hx
        cases hx
      · intro x hx
        cases hx
  have hmeas : l0.queue.length + l0.visited.count false < fuel := by
    have := count_false_replicate_set s.m_graph.node_count s.m_start_node hslt
    have hq : l0.queue.length = 1 := rfl
    have hc : l0.visited.count false =
      ((List.replicate s.m_graph.node_count false).set s.m_start_node true).count false := rfl
    rw [hwf.count] at this
    rw [hwf.count] at hc
    omega
  obtain ⟨b, parent, hrun, hres⟩ :=
    FordFulkersonGraphAlgorithm.bfsLoop_spec hwf fuel l0 hinv0 hmeas
  refine ⟨b, parent, ?_, hres⟩
  unfold FordFulkersonGraphAlgorithm.BFS
  simp only [List.length_replicate]
  rw [if_pos hslt]
  exact hrun

/-! ## `showFoundPath` -/

theorem FordFulkersonGraphAlgorithm.findEdge_node {g : FlowGraph} {p v ei : Nat}
    (h : FordFulkersonGraphAlgorithm.findEdge g p v = .ok ei) :
    ∃ node : FlowNode, g.nodes[p]? = some node := by
  unfold FordFulkersonGraphAlgorithm.findEdge at h
  cases hn : g.nodes[p]? with
  | none => rw [hn] at h; simp at h
  | some node => exact ⟨node, rfl⟩

theorem FordFulkersonGraphAlgorithm.showFoundPath_spec {parent : List Nat} {start : Nat}
    {g0 : FlowGraph} {v : Nat} {es L : List Nat} (hc : ParentChain g0 parent start v es L) :
    ∀ (g : FlowGraph), g.skel = g0.skel → g.WF → ∀ fuel, es.length < fuel →
      ∃ g1, FordFulkersonGraphAlgorithm.showFoundPath start parent fuel v g = .ok g1 ∧
        g1.skel = g.skel ∧
        (∀ (j : Nat) (e : FlowEdge), g.edges[j]? = some e →
          g1.edges[j]? = some (if j ∈ es then
            { e with state := FlowEdgeState.OnUnsaturatedPath } else e)) ∧
        (∀ (x : Nat) (nd : FlowNode), g.nodes[x]? = some nd →
          ∃ nd1 : FlowNode, g1.nodes[x]? = some nd1 ∧
            (nd1 = nd ∨ nd1 = { nd with state := FlowNodeState.OnUnsaturatedPath })) := by
  induction hc with
  | nil =>
    intro g _ _ fuel hfuel
    obtain ⟨fuel, rfl⟩ : ∃ f, fuel = f + 1 := ⟨fuel - 1, by omega⟩
    refine ⟨g, by simp [FordFulkersonGraphAlgorithm.showFoundPath], rfl, ?_, ?_⟩
    · intro j e he
      simpa using he
    · intro x nd hx
      exact ⟨nd, hx, Or.inl rfl⟩
  | @cons v p ei es L hne hp hf hrest ih =>
    intro g hsk hwf fuel hfuel
    obtain ⟨fuel, rfl⟩ : ∃ f, fuel = f + 1 := ⟨fuel - 1, by simp at hfuel; omega⟩
    have hfg : FordFulkersonGraphAlgorithm.findEdge g p v = .ok ei := by
      rw [FordFulkersonGraphAlgorithm.findEdge_skel hsk]; exact hf
    obtain ⟨pnode, hpnode⟩ := FordFulkersonGraphAlgorithm.findEdge_node hfg
    let pnode1 : FlowNode := { pnode with state := FlowNodeState.OnUnsaturatedPath }
    let ga : FlowGraph := { g with nodes := g.nodes.set p pnode1 }
    have hska : ga.skel = g.skel := FlowGraph.flow_skel_set_node g hpnode rfl rfl
    have hfa : FordFulkersonGraphAlgorithm.findEdge ga p v = .ok ei := by
      rw [FordFulkersonGraphAlgorithm.findEdge_skel hska]; exact hfg
    obtain ⟨e, he, _, _⟩ := FordFulkersonGraphAlgorithm.findEdge_ok hwf hfg
    have hea : ga.edges[ei]? = some e := he
    let e1 : FlowEdge := { e with state := FlowEdgeState.OnUnsaturatedPath }
    let gb : FlowGraph := { ga with edges := ga.edges.set ei e1 }
    have hskb : gb.skel = g.skel := by
      have : gb.skel = ga.skel := FlowGraph.flow_skel_set_edge ga hea rfl rfl rfl
      rw [this, hska]
    obtain ⟨g1, hrun, hsk1, hedges, hnodes⟩ :=
      ih gb (hskb.trans hsk) (hwf.flow_of_skel hskb) fuel (by simp at hfuel; omega)
    refine ⟨g1, ?_, hsk1.trans hskb, ?_, ?_⟩
    · simp only [FordFulkersonGraphAlgorithm.showFoundPath, if_neg hne, hp, hpnode]
      rw [hfa]
      simp only [hea]
      exact hrun
    · intro j ej hej
      have hb : gb.edges[j]? = some (if j = ei then e1 else ej) := by
        show (g.edges.set ei e1)[j]? = _
        by_cases hji : j = ei
        · subst hji
          rw [List.getElem?_set_self (getElem?_lt he), if_pos rfl]
        · rw [List.getElem?_set_ne (Ne.symm hji), hej, if_neg hji]
      rw [hedges j _ hb]
      by_cases hji : j = ei
      · subst hji
        rw [he] at hej
        cases hej
        simp [e1]
      · rw [if_neg hji]
        by_cases hm : j ∈ es
        · rw [if_pos hm, if_pos (List.mem_cons_of_mem _ hm)]
        · rw [if_neg hm, if_neg]
          intro hc
          rcases List.mem_cons.1 hc with h | h
          · exact hji h
          · exact hm h
    · intro x nd hx
      have hb : gb.nodes[x]? = some (if x = p then pnode1 else nd) := by
        show (g.nodes.set p pnode1)[x]? = _
        by_cases hxp : x = p
        · subst hxp
          rw [List.getElem?_set_self (getElem?_lt hpnode), if_pos rfl]
        · rw [List.getElem?_set_ne (Ne.symm hxp), hx, if_neg hxp]
      obtain ⟨nd1, hnd1, hor⟩ := hnodes x _ hb
      refine ⟨nd1, hnd1, ?_⟩
      by_cases hxp : x = p
      · subst hxp
        rw [hpnode] at hx
        cases hx
        rw [if_pos rfl] at hor
        right
        rcases hor with h | h
        · exact h
        · rw [h]
      · rw [if_neg hxp] at hor
        exact hor

/-! ## `updateFlow`: the bottleneck -/

theorem FordFulkersonGraphAlgorithm.bottleneck_spec {parent : List Nat} {start : Nat}
    {g : FlowGraph} {v : Nat} {es L : List Nat} (hc : ParentChain g parent start v es L)
    (hwf : g.WF) :
    ∀ (fuel acc : Nat), es.length < fuel →
      FordFulkersonGraphAlgorithm.bottleneck g start parent fuel v acc =
        .ok (es.foldl (fun a ei => min a (g.residual ei)) acc) := by
  induction hc with
  | nil =>
    intro fuel acc hfuel
    obtain ⟨fuel, rfl⟩ : ∃ f, fuel = f + 1 := ⟨fuel - 1, by omega⟩
    simp [FordFulkersonGraphAlgorithm.bottleneck]
  | @cons v p ei es L hne hp hf hrest ih =>
    intro fuel acc hfuel
    obtain ⟨fuel, rfl⟩ : ∃ f, fuel = f + 1 := ⟨fuel - 1, by simp at hfuel; omega⟩
    obtain ⟨e, he, _, _⟩ := FordFulkersonGraphAlgorithm.findEdge_ok hwf hf
    simp only [FordFulkersonGraphAlgorithm.bottleneck, if_neg hne, hp, hf, he, List.foldl_cons]
    rw [ih fuel _ (by simp at hfuel; omega)]
    simp [FlowGraph.residual, he]

theorem foldl_min_le_acc (r : Nat → Nat) (es : List Nat) :
    ∀ acc, es.foldl (fun a ei => min a (r ei)) acc ≤ acc := by
  induction es with
  | nil => intro acc; exact Nat.le_refl _
  | cons ei es ih =>
    intro acc
    exact Nat.le_trans (ih _) (Nat.min_le_left _ _)

theorem foldl_min_le_mem (r : Nat → Nat) (es : List Nat) :
    ∀ acc, ∀ ei ∈ es, es.foldl (fun a ei => min a (r ei)) acc ≤ r ei := by
  induction es with
  | nil => intro acc ei h; cases h
  | cons ej es ih =>
    intro acc ei hei
    rcases List.mem_cons.1 hei with h | h
    · subst h
      exact Nat.le_trans (foldl_min_le_acc r es _) (Nat.min_le_right _ _)
    · exact ih _ ei h

theorem foldl_min_attained (r : Nat → Nat) (es : List Nat) :
    ∀ acc, es.foldl (fun a ei => min a (r ei)) acc = acc ∨
      ∃ ei ∈ es, es.foldl (fun a ei => min a (r ei)) acc = r ei := by
  induction es with
  | nil => intro acc; exact Or.inl rfl
  | cons ej es ih =>
    intro acc
    rcases ih (min acc (r ej)) with h | ⟨ei, hei, h⟩
    · rcases Nat.le_total acc (r ej) with hle | hle
      · left
        simp only [List.foldl_cons]
        rw [h, Nat.min_eq_left hle]
      · right
        refine ⟨ej, List.mem_cons_self _ _, ?_⟩
        simp only [List.foldl_cons]
        rw [h, Nat.min_eq_right hle]
    · exact Or.inr ⟨ei, List.mem_cons_of_mem _ hei, h⟩

/-! ## Sums of flows -/

theorem sum_filter_set (p : FlowEdge → Bool) (f : Nat) :
    ∀ (l : List FlowEdge) (i : Nat) (e e1 : FlowEdge), l[i]? = some e → p e1 = p e →
      e1.current_flow = e.current_flow + f →
      (((l.set i e1).filter p).map (fun e => e.current_flow)).sum =
        ((l.filter p).map (fun e => e.current_flow)).sum + (if p e = true then f else 0) := by
  intro l
  induction l with
  | nil => intro i e e1 h; simp at h
  | cons a l ih =>
    intro i e e1 h hp hfl
    cases i with
    | zero =>
      simp only [List.getElem?_cons_zero, Option.some.injEq] at h
      subst h
      simp only [List.set_cons_zero, List.filter_cons, hp]
      cases hpa : p a
      · simp
      · simp [hfl]; omega
    | succ i =>
      simp only [List.getElem?_cons_succ] at h
      have := ih i e e1 h hp hfl
      simp only [List.set_cons_succ, List.filter_cons]
      cases hpa : p a
      · simpa using this
      · simp only [if_true, List.map_cons, List.sum_cons]
        rw [this]
        omega

theorem FlowGraph.inflow_set (g : FlowGraph) {ei : Nat} {e e1 : FlowEdge} (f x : Nat)
    (he : g.edges[ei]? = some e) (hto : e1.to_node_index = e.to_node_index)
    (hfl : e1.current_flow = e.current_flow + f) :
    FlowGraph.inflow { g with edges := g.edges.set ei e1 } x =
      g.inflow x + (if e.to_node_index = x then f else 0) := by
  unfold FlowGraph.inflow
  have := sum_filter_set (fun e => decide (e.to_node_index = x)) f g.edges ei e e1 he
    (by simp [hto]) hfl
  simpa using this

theorem FlowGraph.outflow_set (g : FlowGraph) {ei : Nat} {e e1 : FlowEdge} (f x : Nat)
    (he : g.edges[ei]? = some e) (hfrom : e1.from_node_index = e.from_node_index)
    (hfl : e1.current_flow = e.current_flow + f) :
    FlowGraph.outflow { g with edges := g.edges.set ei e1 } x =
      g.outflow x + (if e.from_node_index = x then f else 0) := by
  unfold FlowGraph.outflow
  have := sum_filter_set (fun e => decide (e.from_node_index = x)) f g.edges ei e e1 he
    (by simp [hfrom]) hfl
  simpa using this

/-- In- and outflow only depend on the endpoints and flows of the edges. -/
theorem FlowGraph.inflow_congr {g g1 : FlowGraph}
    (h : g1.edges.map (fun e => (e.from_node_index, e.to_node_index, e.current_flow)) =
      g.edges.map (fun e => (e.from_node_index, e.to_node_index, e.current_flow))) (x : Nat) :
    g1.inflow x = g.inflow x ∧ g1.outflow x = g.outflow x := by
  have key : ∀ (l : List FlowEdge),
      ((l.filter (fun e => decide (e.to_node_index = x))).map (fun e => e.current_flow)).sum =
        (((l.map (fun e => (e.from_node_index, e.to_node_index, e.current_flow))).filter
          (fun t => decide (t.2.1 = x))).map (fun t => t.2.2)).sum ∧
      ((l.filter (fun e => decide (e.from_node_index = x))).map (fun e => e.current_flow)).sum =
        (((l.map (fun e => (e.from_node_index, e.to_node_index, e.current_flow))).filter
          (fun t => decide (t.1 = x))).map (fun t => t.2.2)).sum := by
    intro l
    induction l with
    | nil => simp
    | cons a l ih =>
      constructor
      · simp only [List.filter_cons, List.map_cons]
        by_cases ha : a.to_node_index = x
        · simp [ha, ih.1]
        · simp [ha, ih.1]
      · simp only [List.filter_cons, List.map_cons]
        by_cases ha : a.from_node_index = x
        · simp [ha, ih.2]
        · simp [ha, ih.2]
  unfold FlowGraph.inflow FlowGraph.outflow
  rw [(key g1.edges).1, (key g1.edges).2, (key g.edges).1, (key g.edges).2, h]
  exact ⟨rfl, rfl⟩

theorem sizeAdd_eq {a f c : Nat} (h : a + f ≤ c) (hc : c < SIZE_MOD) : sizeAdd a f = a + f := by
  unfold sizeAdd
  exact Nat.mod_eq_of_lt (by omega)

theorem sizeSub_eq {c a : Nat} (h : a ≤ c) (hc : c < SIZE_MOD) : sizeSub c a = c - a := by
  unfold sizeSub
  have ha : a % SIZE_MOD = a := Nat.mod_eq_of_lt (by omega)
  rw [ha]
  have : c + SIZE_MOD - a = (c - a) + SIZE_MOD := by omega
  rw [this, Nat.add_mod_right]
  exact Nat.mod_eq_of_lt (by omega)

/-! ## `updateFlow`: the augmentation -/

theorem FordFulkersonGraphAlgorithm.augment_spec {parent : List Nat} {start f : Nat}
    {g0 : FlowGraph} {v : Nat} {es L : List Nat} (hc : ParentChain g0 parent start v es L) :
    ∀ (g : FlowGraph), g.skel = g0.skel → g.WF → es.Nodup → ∀ fuel, es.length < fuel →
      (∀ ei ∈ es, ∃ e : FlowEdge, g.edges[ei]? = some e ∧ e.current_flow + f ≤ e.capacity) →
      ∃ g1, FordFulkersonGraphAlgorithm.augment start parent f fuel v g = .ok g1 ∧
        g1.skel = g.skel ∧ g1.nodes = g.nodes ∧
        (∀ (j : Nat) (e : FlowEdge), g.edges[j]? = some e →
          g1.edges[j]? = some (if j ∈ es then e.augmented f else e)) ∧
        (∀ x : Nat, g1.inflow x + g.outflow x + (if x = start ∧ v ≠ start then f else 0) =
          g1.outflow x + g.inflow x + (if x = v ∧ v ≠ start then f else 0)) := by
  induction hc with
  | nil =>
    intro g _ _ _ fuel hfuel _
    obtain ⟨fuel, rfl⟩ : ∃ k, fuel = k + 1 := ⟨fuel - 1, by omega⟩
    refine ⟨g, by simp [FordFulkersonGraphAlgorithm.augment], rfl, rfl, ?_, ?_⟩
    · intro j e he
      simpa using he
    · intro x
      simp
      omega
  | @cons v p ei es L hne hp hf hrest ih =>
    intro g hsk hwf hnd fuel hfuel hroom
    obtain ⟨fuel, rfl⟩ : ∃ k, fuel = k + 1 := ⟨fuel - 1, by simp at hfuel; omega⟩
    have hfg : FordFulkersonGraphAlgorithm.findEdge g p v = .ok ei := by
      rw [FordFulkersonGraphAlgorithm.findEdge_skel hsk]; exact hf
    obtain ⟨e, he, hfrom, hto⟩ := FordFulkersonGraphAlgorithm.findEdge_ok hwf hfg
    obtain ⟨e', he', hle⟩ := hroom ei (List.mem_cons_self _ _)
    rw [he] at he'
    cases he'
    have hadd : sizeAdd e.current_flow f = e.current_flow + f :=
      sizeAdd_eq hle (hwf.cap_lt ei e he)
    let ga : FlowGraph := { g with edges := g.edges.set ei (e.augmented f) }
    have hska : ga.skel = g.skel := FlowGraph.flow_skel_set_edge g he rfl rfl rfl
    have hnd' := List.nodup_cons.1 hnd
    have hga : ∀ (j : Nat) (ej : FlowEdge), g.edges[j]? = some ej →
        ga.edges[j]? = some (if j = ei then e.augmented f else ej) := by
      intro j ej hej
      show (g.edges.set ei _)[j]? = _
      by_cases hji : j = ei
      · subst hji
        rw [List.getElem?_set_self (getElem?_lt he), if_pos rfl]
      · rw [List.getElem?_set_ne (Ne.symm hji), hej, if_neg hji]
    have hroom' : ∀ ej ∈ es, ∃ e2 : FlowEdge, ga.edges[ej]? = some e2 ∧
        e2.current_flow + f ≤ e2.capacity := by
      intro ej hej
      obtain ⟨e2, he2, hle2⟩ := hroom ej (List.mem_cons_of_mem _ hej)
      have hne' : ej ≠ ei := fun h => hnd'.1 (by rw [← h]; exact hej)
      exact ⟨e2, by rw [hga ej e2 he2, if_neg hne'], hle2⟩
    obtain ⟨g1, hrun, hsk1, hnodes, hedges, hcons⟩ :=
      ih ga (hska.trans hsk) (hwf.flow_of_skel hska) hnd'.2 fuel (by simp at hfuel; omega) hroom'
    refine ⟨g1, ?_, hsk1.trans hska, hnodes, ?_, ?_⟩
    · simp only [FordFulkersonGraphAlgorithm.augment, if_neg hne, hp, hfg, he]
      exact hrun
    · intro j ej hej
      rw [hedges j _ (hga j ej hej)]
      by_cases hji : j = ei
      · subst hji
        rw [he] at hej
        cases hej
        rw [if_neg hnd'.1, if_pos rfl, if_pos (List.mem_cons_self _ _)]
      · rw [if_neg hji]
        by_cases hm : j ∈ es
        · rw [if_pos hm, if_pos (List.mem_cons_of_mem _ hm)]
        · rw [if_neg hm, if_neg]
          intro hcm
          rcases List.mem_cons.1 hcm with h | h
          · exact hji h
          · exact hm h
    · intro x
      have hin : ga.inflow x = g.inflow x + (if e.to_node_index = x then f else 0) :=
        FlowGraph.inflow_set g f x he rfl hadd
      have hout : ga.outflow x = g.outflow x + (if e.from_node_index = x then f else 0) :=
        FlowGraph.outflow_set g f x he rfl hadd
      have hx := hcons x
      rw [hin, hout, hto, hfrom] at hx
      generalize g1.inflow x = A at hx ⊢
      generalize g1.outflow x = C at hx ⊢
      generalize g.inflow x = D at hx ⊢
      generalize g.outflow x = B at hx ⊢
      split_ifs at hx ⊢ <;> omega

/-! ## `cleanGraph` -/

theorem cleanGraph_edges (g : FlowGraph) (j : Nat) :
    (cleanGraph g).edges[j]? = (g.edges[j]?).map (fun e =>
      { e with state := if e.current_flow = e.capacity then FlowEdgeState.Saturated
                        else FlowEdgeState.Default }) := by
  unfold cleanGraph
  simp only [List.getElem?_map]
  cases g.edges[j]? with
  | none => rfl
  | some e =>
    simp only [Option.map_some', Option.some.injEq]
    split <;> rfl

theorem cleanGraph_skel (g : FlowGraph) : (cleanGraph g).skel = g.skel := by
  unfold cleanGraph FlowGraph.skel
  simp only [List.map_map]
  congr 1
  · apply List.map_congr_left
    intro e _
    simp only [Function.comp]
    split <;> rfl

theorem cleanGraph_view (g : FlowGraph) :
    (cleanGraph g).edges.map (fun e => (e.from_node_index, e.to_node_index, e.current_flow)) =
      g.edges.map (fun e => (e.from_node_index, e.to_node_index, e.current_flow)) := by
  unfold cleanGraph
  simp only [List.map_map]
  apply List.map_congr_left
  intro e _
  simp only [Function.comp]
  split <;> rfl

/-! ## One call of `FordFulkersonGraphAlgorithm::nextStep`, phase by phase -/

theorem FordFulkersonGraphAlgorithm.nextStep_clean {s : FordFulkersonGraphAlgorithm}
    (fuel : Nat) (hp : s.m_next_step_state = NextStepState.CleanGraph) :
    FordFulkersonGraphAlgorithm.nextStep fuel s =
      .ok (true, { s with m_graph := cleanGraph s.m_graph,
                          m_next_step_state := NextStepState.PathFind }) := by
  unfold FordFulkersonGraphAlgorithm.nextStep
  rw [hp]

theorem ParentChain.fuel_bound {g : FlowGraph} (hwf : g.WF) {parent : List Nat} {start v : Nat}
    {es L : List Nat} (hc : ParentChain g parent start v es L) (hL : L.Nodup) :
    es.length ≤ g.nodes.length := by
  rw [hc.chain_length]
  exact nodup_length_le hL (hc.chain_node_lt hwf)

theorem FordFulkersonGraphAlgorithm.nextStep_pathFind {s : FordFulkersonGraphAlgorithm}
    (h : FFInv s) {fuel : Nat} (hfuel : s.m_graph.nodes.length < fuel)
    (hp : s.m_next_step_state = NextStepState.PathFind) :
    (∃ parent : List Nat, FordFulkersonGraphAlgorithm.BFS fuel s = .ok (false, parent) ∧
      FordFulkersonGraphAlgorithm.nextStep fuel s = .ok (false, { s with m_parent := parent })) ∨
    (∃ (parent es L : List Nat) (g1 : FlowGraph),
      FordFulkersonGraphAlgorithm.nextStep fuel s =
        .ok (true, { s with m_graph := g1, m_parent := parent,
                            m_next_step_state := NextStepState.UpdatePath }) ∧
      ParentChain s.m_graph parent s.m_start_node s.m_end_node es L ∧ L.Nodup ∧ es ≠ [] ∧
      UnsatLinks s.m_graph parent L ∧ g1.skel = s.m_graph.skel ∧
      (∀ (j : Nat) (e : FlowEdge), s.m_graph.edges[j]? = some e →
        g1.edges[j]? = some (if j ∈ es then
          { e with state := FlowEdgeState.OnUnsaturatedPath } else e)) ∧
      (∀ (x : Nat) (nd : FlowNode), s.m_graph.nodes[x]? = some nd →
        ∃ nd1 : FlowNode, g1.nodes[x]? = some nd1 ∧
          (nd1 = nd ∨ nd1 = { nd with state := FlowNodeState.OnUnsaturatedPath }))) := by
  obtain ⟨b, parent, hbfs, hres⟩ :=
    FordFulkersonGraphAlgorithm.BFS_spec h.wf h.start_eq h.end_eq hfuel
  cases b with
  | false =>
    left
    refine ⟨parent, hbfs, ?_⟩
    unfold FordFulkersonGraphAlgorithm.nextStep
    rw [hp]
    simp only [hbfs]
  | true =>
    right
    obtain ⟨es, L, hchain, hL, hne, hunsat⟩ := hres rfl
    have hlen := hchain.fuel_bound h.wf hL
    obtain ⟨g1, hshow, hsk, hedges, hnodes⟩ :=
      FordFulkersonGraphAlgorithm.showFoundPath_spec hchain s.m_graph rfl h.wf fuel (by omega)
    refine ⟨parent, es, L, g1, ?_, hchain, hL, hne, hunsat, hsk, hedges, hnodes⟩
    unfold FordFulkersonGraphAlgorithm.nextStep
    rw [hp]
    simp only [hbfs, hshow]

theorem FlowGraph.residual_eq {g : FlowGraph} (hwf : g.WF) {ei : Nat} {e : FlowEdge}
    (he : g.edges[ei]? = some e) (hcap : e.current_flow ≤ e.capacity) :
    g.residual ei = e.capacity - e.current_flow := by
  unfold FlowGraph.residual
  rw [he]
  exact sizeSub_eq hcap (hwf.cap_lt ei e he)

theorem FordFulkersonGraphAlgorithm.nextStep_update {s : FordFulkersonGraphAlgorithm}
    (h : FFInv s) {fuel : Nat} (hfuel : s.m_graph.nodes.length < fuel)
    (hp : s.m_next_step_state = NextStepState.UpdatePath) :
    ∃ (es L : List Nat) (f : Nat) (g1 : FlowGraph),
      ParentChain s.m_graph s.m_parent s.m_start_node s.m_end_node es L ∧ L.Nodup ∧
      es.Nodup ∧ es ≠ [] ∧ UnsatLinks s.m_graph s.m_parent L ∧
      f = es.foldl (fun a ei => min a (s.m_graph.residual ei)) SIZE_MAX ∧
      (∀ ei ∈ es, ∃ e : FlowEdge, s.m_graph.edges[ei]? = some e ∧
        f ≤ e.capacity - e.current_flow ∧ e.current_flow + f ≤ e.capacity) ∧
      (∃ ei ∈ es, ∃ e : FlowEdge, s.m_graph.edges[ei]? = some e ∧
        f = e.capacity - e.current_flow) ∧
      FordFulkersonGraphAlgorithm.nextStep fuel s =
        .ok (true, { s with m_graph := g1, m_max_flow := sizeAdd s.m_max_flow f,
                            m_next_step_state := NextStepState.CleanGraph }) ∧
      g1.skel = s.m_graph.skel ∧ g1.nodes = s.m_graph.nodes ∧
      (∀ (j : Nat) (e : FlowEdge), s.m_graph.edges[j]? = some e →
        g1.edges[j]? = some (if j ∈ es then e.augmented f else e)) ∧
      (∀ x : Nat, x ≠ s.m_start_node → x ≠ s.m_end_node →
        g1.inflow x + s.m_graph.outflow x = g1.outflow x + s.m_graph.inflow x) := by
  obtain ⟨es, L, hchain, hL, hne, hunsat⟩ := h.chain hp
  have hlen := hchain.fuel_bound h.wf hL
  have hesnd := hchain.edges_nodup h.wf hL
  have hbot := FordFulkersonGraphAlgorithm.bottleneck_spec hchain h.wf fuel SIZE_MAX (by omega)
  have hedge : ∀ ei ∈ es, ∃ e : FlowEdge, s.m_graph.edges[ei]? = some e := by
    intro ei hei
    obtain ⟨e, he, _⟩ := hchain.edge_target h.wf ei hei
    exact ⟨e, he⟩
  have hroom : ∀ ei ∈ es, ∃ e : FlowEdge, s.m_graph.edges[ei]? = some e ∧
      es.foldl (fun a ei => min a (s.m_graph.residual ei)) SIZE_MAX ≤
        e.capacity - e.current_flow ∧
      e.current_flow + es.foldl (fun a ei => min a (s.m_graph.residual ei)) SIZE_MAX ≤
        e.capacity := by
    intro ei hei
    obtain ⟨e, he⟩ := hedge ei hei
    have hcap := h.cap ei e he
    have hle := foldl_min_le_mem (fun ei => s.m_graph.residual ei) es SIZE_MAX ei hei
    simp only at hle
    rw [FlowGraph.residual_eq h.wf he hcap] at hle
    exact ⟨e, he, hle, by omega⟩
  obtain ⟨g1, haug, hsk, hnodes, hedges, hcons⟩ :=
    FordFulkersonGraphAlgorithm.augment_spec hchain s.m_graph rfl h.wf hesnd fuel (by omega)
      (fun ei hei => by
        obtain ⟨e, he, _, hle⟩ := hroom ei hei
        exact ⟨e, he, hle⟩)
  refine ⟨es, L, _, g1, hchain, hL, hesnd, hne, hunsat, rfl, hroom, ?_, ?_, hsk, hnodes,
    hedges, ?_⟩
  · rcases foldl_min_attained (fun ei => s.m_graph.residual ei) es SIZE_MAX with hacc | hatt
    · -- the sentinel is only returned when it equals a residual
      obtain ⟨ei, hei⟩ : ∃ ei, ei ∈ es := by
        cases es with
        | nil => exact absurd rfl hne
        | cons a _ => exact ⟨a, List.mem_cons_self _ _⟩
      obtain ⟨e, he, hle, _⟩ := hroom ei hei
      refine ⟨ei, hei, e, he, ?_⟩
      have hc := h.wf.cap_lt ei e he
      rw [hacc] at hle ⊢
      unfold SIZE_MAX at hle ⊢
      unfold SIZE_MOD at hc
      omega
    · obtain ⟨ei, hei, hval⟩ := hatt
      obtain ⟨e, he⟩ := hedge ei hei
      refine ⟨ei, hei, e, he, ?_⟩
      rw [hval, FlowGraph.residual_eq h.wf he (h.cap ei e he)]
  · unfold FordFulkersonGraphAlgorithm.nextStep
    rw [hp]
    simp only [FordFulkersonGraphAlgorithm.updateFlow, hbot, haug]
  · intro x hxs hxe
    have := hcons x
    rw [if_neg (fun hc => hxs hc.1), if_neg (fun hc => hxe hc.1)] at this
    exact this

/-! ## The invariant of `FordFulkersonGraphAlgorithm` -/

theorem FlowGraph.view_eq_of_pointwise {g g1 : FlowGraph}
    (hlen : g1.edges.length = g.edges.length)
    (h : ∀ (j : Nat) (e : FlowEdge), g.edges[j]? = some e →
      ∃ e1 : FlowEdge, g1.edges[j]? = some e1 ∧ e1.from_node_index = e.from_node_index ∧
        e1.to_node_index = e.to_node_index ∧ e1.current_flow = e.current_flow) :
    g1.edges.map (fun e => (e.from_node_index, e.to_node_index, e.current_flow)) =
      g.edges.map (fun e => (e.from_node_index, e.to_node_index, e.current_flow)) := by
  apply List.ext_getElem?
  intro j
  simp only [List.getElem?_map]
  cases hj : g.edges[j]? with
  | none =>
    have : g1.edges[j]? = none := by
      rw [List.getElem?_eq_none_iff] at hj ⊢
      rw [hlen]; exact hj
    rw [this]
  | some e =>
    obtain ⟨e1, he1, h1, h2, h3⟩ := h j e hj
    rw [he1]
    simp [h1, h2, h3]

theorem FlowGraph.inflow_zero {g : FlowGraph}
    (h : ∀ (j : Nat) (e : FlowEdge), g.edges[j]? = some e → e.current_flow = 0) (x : Nat) :
    g.inflow x = 0 ∧ g.outflow x = 0 := by
  have key : ∀ (p : FlowEdge → Bool) (l : List FlowEdge), (∀ e ∈ l, e.current_flow = 0) →
      ((l.filter p).map (fun e => e.current_flow)).sum = 0 := by
    intro p l hl
    apply List.sum_eq_zero
    intro n hn
    obtain ⟨e, he, hen⟩ := List.mem_map.1 hn
    rw [← hen]
    exact hl e (List.mem_filter.1 he).1
  have hall : ∀ e ∈ g.edges, e.current_flow = 0 := by
    intro e he
    obtain ⟨j, hj⟩ := List.mem_iff_getElem?.1 he
    exact h j e hj
  exact ⟨key _ _ hall, key _ _ hall⟩

theorem FFInv.init_fresh {c : FlowGraphConfig} {g : FlowGraph} (hf : FlowGraph.Fresh c g) :
    FFInv (FordFulkersonGraphAlgorithm.new g) := by
  constructor
  · exact hf.wf
  · rfl
  · rfl
  · intro ei e he
    have := (hf.edge_init ei e he).2
    simp only [FordFulkersonGraphAlgorithm.new] at he
    omega
  · intro v _ _
    have := FlowGraph.inflow_zero (g := g) (fun j e he => (hf.edge_init j e he).2) v
    show g.inflow v = g.outflow v
    rw [this.1, this.2]
  · intro h
    cases h

theorem FFInv.ff_step {s : FordFulkersonGraphAlgorithm} (h : FFInv s) {fuel : Nat}
    (hfuel : s.m_graph.nodes.length < fuel) :
    ∃ (b : Bool) (s1 : FordFulkersonGraphAlgorithm),
      FordFulkersonGraphAlgorithm.nextStep fuel s = .ok (b, s1) ∧ FFInv s1 ∧
      s1.m_graph.skel = s.m_graph.skel := by
  cases hp : s.m_next_step_state with
  | CleanGraph =>
    refine ⟨true, _, FordFulkersonGraphAlgorithm.nextStep_clean fuel hp, ?_, cleanGraph_skel _⟩
    constructor
    · exact h.wf.flow_of_skel (cleanGraph_skel _)
    · exact h.start_eq.trans (FlowGraph.flow_skel_start (cleanGraph_skel _)).symm
    · exact h.end_eq.trans (FlowGraph.flow_skel_end (cleanGraph_skel _)).symm
    · intro ei e1 he1
      have he1' : (cleanGraph s.m_graph).edges[ei]? = some e1 := he1
      rw [cleanGraph_edges] at he1'
      cases hge : s.m_graph.edges[ei]? with
      | none => rw [hge] at he1'; simp at he1'
      | some e =>
        rw [hge] at he1'
        simp only [Option.map_some', Option.some.injEq] at he1'
        rw [← he1']
        exact h.cap ei e hge
    · intro v hvs hve
      have := FlowGraph.inflow_congr (cleanGraph_view s.m_graph) v
      show (cleanGraph s.m_graph).inflow v = (cleanGraph s.m_graph).outflow v
      rw [this.1, this.2]
      exact h.conserve v hvs hve
    · intro hc
      cases hc
  | PathFind =>
    rcases FordFulkersonGraphAlgorithm.nextStep_pathFind h hfuel hp with
      ⟨parent, _, hstep⟩ | ⟨parent, es, L, g1, hstep, hchain, hL, hne, hunsat, hsk, hedges, _⟩
    · refine ⟨false, _, hstep, ?_, rfl⟩
      constructor
      · exact h.wf
      · exact h.start_eq
      · exact h.end_eq
      · exact h.cap
      · exact h.conserve
      · intro hc
        rw [hp] at hc
        cases hc
    · have hpt : ∀ (j : Nat) (e : FlowEdge), s.m_graph.edges[j]? = some e →
          ∃ e1 : FlowEdge, g1.edges[j]? = some e1 ∧ e1.from_node_index = e.from_node_index ∧
            e1.to_node_index = e.to_node_index ∧ e1.current_flow = e.current_flow ∧
            e1.capacity = e.capacity := by
        intro j e he
        refine ⟨_, hedges j e he, ?_⟩
        split <;> exact ⟨rfl, rfl, rfl, rfl⟩
      refine ⟨true, _, hstep, ?_, hsk⟩
      constructor
      · exact h.wf.flow_of_skel hsk
      · exact h.start_eq.trans (FlowGraph.flow_skel_start hsk).symm
      · exact h.end_eq.trans (FlowGraph.flow_skel_end hsk).symm
      · intro ei e1 he1
        have he1' : g1.edges[ei]? = some e1 := he1
        obtain ⟨e, he, _⟩ := FlowGraph.flow_skel_edges hsk he1'
        obtain ⟨e1', he1'', _, _, hfl, hcp⟩ := hpt ei e he
        rw [he1'] at he1''
        cases he1''
        rw [hfl, hcp]
        exact h.cap ei e he
      · intro v hvs hve
        have hview := FlowGraph.view_eq_of_pointwise (FlowGraph.flow_skel_edges_length hsk)
          (fun j e he => by
            obtain ⟨e1, he1, h1, h2, h3, _⟩ := hpt j e he
            exact ⟨e1, he1, h1, h2, h3⟩)
        have := FlowGraph.inflow_congr hview v
        show g1.inflow v = g1.outflow v
        rw [this.1, this.2]
        exact h.conserve v hvs hve
      · intro _
        refine ⟨es, L, hchain.chain_of_skel hsk, hL, hne, ?_⟩
        intro v hv
        obtain ⟨p, ej, e, hpv, he, hf, ht, hlt⟩ := hunsat v hv
        obtain ⟨e1, he1, h1, h2, h3, h4⟩ := hpt ej e he
        exact ⟨p, ej, e1, hpv, he1, by rw [h1]; exact hf, by rw [h2]; exact ht,
          by rw [h3, h4]; exact hlt⟩
  | UpdatePath =>
    obtain ⟨es, L, f, g1, hchain, hL, hesnd, hne, hunsat, hf, hroom, hatt, hstep, hsk, hnodes,
      hedges, hcons⟩ := FordFulkersonGraphAlgorithm.nextStep_update h hfuel hp
    refine ⟨true, _, hstep, ?_, hsk⟩
    constructor
    · exact h.wf.flow_of_skel hsk
    · exact h.start_eq.trans (FlowGraph.flow_skel_start hsk).symm
    · exact h.end_eq.trans (FlowGraph.flow_skel_end hsk).symm
    · intro ei e1 he1
      have he1' : g1.edges[ei]? = some e1 := he1
      obtain ⟨e, he, _⟩ := FlowGraph.flow_skel_edges hsk he1'
      have := hedges ei e he
      rw [he1'] at this
      cases this
      by_cases hm : ei ∈ es
      · obtain ⟨e', he', _, hle⟩ := hroom ei hm
        rw [he] at he'
        cases he'
        rw [if_pos hm]
        show sizeAdd e.current_flow f ≤ e.capacity
        rw [sizeAdd_eq hle (h.wf.cap_lt ei e he)]
        exact hle
      · rw [if_neg hm]
        exact h.cap ei e he
    · intro v hvs hve
      have h1 := hcons v hvs hve
      have h2 := h.conserve v hvs hve
      show g1.inflow v = g1.outflow v
      omega
    · intro hc
      cases hc

theorem FFInv.steps {fuel : Nat} :
    ∀ (k : Nat) (s : FordFulkersonGraphAlgorithm), FFInv s → s.m_graph.nodes.length < fuel →
      ∃ s1, FordFulkersonGraphAlgorithm.steps fuel k s = .ok s1 ∧ FFInv s1 ∧
        s1.m_graph.skel = s.m_graph.skel := by
  intro k
  induction k with
  | zero => intro s h _; exact ⟨s, rfl, h, rfl⟩
  | succ k ih =>
    intro s h hfuel
    obtain ⟨b, s1, hstep, hinv1, hsk1⟩ := h.ff_step hfuel
    obtain ⟨s2, hsteps, hinv2, hsk2⟩ :=
      ih s1 hinv1 (by rw [FlowGraph.flow_skel_nodes_length hsk1]; exact hfuel)
    exact ⟨s2, by simp only [FordFulkersonGraphAlgorithm.steps, hstep, hsteps], hinv2,
      hsk2.trans hsk1⟩

/-! ## Graphs without parallel edges -/

theorem ParentChain.chain_unique {g : FlowGraph} {parent : List Nat} {start v : Nat}
    {es L : List Nat} (hc : ParentChain g parent start v es L) :
    ∀ {es1 L1 : List Nat}, ParentChain g parent start v es1 L1 → es1 = es ∧ L1 = L := by
  induction hc with
  | nil =>
    intro es1 L1 h1
    cases h1 with
    | nil => exact ⟨rfl, rfl⟩
    | cons hne _ _ _ => exact absurd rfl hne
  | @cons v p ei es L hne hp hf _ ih =>
    intro es1 L1 h1
    cases h1 with
    | nil => exact absurd rfl hne
    | @cons _ p1 ei1 es1 L1 _ hp1 hf1 hrest1 =>
      rw [hp] at hp1
      cases hp1
      rw [hf] at hf1
      cases hf1
      obtain ⟨h1, h2⟩ := ih hrest1
      rw [h1, h2]
      exact ⟨rfl, rfl⟩

theorem FlowGraph.ends_skel {g g1 : FlowGraph} (h : g1.skel = g.skel) : g1.ends = g.ends := by
  have h2 : g1.edges.map (fun e => (e.from_node_index, e.to_node_index, e.capacity)) =
      g.edges.map (fun e => (e.from_node_index, e.to_node_index, e.capacity)) := by
    have := congrArg (fun p => p.1) h
    simpa [FlowGraph.skel] using this
  have h3 := congrArg (fun l => l.map (fun t : Nat × Nat × Nat => (t.1, t.2.1))) h2
  simpa [FlowGraph.ends, List.map_map, Function.comp] using h3

theorem FlowGraph.same_edge_of_nodup {g : FlowGraph} (hnd : g.ends.Nodup) {i j : Nat}
    {ei ej : FlowEdge} (hi : g.edges[i]? = some ei) (hj : g.edges[j]? = some ej)
    (hf : ei.from_node_index = ej.from_node_index)
    (ht : ei.to_node_index = ej.to_node_index) : i = j := by
  apply @List.getElem?_inj _ i j g.ends (by simpa [FlowGraph.ends] using getElem?_lt hi) hnd
  simp [FlowGraph.ends, List.getElem?_map, hi, hj, hf, ht]

/-- Without parallel edges the edge that `findEdge` returns for a link is the edge the search
went through, so it has residual capacity. -/
theorem ParentChain.edges_unsat {g : FlowGraph} (hwf : g.WF) (hnd : g.ends.Nodup)
    {parent : List Nat} {start v : Nat} {es L : List Nat}
    (hc : ParentChain g parent start v es L) (hu : UnsatLinks g parent L) :
    ∀ ei ∈ es, ∃ e : FlowEdge, g.edges[ei]? = some e ∧ e.current_flow < e.capacity := by
  induction hc with
  | nil => intro ei h; cases h
  | @cons v p ei es L _ hp hf _ ih =>
    intro ej hej
    rcases List.mem_cons.1 hej with h | h
    · subst h
      obtain ⟨e, he, hfrom, hto⟩ := FordFulkersonGraphAlgorithm.findEdge_ok hwf hf
      obtain ⟨p1, ek, e1, hp1, he1, hf1, ht1, hlt⟩ := hu v (List.mem_cons_self _ _)
      rw [hp] at hp1
      cases hp1
      have := FlowGraph.same_edge_of_nodup hnd he he1 (by rw [hfrom, hf1]) (by rw [hto, ht1])
      subst this
      rw [he] at he1
      cases he1
      exact ⟨e, he, hlt⟩
    · exact ih (fun x hx => hu x (List.mem_cons_of_mem _ hx)) ej h

theorem FFMarks.marks_step {s s1 : FordFulkersonGraphAlgorithm} (h : FFInv s)
    (hnd : s.m_graph.ends.Nodup)
    (hm : s.m_next_step_state = NextStepState.CleanGraph ∨ FFMarks s) {fuel : Nat}
    (hfuel : s.m_graph.nodes.length < fuel) {b : Bool}
    (hstep : FordFulkersonGraphAlgorithm.nextStep fuel s = .ok (b, s1)) : FFMarks s1 := by
  cases hp : s.m_next_step_state with
  | CleanGraph =>
    rw [FordFulkersonGraphAlgorithm.nextStep_clean fuel hp] at hstep
    cases hstep
    constructor
    · intro _ j e1 he1
      have he1' : (cleanGraph s.m_graph).edges[j]? = some e1 := he1
      rw [cleanGraph_edges] at he1'
      cases hge : s.m_graph.edges[j]? with
      | none => rw [hge] at he1'; simp at he1'
      | some e =>
        rw [hge] at he1'
        simp only [Option.map_some', Option.some.injEq] at he1'
        rw [← he1']
    · intro hc; cases hc
    · intro hc; cases hc
  | PathFind =>
    have hmk : FFMarks s := by
      rcases hm with hm | hm
      · rw [hp] at hm; cases hm
      · exact hm
    rcases FordFulkersonGraphAlgorithm.nextStep_pathFind h hfuel hp with
      ⟨parent, _, hstep'⟩ | ⟨parent, es, L, g1, hstep', hchain, hL, hne, hunsat, hsk, hedges, _⟩
    · rw [hstep'] at hstep
      cases hstep
      constructor
      · intro _
        exact hmk.pathFind hp
      · intro hc
        rw [hp] at hc
        cases hc
      · intro hc
        rw [hp] at hc
        cases hc
    · rw [hstep'] at hstep
      cases hstep
      constructor
      · intro hc; cases hc
      · intro _ es1 L1 hchain1 j e1 he1
        have hchain1' : ParentChain g1 parent s.m_start_node s.m_end_node es1 L1 := hchain1
        have hback : ParentChain s.m_graph parent s.m_start_node s.m_end_node es1 L1 :=
          ParentChain.chain_of_skel hsk.symm hchain1'
        obtain ⟨hes, _⟩ := hchain.chain_unique hback
        subst hes
        have he1' : g1.edges[j]? = some e1 := he1
        obtain ⟨e, he, _⟩ := FlowGraph.flow_skel_edges hsk he1'
        have := hedges j e he
        rw [he1'] at this
        cases this
        constructor
        · intro hj
          rw [if_pos hj]
          obtain ⟨e', he', hlt⟩ := hchain.edges_unsat h.wf hnd hunsat j hj
          rw [he] at he'
          cases he'
          exact ⟨rfl, hlt⟩
        · intro hj
          rw [if_neg hj]
          exact hmk.pathFind hp j e he
      · intro hc; cases hc
  | UpdatePath =>
    have hmk : FFMarks s := by
      rcases hm with hm | hm
      · rw [hp] at hm; cases hm
      · exact hm
    obtain ⟨es, L, f, g1, hchain, hL, hesnd, hne, hunsat, hf, hroom, hatt, hstep', hsk, hnodes,
      hedges, hcons⟩ := FordFulkersonGraphAlgorithm.nextStep_update h hfuel hp
    rw [hstep'] at hstep
    cases hstep
    constructor
    · intro hc; cases hc
    · intro hc; cases hc
    · intro _ j e1 he1
      have he1' : g1.edges[j]? = some e1 := he1
      obtain ⟨e, he, _⟩ := FlowGraph.flow_skel_edges hsk he1'
      have := hedges j e he
      rw [he1'] at this
      cases this
      obtain ⟨hin, hout⟩ := hmk.update hp es L hchain j e he
      by_cases hj : j ∈ es
      · rw [if_pos hj]
        obtain ⟨hst, _⟩ := hin hj
        unfold FlowEdge.augmented
        simp only
        by_cases hfull : sizeAdd e.current_flow f = e.capacity
        · simp [hfull]
        · simp [hfull, hst]
      · rw [if_neg hj]
        have hst := hout hj
        by_cases hfull : e.current_flow = e.capacity
        · simp [hst, hfull]
        · simp [hst, hfull]

theorem FFMarks.marks_steps {fuel : Nat} :
    ∀ (k : Nat) (s s1 : FordFulkersonGraphAlgorithm), FFInv s → s.m_graph.ends.Nodup →
      FFMarks s → s.m_graph.nodes.length < fuel →
      FordFulkersonGraphAlgorithm.steps fuel k s = .ok s1 → FFMarks s1 := by
  intro k
  induction k with
  | zero =>
    intro s s1 _ _ hm _ hrun
    simp only [FordFulkersonGraphAlgorithm.steps] at hrun
    cases hrun
    exact hm
  | succ k ih =>
    intro s s1 h hnd hm hfuel hrun
    obtain ⟨b, s2, hstep, hinv2, hsk2⟩ := h.ff_step hfuel
    simp only [FordFulkersonGraphAlgorithm.steps, hstep] at hrun
    exact ih s2 s1 hinv2 (by rw [FlowGraph.ends_skel hsk2]; exact hnd)
      (FFMarks.marks_step h hnd (Or.inr hm) hfuel hstep)
      (by rw [FlowGraph.flow_skel_nodes_length hsk2]; exact hfuel) hrun

/-! ## Claims about `FordFulkersonGraphAlgorithm` -/

theorem FlowGraph.Fresh.ends_nodup {c : FlowGraphConfig} {g : FlowGraph}
    (hf : FlowGraph.Fresh c g) (hnp : c.NoParallel) : g.ends.Nodup := by
  have : g.ends = c.edges.map (fun e => e.1) := by
    rw [← hf.edges_eq]
    simp [FlowGraph.ends, List.map_map, Function.comp]
  rw [this]
  exact hnp

theorem ParentChain.pathFrom {g : FlowGraph} (hwf : g.WF) {parent : List Nat} {start v : Nat}
    {es L : List Nat} (hc : ParentChain g parent start v es L) :
    PathFrom g.ends start v es.reverse L.reverse := by
  induction hc with
  | nil => exact PathFrom.nil
  | @cons v p ei es L _ _ hf _ ih =>
    obtain ⟨e, he, hfrom, hto⟩ := FordFulkersonGraphAlgorithm.findEdge_ok hwf hf
    rw [List.reverse_cons, List.reverse_cons]
    refine PathFrom.snoc ih ?_
    simp [FlowGraph.ends, List.getElem?_map, he, hfrom, hto]

/-- C1 (the code misses the maximum flow): on `crossingFlowConfig` the run of `nextStep` stops
at the fifth call with `m_max_flow = 1`, although the configuration has a feasible flow of
value `2`. -/
theorem ff_run_misses_max_flow :
    crossingFlowConfig.WellFormed ∧ crossingFlowConfig.NoParallel ∧
    crossingFlowConfig.start_node ≠ crossingFlowConfig.end_node ∧
    ∃ (g : FlowGraph) (s : FordFulkersonGraphAlgorithm),
      FlowGraph.new crossingFlowConfig = .ok g ∧
      FordFulkersonGraphAlgorithm.runUntilFalse 7 20 (FordFulkersonGraphAlgorithm.new g) =
        .ok (5, s) ∧
      s.m_max_flow = 1 ∧
      s.m_graph.edges.map (fun e => e.current_flow) = [1, 0, 1, 0, 0, 1, 0] ∧
      crossingFlowConfig.IsFlow [1, 1, 0, 1, 1, 1, 1] ∧
      crossingFlowConfig.flowValue [1, 1, 0, 1, 1, 1, 1] = 2 :=
  ⟨by decide, by decide, by decide, _, _, rfl, rfl, rfl, rfl, by decide, by decide⟩

/-- C5: for every well-formed flow graph (parallel edges allowed), in every state reached
from the freshly constructed algorithm by `k` calls of `nextStep` (every call returns, given a
loop bound above the node count), every edge satisfies `0 <= current_flow <= capacity`. -/
theorem ff_capacity_invariant (c : FlowGraphConfig) (fuel k : Nat) (hc : c.WellFormed)
    (hfuel : c.nodes.length < fuel) :
    ∃ (g : FlowGraph) (s : FordFulkersonGraphAlgorithm), FlowGraph.new c = .ok g ∧
      FordFulkersonGraphAlgorithm.steps fuel k (FordFulkersonGraphAlgorithm.new g) = .ok s ∧
      s.m_graph.edges.length = c.edges.length ∧
      ∀ (ei : Nat) (e : FlowEdge), s.m_graph.edges[ei]? = some e →
        0 ≤ e.current_flow ∧ e.current_flow ≤ e.capacity := by
  obtain ⟨g, hnew, hfresh⟩ := FlowGraph.new_fresh c hc
  obtain ⟨s, hrun, hinv, hsk⟩ := FFInv.steps k _ (FFInv.init_fresh hfresh)
    (by show g.nodes.length < fuel; rw [hfresh.len]; exact hfuel)
  refine ⟨g, s, hnew, hrun, ?_, fun ei e he => ⟨Nat.zero_le _, hinv.cap ei e he⟩⟩
  have h1 : s.m_graph.edges.length = g.edges.length := FlowGraph.flow_skel_edges_length hsk
  have h2 := congrArg List.length hfresh.edges_eq
  simp only [List.length_map] at h2
  omega

theorem ff_capacity_invariant_witness :
    diamondFlowConfig.WellFormed ∧
    ∃ (g : FlowGraph) (s : FordFulkersonGraphAlgorithm), FlowGraph.new diamondFlowConfig = .ok g ∧
      FordFulkersonGraphAlgorithm.steps 5 6 (FordFulkersonGraphAlgorithm.new g) = .ok s ∧
      s.m_graph.edges.length = diamondFlowConfig.edges.length ∧
      ∀ (ei : Nat) (e : FlowEdge), s.m_graph.edges[ei]? = some e →
        0 ≤ e.current_flow ∧ e.current_flow ≤ e.capacity :=
  ⟨by decide, ff_capacity_invariant diamondFlowConfig 5 6 (by decide) (by decide)⟩

/-- C6 (as stated, refuted): before the first call an edge of capacity `0` has
`current_flow == capacity` but state `Default`; and with two parallel edges `0 -> 1` the
`PathFind` step marks the first, full one `OnUnsaturatedPath`. -/
theorem ff_saturated_iff_fails :
    (∃ (g : FlowGraph) (e : FlowEdge), FlowGraph.new zeroCapacityFlowConfig = .ok g ∧
      (FordFulkersonGraphAlgorithm.new g).m_graph.edges[0]? = some e ∧
      e.current_flow = e.capacity ∧ e.state = FlowEdgeState.Default) ∧
    (∃ (g : FlowGraph) (s : FordFulkersonGraphAlgorithm) (e : FlowEdge),
      FlowGraph.new parallelFlowConfig = .ok g ∧
      FordFulkersonGraphAlgorithm.steps 3 2 (FordFulkersonGraphAlgorithm.new g) = .ok s ∧
      s.m_graph.edges[0]? = some e ∧
      e.current_flow = e.capacity ∧ e.state = FlowEdgeState.OnUnsaturatedPath) :=
  ⟨⟨_, _, rfl, rfl, rfl, rfl⟩, ⟨_, _, _, rfl, rfl, rfl, rfl, rfl⟩⟩

/-- C6 (amended): for every well-formed flow graph (capacity `0` allowed) in which no two edges
share the same ordered `(from, to)` pair, in every state reached from the freshly constructed
algorithm by at least one call of `nextStep`, an edge's state is `Saturated` if and only if its
`current_flow` equals its `capacity`. -/
theorem ff_saturated_iff_after_first_step (c : FlowGraphConfig) (fuel k : Nat)
    (hc : c.WellFormed) (hnp : c.NoParallel) (hfuel : c.nodes.length < fuel) :
    ∃ (g : FlowGraph) (s : FordFulkersonGraphAlgorithm), FlowGraph.new c = .ok g ∧
      FordFulkersonGraphAlgorithm.steps fuel (k + 1) (FordFulkersonGraphAlgorithm.new g) =
        .ok s ∧
      s.m_graph.edges.length = c.edges.length ∧
      ∀ (ei : Nat) (e : FlowEdge), s.m_graph.edges[ei]? = some e →
        (e.state = FlowEdgeState.Saturated ↔ e.current_flow = e.capacity) := by
  obtain ⟨g, hnew, hfresh⟩ := FlowGraph.new_fresh c hc
  have hfuel0 : (FordFulkersonGraphAlgorithm.new g).m_graph.nodes.length < fuel := by
    show g.nodes.length < fuel
    rw [hfresh.len]; exact hfuel
  have hinv0 := FFInv.init_fresh hfresh
  have hnd0 : (FordFulkersonGraphAlgorithm.new g).m_graph.ends.Nodup := hfresh.ends_nodup hnp
  obtain ⟨s, hrun, hinv, hsk⟩ := FFInv.steps (k + 1) _ hinv0 hfuel0
  obtain ⟨b, s1, hstep, hinv1, hsk1⟩ := hinv0.ff_step hfuel0
  have hm1 : FFMarks s1 := FFMarks.marks_step hinv0 hnd0 (Or.inl rfl) hfuel0 hstep
  have hrun1 : FordFulkersonGraphAlgorithm.steps fuel k s1 = .ok s := by
    simp only [FordFulkersonGraphAlgorithm.steps, hstep] at hrun
    exact hrun
  have hm : FFMarks s := FFMarks.marks_steps k s1 s hinv1
    (by rw [FlowGraph.ends_skel hsk1]; exact hnd0) hm1
    (by rw [FlowGraph.flow_skel_nodes_length hsk1]; exact hfuel0) hrun1
  refine ⟨g, s, hnew, hrun, ?_, ?_⟩
  · have h1 : s.m_graph.edges.length = g.edges.length := FlowGraph.flow_skel_edges_length hsk
    have h2 := congrArg List.length hfresh.edges_eq
    simp only [List.length_map] at h2
    omega
  · intro ei e he
    cases hp : s.m_next_step_state with
    | CleanGraph => exact hm.clean hp ei e he
    | PathFind =>
      rw [hm.pathFind hp ei e he]
      by_cases hfull : e.current_flow = e.capacity <;> simp [hfull]
    | UpdatePath =>
      obtain ⟨es, L, hchain, _, _, _⟩ := hinv.chain hp
      obtain ⟨hin, hout⟩ := hm.update hp es L hchain ei e he
      by_cases hj : ei ∈ es
      · obtain ⟨hst, hlt⟩ := hin hj
        rw [hst]
        simp
        omega
      · rw [hout hj]
        by_cases hfull : e.current_flow = e.capacity <;> simp [hfull]

theorem ff_saturated_iff_after_first_step_witness :
    zeroCapacityFlowConfig.WellFormed ∧ zeroCapacityFlowConfig.NoParallel ∧
    ∃ (g : FlowGraph) (s : FordFulkersonGraphAlgorithm),
      FlowGraph.new zeroCapacityFlowConfig = .ok g ∧
      FordFulkersonGraphAlgorithm.steps 3 (0 + 1) (FordFulkersonGraphAlgorithm.new g) = .ok s ∧
      s.m_graph.edges.length = zeroCapacityFlowConfig.edges.length ∧
      ∀ (ei : Nat) (e : FlowEdge), s.m_graph.edges[ei]? = some e →
        (e.state = FlowEdgeState.Saturated ↔ e.current_flow = e.capacity) :=
  ⟨by decide, by decide,
    ff_saturated_iff_after_first_step zeroCapacityFlowConfig 3 0 (by decide) (by decide)
      (by decide)⟩

/-- C7: for every well-formed flow graph (parallel edges allowed; `start != end` is not needed),
in every state reached by `k` calls of `nextStep`, for every node other than the start node and
the end node the sum of `current_flow` over the edges entering the node equals the sum over the
edges leaving it. -/
theorem ff_flow_conservation (c : FlowGraphConfig) (fuel k : Nat) (hc : c.WellFormed)
    (hfuel : c.nodes.length < fuel) :
    ∃ (g : FlowGraph) (s : FordFulkersonGraphAlgorithm), FlowGraph.new c = .ok g ∧
      FordFulkersonGraphAlgorithm.steps fuel k (FordFulkersonGraphAlgorithm.new g) = .ok s ∧
      ∀ v : Nat, v ≠ c.start_node → v ≠ c.end_node →
        s.m_graph.inflow v = s.m_graph.outflow v := by
  obtain ⟨g, hnew, hfresh⟩ := FlowGraph.new_fresh c hc
  obtain ⟨s, hrun, hinv, hsk⟩ := FFInv.steps k _ (FFInv.init_fresh hfresh)
    (by show g.nodes.length < fuel; rw [hfresh.len]; exact hfuel)
  refine ⟨g, s, hnew, hrun, ?_⟩
  intro v hvs hve
  have hs : s.m_start_node = c.start_node := by
    rw [hinv.start_eq, FlowGraph.flow_skel_start hsk]; exact hfresh.start_eq
  have he : s.m_end_node = c.end_node := by
    rw [hinv.end_eq, FlowGraph.flow_skel_end hsk]; exact hfresh.end_eq
  exact hinv.conserve v (by rw [hs]; exact hvs) (by rw [he]; exact hve)

theorem ff_flow_conservation_witness :
    diamondFlowConfig.WellFormed ∧
    ∃ (g : FlowGraph) (s : FordFulkersonGraphAlgorithm), FlowGraph.new diamondFlowConfig = .ok g ∧
      FordFulkersonGraphAlgorithm.steps 5 3 (FordFulkersonGraphAlgorithm.new g) = .ok s ∧
      ∀ v : Nat, v ≠ diamondFlowConfig.start_node → v ≠ diamondFlowConfig.end_node →
        s.m_graph.inflow v = s.m_graph.outflow v :=
  ⟨by decide, ff_flow_conservation diamondFlowConfig 5 3 (by decide) (by decide)⟩

/-- Every state reached from a freshly constructed algorithm satisfies `FFInv`; without parallel
edges it satisfies `FFMarks` too, the initial state apart. -/
theorem FlowGraph.Fresh.reach {c : FlowGraphConfig} {g : FlowGraph} (hf : FlowGraph.Fresh c g)
    (hnp : c.NoParallel) {fuel : Nat} (hfuel : c.nodes.length < fuel) (k : Nat) :
    ∃ s : FordFulkersonGraphAlgorithm,
      FordFulkersonGraphAlgorithm.steps fuel k (FordFulkersonGraphAlgorithm.new g) = .ok s ∧
      FFInv s ∧ s.m_graph.skel = g.skel ∧ s.m_graph.ends.Nodup ∧
      (s.m_next_step_state = NextStepState.CleanGraph ∨ FFMarks s) := by
  have hfuel0 : (FordFulkersonGraphAlgorithm.new g).m_graph.nodes.length < fuel := by
    show g.nodes.length < fuel
    rw [hf.len]; exact hfuel
  have hinv0 := FFInv.init_fresh hf
  have hnd0 : (FordFulkersonGraphAlgorithm.new g).m_graph.ends.Nodup := hf.ends_nodup hnp
  obtain ⟨s, hrun, hinv, hsk⟩ := FFInv.steps k _ hinv0 hfuel0
  have hnd : s.m_graph.ends.Nodup := by rw [FlowGraph.ends_skel hsk]; exact hnd0
  refine ⟨s, hrun, hinv, hsk, hnd, ?_⟩
  cases k with
  | zero =>
    simp only [FordFulkersonGraphAlgorithm.steps] at hrun
    cases hrun
    exact Or.inl rfl
  | succ k =>
    obtain ⟨b, s1, hstep, hinv1, hsk1⟩ := hinv0.ff_step hfuel0
    have hm1 : FFMarks s1 := FFMarks.marks_step hinv0 hnd0 (Or.inl rfl) hfuel0 hstep
    have hrun1 : FordFulkersonGraphAlgorithm.steps fuel k s1 = .ok s := by
      simp only [FordFulkersonGraphAlgorithm.steps, hstep] at hrun
      exact hrun
    exact Or.inr (FFMarks.marks_steps k s1 s hinv1
      (by rw [FlowGraph.ends_skel hsk1]; exact hnd0) hm1
      (by rw [FlowGraph.flow_skel_nodes_length hsk1]; exact hfuel0) hrun1)

theorem FordFulkersonGraphAlgorithm.bfsLoop_mono (g : FlowGraph) (end_node : Nat) :
    ∀ (fuel : Nat) (l : BFSLocals) (r : Bool × List Nat),
      FordFulkersonGraphAlgorithm.bfsLoop g end_node fuel l = .ok r →
      ∀ fuel2 : Nat, fuel ≤ fuel2 →
        FordFulkersonGraphAlgorithm.bfsLoop g end_node fuel2 l = .ok r := by
  intro fuel
  induction fuel with
  | zero => intro l r h; simp [FordFulkersonGraphAlgorithm.bfsLoop] at h
  | succ fuel ih =>
    intro l r h fuel2 hle
    obtain ⟨m, rfl⟩ : ∃ m, fuel2 = m + 1 := ⟨fuel2 - 1, by omega⟩
    have hm : fuel ≤ m := by omega
    unfold FordFulkersonGraphAlgorithm.bfsLoop at h ⊢
    cases hq : l.queue with
    | nil => simpa [hq] using h
    | cons current_node queue =>
      simp only [hq] at h ⊢
      cases hn : g.nodes[current_node]? with
      | none => simp [hn] at h
      | some node =>
        simp only [hn] at h ⊢
        cases hs : FordFulkersonGraphAlgorithm.bfsScan g end_node current_node node.edges
            { l with queue := queue } with
        | error f => simp [hs] at h
        | ok p =>
          obtain ⟨b, l1⟩ := p
          cases b with
          | true => simpa [hs] using h
          | false =>
            simp only [hs] at h ⊢
            exact ih l1 r h m hm

/-- C8 (as stated, refuted): on the diamond with every capacity `2 ^ 64 - 1` the fifth call
leaves the algorithm in the `UpdatePath` phase with `m_max_flow = 2 ^ 64 - 1`; the path found
has bottleneck `2 ^ 64 - 1`, and the next call leaves `m_max_flow = 2 ^ 64 - 2`, which is not
an increase by the bottleneck. -/
theorem ff_update_max_flow_wraps :
    hugeDiamondFlowConfig.WellFormed ∧ hugeDiamondFlowConfig.NoParallel ∧
    ∃ (g : FlowGraph) (s s1 : FordFulkersonGraphAlgorithm),
      FlowGraph.new hugeDiamondFlowConfig = .ok g ∧
      FordFulkersonGraphAlgorithm.steps 5 5 (FordFulkersonGraphAlgorithm.new g) = .ok s ∧
      s.m_next_step_state = NextStepState.UpdatePath ∧
      FordFulkersonGraphAlgorithm.nextStep 5 s = .ok (true, s1) ∧
      FordFulkersonGraphAlgorithm.updateFlow 5 s = .ok (2 ^ 64 - 1, s1.m_graph) ∧
      s.m_max_flow = 2 ^ 64 - 1 ∧ s1.m_max_flow = 2 ^ 64 - 2 ∧
      s1.m_max_flow ≠ s.m_max_flow + (2 ^ 64 - 1) :=
  ⟨by decide, by decide, _, _, _, rfl, rfl, rfl, rfl, rfl, by decide, by decide, by decide⟩

/-- C8 (amended): for every well-formed flow graph without parallel edges, in every reachable
state that is in the `UpdatePath` phase: the parent chain recorded by the preceding `PathFind`
step is a directed path `es` from start to end whose edges are exactly the edges marked
`OnUnsaturatedPath`; the `nextStep` call returns `true`; with `f` the minimum of
`capacity - current_flow` over `es` (which is positive), `m_max_flow` becomes
`(m_max_flow + f) mod 2 ^ 64`, that is `m_max_flow + f` whenever this is below `2 ^ 64`;
`current_flow` grows by `f` on exactly the edges of `es`; and every edge of `es` attaining the
minimum ends with `current_flow == capacity` and state `Saturated`. -/
theorem ff_update_adds_bottleneck (c : FlowGraphConfig) (fuel k : Nat) (hc : c.WellFormed)
    (hnp : c.NoParallel) (hfuel : c.nodes.length < fuel) :
    ∃ (g : FlowGraph) (s : FordFulkersonGraphAlgorithm), FlowGraph.new c = .ok g ∧
      FordFulkersonGraphAlgorithm.steps fuel k (FordFulkersonGraphAlgorithm.new g) = .ok s ∧
      (s.m_next_step_state = NextStepState.UpdatePath →
        ∃ (es L : List Nat) (f : Nat) (s1 : FordFulkersonGraphAlgorithm),
          ParentChain s.m_graph s.m_parent c.start_node c.end_node es L ∧
          PathFrom s.m_graph.ends c.start_node c.end_node es.reverse L.reverse ∧
          es ≠ [] ∧
          (∀ (j : Nat) (e : FlowEdge), s.m_graph.edges[j]? = some e →
            (e.state = FlowEdgeState.OnUnsaturatedPath ↔ j ∈ es)) ∧
          (∀ j ∈ es, ∃ e : FlowEdge, s.m_graph.edges[j]? = some e ∧
            f ≤ e.capacity - e.current_flow) ∧
          (∃ j ∈ es, ∃ e : FlowEdge, s.m_graph.edges[j]? = some e ∧
            f = e.capacity - e.current_flow) ∧
          0 < f ∧
          FordFulkersonGraphAlgorithm.nextStep fuel s = .ok (true, s1) ∧
          s1.m_next_step_state = NextStepState.CleanGraph ∧
          s1.m_max_flow = (s.m_max_flow + f) % 2 ^ 64 ∧
          (s.m_max_flow + f < 2 ^ 64 → s1.m_max_flow = s.m_max_flow + f) ∧
          ∀ (j : Nat) (e : FlowEdge), s.m_graph.edges[j]? = some e →
            ∃ e1 : FlowEdge, s1.m_graph.edges[j]? = some e1 ∧ e1.capacity = e.capacity ∧
              (j ∈ es → e1.current_flow = e.current_flow + f) ∧
              (j ∉ es → e1.current_flow = e.current_flow) ∧
              (j ∈ es → e.capacity - e.current_flow = f →
                e1.current_flow = e1.capacity ∧ e1.state = FlowEdgeState.Saturated)) := by
  obtain ⟨g, hnew, hfresh⟩ := FlowGraph.new_fresh c hc
  obtain ⟨s, hrun, hinv, hsk, hnd, hmarks⟩ := hfresh.reach hnp hfuel k
  refine ⟨g, s, hnew, hrun, ?_⟩
  intro hp
  have hm : FFMarks s := by
    rcases hmarks with h | h
    · rw [hp] at h; cases h
    · exact h
  have hs : s.m_start_node = c.start_node := by
    rw [hinv.start_eq, FlowGraph.flow_skel_start hsk]; exact hfresh.start_eq
  have he : s.m_end_node = c.end_node := by
    rw [hinv.end_eq, FlowGraph.flow_skel_end hsk]; exact hfresh.end_eq
  have hfuel1 : s.m_graph.nodes.length < fuel := by
    rw [FlowGraph.flow_skel_nodes_length hsk, hfresh.len]; exact hfuel
  obtain ⟨es, L, f, g1, hchain, _, _, hne, _, _, hroom, hatt, hstep, _, _, hedges, _⟩ :=
    FordFulkersonGraphAlgorithm.nextStep_update hinv hfuel1 hp
  have hmu := hm.update hp es L hchain
  have hpath := hchain.pathFrom hinv.wf
  rw [hs, he] at hchain hpath
  have hpos : 0 < f := by
    obtain ⟨j, hj, e, hje, hfe⟩ := hatt
    have := ((hmu j e hje).1 hj).2
    omega
  refine ⟨es, L, f, _, hchain, hpath, hne, ?_, ?_, hatt, hpos, hstep, rfl, rfl, ?_, ?_⟩
  · intro j e hje
    obtain ⟨hin, hout⟩ := hmu j e hje
    constructor
    · intro hst
      by_contra hj
      rw [hout hj] at hst
      by_cases hfull : e.current_flow = e.capacity <;> simp [hfull] at hst
    · intro hj
      exact (hin hj).1
  · intro j hj
    obtain ⟨e, hje, hle, _⟩ := hroom j hj
    exact ⟨e, hje, hle⟩
  · intro hlt
    show sizeAdd s.m_max_flow f = s.m_max_flow + f
    exact Nat.mod_eq_of_lt hlt
  · intro j e hje
    have hg1 := hedges j e hje
    by_cases hj : j ∈ es
    · rw [if_pos hj] at hg1
      obtain ⟨e2, hje2, _, hsum⟩ := hroom j hj
      rw [hje] at hje2
      cases hje2
      have hadd : sizeAdd e.current_flow f = e.current_flow + f :=
        sizeAdd_eq hsum (hinv.wf.cap_lt j e hje)
      refine ⟨_, hg1, rfl, fun _ => hadd, fun h => absurd hj h, fun _ hmin => ?_⟩
      have hfull : sizeAdd e.current_flow f = e.capacity := by rw [hadd]; omega
      exact ⟨hfull, by simp [FlowEdge.augmented, hfull]⟩
    · rw [if_neg hj] at hg1
      exact ⟨e, hg1, rfl, fun h => absurd h hj, fun _ => rfl, fun h => absurd h hj⟩

theorem ff_update_adds_bottleneck_witness :
    diamondFlowConfig.WellFormed ∧ diamondFlowConfig.NoParallel ∧
    (∃ (g : FlowGraph) (s : FordFulkersonGraphAlgorithm), FlowGraph.new diamondFlowConfig = .ok g ∧
      FordFulkersonGraphAlgorithm.steps 5 2 (FordFulkersonGraphAlgorithm.new g) = .ok s ∧
      s.m_next_step_state = NextStepState.UpdatePath) ∧
    ∃ (g : FlowGraph) (s : FordFulkersonGraphAlgorithm), FlowGraph.new diamondFlowConfig = .ok g ∧
      FordFulkersonGraphAlgorithm.steps 5 2 (FordFulkersonGraphAlgorithm.new g) = .ok s ∧
      (s.m_next_step_state = NextStepState.UpdatePath →
        ∃ (es L : List Nat) (f : Nat) (s1 : FordFulkersonGraphAlgorithm),
          ParentChain s.m_graph s.m_parent diamondFlowConfig.start_node
            diamondFlowConfig.end_node es L ∧
          PathFrom s.m_graph.ends diamondFlowConfig.start_node diamondFlowConfig.end_node
            es.reverse L.reverse ∧
          es ≠ [] ∧
          (∀ (j : Nat) (e : FlowEdge), s.m_graph.edges[j]? = some e →
            (e.state = FlowEdgeState.OnUnsaturatedPath ↔ j ∈ es)) ∧
          (∀ j ∈ es, ∃ e : FlowEdge, s.m_graph.edges[j]? = some e ∧
            f ≤ e.capacity - e.current_flow) ∧
          (∃ j ∈ es, ∃ e : FlowEdge, s.m_graph.edges[j]? = some e ∧
            f = e.capacity - e.current_flow) ∧
          0 < f ∧
          FordFulkersonGraphAlgorithm.nextStep 5 s = .ok (true, s1) ∧
          s1.m_next_step_state = NextStepState.CleanGraph ∧
          s1.m_max_flow = (s.m_max_flow + f) % 2 ^ 64 ∧
          (s.m_max_flow + f < 2 ^ 64 → s1.m_max_flow = s.m_max_flow + f) ∧
          ∀ (j : Nat) (e : FlowEdge), s.m_graph.edges[j]? = some e →
            ∃ e1 : FlowEdge, s1.m_graph.edges[j]? = some e1 ∧ e1.capacity = e.capacity ∧
              (j ∈ es → e1.current_flow = e.current_flow + f) ∧
              (j ∉ es → e1.current_flow = e.current_flow) ∧
              (j ∈ es → e.capacity - e.current_flow = f →
                e1.current_flow = e1.capacity ∧ e1.state = FlowEdgeState.Saturated)) :=
  ⟨by decide, by decide, ⟨_, _, rfl, rfl, rfl⟩,
    ff_update_adds_bottleneck diamondFlowConfig 5 2 (by decide) (by decide) (by decide)⟩

/-- C10: for every state of `FordFulkersonGraphAlgorithm` (no well-formedness needed) in which
`nextStep` has returned `false`: that call changed neither the graph (node states, edge states,
flows) nor `m_max_flow`, and every further `nextStep` call (with the same or a larger loop
bound) returns `false` again and leaves the whole state unchanged. -/
theorem ff_false_is_final (fuel : Nat) (s s1 : FordFulkersonGraphAlgorithm)
    (h : FordFulkersonGraphAlgorithm.nextStep fuel s = .ok (false, s1)) :
    s1.m_graph = s.m_graph ∧ s1.m_max_flow = s.m_max_flow ∧
    ∀ (fuel2 : Nat), fuel ≤ fuel2 → ∀ n : Nat,
      FordFulkersonGraphAlgorithm.nextStep fuel2 s1 = .ok (false, s1) ∧
      FordFulkersonGraphAlgorithm.steps fuel2 n s1 = .ok s1 := by
  have key : ∃ parent : List Nat, s.m_next_step_state = NextStepState.PathFind ∧
      FordFulkersonGraphAlgorithm.BFS fuel s = .ok (false, parent) ∧
      s1 = { s with m_parent := parent } := by
    unfold FordFulkersonGraphAlgorithm.nextStep at h
    cases hp : s.m_next_step_state with
    | CleanGraph => simp [hp] at h
    | UpdatePath =>
      simp only [hp] at h
      cases hu : FordFulkersonGraphAlgorithm.updateFlow fuel s with
      | error f => simp [hu] at h
      | ok r => simp [hu] at h
    | PathFind =>
      simp only [hp] at h
      cases hb : FordFulkersonGraphAlgorithm.BFS fuel s with
      | error f => simp [hb] at h
      | ok r =>
        obtain ⟨b, parent⟩ := r
        cases b with
        | false =>
          simp only [hb, Except.ok.injEq, Prod.mk.injEq, true_and] at h
          exact ⟨parent, rfl, rfl, h.symm⟩
        | true =>
          exfalso
          simp only [hb] at h
          cases hsh : FordFulkersonGraphAlgorithm.showFoundPath s.m_start_node parent fuel
              s.m_end_node s.m_graph with
          | error f => simp [hsh] at h
          | ok g => simp [hsh] at h
  obtain ⟨parent, hp, hbfs, rfl⟩ := key
  have hstep : ∀ fuel2 : Nat, fuel ≤ fuel2 →
      FordFulkersonGraphAlgorithm.nextStep fuel2 { s with m_parent := parent } =
        .ok (false, { s with m_parent := parent }) := by
    intro fuel2 hle
    have hb2 : FordFulkersonGraphAlgorithm.BFS fuel2 { s with m_parent := parent } =
        .ok (false, parent) := by
      unfold FordFulkersonGraphAlgorithm.BFS at hbfs ⊢
      dsimp only at hbfs ⊢
      split at hbfs
      · rename_i hlt
        rw [if_pos hlt]
        exact FordFulkersonGraphAlgorithm.bfsLoop_mono _ _ fuel _ _ hbfs fuel2 hle
      · simp at hbfs
    unfold FordFulkersonGraphAlgorithm.nextStep
    simp only [hp] at hb2 ⊢
    rw [hb2]
  refine ⟨rfl, rfl, fun fuel2 hle n => ⟨hstep fuel2 hle, ?_⟩⟩
  induction n with
  | zero => rfl
  | succ n ih => simp only [FordFulkersonGraphAlgorithm.steps, hstep fuel2 hle, ih]

theorem ff_false_is_final_witness :
    ∃ (g : FlowGraph) (s s1 : FordFulkersonGraphAlgorithm),
      FlowGraph.new diamondFlowConfig = .ok g ∧
      FordFulkersonGraphAlgorithm.steps 5 7 (FordFulkersonGraphAlgorithm.new g) = .ok s ∧
      FordFulkersonGraphAlgorithm.nextStep 5 s = .ok (false, s1) ∧
      s1.m_max_flow = 2 ∧
      (s1.m_graph = s.m_graph ∧ s1.m_max_flow = s.m_max_flow ∧
        ∀ (fuel2 : Nat), 5 ≤ fuel2 → ∀ n : Nat,
          FordFulkersonGraphAlgorithm.nextStep fuel2 s1 = .ok (false, s1) ∧
          FordFulkersonGraphAlgorithm.steps fuel2 n s1 = .ok s1) :=
  ⟨_, _, _, rfl, rfl, rfl, rfl, ff_false_is_final 5 _ _ rfl⟩

/-! ## The first call of `nextStep` -/

theorem cleanGraph_nodes_fresh {g : FlowGraph}
    (h : ∀ (v : Nat) (node : FlowNode), g.nodes[v]? = some node →
      node.state = FlowNodeState.Default) :
    (cleanGraph g).nodes = g.nodes := by
  unfold cleanGraph
  apply List.ext_getElem?
  intro v
  simp only [List.getElem?_map]
  cases hv : g.nodes[v]? with
  | none => rfl
  | some node =>
    have hs := h v node hv
    cases node
    simp only at hs
    simp [hs]

theorem cleanGraph_edges_length (g : FlowGraph) :
    (cleanGraph g).edges.length = g.edges.length := by
  simp [cleanGraph]

/-- C11 (as stated, refuted): on the single edge `0 -> 1` of capacity `0` the first call of
`FordFulkersonGraphAlgorithm::nextStep` returns `true` but changes the state of the edge from
`Default`, its value at construction, to `Saturated`. -/
theorem ff_first_step_saturates_zero_capacity :
    ∃ (g : FlowGraph) (s1 : FordFulkersonGraphAlgorithm) (e e1 : FlowEdge),
      FlowGraph.new zeroCapacityFlowConfig = .ok g ∧
      FordFulkersonGraphAlgorithm.nextStep 3 (FordFulkersonGraphAlgorithm.new g) =
        .ok (true, s1) ∧
      g.edges[0]? = some e ∧ s1.m_graph.edges[0]? = some e1 ∧
      e.state = FlowEdgeState.Default ∧ e1.state = FlowEdgeState.Saturated ∧
      e1.state ≠ e.state :=
  ⟨_, _, _, _, rfl, rfl, rfl, rfl, rfl, rfl, by decide⟩

/-- C11 (amended): the first `nextStep` call on a freshly constructed algorithm returns `true`.
For `BFSGraphAlgorithm`, on any path graph, it leaves the graph untouched. For
`FordFulkersonGraphAlgorithm`, on the graph of any well-formed configuration, it leaves every
node and every edge `current_flow` (which is `0`) untouched, and every edge state as
constructed (`Default`) except on the edges of capacity `0`, whose state becomes
`Saturated`. -/
theorem first_step_shows_initial_graph (pg : PathGraph) (c : FlowGraphConfig) (fuel : Nat)
    (hc : c.WellFormed) :
    (∃ s1 : BFSGraphAlgorithm,
      BFSGraphAlgorithm.nextStep fuel (BFSGraphAlgorithm.new pg) = .ok (true, s1) ∧
      s1.m_graph = pg) ∧
    ∃ (g : FlowGraph) (s1 : FordFulkersonGraphAlgorithm), FlowGraph.new c = .ok g ∧
      FordFulkersonGraphAlgorithm.nextStep fuel (FordFulkersonGraphAlgorithm.new g) =
        .ok (true, s1) ∧
      s1.m_graph.nodes = g.nodes ∧ s1.m_graph.edges.length = g.edges.length ∧
      s1.m_max_flow = 0 ∧
      ∀ (j : Nat) (e : FlowEdge), g.edges[j]? = some e →
        e.state = FlowEdgeState.Default ∧ e.current_flow = 0 ∧
        s1.m_graph.edges[j]? =
          some (if e.capacity = 0 then { e with state := FlowEdgeState.Saturated } else e) := by
  refine ⟨⟨_, BFSGraphAlgorithm.nextStep_first fuel pg, rfl⟩, ?_⟩
  obtain ⟨g, hnew, hfresh⟩ := FlowGraph.new_fresh c hc
  refine ⟨g, _, hnew, FordFulkersonGraphAlgorithm.nextStep_clean fuel rfl,
    cleanGraph_nodes_fresh hfresh.node_init, cleanGraph_edges_length g, rfl, ?_⟩
  intro j e he
  obtain ⟨hst, hflow⟩ := hfresh.edge_init j e he
  refine ⟨hst, hflow, ?_⟩
  show (cleanGraph g).edges[j]? = _
  rw [cleanGraph_edges, he]
  simp only [Option.map_some', Option.some.injEq]
  by_cases hcap : e.capacity = 0
  · have h0 : e.current_flow = e.capacity := by rw [hflow, hcap]
    rw [if_pos h0, if_pos hcap]
  · have h0 : ¬ e.current_flow = e.capacity := by rw [hflow]; exact fun h => hcap h.symm
    rw [if_neg h0, if_neg hcap]
    cases e
    simp only at hst
    simp [hst]

theorem first_step_shows_initial_graph_witness :
    zeroCapacityFlowConfig.WellFormed ∧
    ((∃ s1 : BFSGraphAlgorithm,
      BFSGraphAlgorithm.nextStep 0 (BFSGraphAlgorithm.new
        { edge_count := 0, node_count := 0, start_node := 0, end_node := 0, edges := [],
          nodes := [] }) = .ok (true, s1) ∧
      s1.m_graph = { edge_count := 0, node_count := 0, start_node := 0, end_node := 0,
                     edges := [], nodes := [] }) ∧
    ∃ (g : FlowGraph) (s1 : FordFulkersonGraphAlgorithm),
      FlowGraph.new zeroCapacityFlowConfig = .ok g ∧
      FordFulkersonGraphAlgorithm.nextStep 3 (FordFulkersonGraphAlgorithm.new g) =
        .ok (true, s1) ∧
      s1.m_graph.nodes = g.nodes ∧ s1.m_graph.edges.length = g.edges.length ∧
      s1.m_max_flow = 0 ∧
      ∀ (j : Nat) (e : FlowEdge), g.edges[j]? = some e →
        e.state = FlowEdgeState.Default ∧ e.current_flow = 0 ∧
        s1.m_graph.edges[j]? =
          some (if e.capacity = 0 then { e with state := FlowEdgeState.Saturated } else e)) :=
  ⟨by decide, first_step_shows_initial_graph _ zeroCapacityFlowConfig 3 (by decide)⟩

/-- C12 (as stated, refuted): on the diamond the first call of `BFSGraphAlgorithm::nextStep`
returns `true` and queues the start node `0`, but leaves its state `NotFound`, not `Found`. -/
theorem bfs_first_step_start_not_found :
    ∃ (g : PathGraph) (s1 : BFSGraphAlgorithm) (node : PathNode),
      PathGraph.new diamondPathConfig (fun _ => 0) = .ok g ∧
      BFSGraphAlgorithm.nextStep 0 (BFSGraphAlgorithm.new g) = .ok (true, s1) ∧
      s1.m_unvisited_node_queue = [0] ∧
      s1.m_graph.nodes[diamondPathConfig.start_node]? = some node ∧
      node.state = PathNodeState.NotFound ∧ node.state ≠ PathNodeState.Found :=
  ⟨_, _, _, rfl, rfl, rfl, rfl, rfl, by decide⟩

/-- C12 (amended): for every well-formed path graph, the first `nextStep` call on a freshly
constructed `BFSGraphAlgorithm` returns `true`, leaves the frontier queue holding exactly the
start node, and does no traversal work: the graph (every node state, the start node's
included, which stays `NotFound`, every edge state and every back-pointer) is unchanged. -/
theorem bfs_first_step_seeds_queue (c : PathGraphConfig) (gb : Nat → Nat) (fuel : Nat)
    (hc : c.WellFormed) :
    ∃ (g : PathGraph) (s1 : BFSGraphAlgorithm) (node : PathNode),
      PathGraph.new c gb = .ok g ∧
      BFSGraphAlgorithm.nextStep fuel (BFSGraphAlgorithm.new g) = .ok (true, s1) ∧
      s1.m_unvisited_node_queue = [c.start_node] ∧ s1.m_graph = g ∧
      s1.m_first_step = false ∧ s1.m_found_end = false ∧
      s1.m_graph.nodes[c.start_node]? = some node ∧ node.state = PathNodeState.NotFound := by
  obtain ⟨g, hnew, hfresh⟩ := PathGraph.new_spec c gb hc
  obtain ⟨node, hnode⟩ := getElem?_of_lt hfresh.wf.start_lt
  rw [hfresh.start_eq] at hnode
  refine ⟨g, _, node, hnew, BFSGraphAlgorithm.nextStep_first fuel g, ?_, rfl, rfl, rfl, hnode,
    hfresh.node_init _ node hnode⟩
  show [g.start_node] = [c.start_node]
  rw [hfresh.start_eq]

theorem bfs_first_step_seeds_queue_witness :
    diamondPathConfig.WellFormed ∧
    ∃ (g : PathGraph) (s1 : BFSGraphAlgorithm) (node : PathNode),
      PathGraph.new diamondPathConfig (fun _ => 0) = .ok g ∧
      BFSGraphAlgorithm.nextStep 0 (BFSGraphAlgorithm.new g) = .ok (true, s1) ∧
      s1.m_unvisited_node_queue = [diamondPathConfig.start_node] ∧ s1.m_graph = g ∧
      s1.m_first_step = false ∧ s1.m_found_end = false ∧
      s1.m_graph.nodes[diamondPathConfig.start_node]? = some node ∧
      node.state = PathNodeState.NotFound :=
  ⟨by decide, bfs_first_step_seeds_queue diamondPathConfig (fun _ => 0) 0 (by decide)⟩

/-! ## Start node equal to end node, and the two flow scenarios -/

/-- C13: for every well-formed path graph whose start node equals its end node: the first call
shows the initial state; the second call returns `true` and leaves the start/end node in state
`OnShortestPath`; the third call returns `false` (and changes nothing); before the second call
every node is `NotFound` and every edge `Default`, and after it every edge is still `Default`
and every other node still `NotFound`. -/
theorem bfs_start_equals_end (c : PathGraphConfig) (gb : Nat → Nat) (fuel : Nat)
    (hc : c.WellFormed) (hse : c.start_node = c.end_node) :
    ∃ (g : PathGraph) (s1 s2 : BFSGraphAlgorithm), PathGraph.new c gb = .ok g ∧
      BFSGraphAlgorithm.nextStep fuel (BFSGraphAlgorithm.new g) = .ok (true, s1) ∧
      s1.m_graph = g ∧
      (∀ (v : Nat) (node : PathNode), g.nodes[v]? = some node →
        node.state = PathNodeState.NotFound) ∧
      (∀ (ei : Nat) (e : PathEdge), g.edges[ei]? = some e → e.state = PathEdgeState.Default) ∧
      BFSGraphAlgorithm.nextStep fuel s1 = .ok (true, s2) ∧
      BFSGraphAlgorithm.nextStep fuel s2 = .ok (false, s2) ∧
      s2.m_graph.edges = g.edges ∧ s2.m_graph.nodes.length = g.nodes.length ∧
      (∃ node : PathNode, s2.m_graph.nodes[c.start_node]? = some node ∧
        node.state = PathNodeState.OnShortestPath) ∧
      (∀ (v : Nat) (node : PathNode), v ≠ c.start_node → s2.m_graph.nodes[v]? = some node →
        node.state = PathNodeState.NotFound) := by
  obtain ⟨g, hnew, hfresh⟩ := PathGraph.new_spec c gb hc
  obtain ⟨node0, hnode0⟩ := getElem?_of_lt hfresh.wf.start_lt
  have hflags := hfresh.wf.flags _ node0 hnode0
  have hstart0 : node0.is_start_node = true := by rw [hflags.1]; simp
  have hend0 : node0.is_end_node = true := by
    rw [hflags.2, hfresh.start_eq, hfresh.end_eq, hse]; simp
  let s1 : BFSGraphAlgorithm :=
    { m_graph := g, m_unvisited_node_queue := [g.start_node], m_first_step := false,
      m_found_end := false }
  let g1 : PathGraph :=
    { g with nodes := g.nodes.set g.start_node { node0 with state := PathNodeState.Visited } }
  have hmark : BFSGraphAlgorithm.markUsed g1 { node0 with state := PathNodeState.Visited } =
      .ok g1 := by
    simp [BFSGraphAlgorithm.markUsed, hstart0]
  have hstep2 := @BFSGraphAlgorithm.nextStep_end_start fuel s1 g.start_node [] node0 g1 rfl rfl
    rfl hnode0 hend0 hstart0 hmark
  refine ⟨g, s1, _, hnew, BFSGraphAlgorithm.nextStep_first fuel g, rfl, hfresh.node_init,
    hfresh.edge_init, hstep2, BFSGraphAlgorithm.nextStep_found rfl rfl, rfl, ?_, ?_, ?_⟩
  · simp [g1]
  · refine ⟨{ node0 with state := PathNodeState.OnShortestPath }, ?_, rfl⟩
    rw [← hfresh.start_eq]
    have hlt : g.start_node < g.nodes.length := hfresh.wf.start_lt
    simp [g1, hlt]
  · intro v node hv hnode
    rw [← hfresh.start_eq] at hv
    have hnode1 : g.nodes[v]? = some node := by
      simpa [g1, List.getElem?_set_ne (Ne.symm hv)] using hnode
    exact hfresh.node_init v node hnode1

theorem bfs_start_equals_end_witness :
    startIsEndPathConfig.WellFormed ∧
    startIsEndPathConfig.start_node = startIsEndPathConfig.end_node ∧
    ∃ (g : PathGraph) (s1 s2 : BFSGraphAlgorithm),
      PathGraph.new startIsEndPathConfig (fun _ => 7) = .ok g ∧
      BFSGraphAlgorithm.nextStep 0 (BFSGraphAlgorithm.new g) = .ok (true, s1) ∧
      s1.m_graph = g ∧
      (∀ (v : Nat) (node : PathNode), g.nodes[v]? = some node →
        node.state = PathNodeState.NotFound) ∧
      (∀ (ei : Nat) (e : PathEdge), g.edges[ei]? = some e → e.state = PathEdgeState.Default) ∧
      BFSGraphAlgorithm.nextStep 0 s1 = .ok (true, s2) ∧
      BFSGraphAlgorithm.nextStep 0 s2 = .ok (false, s2) ∧
      s2.m_graph.edges = g.edges ∧ s2.m_graph.nodes.length = g.nodes.length ∧
      (∃ node : PathNode, s2.m_graph.nodes[startIsEndPathConfig.start_node]? = some node ∧
        node.state = PathNodeState.OnShortestPath) ∧
      (∀ (v : Nat) (node : PathNode), v ≠ startIsEndPathConfig.start_node →
        s2.m_graph.nodes[v]? = some node → node.state = PathNodeState.NotFound) :=
  ⟨by decide, rfl,
    bfs_start_equals_end startIsEndPathConfig (fun _ => 7) 0 (by decide) rfl⟩

/-- C14: on the diamond flow graph with every capacity `1`, `nextStep` first returns `false`
at the eighth call; the run ends with `m_max_flow = 2` and all four edges at
`current_flow = 1`. -/
theorem ff_diamond_max_flow :
    ∃ (g : FlowGraph) (s : FordFulkersonGraphAlgorithm),
      diamondFlowConfig.edges = [((0, 1), 1), ((0, 2), 1), ((1, 3), 1), ((2, 3), 1)] ∧
      diamondFlowConfig.start_node = 0 ∧ diamondFlowConfig.end_node = 3 ∧
      FlowGraph.new diamondFlowConfig = .ok g ∧
      FordFulkersonGraphAlgorithm.runUntilFalse 5 8 (FordFulkersonGraphAlgorithm.new g) =
        .ok (8, s) ∧
      s.m_max_flow = 2 ∧
      s.m_graph.edges.map (fun e => e.current_flow) = [1, 1, 1, 1] :=
  ⟨_, _, rfl, rfl, rfl, rfl, rfl, rfl, rfl⟩

/-- C15: on the chain `0 -> 1 -> 2 -> 3` with capacities `5`, `3`, `5`, `nextStep` first
returns `false` at the fifth call; the run ends with `m_max_flow = 3`, and at that point the
middle edge is `Saturated` and the two other edges are `Default`. -/
theorem ff_chain_max_flow :
    ∃ (g : FlowGraph) (s : FordFulkersonGraphAlgorithm),
      chainFlowConfig.edges = [((0, 1), 5), ((1, 2), 3), ((2, 3), 5)] ∧
      chainFlowConfig.start_node = 0 ∧ chainFlowConfig.end_node = 3 ∧
      FlowGraph.new chainFlowConfig = .ok g ∧
      FordFulkersonGraphAlgorithm.runUntilFalse 5 5 (FordFulkersonGraphAlgorithm.new g) =
        .ok (5, s) ∧
      s.m_max_flow = 3 ∧
      s.m_graph.edges.map (fun e => e.state) =
        [FlowEdgeState.Default, FlowEdgeState.Saturated, FlowEdgeState.Default] ∧
      s.m_graph.edges.map (fun e => e.current_flow) = [3, 3, 3] :=
  ⟨_, _, rfl, rfl, rfl, rfl, rfl, rfl, rfl, rfl⟩

/-! ## What no call of `BFSGraphAlgorithm::nextStep` writes -/

theorem BFSGraphAlgorithm.markUsed_frame {g g2 : PathGraph} {node : PathNode}
    (h : BFSGraphAlgorithm.markUsed g node = .ok g2) :
    g2.skel = g.skel ∧ g2.node_count = g.node_count ∧ g2.edge_count = g.edge_count ∧
      g2.nodes = g.nodes := by
  unfold BFSGraphAlgorithm.markUsed at h
  split at h
  · cases h
    exact ⟨rfl, rfl, rfl, rfl⟩
  · cases he : g.edges[node.entered_by]? with
    | none => simp [he] at h
    | some e =>
      simp only [he, Except.ok.injEq] at h
      subst h
      exact ⟨PathGraph.skel_set_edge g he rfl rfl, rfl, rfl, rfl⟩

theorem BFSGraphAlgorithm.backtrack_frame :
    ∀ (fuel : Nat) (g g3 : PathGraph) (i : Nat),
      BFSGraphAlgorithm.backtrack fuel g i = .ok g3 →
      g3.skel = g.skel ∧ g3.node_count = g.node_count ∧ g3.edge_count = g.edge_count := by
  intro fuel
  induction fuel with
  | zero => intro g g3 i h; simp [BFSGraphAlgorithm.backtrack] at h
  | succ fuel ih =>
    intro g g3 i h
    unfold BFSGraphAlgorithm.backtrack at h
    cases he : g.edges[i]? with
    | none => simp [he] at h
    | some e =>
      simp only [he] at h
      cases hn : g.nodes[e.from_node_index]? with
      | none => simp [hn] at h
      | some node =>
        simp only [hn] at h
        split at h
        · simp only [Except.ok.injEq] at h
          subst h
          exact ⟨PathGraph.skel_set_edge g he rfl rfl, rfl, rfl⟩
        · obtain ⟨h1, h2, h3⟩ := ih _ g3 _ h
          refine ⟨h1.trans ?_, h2, h3⟩
          have hA : PathGraph.skel
              { edge_count := g.edge_count, node_count := g.node_count,
                start_node := g.start_node, end_node := g.end_node,
                edges := g.edges.set i { e with state := PathEdgeState.OnShortestPath },
                nodes := g.nodes.set e.from_node_index
                  { node with state := PathNodeState.OnShortestPath } } =
              PathGraph.skel
                { g with edges := g.edges.set i { e with state := PathEdgeState.OnShortestPath } } :=
            PathGraph.skel_set_node
              { g with edges := g.edges.set i { e with state := PathEdgeState.OnShortestPath } }
              hn rfl rfl rfl
          exact hA.trans (PathGraph.skel_set_edge g he rfl rfl)

theorem BFSGraphAlgorithm.scanNeighbours_frame :
    ∀ (es : List Nat) (g g3 : PathGraph) (q q3 : List Nat),
      BFSGraphAlgorithm.scanNeighbours es g q = .ok (g3, q3) →
      g3.skel = g.skel ∧ g3.node_count = g.node_count ∧ g3.edge_count = g.edge_count := by
  intro es
  induction es with
  | nil =>
    intro g g3 q q3 h
    simp only [BFSGraphAlgorithm.scanNeighbours, Except.ok.injEq, Prod.mk.injEq] at h
    rw [← h.1]
    exact ⟨rfl, rfl, rfl⟩
  | cons ei rest ih =>
    intro g g3 q q3 h
    unfold BFSGraphAlgorithm.scanNeighbours at h
    cases he : g.edges[ei]? with
    | none => simp [he] at h
    | some e =>
      simp only [he] at h
      cases hn : g.nodes[e.to_node_index]? with
      | none => simp [hn] at h
      | some node =>
        simp only [hn] at h
        split at h
        · obtain ⟨h1, h2, h3⟩ := ih _ g3 _ q3 h
          refine ⟨h1.trans ?_, h2, h3⟩
          have hA : PathGraph.skel
              { edge_count := g.edge_count, node_count := g.node_count,
                start_node := g.start_node, end_node := g.end_node,
                edges := g.edges.set ei { e with state := PathEdgeState.Peeked },
                nodes := g.nodes.set e.to_node_index
                  { node with state := PathNodeState.Found, entered_by := ei } } =
              PathGraph.skel
                { g with edges := g.edges.set ei { e with state := PathEdgeState.Peeked } } :=
            PathGraph.skel_set_node
              { g with edges := g.edges.set ei { e with state := PathEdgeState.Peeked } }
              hn rfl rfl rfl
          exact hA.trans (PathGraph.skel_set_edge g he rfl rfl)
        · exact ih g g3 q q3 h

theorem BFSGraphAlgorithm.nextStep_frame {fuel : Nat} {s s1 : BFSGraphAlgorithm} {b : Bool}
    (h : BFSGraphAlgorithm.nextStep fuel s = .ok (b, s1)) :
    s1.m_graph.skel = s.m_graph.skel ∧ s1.m_graph.node_count = s.m_graph.node_count ∧
      s1.m_graph.edge_count = s.m_graph.edge_count := by
  unfold BFSGraphAlgorithm.nextStep at h
  split at h
  · simp only [Except.ok.injEq, Prod.mk.injEq] at h
    rw [← h.2]
    exact ⟨rfl, rfl, rfl⟩
  · cases hq : s.m_unvisited_node_queue with
    | nil =>
      simp only [hq, Except.ok.injEq, Prod.mk.injEq] at h
      rw [← h.2]
      exact ⟨rfl, rfl, rfl⟩
    | cons u q =>
      simp only [hq] at h
      split at h
      · simp only [Except.ok.injEq, Prod.mk.injEq] at h
        rw [← h.2]
        exact ⟨rfl, rfl, rfl⟩
      · cases hn : s.m_graph.nodes[u]? with
        | none => simp [hn] at h
        | some node0 =>
          simp only [hn] at h
          have hsk1 := PathGraph.skel_set_node s.m_graph hn
            (show ({ node0 with state := PathNodeState.Visited } : PathNode).edges = node0.edges
              from rfl) rfl rfl
          cases hm : BFSGraphAlgorithm.markUsed
              { s.m_graph with
                nodes := s.m_graph.nodes.set u { node0 with state := PathNodeState.Visited } }
              { node0 with state := PathNodeState.Visited } with
          | error f => simp [hm] at h
          | ok g2 =>
            obtain ⟨hm1, hm2, hm3, hm4⟩ := BFSGraphAlgorithm.markUsed_frame hm
            simp only [hm] at h
            split at h
            · split at h
              · simp only [Except.ok.injEq, Prod.mk.injEq] at h
                rw [← h.2]
                have hlt : u < s.m_graph.nodes.length := getElem?_lt hn
                have hn2 : g2.nodes[u]? =
                    some { node0 with state := PathNodeState.Visited } := by
                  rw [hm4]
                  simp [hlt]
                let node1 : PathNode :=
                  { pos_x := node0.pos_x, pos_y := node0.pos_y,
                    state := PathNodeState.OnShortestPath,
                    is_start_node := node0.is_start_node, is_end_node := node0.is_end_node,
                    entered_by := node0.entered_by, edges := node0.edges }
                have hA : PathGraph.skel { g2 with nodes := g2.nodes.set u node1 } = g2.skel :=
                  PathGraph.skel_set_node g2 hn2 rfl rfl rfl
                exact ⟨hA.trans (hm1.trans hsk1), hm2, hm3⟩
              · cases hb : BFSGraphAlgorithm.backtrack fuel g2 node0.entered_by with
                | error f => simp [hb] at h
                | ok g3 =>
                  simp only [hb, Except.ok.injEq, Prod.mk.injEq] at h
                  rw [← h.2]
                  obtain ⟨hb1, hb2, hb3⟩ := BFSGraphAlgorithm.backtrack_frame _ _ _ _ hb
                  exact ⟨hb1.trans (hm1.trans hsk1), hb2.trans hm2, hb3.trans hm3⟩
            · cases hs : BFSGraphAlgorithm.scanNeighbours node0.edges g2 q with
              | error f => simp [hs] at h
              | ok r =>
                obtain ⟨g3, q3⟩ := r
                simp only [hs, Except.ok.injEq, Prod.mk.injEq] at h
                rw [← h.2]
                obtain ⟨hb1, hb2, hb3⟩ := BFSGraphAlgorithm.scanNeighbours_frame _ _ _ _ _ hs
                exact ⟨hb1.trans (hm1.trans hsk1), hb2.trans hm2, hb3.trans hm3⟩

/-! ## What no call of `FordFulkersonGraphAlgorithm::nextStep` writes -/

theorem FordFulkersonGraphAlgorithm.showFoundPath_frame (start : Nat) (parent : List Nat) :
    ∀ (fuel v : Nat) (g g1 : FlowGraph),
      FordFulkersonGraphAlgorithm.showFoundPath start parent fuel v g = .ok g1 →
      g1.skel = g.skel := by
  intro fuel
  induction fuel with
  | zero => intro v g g1 h; simp [FordFulkersonGraphAlgorithm.showFoundPath] at h
  | succ fuel ih =>
    intro v g g1 h
    unfold FordFulkersonGraphAlgorithm.showFoundPath at h
    split at h
    · cases h; rfl
    · cases hp : parent[v]? with
      | none => simp [hp] at h
      | some p =>
        simp only [hp] at h
        cases hn : g.nodes[p]? with
        | none => simp [hn] at h
        | some pnode =>
          simp only [hn] at h
          let g2 : FlowGraph :=
            { g with nodes := g.nodes.set p { pnode with state := FlowNodeState.OnUnsaturatedPath } }
          have hsk2 : g2.skel = g.skel := FlowGraph.flow_skel_set_node g hn rfl rfl
          cases hf : FordFulkersonGraphAlgorithm.findEdge g2 p v with
          | error f => simp [g2, hf] at h
          | ok ei =>
            simp only [g2, hf] at h
            cases he : g.edges[ei]? with
            | none => simp [he] at h
            | some e =>
              simp only [he] at h
              have he2 : g2.edges[ei]? = some e := he
              have hsk3 := FlowGraph.flow_skel_set_edge g2 he2
                (show ({ e with state := FlowEdgeState.OnUnsaturatedPath } :
                  FlowEdge).from_node_index = e.from_node_index from rfl) rfl rfl
              exact (ih _ _ _ h).trans (hsk3.trans hsk2)

theorem FordFulkersonGraphAlgorithm.augment_frame (start : Nat) (parent : List Nat) (flow : Nat) :
    ∀ (fuel v : Nat) (g g1 : FlowGraph),
      FordFulkersonGraphAlgorithm.augment start parent flow fuel v g = .ok g1 →
      g1.skel = g.skel := by
  intro fuel
  induction fuel with
  | zero => intro v g g1 h; simp [FordFulkersonGraphAlgorithm.augment] at h
  | succ fuel ih =>
    intro v g g1 h
    unfold FordFulkersonGraphAlgorithm.augment at h
    split at h
    · cases h; rfl
    · cases hp : parent[v]? with
      | none => simp [hp] at h
      | some p =>
        simp only [hp] at h
        cases hf : FordFulkersonGraphAlgorithm.findEdge g p v with
        | error f => simp [hf] at h
        | ok ei =>
          simp only [hf] at h
          cases he : g.edges[ei]? with
          | none => simp [he] at h
          | some e =>
            simp only [he] at h
            have hsk3 := FlowGraph.flow_skel_set_edge g he
              (show (e.augmented flow).from_node_index = e.from_node_index from rfl) rfl rfl
            exact (ih _ _ _ h).trans hsk3

theorem FordFulkersonGraphAlgorithm.nextStep_flow_frame {fuel : Nat}
    {s s1 : FordFulkersonGraphAlgorithm} {b : Bool}
    (h : FordFulkersonGraphAlgorithm.nextStep fuel s = .ok (b, s1)) :
    s1.m_graph.skel = s.m_graph.skel ∧ s1.m_start_node = s.m_start_node ∧
      s1.m_end_node = s.m_end_node := by
  unfold FordFulkersonGraphAlgorithm.nextStep at h
  cases hp : s.m_next_step_state with
  | CleanGraph =>
    simp only [hp, Except.ok.injEq, Prod.mk.injEq] at h
    rw [← h.2]
    exact ⟨cleanGraph_skel _, rfl, rfl⟩
  | PathFind =>
    simp only [hp] at h
    cases hb : FordFulkersonGraphAlgorithm.BFS fuel s with
    | error f => simp [hb] at h
    | ok r =>
      obtain ⟨found, parent⟩ := r
      cases found with
      | false =>
        simp only [hb, Except.ok.injEq, Prod.mk.injEq] at h
        rw [← h.2]
        exact ⟨rfl, rfl, rfl⟩
      | true =>
        simp only [hb] at h
        cases hsh : FordFulkersonGraphAlgorithm.showFoundPath s.m_start_node parent fuel
            s.m_end_node s.m_graph with
        | error f => simp [hsh] at h
        | ok g1 =>
          simp only [hsh, Except.ok.injEq, Prod.mk.injEq] at h
          rw [← h.2]
          exact ⟨FordFulkersonGraphAlgorithm.showFoundPath_frame _ _ _ _ _ _ hsh, rfl, rfl⟩
  | UpdatePath =>
    simp only [hp] at h
    cases hu : FordFulkersonGraphAlgorithm.updateFlow fuel s with
    | error f => simp [hu] at h
    | ok r =>
      obtain ⟨flow, g1⟩ := r
      simp only [hu, Except.ok.injEq, Prod.mk.injEq] at h
      rw [← h.2]
      refine ⟨?_, rfl, rfl⟩
      unfold FordFulkersonGraphAlgorithm.updateFlow at hu
      cases hbn : FordFulkersonGraphAlgorithm.bottleneck s.m_graph s.m_start_node s.m_parent fuel
          s.m_end_node SIZE_MAX with
      | error f => simp [hbn] at hu
      | ok fl =>
        simp only [hbn] at hu
        cases ha : FordFulkersonGraphAlgorithm.augment s.m_start_node s.m_parent fl fuel
            s.m_end_node s.m_graph with
        | error f => simp [ha] at hu
        | ok g2 =>
          simp only [ha, Except.ok.injEq, Prod.mk.injEq] at hu
          rw [← hu.2]
          exact FordFulkersonGraphAlgorithm.augment_frame _ _ _ _ _ _ _ ha

/-! ## Every call of `BFSGraphAlgorithm::nextStep` on a reachable state returns -/

theorem BFSReach.next {c : PathGraphConfig} {g : PathGraph} (hf : PathGraph.Fresh c g)
    {fuel : Nat} (hfuel : g.nodes.length ≤ fuel) {s : BFSGraphAlgorithm} (h : BFSReach g s) :
    ∃ (b : Bool) (s1 : BFSGraphAlgorithm),
      BFSGraphAlgorithm.nextStep fuel s = .ok (b, s1) ∧ BFSReach g s1 := by
  obtain ⟨hsk, hnc, hec, hcase⟩ := h
  have hreach : ∀ (b : Bool) (s1 : BFSGraphAlgorithm),
      BFSGraphAlgorithm.nextStep fuel s = .ok (b, s1) →
      (s1 = BFSGraphAlgorithm.new g ∨ (∃ (k : Nat) (A B : List Nat), BFSInv s1 k A B) ∨
        ∃ (P V : List Nat) (d : Nat), BFSFound s1 P V d) →
      ∃ (b : Bool) (s1 : BFSGraphAlgorithm),
        BFSGraphAlgorithm.nextStep fuel s = .ok (b, s1) ∧ BFSReach g s1 := by
    intro b s1 hstep hc1
    obtain ⟨h1, h2, h3⟩ := BFSGraphAlgorithm.nextStep_frame hstep
    exact ⟨b, s1, hstep, h1.trans hsk, h2.trans hnc, h3.trans hec, hc1⟩
  rcases hcase with hnew | ⟨k, A, B, hinv⟩ | ⟨P, V, d, hfound⟩
  · subst hnew
    exact hreach _ _ (BFSGraphAlgorithm.nextStep_first fuel g)
      (Or.inr (Or.inl ⟨0, [g.start_node], [], BFSInv.init c g hf⟩))
  · have hnorm : (A = [] ∧ B = []) ∨ ∃ k1 u A1 B1, BFSInv s k1 (u :: A1) B1 := by
      cases A with
      | nil =>
        cases B with
        | nil => exact Or.inl ⟨rfl, rfl⟩
        | cons b B1 => exact Or.inr ⟨k + 1, b, B1, [], hinv.relevel⟩
      | cons a A1 => exact Or.inr ⟨k, a, A1, B, hinv⟩
    rcases hnorm with ⟨hA, hB⟩ | ⟨k1, u, A1, B1, h1⟩
    · subst hA; subst hB
      exact hreach _ _ (BFSGraphAlgorithm.nextStep_empty hinv.first hinv.queue_eq)
        (Or.inr (Or.inl ⟨k, [], [], hinv⟩))
    · by_cases hu : u = s.m_graph.end_node
      · have hfuel1 : ∀ d, IsDist s.m_graph.ends s.m_graph.start_node s.m_graph.end_node d →
            d ≤ fuel := by
          intro d hd
          have h1 := IsDist.lt_length hinv.wf hd
          rw [PathGraph.skel_nodes_length hsk] at h1
          omega
        obtain ⟨st1, P, V, d, hstep, hfound, _⟩ := h1.finish hu hfuel1
        exact hreach _ _ hstep (Or.inr (Or.inr ⟨P, V, d, hfound⟩))
      · obtain ⟨st1, N, hstep, hinv1, _, _⟩ := @BFSInv.step fuel _ _ _ _ _ h1 hu
        exact hreach _ _ hstep (Or.inr (Or.inl ⟨k1, A1, B1 ++ N, hinv1⟩))
  · exact hreach _ _ (BFSGraphAlgorithm.nextStep_found hfound.first hfound.found)
      (Or.inr (Or.inr ⟨P, V, d, hfound⟩))

theorem BFSReach.steps_total {c : PathGraphConfig} {g : PathGraph} (hf : PathGraph.Fresh c g)
    {fuel : Nat} (hfuel : g.nodes.length ≤ fuel) :
    ∀ (k : Nat) (s : BFSGraphAlgorithm), BFSReach g s →
      ∃ s1 : BFSGraphAlgorithm, BFSGraphAlgorithm.steps fuel k s = .ok s1 ∧ BFSReach g s1 := by
  intro k
  induction k with
  | zero => intro s h; exact ⟨s, rfl, h⟩
  | succ k ih =>
    intro s h
    obtain ⟨b, s1, hstep, h1⟩ := h.next hf hfuel
    obtain ⟨s2, hsteps, h2⟩ := ih s1 h1
    exact ⟨s2, by simp only [BFSGraphAlgorithm.steps, hstep, hsteps], h2⟩

theorem BFSReach.wf {c : PathGraphConfig} {g : PathGraph} (hf : PathGraph.Fresh c g)
    {s : BFSGraphAlgorithm} (h : BFSReach g s) : s.m_graph.WF :=
  hf.wf.of_skel h.1

/-! ## Frame properties of `nextStep` -/

/-- C19: for both algorithms, on every well-formed configuration and in every state reached by
`k` calls of `nextStep`, the next call returns and leaves unchanged what `PathGraph.skel` /
`FlowGraph.skel` record (every edge's `from_node_index` and `to_node_index`, every node's
adjacency list and start/end role, `start_node` and `end_node`), the number of nodes and the
number of edges; every reachable state therefore has the topology of the constructed graph,
and every edge endpoint is a valid node index in it. The frame part holds for a call in any
state whatever, provided the call returns. -/
theorem next_step_preserves_topology (pc : PathGraphConfig) (gb : Nat → Nat)
    (fc : FlowGraphConfig) (fuel k : Nat) (hpc : pc.WellFormed) (hfc : fc.WellFormed)
    (hfuel1 : pc.nodes.length < fuel) (hfuel2 : fc.nodes.length < fuel) :
    (∃ (g : PathGraph) (s s1 : BFSGraphAlgorithm) (b : Bool), PathGraph.new pc gb = .ok g ∧
      BFSGraphAlgorithm.steps fuel k (BFSGraphAlgorithm.new g) = .ok s ∧
      BFSGraphAlgorithm.nextStep fuel s = .ok (b, s1) ∧
      s1.m_graph.skel = s.m_graph.skel ∧ s.m_graph.skel = g.skel ∧
      s1.m_graph.nodes.length = s.m_graph.nodes.length ∧
      s1.m_graph.edges.length = s.m_graph.edges.length ∧
      s1.m_graph.node_count = s.m_graph.node_count ∧
      s1.m_graph.edge_count = s.m_graph.edge_count ∧
      ∀ (ei : Nat) (e : PathEdge), s.m_graph.edges[ei]? = some e →
        e.from_node_index < s.m_graph.nodes.length ∧
        e.to_node_index < s.m_graph.nodes.length) ∧
    (∃ (g : FlowGraph) (s s1 : FordFulkersonGraphAlgorithm) (b : Bool),
      FlowGraph.new fc = .ok g ∧
      FordFulkersonGraphAlgorithm.steps fuel k (FordFulkersonGraphAlgorithm.new g) = .ok s ∧
      FordFulkersonGraphAlgorithm.nextStep fuel s = .ok (b, s1) ∧
      s1.m_graph.skel = s.m_graph.skel ∧ s.m_graph.skel = g.skel ∧
      s1.m_graph.nodes.length = s.m_graph.nodes.length ∧
      s1.m_graph.edges.length = s.m_graph.edges.length ∧
      ∀ (ei : Nat) (e : FlowEdge), s.m_graph.edges[ei]? = some e →
        e.from_node_index < s.m_graph.nodes.length ∧
        e.to_node_index < s.m_graph.nodes.length) ∧
    (∀ (s s1 : BFSGraphAlgorithm) (b : Bool),
      BFSGraphAlgorithm.nextStep fuel s = .ok (b, s1) →
      s1.m_graph.skel = s.m_graph.skel ∧ s1.m_graph.node_count = s.m_graph.node_count ∧
      s1.m_graph.edge_count = s.m_graph.edge_count) ∧
    (∀ (s s1 : FordFulkersonGraphAlgorithm) (b : Bool),
      FordFulkersonGraphAlgorithm.nextStep fuel s = .ok (b, s1) →
      s1.m_graph.skel = s.m_graph.skel ∧ s1.m_start_node = s.m_start_node ∧
      s1.m_end_node = s.m_end_node) := by
  refine ⟨?_, ?_, fun s s1 b h => BFSGraphAlgorithm.nextStep_frame h,
    fun s s1 b h => FordFulkersonGraphAlgorithm.nextStep_flow_frame h⟩
  · obtain ⟨g, hnew, hfresh⟩ := PathGraph.new_spec pc gb hpc
    have hfuel : g.nodes.length ≤ fuel := by rw [hfresh.len]; omega
    have h0 : BFSReach g (BFSGraphAlgorithm.new g) := ⟨rfl, rfl, rfl, Or.inl rfl⟩
    obtain ⟨s, hsteps, hs⟩ := BFSReach.steps_total hfresh hfuel k _ h0
    obtain ⟨b, s1, hstep, hs1⟩ := hs.next hfresh hfuel
    obtain ⟨h1, h2, h3⟩ := BFSGraphAlgorithm.nextStep_frame hstep
    have hwf := hs.wf hfresh
    refine ⟨g, s, s1, b, hnew, hsteps, hstep, h1, hs.1, PathGraph.skel_nodes_length h1,
      PathGraph.skel_edges_length h1, h2, h3, ?_⟩
    intro ei e he
    obtain ⟨node, hnode, _⟩ := hwf.adj_complete ei e he
    exact ⟨getElem?_lt hnode, hwf.to_lt ei e he⟩
  · obtain ⟨g, hnew, hfresh⟩ := FlowGraph.new_fresh fc hfc
    have hfuel0 : (FordFulkersonGraphAlgorithm.new g).m_graph.nodes.length < fuel := by
      show g.nodes.length < fuel
      rw [hfresh.len]; exact hfuel2
    obtain ⟨s, hsteps, hinv, hsk⟩ := FFInv.steps k _ (FFInv.init_fresh hfresh) hfuel0
    obtain ⟨b, s1, hstep, _, hsk1⟩ := hinv.ff_step
      (by rw [FlowGraph.flow_skel_nodes_length hsk]; exact hfuel0)
    refine ⟨g, s, s1, b, hnew, hsteps, hstep, hsk1, hsk, FlowGraph.flow_skel_nodes_length hsk1,
      FlowGraph.flow_skel_edges_length hsk1, ?_⟩
    intro ei e he
    obtain ⟨node, hnode, _⟩ := hinv.wf.adj_complete ei e he
    exact ⟨getElem?_lt hnode, hinv.wf.to_lt ei e he⟩

theorem next_step_preserves_topology_witness :
    diamondPathConfig.WellFormed ∧ diamondFlowConfig.WellFormed ∧
    ((∃ (g : PathGraph) (s s1 : BFSGraphAlgorithm) (b : Bool),
      PathGraph.new diamondPathConfig (fun _ => 0) = .ok g ∧
      BFSGraphAlgorithm.steps 5 3 (BFSGraphAlgorithm.new g) = .ok s ∧
      BFSGraphAlgorithm.nextStep 5 s = .ok (b, s1) ∧
      s1.m_graph.skel = s.m_graph.skel ∧ s.m_graph.skel = g.skel ∧
      s1.m_graph.nodes.length = s.m_graph.nodes.length ∧
      s1.m_graph.edges.length = s.m_graph.edges.length ∧
      s1.m_graph.node_count = s.m_graph.node_count ∧
      s1.m_graph.edge_count = s.m_graph.edge_count ∧
      ∀ (ei : Nat) (e : PathEdge), s.m_graph.edges[ei]? = some e →
        e.from_node_index < s.m_graph.nodes.length ∧
        e.to_node_index < s.m_graph.nodes.length) ∧
    (∃ (g : FlowGraph) (s s1 : FordFulkersonGraphAlgorithm) (b : Bool),
      FlowGraph.new diamondFlowConfig = .ok g ∧
      FordFulkersonGraphAlgorithm.steps 5 3 (FordFulkersonGraphAlgorithm.new g) = .ok s ∧
      FordFulkersonGraphAlgorithm.nextStep 5 s = .ok (b, s1) ∧
      s1.m_graph.skel = s.m_graph.skel ∧ s.m_graph.skel = g.skel ∧
      s1.m_graph.nodes.length = s.m_graph.nodes.length ∧
      s1.m_graph.edges.length = s.m_graph.edges.length ∧
      ∀ (ei : Nat) (e : FlowEdge), s.m_graph.edges[ei]? = some e →
        e.from_node_index < s.m_graph.nodes.length ∧
        e.to_node_index < s.m_graph.nodes.length) ∧
    (∀ (s s1 : BFSGraphAlgorithm) (b : Bool),
      BFSGraphAlgorithm.nextStep 5 s = .ok (b, s1) →
      s1.m_graph.skel = s.m_graph.skel ∧ s1.m_graph.node_count = s.m_graph.node_count ∧
      s1.m_graph.edge_count = s.m_graph.edge_count) ∧
    (∀ (s s1 : FordFulkersonGraphAlgorithm) (b : Bool),
      FordFulkersonGraphAlgorithm.nextStep 5 s = .ok (b, s1) →
      s1.m_graph.skel = s.m_graph.skel ∧ s1.m_start_node = s.m_start_node ∧
      s1.m_end_node = s.m_end_node)) :=
  ⟨by decide, by decide,
    next_step_preserves_topology diamondPathConfig (fun _ => 0) diamondFlowConfig 5 3
      (by decide) (by decide) (by decide) (by decide)⟩

/-- C18: for every well-formed flow graph, `current_flow` is `0` on every edge at construction,
and in every state reached by `k` calls of `nextStep` the next call returns, leaves every
edge's capacity unchanged and leaves every edge's `current_flow` greater than or equal to its
value before the call. -/
theorem ff_flow_monotone (c : FlowGraphConfig) (fuel k : Nat) (hc : c.WellFormed)
    (hfuel : c.nodes.length < fuel) :
    ∃ (g : FlowGraph) (s s1 : FordFulkersonGraphAlgorithm) (b : Bool),
      FlowGraph.new c = .ok g ∧
      (∀ (j : Nat) (e : FlowEdge), g.edges[j]? = some e → e.current_flow = 0) ∧
      FordFulkersonGraphAlgorithm.steps fuel k (FordFulkersonGraphAlgorithm.new g) = .ok s ∧
      FordFulkersonGraphAlgorithm.nextStep fuel s = .ok (b, s1) ∧
      s1.m_graph.edges.length = s.m_graph.edges.length ∧
      ∀ (j : Nat) (e : FlowEdge), s.m_graph.edges[j]? = some e →
        ∃ e1 : FlowEdge, s1.m_graph.edges[j]? = some e1 ∧ e1.capacity = e.capacity ∧
          e.current_flow ≤ e1.current_flow := by
  obtain ⟨g, hnew, hfresh⟩ := FlowGraph.new_fresh c hc
  have hfuel0 : (FordFulkersonGraphAlgorithm.new g).m_graph.nodes.length < fuel := by
    show g.nodes.length < fuel
    rw [hfresh.len]; exact hfuel
  obtain ⟨s, hsteps, hinv, hsk⟩ := FFInv.steps k _ (FFInv.init_fresh hfresh) hfuel0
  have hfuel1 : s.m_graph.nodes.length < fuel := by
    rw [FlowGraph.flow_skel_nodes_length hsk]; exact hfuel0
  have hinit : ∀ (j : Nat) (e : FlowEdge), g.edges[j]? = some e → e.current_flow = 0 :=
    fun j e he => (hfresh.edge_init j e he).2
  have hlen : ∀ (b : Bool) (s1 : FordFulkersonGraphAlgorithm),
      FordFulkersonGraphAlgorithm.nextStep fuel s = .ok (b, s1) →
      s1.m_graph.edges.length = s.m_graph.edges.length :=
    fun b s1 h => FlowGraph.flow_skel_edges_length
      (FordFulkersonGraphAlgorithm.nextStep_flow_frame h).1
  cases hp : s.m_next_step_state with
  | CleanGraph =>
    have hstep := @FordFulkersonGraphAlgorithm.nextStep_clean s fuel hp
    refine ⟨g, s, _, true, hnew, hinit, hsteps, hstep, hlen _ _ hstep, ?_⟩
    intro j e he
    have h1 := cleanGraph_edges s.m_graph j
    rw [he] at h1
    simp only [Option.map_some'] at h1
    exact ⟨_, h1, rfl, Nat.le_refl _⟩
  | PathFind =>
    rcases FordFulkersonGraphAlgorithm.nextStep_pathFind hinv hfuel1 hp with
      ⟨parent, _, hstep⟩ | ⟨parent, es, L, g1, hstep, _, _, _, _, _, hedges, _⟩
    · exact ⟨g, s, _, false, hnew, hinit, hsteps, hstep, rfl,
        fun j e he => ⟨e, he, rfl, Nat.le_refl _⟩⟩
    · refine ⟨g, s, _, true, hnew, hinit, hsteps, hstep, hlen _ _ hstep, ?_⟩
      intro j e he
      refine ⟨_, hedges j e he, ?_, ?_⟩
      · split <;> rfl
      · split
        · exact Nat.le_refl _
        · exact Nat.le_refl _
  | UpdatePath =>
    obtain ⟨es, L, f, g1, _, _, _, _, _, _, hroom, _, hstep, _, _, hedges, _⟩ :=
      FordFulkersonGraphAlgorithm.nextStep_update hinv hfuel1 hp
    refine ⟨g, s, _, true, hnew, hinit, hsteps, hstep, hlen _ _ hstep, ?_⟩
    intro j e he
    refine ⟨_, hedges j e he, ?_, ?_⟩
    · split <;> rfl
    · by_cases hj : j ∈ es
      · rw [if_pos hj]
        obtain ⟨e2, hje2, _, hsum⟩ := hroom j hj
        rw [he] at hje2
        cases hje2
        have hadd : sizeAdd e.current_flow f = e.current_flow + f :=
          sizeAdd_eq hsum (hinv.wf.cap_lt j e he)
        show e.current_flow ≤ sizeAdd e.current_flow f
        omega
      · rw [if_neg hj]

theorem ff_flow_monotone_witness :
    diamondFlowConfig.WellFormed ∧
    ∃ (g : FlowGraph) (s s1 : FordFulkersonGraphAlgorithm) (b : Bool),
      FlowGraph.new diamondFlowConfig = .ok g ∧
      (∀ (j : Nat) (e : FlowEdge), g.edges[j]? = some e → e.current_flow = 0) ∧
      FordFulkersonGraphAlgorithm.steps 5 2 (FordFulkersonGraphAlgorithm.new g) = .ok s ∧
      FordFulkersonGraphAlgorithm.nextStep 5 s = .ok (b, s1) ∧
      s1.m_graph.edges.length = s.m_graph.edges.length ∧
      ∀ (j : Nat) (e : FlowEdge), s.m_graph.edges[j]? = some e →
        ∃ e1 : FlowEdge, s1.m_graph.edges[j]? = some e1 ∧ e1.capacity = e.capacity ∧
          e.current_flow ≤ e1.current_flow :=
  ⟨by decide, ff_flow_monotone diamondFlowConfig 5 2 (by decide) (by decide)⟩

/-! ## Pending discoveries: `Found` nodes and `Peeked` edges -/

theorem BFSGraphAlgorithm.scanNeighbours_peek (start : Nat) :
    ∀ (es : List Nat) (g g3 : PathGraph) (q q3 : List Nat),
      BFSGraphAlgorithm.scanNeighbours es g q = .ok (g3, q3) → PeekQ start g q →
      (∀ node : PathNode, g.nodes[start]? = some node →
        node.state ≠ PathNodeState.NotFound) →
      PeekQ start g3 q3 ∧
        ∀ node : PathNode, g3.nodes[start]? = some node →
          node.state ≠ PathNodeState.NotFound := by
  intro es
  induction es with
  | nil =>
    intro g g3 q q3 h hpq hst
    simp only [BFSGraphAlgorithm.scanNeighbours, Except.ok.injEq, Prod.mk.injEq] at h
    rw [← h.1, ← h.2]
    exact ⟨hpq, hst⟩
  | cons ei rest ih =>
    intro g g3 q q3 h hpq hst
    unfold BFSGraphAlgorithm.scanNeighbours at h
    cases he : g.edges[ei]? with
    | none => simp [he] at h
    | some e =>
      simp only [he] at h
      cases hn : g.nodes[e.to_node_index]? with
      | none => simp [hn] at h
      | some nb =>
        simp only [hn] at h
        split at h
        · rename_i hnf
          have hlt : e.to_node_index < g.nodes.length := getElem?_lt hn
          refine ih _ g3 _ q3 h ?_ ?_
          · constructor
            · intro ej e1 he1 hs1
              rcases getElem?_set_some he1 with ⟨hij, heq, _⟩ | ⟨hij, hold⟩
              · subst hij
                subst heq
                refine ⟨{ nb with state := PathNodeState.Found, entered_by := ei }, ?_, rfl, rfl⟩
                simp [hlt]
              · obtain ⟨node, hnode, hfs, hent⟩ := hpq.peeked ej e1 hold hs1
                have hne : e.to_node_index ≠ e1.to_node_index := by
                  intro heq
                  rw [← heq, hn] at hnode
                  cases hnode
                  rw [hnf] at hfs
                  cases hfs
                exact ⟨node, by simp [List.getElem?_set_ne hne, hnode], hfs, hent⟩
            · intro v node hv hfs
              rcases getElem?_set_some hv with ⟨hij, _, _⟩ | ⟨_, hold⟩
              · subst hij
                refine ⟨by simp, ?_⟩
                intro hvs
                rw [hvs] at hn
                exact hst nb hn hnf
              · obtain ⟨h1, h2⟩ := hpq.found v node hold hfs
                exact ⟨List.mem_append_left _ h1, h2⟩
          · intro node hnode
            rcases getElem?_set_some hnode with ⟨_, heq, _⟩ | ⟨_, hold⟩
            · rw [heq]
              simp
            · exact hst node hold
        · exact ih g g3 q q3 h hpq hst

theorem PeekInv.pop {s : BFSGraphAlgorithm} (h : PeekInv s) (hfirst : s.m_first_step = false)
    {u : Nat} {q : List Nat} (hq : s.m_unvisited_node_queue = u :: q) {node0 : PathNode}
    (hn : s.m_graph.nodes[u]? = some node0) {g2 : PathGraph}
    (hm : BFSGraphAlgorithm.markUsed
      { s.m_graph with
        nodes := s.m_graph.nodes.set u { node0 with state := PathNodeState.Visited } }
      { node0 with state := PathNodeState.Visited } = .ok g2) :
    PeekQ s.m_graph.start_node g2 q ∧
      ∀ node : PathNode, g2.nodes[s.m_graph.start_node]? = some node →
        node.state ≠ PathNodeState.NotFound := by
  have hflag : node0.is_start_node = decide (u = s.m_graph.start_node) :=
    (h.wf.flags u node0 hn).1
  have hnodes : g2.nodes =
      s.m_graph.nodes.set u { node0 with state := PathNodeState.Visited } :=
    (BFSGraphAlgorithm.markUsed_frame hm).2.2.2
  have hlt : u < s.m_graph.nodes.length := getElem?_lt hn
  -- a node that is still `Found` is not the dequeued one
  have hkeep : ∀ (v : Nat) (node : PathNode), s.m_graph.nodes[v]? = some node →
      node.state = PathNodeState.Found → v ≠ u → g2.nodes[v]? = some node := by
    intro v node hv _ hvu
    rw [hnodes, List.getElem?_set_ne (Ne.symm hvu)]
    exact hv
  have hedges : ∀ (ej : Nat) (e1 : PathEdge), g2.edges[ej]? = some e1 →
      e1.state = PathEdgeState.Peeked →
      s.m_graph.edges[ej]? = some e1 ∧ (node0.is_start_node = false → ej ≠ node0.entered_by) := by
    intro ej e1 he1 hs1
    unfold BFSGraphAlgorithm.markUsed at hm
    by_cases hstart : node0.is_start_node = true
    · simp only [hstart, if_true, Except.ok.injEq] at hm
      subst hm
      exact ⟨he1, fun hf => by rw [hstart] at hf; cases hf⟩
    · have hstart' : node0.is_start_node = false := by simpa using hstart
      simp only [hstart', Bool.false_eq_true, if_false] at hm
      cases he0 : s.m_graph.edges[node0.entered_by]? with
      | none => simp [he0] at hm
      | some e0 =>
        simp only [he0, Except.ok.injEq] at hm
        subst hm
        rcases getElem?_set_some he1 with ⟨_, heq, _⟩ | ⟨hij, hold⟩
        · rw [heq] at hs1
          cases hs1
        · exact ⟨hold, fun _ => Ne.symm hij⟩
  refine ⟨⟨?_, ?_⟩, ?_⟩
  · intro ej e1 he1 hs1
    obtain ⟨hold, hne⟩ := hedges ej e1 he1 hs1
    obtain ⟨node, hnode, hfs, hent⟩ := h.pending.peeked ej e1 hold hs1
    have hvu : e1.to_node_index ≠ u := by
      intro heq
      rw [heq, hn] at hnode
      cases hnode
      have hus := (h.pending.found u node0 hn hfs).2
      have hfalse : node0.is_start_node = false := by rw [hflag]; simpa using hus
      exact hne hfalse hent.symm
    exact ⟨node, hkeep _ node hnode hfs hvu, hfs, hent⟩
  · intro v node hv hfs
    rw [hnodes] at hv
    rcases getElem?_set_some hv with ⟨_, heq, _⟩ | ⟨hvu, hold⟩
    · rw [heq] at hfs
      cases hfs
    · obtain ⟨h1, h2⟩ := h.pending.found v node hold hfs
      rw [hq] at h1
      rcases List.mem_cons.1 h1 with h3 | h3
      · exact absurd h3.symm hvu
      · exact ⟨h3, h2⟩
  · intro node hnode
    rw [hnodes] at hnode
    rcases getElem?_set_some hnode with ⟨_, heq, _⟩ | ⟨hvu, hold⟩
    · rw [heq]
      simp
    · intro hnf
      have := h.start_state hfirst node hold hnf
      rw [hq] at this
      exact hvu (List.cons.inj this).1

theorem BFSGraphAlgorithm.found_end_stays {fuel : Nat} {s s1 : BFSGraphAlgorithm} {b : Bool}
    (h : BFSGraphAlgorithm.nextStep fuel s = .ok (b, s1)) (hf : s.m_found_end = true) :
    s1.m_found_end = true := by
  unfold BFSGraphAlgorithm.nextStep at h
  split at h
  · simp only [Except.ok.injEq, Prod.mk.injEq] at h
    rw [← h.2]
    exact hf
  · cases hq : s.m_unvisited_node_queue with
    | nil =>
      simp only [hq, Except.ok.injEq, Prod.mk.injEq] at h
      rw [← h.2]
      exact hf
    | cons u q =>
      simp only [hq, hf, if_true, Except.ok.injEq, Prod.mk.injEq] at h
      rw [← h.2]
      exact hf

theorem BFSGraphAlgorithm.found_end_run {fuel : Nat} :
    ∀ (budget : Nat) (s st : BFSGraphAlgorithm) (cnt : Nat),
      BFSGraphAlgorithm.runUntilFalse fuel budget s = .ok (cnt, st) →
      s.m_found_end = true → st.m_found_end = true := by
  intro budget
  induction budget with
  | zero => intro s st cnt h; simp [BFSGraphAlgorithm.runUntilFalse] at h
  | succ budget ih =>
    intro s st cnt h hf
    unfold BFSGraphAlgorithm.runUntilFalse at h
    cases hstep : BFSGraphAlgorithm.nextStep fuel s with
    | error f => simp [hstep] at h
    | ok r =>
      obtain ⟨b, s1⟩ := r
      have hf1 := BFSGraphAlgorithm.found_end_stays hstep hf
      cases b with
      | false =>
        simp only [hstep, Except.ok.injEq, Prod.mk.injEq] at h
        rw [← h.2]
        exact hf1
      | true =>
        simp only [hstep] at h
        cases hrun : BFSGraphAlgorithm.runUntilFalse fuel budget s1 with
        | error f => simp [hrun] at h
        | ok r2 =>
          obtain ⟨n, s2⟩ := r2
          simp only [hrun, Except.ok.injEq, Prod.mk.injEq] at h
          rw [← h.2]
          exact ih s1 s2 n hrun hf1

theorem PeekInv.peek_step {fuel : Nat} {s s1 : BFSGraphAlgorithm} {b : Bool} (h : PeekInv s)
    (hstep : BFSGraphAlgorithm.nextStep fuel s = .ok (b, s1))
    (hnf : s1.m_found_end = false) : PeekInv s1 := by
  have hsk := (BFSGraphAlgorithm.nextStep_frame hstep).1
  have hwf1 : s1.m_graph.WF := h.wf.of_skel hsk
  have hstart : s1.m_graph.start_node = s.m_graph.start_node := PathGraph.skel_start hsk
  unfold BFSGraphAlgorithm.nextStep at hstep
  split at hstep
  · rename_i hfirst
    simp only [Except.ok.injEq, Prod.mk.injEq] at hstep
    rw [← hstep.2]
    refine ⟨h.wf, ⟨h.pending.peeked, ?_⟩, (fun hc => by cases hc), fun _ _ _ _ => ?_⟩
    · intro v node hv hfs
      obtain ⟨h1, h2⟩ := h.pending.found v node hv hfs
      exact ⟨List.mem_append_left _ h1, h2⟩
    · show s.m_unvisited_node_queue ++ [s.m_graph.start_node] = [s.m_graph.start_node]
      rw [h.first_queue hfirst]
      rfl
  · rename_i hfirst
    have hfirst : s.m_first_step = false := by simpa using hfirst
    cases hq : s.m_unvisited_node_queue with
    | nil =>
      simp only [hq, Except.ok.injEq, Prod.mk.injEq] at hstep
      rw [← hstep.2]
      exact h
    | cons u q =>
      simp only [hq] at hstep
      split at hstep
      · simp only [Except.ok.injEq, Prod.mk.injEq] at hstep
        rw [← hstep.2]
        exact h
      · cases hn : s.m_graph.nodes[u]? with
        | none => simp [hn] at hstep
        | some node0 =>
          simp only [hn] at hstep
          cases hm : BFSGraphAlgorithm.markUsed
              { s.m_graph with
                nodes := s.m_graph.nodes.set u { node0 with state := PathNodeState.Visited } }
              { node0 with state := PathNodeState.Visited } with
          | error f => simp [hm] at hstep
          | ok g2 =>
            obtain ⟨hpq2, hst2⟩ := h.pop hfirst hq hn hm
            simp only [hm] at hstep
            split at hstep
            · exfalso
              split at hstep
              · simp only [Except.ok.injEq, Prod.mk.injEq] at hstep
                rw [← hstep.2] at hnf
                cases hnf
              · cases hb : BFSGraphAlgorithm.backtrack fuel g2 node0.entered_by with
                | error f => simp [hb] at hstep
                | ok g3 =>
                  simp only [hb, Except.ok.injEq, Prod.mk.injEq] at hstep
                  rw [← hstep.2] at hnf
                  cases hnf
            · cases hs : BFSGraphAlgorithm.scanNeighbours node0.edges g2 q with
              | error f => simp [hs] at hstep
              | ok r =>
                obtain ⟨g3, q3⟩ := r
                simp only [hs, Except.ok.injEq, Prod.mk.injEq] at hstep
                obtain ⟨hpq3, hst3⟩ :=
                  BFSGraphAlgorithm.scanNeighbours_peek _ _ _ _ _ _ hs hpq2 hst2
                have hs1 := hstep.2
                subst hs1
                have hstart3 : g3.start_node = s.m_graph.start_node := hstart
                refine ⟨hwf1, ?_, fun hc => ?_, fun _ node hnode hnfd => ?_⟩
                · show PeekQ g3.start_node g3 q3
                  rw [hstart3]
                  exact hpq3
                · have hc1 : s.m_first_step = true := hc
                  rw [hfirst] at hc1
                  cases hc1
                · have hnode1 : g3.nodes[s.m_graph.start_node]? = some node := by
                    rw [← hstart3]
                    exact hnode
                  exact absurd hnfd (hst3 node hnode1)

theorem PeekInv.peek_run {fuel : Nat} :
    ∀ (budget : Nat) (s st : BFSGraphAlgorithm) (cnt : Nat),
      BFSGraphAlgorithm.runUntilFalse fuel budget s = .ok (cnt, st) → PeekInv s →
      st.m_found_end = false → PeekInv st := by
  intro budget
  induction budget with
  | zero => intro s st cnt h; simp [BFSGraphAlgorithm.runUntilFalse] at h
  | succ budget ih =>
    intro s st cnt h hinv hnf
    unfold BFSGraphAlgorithm.runUntilFalse at h
    cases hstep : BFSGraphAlgorithm.nextStep fuel s with
    | error f => simp [hstep] at h
    | ok r =>
      obtain ⟨b, s1⟩ := r
      cases b with
      | false =>
        simp only [hstep, Except.ok.injEq, Prod.mk.injEq] at h
        have h2 := h.2
        subst h2
        exact hinv.peek_step hstep hnf
      | true =>
        simp only [hstep] at h
        cases hrun : BFSGraphAlgorithm.runUntilFalse fuel budget s1 with
        | error f => simp [hrun] at h
        | ok r2 =>
          obtain ⟨n, s2⟩ := r2
          simp only [hrun, Except.ok.injEq, Prod.mk.injEq] at h
          have h2 := h.2
          subst h2
          have hnf1 : s1.m_found_end = false := by
            cases hf : s1.m_found_end with
            | false => rfl
            | true =>
              have := BFSGraphAlgorithm.found_end_run budget s1 s2 n hrun hf
              rw [hnf] at this
              cases this
          exact ih s1 s2 n hrun (hinv.peek_step hstep hnf1) hnf

theorem PeekInv.peek_init {c : PathGraphConfig} {g : PathGraph} (hf : PathGraph.Fresh c g) :
    PeekInv (BFSGraphAlgorithm.new g) := by
  refine ⟨hf.wf, ⟨?_, ?_⟩, fun _ => rfl, fun hc => by cases hc⟩
  · intro ei e he hs
    have := hf.edge_init ei e he
    rw [this] at hs
    cases hs
  · intro v node hv hs
    have := hf.node_init v node hv
    rw [this] at hs
    cases hs

/-- C16: for every well-formed path graph whose end node is not reachable from the start
node, `nextStep` first returns `false` after finitely many calls (call number `cnt`, at most
`n + 3`), and at that point every node is `NotFound` or `Visited` and every edge is `Default`
or `Used`: none is `Found`, `Peeked` or `OnShortestPath`. -/
theorem bfs_unreachable_end_leaves_no_marks (c : PathGraphConfig) (gb : Nat → Nat)
    (fuel : Nat) (hc : c.WellFormed)
    (hunreach : ¬ Reachable c.edges c.start_node c.end_node) :
    ∃ (g : PathGraph) (cnt : Nat) (st : BFSGraphAlgorithm),
      PathGraph.new c gb = .ok g ∧ cnt ≤ c.nodes.length + 3 ∧
      (∀ budget, cnt ≤ budget →
        BFSGraphAlgorithm.runUntilFalse fuel budget (BFSGraphAlgorithm.new g) = .ok (cnt, st)) ∧
      st.m_graph.nodes.length = c.nodes.length ∧
      st.m_graph.edges.length = c.edges.length ∧
      (∀ (v : Nat) (node : PathNode), st.m_graph.nodes[v]? = some node →
        node.state = PathNodeState.NotFound ∨ node.state = PathNodeState.Visited) ∧
      (∀ (ei : Nat) (e : PathEdge), st.m_graph.edges[ei]? = some e →
        e.state = PathEdgeState.Default ∨ e.state = PathEdgeState.Used) := by
  obtain ⟨g, cnt, st, hnew, hfresh, hcnt, hrun, hsk, hres⟩ :=
    BFSGraphAlgorithm.run_spec c gb fuel hc (fun d hd => absurd hd.reachable hunreach)
  have hends : st.m_graph.ends = c.edges := (PathGraph.skel_ends hsk).trans hfresh.ends_eq
  have hstart : st.m_graph.start_node = c.start_node :=
    (PathGraph.skel_start hsk).trans hfresh.start_eq
  have hend : st.m_graph.end_node = c.end_node := (PathGraph.skel_end hsk).trans hfresh.end_eq
  rcases hres with ⟨P, V, d, hfound⟩ | ⟨k, hinv⟩
  · exfalso
    apply hunreach
    have := hfound.dist.reachable
    rw [hends, hstart, hend] at this
    exact this
  · have hpeek : PeekInv st :=
      PeekInv.peek_run cnt _ st cnt (hrun cnt (Nat.le_refl _)) (PeekInv.peek_init hfresh) hinv.not_found
    have hq : st.m_unvisited_node_queue = [] := hinv.queue_eq
    have hnofound : ∀ (v : Nat) (node : PathNode), st.m_graph.nodes[v]? = some node →
        node.state ≠ PathNodeState.Found := by
      intro v node hv hs
      have := (hpeek.pending.found v node hv hs).1
      rw [hq] at this
      cases this
    refine ⟨g, cnt, st, hnew, hcnt, hrun, (PathGraph.skel_nodes_length hsk).trans hfresh.len,
      (PathGraph.skel_edges_length hsk).trans hfresh.edges_len, ?_, ?_⟩
    · intro v node hv
      have h1 := hnofound v node hv
      have h2 := hinv.no_osp_node v node hv
      cases hs : node.state with
      | NotFound => exact Or.inl rfl
      | Visited => exact Or.inr rfl
      | Found => exact absurd hs h1
      | OnShortestPath => exact absurd hs h2
    · intro ei e he
      have h2 := hinv.no_osp_edge ei e he
      cases hs : e.state with
      | Default => exact Or.inl rfl
      | Used => exact Or.inr rfl
      | Peeked =>
        obtain ⟨node, hnode, hfs, _⟩ := hpeek.pending.peeked ei e he hs
        exact absurd hfs (hnofound _ node hnode)
      | OnShortestPath => exact absurd hs h2

theorem bfs_unreachable_end_leaves_no_marks_witness :
    isolatedEndPathConfig.WellFormed ∧
    ¬ Reachable isolatedEndPathConfig.edges isolatedEndPathConfig.start_node
      isolatedEndPathConfig.end_node ∧
    ∃ (g : PathGraph) (cnt : Nat) (st : BFSGraphAlgorithm),
      PathGraph.new isolatedEndPathConfig (fun _ => 0) = .ok g ∧
      cnt ≤ isolatedEndPathConfig.nodes.length + 3 ∧
      (∀ budget, cnt ≤ budget →
        BFSGraphAlgorithm.runUntilFalse 0 budget (BFSGraphAlgorithm.new g) = .ok (cnt, st)) ∧
      st.m_graph.nodes.length = isolatedEndPathConfig.nodes.length ∧
      st.m_graph.edges.length = isolatedEndPathConfig.edges.length ∧
      (∀ (v : Nat) (node : PathNode), st.m_graph.nodes[v]? = some node →
        node.state = PathNodeState.NotFound ∨ node.state = PathNodeState.Visited) ∧
      (∀ (ei : Nat) (e : PathEdge), st.m_graph.edges[ei]? = some e →
        e.state = PathEdgeState.Default ∨ e.state = PathEdgeState.Used) :=
  ⟨by decide, isolatedEnd_unreachable,
    bfs_unreachable_end_leaves_no_marks isolatedEndPathConfig (fun _ => 0) 0 (by decide)
      isolatedEnd_unreachable⟩

/-! ## `GraphAlgorithmVisualizer::visualize` -/

/-- C20 (the loaders do not check the start and end indices): both loaders accept a file
with two nodes, start index `5` and end index `7`, whatever the uninitialised fields held;
the returned `start_node` and `end_node` are not below the number of nodes, and the second
`nextStep` call of either algorithm on the graph built from it indexes out of bounds. -/
theorem loader_accepts_stray_start_end :
    (∀ (uninit : PathGraphConfig) (gb : Nat → Nat), ∃ (c : PathGraphConfig) (g : PathGraph),
      loadPathGraphConfig uninit strayStartPathFile = .ok c ∧
      c.nodes.length = 2 ∧ c.edges = [(0, 1)] ∧ c.start_node = 5 ∧ c.end_node = 7 ∧
      ¬ c.start_node < c.nodes.length ∧ ¬ c.end_node < c.nodes.length ∧
      PathGraph.new c gb = .ok g ∧
      BFSGraphAlgorithm.steps 0 2 (BFSGraphAlgorithm.new g) = .error Fault.outOfBounds) ∧
    (∀ uninit : FlowGraphConfig, ∃ (c : FlowGraphConfig) (g : FlowGraph),
      loadFlowGraphConfig uninit strayStartFlowFile = .ok c ∧
      c.nodes.length = 2 ∧ c.edges = [((0, 1), 3)] ∧ c.start_node = 5 ∧ c.end_node = 7 ∧
      ¬ c.start_node < c.nodes.length ∧ ¬ c.end_node < c.nodes.length ∧
      FlowGraph.new c = .ok g ∧
      FordFulkersonGraphAlgorithm.steps 3 2 (FordFulkersonGraphAlgorithm.new g) =
        .error Fault.outOfBounds) :=
  ⟨fun _ _ => ⟨_, _, rfl, rfl, rfl, rfl, rfl, (by decide : ¬ (5 : Nat) < 2),
      (by decide : ¬ (7 : Nat) < 2), rfl, rfl⟩,
    fun _ => ⟨_, _, rfl, rfl, rfl, rfl, rfl, (by decide : ¬ (5 : Nat) < 2),
      (by decide : ¬ (7 : Nat) < 2), rfl, rfl⟩⟩

/-! ## The loaders check the endpoints of every edge -/

theorem PathGraphConfig.parseGridData_keeps {line : List Char} {c c1 : PathGraphConfig}
    {row : Nat} (h : PathGraphConfig.parseGridData line c row = .ok c1) :
    c1.nodes = c.nodes ∧ c1.edges = c.edges := by
  unfold PathGraphConfig.parseGridData at h
  split at h
  · split at h
    · cases h
    · cases h; exact ⟨rfl, rfl⟩
  · split at h
    · cases h
    · cases h; exact ⟨rfl, rfl⟩
  · split at h
    · cases h
    · cases h; exact ⟨rfl, rfl⟩
  · cases h

theorem PathGraphConfig.parseVisualization_keeps {line : List Char} {c c1 : PathGraphConfig}
    {row : Nat} (h : PathGraphConfig.parseVisualization line c row = .ok c1) :
    c1.nodes = c.nodes ∧ c1.edges = c.edges := by
  unfold PathGraphConfig.parseVisualization at h
  split at h
  · split at h
    · cases h
    · cases h; exact ⟨rfl, rfl⟩
  · split at h
    · cases h
    · cases h; exact ⟨rfl, rfl⟩
  · split at h
    · cases h
    · cases h; exact ⟨rfl, rfl⟩
  · split at h
    · cases h
    · cases h; exact ⟨rfl, rfl⟩
  · split at h
    · cases h
    · cases h; exact ⟨rfl, rfl⟩
  · cases h

theorem PathGraphConfig.parseNodes_keeps {line : List Char} {c c1 : PathGraphConfig}
    (h : PathGraphConfig.parseNodes line c = .ok c1) :
    c1.edges = c.edges ∧ c.nodes.length ≤ c1.nodes.length := by
  unfold PathGraphConfig.parseNodes at h
  split at h
  · cases h
  · split at h
    · cases h
    · cases h
      exact ⟨rfl, by simp⟩

/-- What `parseEdges` does to a path configuration: the error for an index out of range, or
one edge with both endpoints in range appended. -/
theorem PathGraphConfig.parseEdges_checked {line l1 l2 : List Char} {from_node to_node : Nat}
    (c : PathGraphConfig) (h1 : extractSize line = some (from_node, l1))
    (h2 : extractSize l1 = some (to_node, l2)) :
    (c.nodes.length ≤ from_node ∨ c.nodes.length ≤ to_node →
      PathGraphConfig.parseEdges line c =
        .error (LoadError.runtimeError ("Invalid node index in edge data: ".toList ++ line))) ∧
    (from_node < c.nodes.length ∧ to_node < c.nodes.length →
      PathGraphConfig.parseEdges line c =
        .ok { c with edges := c.edges ++ [(from_node, to_node)] }) := by
  unfold PathGraphConfig.parseEdges
  simp only [h1, h2]
  constructor
  · intro h
    rw [if_pos]
    simpa using h
  · intro h
    rw [if_neg]
    simp
    omega

theorem PathGraphConfig.parseEdges_valid {line : List Char} {c c1 : PathGraphConfig}
    (h : PathGraphConfig.parseEdges line c = .ok c1)
    (hv : ∀ e ∈ c.edges, e.1 < c.nodes.length ∧ e.2 < c.nodes.length) :
    c1.nodes = c.nodes ∧ ∀ e ∈ c1.edges, e.1 < c.nodes.length ∧ e.2 < c.nodes.length := by
  unfold PathGraphConfig.parseEdges at h
  split at h
  · cases h
  · split at h
    · cases h
    · split at h
      · cases h
      · rename_i hok
        cases h
        refine ⟨rfl, ?_⟩
        intro e he
        simp only [List.mem_append, List.mem_singleton] at he
        rcases he with he | he
        · exact hv e he
        · subst he
          simp at hok
          exact hok

theorem PathGraphConfig.loadLine_valid {st st1 : LoaderState PathGraphConfig}
    {raw : List Char} (h : PathGraphConfig.loadLine st raw = .ok st1)
    (hv : ∀ e ∈ st.config.edges,
      e.1 < st.config.nodes.length ∧ e.2 < st.config.nodes.length) :
    ∀ e ∈ st1.config.edges, e.1 < st1.config.nodes.length ∧ e.2 < st1.config.nodes.length := by
  have hkeep : ∀ c1 : PathGraphConfig, c1.nodes = st.config.nodes →
      c1.edges = st.config.edges →
      ∀ e ∈ c1.edges, e.1 < c1.nodes.length ∧ e.2 < c1.nodes.length := by
    intro c1 hn he
    rw [hn, he]
    exact hv
  unfold PathGraphConfig.loadLine at h
  dsimp only at h
  split at h
  · cases h; exact hv
  · split at h
    · cases h; exact hv
    · split at h
      · cases h; exact hv
      · split at h
        · split at h
          · cases h
          · rename_i c1 hc
            cases h
            obtain ⟨hn, he⟩ := PathGraphConfig.parseGridData_keeps hc
            exact hkeep c1 hn he
        · split at h
          · split at h
            · cases h
            · rename_i c1 hc
              cases h
              obtain ⟨he, hn⟩ := PathGraphConfig.parseNodes_keeps hc
              intro e hmem
              have hmem1 : e ∈ c1.edges := hmem
              rw [he] at hmem1
              obtain ⟨h1, h2⟩ := hv e hmem1
              have hn1 : st.config.nodes.length ≤ c1.nodes.length := hn
              exact ⟨Nat.lt_of_lt_of_le h1 hn1, Nat.lt_of_lt_of_le h2 hn1⟩
          · split at h
            · split at h
              · cases h
              · rename_i c1 hc
                cases h
                obtain ⟨hn, he⟩ := PathGraphConfig.parseEdges_valid hc hv
                intro e hmem
                have hn1 : c1.nodes = st.config.nodes := hn
                show e.1 < c1.nodes.length ∧ e.2 < c1.nodes.length
                rw [hn1]
                exact he e hmem
            · split at h
              · split at h
                · cases h
                · rename_i c1 hc
                  cases h
                  obtain ⟨hn, he⟩ := PathGraphConfig.parseVisualization_keeps hc
                  exact hkeep c1 hn he
              · split at h
                · split at h
                  · cases h
                  · cases h; exact hv
                · split at h
                  · split at h
                    · cases h
                    · cases h; exact hv
                  · cases h

theorem PathGraphConfig.loadLines_valid :
    ∀ (lines : List (List Char)) (st st1 : LoaderState PathGraphConfig),
      PathGraphConfig.loadLines lines st = .ok st1 →
      (∀ e ∈ st.config.edges,
        e.1 < st.config.nodes.length ∧ e.2 < st.config.nodes.length) →
      ∀ e ∈ st1.config.edges,
        e.1 < st1.config.nodes.length ∧ e.2 < st1.config.nodes.length := by
  intro lines
  induction lines with
  | nil =>
    intro st st1 h hv
    simp only [PathGraphConfig.loadLines, Except.ok.injEq] at h
    rw [← h]
    exact hv
  | cons raw rest ih =>
    intro st st1 h hv
    unfold PathGraphConfig.loadLines at h
    cases hl : PathGraphConfig.loadLine st raw with
    | error e => simp [hl] at h
    | ok st2 =>
      simp only [hl] at h
      exact ih st2 st1 h (PathGraphConfig.loadLine_valid hl hv)

theorem loadPathGraphConfig_valid {uninit c : PathGraphConfig} {input : List Char}
    (h : loadPathGraphConfig uninit input = .ok c) :
    ∀ e ∈ c.edges, e.1 < c.nodes.length ∧ e.2 < c.nodes.length := by
  unfold loadPathGraphConfig at h
  split at h
  · cases h
  · rename_i st hst
    cases h
    exact PathGraphConfig.loadLines_valid _ _ _ hst (fun e he => by cases he)

theorem FlowGraphConfig.flow_parseGridData_keeps {line : List Char} {c c1 : FlowGraphConfig}
    {row : Nat} (h : FlowGraphConfig.parseGridData line c row = .ok c1) :
    c1.nodes = c.nodes ∧ c1.edges = c.edges := by
  unfold FlowGraphConfig.parseGridData at h
  split at h
  · split at h
    · cases h
    · cases h; exact ⟨rfl, rfl⟩
  · split at h
    · cases h
    · cases h; exact ⟨rfl, rfl⟩
  · split at h
    · cases h
    · cases h; exact ⟨rfl, rfl⟩
  · cases h

theorem FlowGraphConfig.flow_parseVisualization_keeps {line : List Char} {c c1 : FlowGraphConfig}
    {row : Nat} (h : FlowGraphConfig.parseVisualization line c row = .ok c1) :
    c1.nodes = c.nodes ∧ c1.edges = c.edges := by
  unfold FlowGraphConfig.parseVisualization at h
  split at h
  · split at h
    · cases h
    · cases h; exact ⟨rfl, rfl⟩
  · split at h
    · cases h
    · cases h; exact ⟨rfl, rfl⟩
  · split at h
    · cases h
    · cases h; exact ⟨rfl, rfl⟩
  · split at h
    · cases h
    · cases h; exact ⟨rfl, rfl⟩
  · split at h
    · cases h
    · cases h; exact ⟨rfl, rfl⟩
  · cases h

theorem FlowGraphConfig.flow_parseNodes_keeps {line : List Char} {c c1 : FlowGraphConfig}
    (h : FlowGraphConfig.parseNodes line c = .ok c1) :
    c1.edges = c.edges ∧ c.nodes.length ≤ c1.nodes.length := by
  unfold FlowGraphConfig.parseNodes at h
  split at h
  · cases h
  · split at h
    · cases h
    · cases h
      exact ⟨rfl, by simp⟩

/-- What `parseEdges` does to a flow configuration: the error for an index out of range, or
one edge with both endpoints in range appended. -/
theorem FlowGraphConfig.flow_parseEdges_checked {line l1 l2 l3 : List Char}
    {from_node to_node capacity : Nat} (c : FlowGraphConfig) (max_capacity : Nat)
    (h1 : extractSize line = some (from_node, l1)) (h2 : extractSize l1 = some (to_node, l2))
    (h3 : extractSize l2 = some (capacity, l3)) :
    (c.nodes.length ≤ from_node ∨ c.nodes.length ≤ to_node →
      FlowGraphConfig.parseEdges line c max_capacity =
        .error (LoadError.runtimeError ("Invalid node index in edge data: ".toList ++ line))) ∧
    (from_node < c.nodes.length ∧ to_node < c.nodes.length →
      FlowGraphConfig.parseEdges line c max_capacity =
        .ok (max max_capacity capacity,
          { c with edges := c.edges ++ [((from_node, to_node), capacity)] })) := by
  unfold FlowGraphConfig.parseEdges
  simp only [h1, h2, h3]
  constructor
  · intro h
    rw [if_pos]
    simpa using h
  · intro h
    rw [if_neg]
    simp
    omega

theorem FlowGraphConfig.flow_parseEdges_valid {line : List Char} {c c1 : FlowGraphConfig}
    {m m1 : Nat} (h : FlowGraphConfig.parseEdges line c m = .ok (m1, c1))
    (hv : ∀ e ∈ c.edges, e.1.1 < c.nodes.length ∧ e.1.2 < c.nodes.length) :
    c1.nodes = c.nodes ∧ ∀ e ∈ c1.edges, e.1.1 < c.nodes.length ∧ e.1.2 < c.nodes.length := by
  unfold FlowGraphConfig.parseEdges at h
  split at h
  · cases h
  · split at h
    · cases h
    · split at h
      · cases h
      · split at h
        · cases h
        · rename_i hok
          cases h
          refine ⟨rfl, ?_⟩
          intro e he
          simp only [List.mem_append, List.mem_singleton] at he
          rcases he with he | he
          · exact hv e he
          · subst he
            simp at hok
            exact hok

theorem FlowGraphConfig.flow_loadLine_valid {st st1 : LoaderState FlowGraphConfig} {m m1 : Nat}
    {raw : List Char} (h : FlowGraphConfig.loadLine st m raw = .ok (st1, m1))
    (hv : ∀ e ∈ st.config.edges,
      e.1.1 < st.config.nodes.length ∧ e.1.2 < st.config.nodes.length) :
    ∀ e ∈ st1.config.edges,
      e.1.1 < st1.config.nodes.length ∧ e.1.2 < st1.config.nodes.length := by
  have hkeep : ∀ c1 : FlowGraphConfig, c1.nodes = st.config.nodes →
      c1.edges = st.config.edges →
      ∀ e ∈ c1.edges, e.1.1 < c1.nodes.length ∧ e.1.2 < c1.nodes.length := by
    intro c1 hn he
    rw [hn, he]
    exact hv
  unfold FlowGraphConfig.loadLine at h
  dsimp only at h
  split at h
  · cases h; exact hv
  · split at h
    · cases h; exact hv
    · split at h
      · cases h; exact hv
      · split at h
        · split at h
          · cases h
          · rename_i c1 hc
            cases h
            obtain ⟨hn, he⟩ := FlowGraphConfig.flow_parseGridData_keeps hc
            exact hkeep c1 hn he
        · split at h
          · split at h
            · cases h
            · rename_i c1 hc
              cases h
              obtain ⟨he, hn⟩ := FlowGraphConfig.flow_parseNodes_keeps hc
              intro e hmem
              have hmem1 : e ∈ c1.edges := hmem
              rw [he] at hmem1
              obtain ⟨h1, h2⟩ := hv e hmem1
              have hn1 : st.config.nodes.length ≤ c1.nodes.length := hn
              exact ⟨Nat.lt_of_lt_of_le h1 hn1, Nat.lt_of_lt_of_le h2 hn1⟩
          · split at h
            · split at h
              · cases h
              · rename_i m2 c1 hc
                cases h
                obtain ⟨hn, he⟩ := FlowGraphConfig.flow_parseEdges_valid hc hv
                intro e hmem
                have hn1 : c1.nodes = st.config.nodes := hn
                show e.1.1 < c1.nodes.length ∧ e.1.2 < c1.nodes.length
                rw [hn1]
                exact he e hmem
            · split at h
              · split at h
                · cases h
                · rename_i c1 hc
                  cases h
                  obtain ⟨hn, he⟩ := FlowGraphConfig.flow_parseVisualization_keeps hc
                  exact hkeep c1 hn he
              · split at h
                · split at h
                  · cases h
                  · cases h; exact hv
                · split at h
                  · split at h
                    · cases h
                    · cases h; exact hv
                  · cases h

theorem FlowGraphConfig.flow_loadLines_valid :
    ∀ (lines : List (List Char)) (st st1 : LoaderState FlowGraphConfig) (m m1 : Nat),
      FlowGraphConfig.loadLines lines st m = .ok (st1, m1) →
      (∀ e ∈ st.config.edges,
        e.1.1 < st.config.nodes.length ∧ e.1.2 < st.config.nodes.length) →
      ∀ e ∈ st1.config.edges,
        e.1.1 < st1.config.nodes.length ∧ e.1.2 < st1.config.nodes.length := by
  intro lines
  induction lines with
  | nil =>
    intro st st1 m m1 h hv
    simp only [FlowGraphConfig.loadLines, Except.ok.injEq, Prod.mk.injEq] at h
    rw [← h.1]
    exact hv
  | cons raw rest ih =>
    intro st st1 m m1 h hv
    unfold FlowGraphConfig.loadLines at h
    cases hl : FlowGraphConfig.loadLine st m raw with
    | error e => simp [hl] at h
    | ok r =>
      obtain ⟨st2, m2⟩ := r
      simp only [hl] at h
      exact ih st2 st1 m2 m1 h (FlowGraphConfig.flow_loadLine_valid hl hv)

theorem loadFlowGraphConfig_valid {uninit c : FlowGraphConfig} {input : List Char}
    (h : loadFlowGraphConfig uninit input = .ok c) :
    ∀ e ∈ c.edges, e.1.1 < c.nodes.length ∧ e.1.2 < c.nodes.length := by
  unfold loadFlowGraphConfig at h
  split at h
  · cases h
  · rename_i st m hst
    cases h
    exact FlowGraphConfig.flow_loadLines_valid _ _ _ _ _ hst (fun e he => by cases he)

/-- C21: for every input accepted by `loadPathGraphConfig` or `loadFlowGraphConfig`, every
edge of the returned configuration has `from` and `to` below the number of nodes of the
returned configuration; and `parseEdges`, on a line that holds the numbers of an edge of
which one is greater than or equal to the number of nodes parsed so far, throws the runtime
error `Invalid node index in edge data: <line>` instead of adding an edge (the exception
ends the load). -/
theorem loader_edges_in_range (pu pc : PathGraphConfig) (fu fc : FlowGraphConfig)
    (pinput finput : List Char) (hp : loadPathGraphConfig pu pinput = .ok pc)
    (hf : loadFlowGraphConfig fu finput = .ok fc) :
    (∀ e ∈ pc.edges, e.1 < pc.nodes.length ∧ e.2 < pc.nodes.length) ∧
    (∀ e ∈ fc.edges, e.1.1 < fc.nodes.length ∧ e.1.2 < fc.nodes.length) ∧
    (∀ (line l1 l2 : List Char) (from_node to_node : Nat) (c : PathGraphConfig),
      extractSize line = some (from_node, l1) → extractSize l1 = some (to_node, l2) →
      (c.nodes.length ≤ from_node ∨ c.nodes.length ≤ to_node) →
      PathGraphConfig.parseEdges line c =
        .error (LoadError.runtimeError ("Invalid node index in edge data: ".toList ++ line))) ∧
    (∀ (line l1 l2 l3 : List Char) (from_node to_node capacity : Nat) (c : FlowGraphConfig)
      (max_capacity : Nat),
      extractSize line = some (from_node, l1) → extractSize l1 = some (to_node, l2) →
      extractSize l2 = some (capacity, l3) →
      (c.nodes.length ≤ from_node ∨ c.nodes.length ≤ to_node) →
      FlowGraphConfig.parseEdges line c max_capacity =
        .error (LoadError.runtimeError ("Invalid node index in edge data: ".toList ++ line))) ∧
    (∀ (st : LoaderState PathGraphConfig) (raw : List Char) (rest : List (List Char))
      (err : LoadError), PathGraphConfig.loadLine st raw = .error err →
      PathGraphConfig.loadLines (raw :: rest) st = .error err) ∧
    (∀ (st : LoaderState FlowGraphConfig) (m : Nat) (raw : List Char)
      (rest : List (List Char)) (err : LoadError),
      FlowGraphConfig.loadLine st m raw = .error err →
      FlowGraphConfig.loadLines (raw :: rest) st m = .error err) := by
  refine ⟨loadPathGraphConfig_valid hp, loadFlowGraphConfig_valid hf, ?_, ?_, ?_, ?_⟩
  · intro line l1 l2 from_node to_node c h1 h2 hbad
    exact (PathGraphConfig.parseEdges_checked c h1 h2).1 hbad
  · intro line l1 l2 l3 from_node to_node capacity c m h1 h2 h3 hbad
    exact (FlowGraphConfig.flow_parseEdges_checked c m h1 h2 h3).1 hbad
  · intro st raw rest err h
    simp only [PathGraphConfig.loadLines, h]
  · intro st m raw rest err h
    simp only [FlowGraphConfig.loadLines, h]

theorem loader_edges_in_range_witness :
    ∃ (pc : PathGraphConfig) (fc : FlowGraphConfig),
      loadPathGraphConfig diamondPathConfig strayStartPathFile = .ok pc ∧
      loadFlowGraphConfig diamondFlowConfig strayStartFlowFile = .ok fc ∧
      pc.edges = [(0, 1)] ∧ fc.edges = [((0, 1), 3)] ∧
      loadPathGraphConfig diamondPathConfig strayEdgePathFile =
        .error (LoadError.runtimeError "Invalid node index in edge data: 1 2".toList) ∧
      loadFlowGraphConfig diamondFlowConfig strayEdgeFlowFile =
        .error (LoadError.runtimeError "Invalid node index in edge data: 1 2 4".toList) ∧
      ((∀ e ∈ pc.edges, e.1 < pc.nodes.length ∧ e.2 < pc.nodes.length) ∧
      (∀ e ∈ fc.edges, e.1.1 < fc.nodes.length ∧ e.1.2 < fc.nodes.length) ∧
      (∀ (line l1 l2 : List Char) (from_node to_node : Nat) (c : PathGraphConfig),
        extractSize line = some (from_node, l1) → extractSize l1 = some (to_node, l2) →
        (c.nodes.length ≤ from_node ∨ c.nodes.length ≤ to_node) →
        PathGraphConfig.parseEdges line c =
          .error (LoadError.runtimeError
            ("Invalid node index in edge data: ".toList ++ line))) ∧
      (∀ (line l1 l2 l3 : List Char) (from_node to_node capacity : Nat) (c : FlowGraphConfig)
        (max_capacity : Nat),
        extractSize line = some (from_node, l1) → extractSize l1 = some (to_node, l2) →
        extractSize l2 = some (capacity, l3) →
        (c.nodes.length ≤ from_node ∨ c.nodes.length ≤ to_node) →
        FlowGraphConfig.parseEdges line c max_capacity =
          .error (LoadError.runtimeError
            ("Invalid node index in edge data: ".toList ++ line))) ∧
      (∀ (st : LoaderState PathGraphConfig) (raw : List Char) (rest : List (List Char))
        (err : LoadError), PathGraphConfig.loadLine st raw = .error err →
        PathGraphConfig.loadLines (raw :: rest) st = .error err) ∧
      (∀ (st : LoaderState FlowGraphConfig) (m : Nat) (raw : List Char)
        (rest : List (List Char)) (err : LoadError),
        FlowGraphConfig.loadLine st m raw = .error err →
        FlowGraphConfig.loadLines (raw :: rest) st m = .error err)) :=
  ⟨_, _, rfl, rfl, rfl, rfl, rfl, rfl,
    loader_edges_in_range diamondPathConfig _ diamondFlowConfig _ strayStartPathFile
      strayStartFlowFile rfl rfl⟩

/-! ## `cleanGraph` step and `findEdge` -/

theorem cleanGraph_nodes_get (g : FlowGraph) (v : Nat) :
    (cleanGraph g).nodes[v]? =
      (g.nodes[v]?).map (fun node => { node with state := FlowNodeState.Default }) := by
  unfold cleanGraph
  simp only [List.getElem?_map]

/-- C24: in every state of `FordFulkersonGraphAlgorithm` whose phase is `CleanGraph` (no
well-formedness needed), `nextStep` returns `true`, sets every node's state to `Default`, sets
every edge's state to `Saturated` if its `current_flow` equals its capacity and to `Default`
otherwise, changes nothing else of the nodes and edges (so no `current_flow` and no
capacity), leaves `m_max_flow` unchanged and makes `PathFind` the next phase. -/
theorem ff_clean_step (fuel : Nat) (s : FordFulkersonGraphAlgorithm)
    (hp : s.m_next_step_state = NextStepState.CleanGraph) :
    ∃ s1 : FordFulkersonGraphAlgorithm,
      FordFulkersonGraphAlgorithm.nextStep fuel s = .ok (true, s1) ∧
      s1.m_next_step_state = NextStepState.PathFind ∧ s1.m_max_flow = s.m_max_flow ∧
      s1.m_graph.nodes.length = s.m_graph.nodes.length ∧
      s1.m_graph.edges.length = s.m_graph.edges.length ∧
      (∀ (v : Nat) (node : FlowNode), s.m_graph.nodes[v]? = some node →
        s1.m_graph.nodes[v]? = some { node with state := FlowNodeState.Default }) ∧
      (∀ (j : Nat) (e : FlowEdge), s.m_graph.edges[j]? = some e →
        s1.m_graph.edges[j]? =
          some { e with state := if e.current_flow = e.capacity then FlowEdgeState.Saturated
                                 else FlowEdgeState.Default }) := by
  refine ⟨_, FordFulkersonGraphAlgorithm.nextStep_clean fuel hp, rfl, rfl, ?_, ?_, ?_, ?_⟩
  · simp [cleanGraph]
  · simp [cleanGraph]
  · intro v node hv
    show (cleanGraph s.m_graph).nodes[v]? = _
    rw [cleanGraph_nodes_get, hv]
    rfl
  · intro j e he
    show (cleanGraph s.m_graph).edges[j]? = _
    rw [cleanGraph_edges, he]
    rfl

theorem ff_clean_step_witness :
    ∃ (g : FlowGraph) (s : FordFulkersonGraphAlgorithm),
      FlowGraph.new diamondFlowConfig = .ok g ∧
      FordFulkersonGraphAlgorithm.steps 5 3 (FordFulkersonGraphAlgorithm.new g) = .ok s ∧
      s.m_next_step_state = NextStepState.CleanGraph ∧
      ∃ s1 : FordFulkersonGraphAlgorithm,
        FordFulkersonGraphAlgorithm.nextStep 5 s = .ok (true, s1) ∧
        s1.m_next_step_state = NextStepState.PathFind ∧ s1.m_max_flow = s.m_max_flow ∧
        s1.m_graph.nodes.length = s.m_graph.nodes.length ∧
        s1.m_graph.edges.length = s.m_graph.edges.length ∧
        (∀ (v : Nat) (node : FlowNode), s.m_graph.nodes[v]? = some node →
          s1.m_graph.nodes[v]? = some { node with state := FlowNodeState.Default }) ∧
        (∀ (j : Nat) (e : FlowEdge), s.m_graph.edges[j]? = some e →
          s1.m_graph.edges[j]? =
            some { e with state := if e.current_flow = e.capacity then FlowEdgeState.Saturated
                                   else FlowEdgeState.Default }) :=
  ⟨_, _, rfl, rfl, rfl, ff_clean_step 5 _ rfl⟩

theorem FordFulkersonGraphAlgorithm.findEdgeIn_first {g : FlowGraph} {to_node : Nat} :
    ∀ (adj : List Nat), (∀ ej ∈ adj, ∃ e : FlowEdge, g.edges[ej]? = some e) →
      (∀ ei : Nat, FordFulkersonGraphAlgorithm.findEdgeIn g to_node adj = .ok ei ↔
        ∃ (pre post : List Nat) (e : FlowEdge), adj = pre ++ ei :: post ∧
          g.edges[ei]? = some e ∧ e.to_node_index = to_node ∧
          ∀ ej ∈ pre, ∀ e1 : FlowEdge, g.edges[ej]? = some e1 → e1.to_node_index ≠ to_node) ∧
      (FordFulkersonGraphAlgorithm.findEdgeIn g to_node adj = .error Fault.edgeNotFound ↔
        ∀ ej ∈ adj, ∀ e1 : FlowEdge, g.edges[ej]? = some e1 → e1.to_node_index ≠ to_node) := by
  intro adj
  induction adj with
  | nil =>
    intro _
    refine ⟨fun ei => ⟨fun h => ?_, fun h => ?_⟩, ?_⟩
    · simp [FordFulkersonGraphAlgorithm.findEdgeIn] at h
    · obtain ⟨pre, post, _, h, _⟩ := h
      simp at h
    · simp [FordFulkersonGraphAlgorithm.findEdgeIn]
  | cons ek rest ih =>
    intro hvalid
    obtain ⟨e0, he0⟩ := hvalid ek (List.mem_cons_self _ _)
    obtain ⟨ih1, ih2⟩ := ih (fun x hx => hvalid x (List.mem_cons_of_mem _ hx))
    by_cases hto : e0.to_node_index = to_node
    · have hres : FordFulkersonGraphAlgorithm.findEdgeIn g to_node (ek :: rest) = .ok ek := by
        simp [FordFulkersonGraphAlgorithm.findEdgeIn, he0, hto]
      refine ⟨fun ei => ⟨fun h => ?_, fun h => ?_⟩, ?_⟩
      · rw [hres] at h
        cases h
        exact ⟨[], rest, e0, rfl, he0, hto, fun _ hx => by cases hx⟩
      · obtain ⟨pre, post, e, hadj, _, _, hpre⟩ := h
        cases pre with
        | nil =>
          simp only [List.nil_append, List.cons.injEq] at hadj
          rw [hres, hadj.1]
        | cons p pre1 =>
          simp only [List.cons_append, List.cons.injEq] at hadj
          exfalso
          exact hpre ek (by rw [hadj.1]; exact List.mem_cons_self _ _) e0 he0 hto
      · rw [hres]
        constructor
        · intro h; cases h
        · intro h
          exact absurd hto (h ek (List.mem_cons_self _ _) e0 he0)
    · have hres : FordFulkersonGraphAlgorithm.findEdgeIn g to_node (ek :: rest) =
          FordFulkersonGraphAlgorithm.findEdgeIn g to_node rest := by
        simp [FordFulkersonGraphAlgorithm.findEdgeIn, he0, hto]
      refine ⟨fun ei => ⟨fun h => ?_, fun h => ?_⟩, ?_⟩
      · rw [hres] at h
        obtain ⟨pre, post, e, hadj, he, het, hpre⟩ := (ih1 ei).1 h
        refine ⟨ek :: pre, post, e, by rw [hadj]; rfl, he, het, ?_⟩
        intro ej hej e1 he1
        rcases List.mem_cons.1 hej with h1 | h1
        · subst h1
          rw [he0] at he1
          cases he1
          exact hto
        · exact hpre ej h1 e1 he1
      · rw [hres]
        obtain ⟨pre, post, e, hadj, he, het, hpre⟩ := h
        cases pre with
        | nil =>
          simp only [List.nil_append, List.cons.injEq] at hadj
          exfalso
          rw [← hadj.1, he0] at he
          cases he
          exact hto het
        | cons p pre1 =>
          simp only [List.cons_append, List.cons.injEq] at hadj
          exact (ih1 ei).2 ⟨pre1, post, e, hadj.2, he, het,
            fun ej hej => hpre ej (List.mem_cons_of_mem _ hej)⟩
      · rw [hres, ih2]
        constructor
        · intro h ej hej e1 he1
          rcases List.mem_cons.1 hej with h1 | h1
          · subst h1
            rw [he0] at he1
            cases he1
            exact hto
          · exact h ej h1 e1 he1
        · intro h ej hej
          exact h ej (List.mem_cons_of_mem _ hej)

/-- C28: `findEdge(from_node, to_node)`, on a graph in which `from_node` is a node whose
adjacency list holds valid edge indices, returns the edge at the earliest position of
`nodes[from_node].edges` whose `to_node_index` equals `to_node` (everything listed before it
has another target), and throws `Edge not found between given nodes.` if and only if no edge
of that adjacency list has that target. It is a function of the graph alone and writes
nothing. -/
theorem ff_find_edge_first (g : FlowGraph) (from_node to_node : Nat) (node : FlowNode)
    (hn : g.nodes[from_node]? = some node)
    (hvalid : ∀ ej ∈ node.edges, ∃ e : FlowEdge, g.edges[ej]? = some e) :
    (∀ ei : Nat, FordFulkersonGraphAlgorithm.findEdge g from_node to_node = .ok ei ↔
      ∃ (pre post : List Nat) (e : FlowEdge), node.edges = pre ++ ei :: post ∧
        g.edges[ei]? = some e ∧ e.to_node_index = to_node ∧
        ∀ ej ∈ pre, ∀ e1 : FlowEdge, g.edges[ej]? = some e1 → e1.to_node_index ≠ to_node) ∧
    (FordFulkersonGraphAlgorithm.findEdge g from_node to_node = .error Fault.edgeNotFound ↔
      ∀ ej ∈ node.edges, ∀ e1 : FlowEdge, g.edges[ej]? = some e1 →
        e1.to_node_index ≠ to_node) := by
  have hfe : FordFulkersonGraphAlgorithm.findEdge g from_node to_node =
      FordFulkersonGraphAlgorithm.findEdgeIn g to_node node.edges := by
    unfold FordFulkersonGraphAlgorithm.findEdge
    rw [hn]
  rw [hfe]
  exact FordFulkersonGraphAlgorithm.findEdgeIn_first node.edges hvalid

theorem ff_find_edge_first_witness :
    ∃ (g : FlowGraph) (node : FlowNode), FlowGraph.new parallelFlowConfig = .ok g ∧
      g.nodes[0]? = some node ∧ node.edges = [0, 1] ∧
      FordFulkersonGraphAlgorithm.findEdge g 0 1 = .ok 0 ∧
      FordFulkersonGraphAlgorithm.findEdge g 1 0 = .error Fault.edgeNotFound ∧
      ((∀ ei : Nat, FordFulkersonGraphAlgorithm.findEdge g 0 1 = .ok ei ↔
        ∃ (pre post : List Nat) (e : FlowEdge), node.edges = pre ++ ei :: post ∧
          g.edges[ei]? = some e ∧ e.to_node_index = 1 ∧
          ∀ ej ∈ pre, ∀ e1 : FlowEdge, g.edges[ej]? = some e1 → e1.to_node_index ≠ 1) ∧
      (FordFulkersonGraphAlgorithm.findEdge g 0 1 = .error Fault.edgeNotFound ↔
        ∀ ej ∈ node.edges, ∀ e1 : FlowEdge, g.edges[ej]? = some e1 →
          e1.to_node_index ≠ 1)) :=
  ⟨_, _, rfl, rfl, rfl, rfl, rfl,
    ff_find_edge_first _ 0 1 _ rfl (by
      intro ej hej
      have h1 : ej ∈ ([0, 1] : List Nat) := hej
      have h2 : ej = 0 ∨ ej = 1 := by simpa using h1
      rcases h2 with h | h
      · subst h; exact ⟨_, rfl⟩
      · subst h; exact ⟨_, rfl⟩)⟩

/-! ## The parent chain walks of `showFoundPath` and `updateFlow` are safe -/

theorem ParentChain.links {g : FlowGraph} {parent : List Nat} {start v : Nat}
    {es L : List Nat} (hc : ParentChain g parent start v es L) :
    ∀ x ∈ L, ∃ (p ei : Nat), parent[x]? = some p ∧ p < g.nodes.length ∧
      FordFulkersonGraphAlgorithm.findEdge g p x = .ok ei := by
  induction hc with
  | nil => intro x h; cases h
  | @cons v p ei es L _ hp hf _ ih =>
    intro x hx
    rcases List.mem_cons.1 hx with h | h
    · subst h
      obtain ⟨node, hnode⟩ := FordFulkersonGraphAlgorithm.findEdge_node hf
      exact ⟨p, ei, hp, getElem?_lt hnode, hf⟩
    · exact ih x h

theorem ParentChain.head_eq {g : FlowGraph} {parent : List Nat} {start v : Nat}
    {es L : List Nat} (hc : ParentChain g parent start v es L) (hne : es ≠ []) :
    L.head? = some v := by
  induction hc with
  | nil => exact absurd rfl hne
  | cons _ _ _ _ _ => rfl

/-- C29: for every well-formed flow graph (parallel edges allowed) and every state reached by
`k` calls of `nextStep`, the next call returns without any fault (no `Edge not found`, no
index out of bounds) already with the loop bound `node_count + 1`; and the parent chain that
`showFoundPath` walks (when the `PathFind` call returns `true`) and that `updateFlow` walks (in
the `UpdatePath` phase) leads from the end node to the start node in at most `node_count`
links, each of which reads a recorded parent that is a valid node index and for which
`findEdge` finds an edge. -/
theorem ff_no_lookup_failure (c : FlowGraphConfig) (fuel k : Nat) (hc : c.WellFormed)
    (hfuel : c.nodes.length < fuel) :
    ∃ (g : FlowGraph) (s s1 : FordFulkersonGraphAlgorithm) (b : Bool),
      FlowGraph.new c = .ok g ∧
      FordFulkersonGraphAlgorithm.steps fuel k (FordFulkersonGraphAlgorithm.new g) = .ok s ∧
      FordFulkersonGraphAlgorithm.nextStep fuel s = .ok (b, s1) ∧
      s.m_graph.node_count = c.nodes.length ∧
      ((s.m_next_step_state = NextStepState.PathFind ∧ b = true) ∨
          s.m_next_step_state = NextStepState.UpdatePath →
        ∃ (es L : List Nat),
          ParentChain s.m_graph s1.m_parent c.start_node c.end_node es L ∧ L.Nodup ∧
          L.length ≤ s.m_graph.node_count ∧ L.head? = some c.end_node ∧
          ∀ x ∈ L, ∃ (p ei : Nat), s1.m_parent[x]? = some p ∧ p < s.m_graph.nodes.length ∧
            FordFulkersonGraphAlgorithm.findEdge s.m_graph p x = .ok ei) := by
  obtain ⟨g, hnew, hfresh⟩ := FlowGraph.new_fresh c hc
  have hfuel0 : (FordFulkersonGraphAlgorithm.new g).m_graph.nodes.length < fuel := by
    show g.nodes.length < fuel
    rw [hfresh.len]; exact hfuel
  obtain ⟨s, hsteps, hinv, hsk⟩ := FFInv.steps k _ (FFInv.init_fresh hfresh) hfuel0
  have hfuel1 : s.m_graph.nodes.length < fuel := by
    rw [FlowGraph.flow_skel_nodes_length hsk]; exact hfuel0
  have hs : s.m_start_node = c.start_node := by
    rw [hinv.start_eq, FlowGraph.flow_skel_start hsk]; exact hfresh.start_eq
  have he : s.m_end_node = c.end_node := by
    rw [hinv.end_eq, FlowGraph.flow_skel_end hsk]; exact hfresh.end_eq
  have hcount : s.m_graph.node_count = c.nodes.length := by
    rw [hinv.wf.count, FlowGraph.flow_skel_nodes_length hsk]
    exact hfresh.len
  have hchainfacts : ∀ (parent es L : List Nat),
      ParentChain s.m_graph parent s.m_start_node s.m_end_node es L → L.Nodup → es ≠ [] →
      ∃ (es L : List Nat),
        ParentChain s.m_graph parent c.start_node c.end_node es L ∧ L.Nodup ∧
        L.length ≤ s.m_graph.node_count ∧ L.head? = some c.end_node ∧
        ∀ x ∈ L, ∃ (p ei : Nat), parent[x]? = some p ∧ p < s.m_graph.nodes.length ∧
          FordFulkersonGraphAlgorithm.findEdge s.m_graph p x = .ok ei := by
    intro parent es L hchain hL hne
    have hlen := hchain.fuel_bound hinv.wf hL
    rw [hchain.chain_length] at hlen
    have hhead : L.head? = some s.m_end_node := hchain.head_eq hne
    rw [hs, he] at hchain
    rw [he] at hhead
    exact ⟨es, L, hchain, hL, by rw [hinv.wf.count]; exact hlen, hhead, hchain.links⟩
  cases hp : s.m_next_step_state with
  | CleanGraph =>
    refine ⟨g, s, _, true, hnew, hsteps, FordFulkersonGraphAlgorithm.nextStep_clean fuel hp,
      hcount, ?_⟩
    rintro (⟨h, _⟩ | h) <;> rw [hp] at h <;> cases h
  | PathFind =>
    rcases FordFulkersonGraphAlgorithm.nextStep_pathFind hinv hfuel1 hp with
      ⟨parent, _, hstep⟩ | ⟨parent, es, L, g1, hstep, hchain, hL, hne, _, _, _, _⟩
    · refine ⟨g, s, _, false, hnew, hsteps, hstep, hcount, ?_⟩
      rintro (⟨_, h⟩ | h)
      · cases h
      · rw [hp] at h
        cases h
    · exact ⟨g, s, _, true, hnew, hsteps, hstep, hcount,
        fun _ => hchainfacts parent es L hchain hL hne⟩
  | UpdatePath =>
    obtain ⟨es, L, f, g1, hchain, hL, _, hne, _, _, _, _, hstep, _⟩ :=
      FordFulkersonGraphAlgorithm.nextStep_update hinv hfuel1 hp
    exact ⟨g, s, _, true, hnew, hsteps, hstep, hcount,
      fun _ => hchainfacts s.m_parent es L hchain hL hne⟩

theorem ff_no_lookup_failure_witness :
    parallelFlowConfig.WellFormed ∧
    ∃ (g : FlowGraph) (s s1 : FordFulkersonGraphAlgorithm) (b : Bool),
      FlowGraph.new parallelFlowConfig = .ok g ∧
      FordFulkersonGraphAlgorithm.steps 3 2 (FordFulkersonGraphAlgorithm.new g) = .ok s ∧
      FordFulkersonGraphAlgorithm.nextStep 3 s = .ok (b, s1) ∧
      s.m_graph.node_count = parallelFlowConfig.nodes.length ∧
      ((s.m_next_step_state = NextStepState.PathFind ∧ b = true) ∨
          s.m_next_step_state = NextStepState.UpdatePath →
        ∃ (es L : List Nat),
          ParentChain s.m_graph s1.m_parent parallelFlowConfig.start_node
            parallelFlowConfig.end_node es L ∧ L.Nodup ∧
          L.length ≤ s.m_graph.node_count ∧ L.head? = some parallelFlowConfig.end_node ∧
          ∀ x ∈ L, ∃ (p ei : Nat), s1.m_parent[x]? = some p ∧ p < s.m_graph.nodes.length ∧
            FordFulkersonGraphAlgorithm.findEdge s.m_graph p x = .ok ei) :=
  ⟨by decide, ff_no_lookup_failure parallelFlowConfig 3 2 (by decide) (by decide)⟩

/-! ## `updateFlow` computes without wrapping -/

theorem FordFulkersonGraphAlgorithm.updateFlow_exact {s : FordFulkersonGraphAlgorithm}
    (h : FFInv s) {fuel : Nat} (hfuel : s.m_graph.nodes.length < fuel)
    (hp : s.m_next_step_state = NextStepState.UpdatePath) :
    ∃ (es L : List Nat) (f : Nat) (g1 : FlowGraph),
      ParentChain s.m_graph s.m_parent s.m_start_node s.m_end_node es L ∧ es ≠ [] ∧
      es.Nodup ∧
      FordFulkersonGraphAlgorithm.updateFlow fuel s = .ok (f, g1) ∧
      (∀ ei ∈ es, ∃ e : FlowEdge, s.m_graph.edges[ei]? = some e ∧
        e.current_flow ≤ e.capacity ∧
        sizeSub e.capacity e.current_flow = e.capacity - e.current_flow ∧
        f ≤ e.capacity - e.current_flow ∧ e.current_flow + f < SIZE_MOD ∧
        sizeAdd e.current_flow f = e.current_flow + f ∧
        g1.edges[ei]? = some (e.augmented f)) ∧
      (∃ ei ∈ es, ∃ e : FlowEdge, s.m_graph.edges[ei]? = some e ∧
        f = e.capacity - e.current_flow) := by
  obtain ⟨es, L, f, g1, hchain, hL, hesnd, hne, _, hf, hroom, hatt, _, _, _, _, _⟩ :=
    FordFulkersonGraphAlgorithm.nextStep_update h hfuel hp
  have hlen := hchain.fuel_bound h.wf hL
  have hbot := FordFulkersonGraphAlgorithm.bottleneck_spec hchain h.wf fuel SIZE_MAX (by omega)
  obtain ⟨g2, haug, _, _, hedges, _⟩ :=
    @FordFulkersonGraphAlgorithm.augment_spec s.m_parent s.m_start_node f s.m_graph
      s.m_end_node es L hchain s.m_graph rfl h.wf hesnd fuel (by omega)
      (fun ei hei => by
        obtain ⟨e, he, _, hle⟩ := hroom ei hei
        exact ⟨e, he, hle⟩)
  refine ⟨es, L, f, g2, hchain, hne, hesnd, ?_, ?_, hatt⟩
  · simp only [FordFulkersonGraphAlgorithm.updateFlow, hbot, ← hf, haug]
  · intro ei hei
    obtain ⟨e, he, hle, hsum⟩ := hroom ei hei
    have hcap := h.cap ei e he
    have hlt := h.wf.cap_lt ei e he
    have hg2 := hedges ei e he
    rw [if_pos hei] at hg2
    exact ⟨e, he, hcap, sizeSub_eq hcap hlt, hle, by omega, sizeAdd_eq hsum hlt, hg2⟩

/-- C30 (as stated, refuted): on the diamond with every capacity `2 ^ 64 - 1` the second call
leaves the algorithm in the `UpdatePath` phase with the path `0 -> 1 -> 3` recorded; both edges
have residual `2 ^ 64 - 1`, so `updateFlow` returns the bottleneck `2 ^ 64 - 1`, the very value
of `numeric_limits<size_t>::max()` the loop variable started with. -/
theorem ff_update_flow_returns_size_max :
    hugeDiamondFlowConfig.WellFormed ∧
    ∃ (g : FlowGraph) (s : FordFulkersonGraphAlgorithm) (g1 : FlowGraph),
      FlowGraph.new hugeDiamondFlowConfig = .ok g ∧
      FordFulkersonGraphAlgorithm.steps 5 2 (FordFulkersonGraphAlgorithm.new g) = .ok s ∧
      s.m_next_step_state = NextStepState.UpdatePath ∧
      ParentChain s.m_graph s.m_parent 0 3 [2, 0] [3, 1] ∧
      FordFulkersonGraphAlgorithm.updateFlow 5 s = .ok (SIZE_MAX, g1) ∧
      SIZE_MAX = 2 ^ 64 - 1 :=
  ⟨by decide, _, _, _, rfl, rfl, rfl,
    ParentChain.cons (by decide) rfl rfl
      (ParentChain.cons (by decide) rfl rfl ParentChain.nil),
    rfl, rfl⟩

/-- C30 (amended): with `std::size_t` as 64-bit wrapping arithmetic, for every well-formed flow
graph and every reachable state in the `UpdatePath` phase, `updateFlow` returns; on every edge
of the (non-empty) path it walks the subtraction `capacity - current_flow` does not underflow
and the addition `current_flow += flow` does not overflow; the returned bottleneck is the
minimum of `capacity - current_flow` over these edges, attained on one of them; and it equals
`numeric_limits<size_t>::max()` only when every edge of the path has `current_flow` `0` and
capacity `numeric_limits<size_t>::max()`. -/
theorem ff_update_flow_exact (c : FlowGraphConfig) (fuel k : Nat) (hc : c.WellFormed)
    (hfuel : c.nodes.length < fuel) :
    ∃ (g : FlowGraph) (s : FordFulkersonGraphAlgorithm), FlowGraph.new c = .ok g ∧
      FordFulkersonGraphAlgorithm.steps fuel k (FordFulkersonGraphAlgorithm.new g) = .ok s ∧
      (s.m_next_step_state = NextStepState.UpdatePath →
        ∃ (es L : List Nat) (f : Nat) (g1 : FlowGraph),
          ParentChain s.m_graph s.m_parent c.start_node c.end_node es L ∧ es ≠ [] ∧
          es.Nodup ∧
          FordFulkersonGraphAlgorithm.updateFlow fuel s = .ok (f, g1) ∧
          (∀ ei ∈ es, ∃ e : FlowEdge, s.m_graph.edges[ei]? = some e ∧
            e.current_flow ≤ e.capacity ∧
            sizeSub e.capacity e.current_flow = e.capacity - e.current_flow ∧
            f ≤ e.capacity - e.current_flow ∧ e.current_flow + f < 2 ^ 64 ∧
            sizeAdd e.current_flow f = e.current_flow + f ∧
            g1.edges[ei]? = some (e.augmented f)) ∧
          (∃ ei ∈ es, ∃ e : FlowEdge, s.m_graph.edges[ei]? = some e ∧
            f = e.capacity - e.current_flow) ∧
          (f = SIZE_MAX → ∀ ei ∈ es, ∃ e : FlowEdge, s.m_graph.edges[ei]? = some e ∧
            e.current_flow = 0 ∧ e.capacity = SIZE_MAX)) := by
  obtain ⟨g, hnew, hfresh⟩ := FlowGraph.new_fresh c hc
  have hfuel0 : (FordFulkersonGraphAlgorithm.new g).m_graph.nodes.length < fuel := by
    show g.nodes.length < fuel
    rw [hfresh.len]; exact hfuel
  obtain ⟨s, hsteps, hinv, hsk⟩ := FFInv.steps k _ (FFInv.init_fresh hfresh) hfuel0
  have hfuel1 : s.m_graph.nodes.length < fuel := by
    rw [FlowGraph.flow_skel_nodes_length hsk]; exact hfuel0
  have hs : s.m_start_node = c.start_node := by
    rw [hinv.start_eq, FlowGraph.flow_skel_start hsk]; exact hfresh.start_eq
  have he : s.m_end_node = c.end_node := by
    rw [hinv.end_eq, FlowGraph.flow_skel_end hsk]; exact hfresh.end_eq
  refine ⟨g, s, hnew, hsteps, fun hp => ?_⟩
  obtain ⟨es, L, f, g1, hchain, hne, hnd, hupd, hedges, hatt⟩ :=
    FordFulkersonGraphAlgorithm.updateFlow_exact hinv hfuel1 hp
  rw [hs, he] at hchain
  refine ⟨es, L, f, g1, hchain, hne, hnd, hupd, hedges, hatt, ?_⟩
  intro hf ei hei
  obtain ⟨e, hedge, _, _, hle, hsum, _, _⟩ := hedges ei hei
  have hlt := hinv.wf.cap_lt ei e hedge
  unfold SIZE_MOD at hlt
  unfold SIZE_MAX at hf ⊢
  exact ⟨e, hedge, by omega, by omega⟩

theorem ff_update_flow_exact_witness :
    hugeDiamondFlowConfig.WellFormed ∧
    (∃ (g : FlowGraph) (s : FordFulkersonGraphAlgorithm),
      FlowGraph.new hugeDiamondFlowConfig = .ok g ∧
      FordFulkersonGraphAlgorithm.steps 5 2 (FordFulkersonGraphAlgorithm.new g) = .ok s ∧
      s.m_next_step_state = NextStepState.UpdatePath) ∧
    ∃ (g : FlowGraph) (s : FordFulkersonGraphAlgorithm),
      FlowGraph.new hugeDiamondFlowConfig = .ok g ∧
      FordFulkersonGraphAlgorithm.steps 5 2 (FordFulkersonGraphAlgorithm.new g) = .ok s ∧
      (s.m_next_step_state = NextStepState.UpdatePath →
        ∃ (es L : List Nat) (f : Nat) (g1 : FlowGraph),
          ParentChain s.m_graph s.m_parent hugeDiamondFlowConfig.start_node
            hugeDiamondFlowConfig.end_node es L ∧ es ≠ [] ∧ es.Nodup ∧
          FordFulkersonGraphAlgorithm.updateFlow 5 s = .ok (f, g1) ∧
          (∀ ei ∈ es, ∃ e : FlowEdge, s.m_graph.edges[ei]? = some e ∧
            e.current_flow ≤ e.capacity ∧
            sizeSub e.capacity e.current_flow = e.capacity - e.current_flow ∧
            f ≤ e.capacity - e.current_flow ∧ e.current_flow + f < 2 ^ 64 ∧
            sizeAdd e.current_flow f = e.current_flow + f ∧
            g1.edges[ei]? = some (e.augmented f)) ∧
          (∃ ei ∈ es, ∃ e : FlowEdge, s.m_graph.edges[ei]? = some e ∧
            f = e.capacity - e.current_flow) ∧
          (f = SIZE_MAX → ∀ ei ∈ es, ∃ e : FlowEdge, s.m_graph.edges[ei]? = some e ∧
            e.current_flow = 0 ∧ e.capacity = SIZE_MAX)) :=
  ⟨by decide, ⟨_, _, rfl, rfl, rfl⟩,
    ff_update_flow_exact hugeDiamondFlowConfig 5 2 (by decide) (by decide)⟩

/-! ## The nodes `showFoundPath` marks -/

theorem ParentChain.head_node {g : FlowGraph} {parent : List Nat} {start v : Nat}
    {es L : List Nat} (hc : ParentChain g parent start v es L) :
    (L = [] ∧ v = start) ∨ ∃ L1, L = v :: L1 := by
  cases hc with
  | nil => exact Or.inl ⟨rfl, rfl⟩
  | cons _ _ _ _ => exact Or.inr ⟨_, rfl⟩

theorem FordFulkersonGraphAlgorithm.showFoundPath_nodes {parent : List Nat} {start : Nat}
    {g0 : FlowGraph} {v : Nat} {es L : List Nat} (hc : ParentChain g0 parent start v es L) :
    ∀ (g g1 : FlowGraph), g.skel = g0.skel → ∀ fuel,
      FordFulkersonGraphAlgorithm.showFoundPath start parent fuel v g = .ok g1 →
      ∀ (x : Nat) (nd : FlowNode), g.nodes[x]? = some nd →
        g1.nodes[x]? = some (if x ∈ (L ++ [start]).tail then
          { nd with state := FlowNodeState.OnUnsaturatedPath } else nd) := by
  induction hc with
  | nil =>
    intro g g1 _ fuel h x nd hx
    cases fuel with
    | zero => simp [FordFulkersonGraphAlgorithm.showFoundPath] at h
    | succ fuel =>
      simp only [FordFulkersonGraphAlgorithm.showFoundPath, if_true, Except.ok.injEq] at h
      subst h
      simpa using hx
  | @cons v p ei es L hne hp hf hrest ih =>
    intro g g1 hsk fuel h x nd hx
    cases fuel with
    | zero => simp [FordFulkersonGraphAlgorithm.showFoundPath] at h
    | succ fuel =>
      unfold FordFulkersonGraphAlgorithm.showFoundPath at h
      rw [if_neg hne] at h
      simp only [hp] at h
      cases hn : g.nodes[p]? with
      | none => simp [hn] at h
      | some pnode =>
        simp only [hn] at h
        let g2 : FlowGraph :=
          { g with nodes := g.nodes.set p { pnode with state := FlowNodeState.OnUnsaturatedPath } }
        have hsk2 : g2.skel = g.skel := FlowGraph.flow_skel_set_node g hn rfl rfl
        have hfg : FordFulkersonGraphAlgorithm.findEdge g2 p v = .ok ei := by
          rw [FordFulkersonGraphAlgorithm.findEdge_skel (hsk2.trans hsk)]; exact hf
        simp only [hfg] at h
        cases he : g.edges[ei]? with
        | none => simp [he] at h
        | some e =>
          simp only [he] at h
          let g3 : FlowGraph :=
            { g2 with edges := g.edges.set ei { e with state := FlowEdgeState.OnUnsaturatedPath } }
          have he2 : g2.edges[ei]? = some e := he
          have hsk3 : g3.skel = g2.skel := FlowGraph.flow_skel_set_edge g2 he2 rfl rfl rfl
          have hlt : p < g.nodes.length := getElem?_lt hn
          -- the node `x` after the parent `p` was marked
          have hx3 : g3.nodes[x]? = some (if x = p then
              { nd with state := FlowNodeState.OnUnsaturatedPath } else nd) := by
            show (g.nodes.set p _)[x]? = _
            by_cases hxp : x = p
            · subst hxp
              rw [hx] at hn
              cases hn
              simp [hlt]
            · rw [List.getElem?_set_ne (Ne.symm hxp), hx, if_neg hxp]
          have hres := ih g3 g1 (hsk3.trans (hsk2.trans hsk)) fuel h x _ hx3
          rw [hres]
          rcases hrest.head_node with ⟨hL, hps⟩ | ⟨L1, hL⟩
          · subst hL
            simp only [List.nil_append, List.tail_cons, List.not_mem_nil, if_false,
              List.cons_append, List.mem_singleton]
            rw [hps]
          · subst hL
            simp only [List.cons_append, List.tail_cons, List.mem_cons]
            by_cases hxp : x = p
            · simp [hxp]
            · simp [hxp]

/-- C23 (as stated, refuted): on the diamond the `PathFind` call returns `true` having found
the path `0 -> 1 -> 3`; nodes `0` and `1` are `OnUnsaturatedPath` afterwards, but the end
node `3`, which is on that path, still has state `Default`. -/
theorem ff_path_find_leaves_end_unmarked :
    diamondFlowConfig.WellFormed ∧ diamondFlowConfig.NoParallel ∧
    ∃ (g : FlowGraph) (s s1 : FordFulkersonGraphAlgorithm),
      FlowGraph.new diamondFlowConfig = .ok g ∧
      FordFulkersonGraphAlgorithm.steps 5 1 (FordFulkersonGraphAlgorithm.new g) = .ok s ∧
      s.m_next_step_state = NextStepState.PathFind ∧
      FordFulkersonGraphAlgorithm.nextStep 5 s = .ok (true, s1) ∧
      ParentChain s.m_graph s1.m_parent 0 3 [2, 0] [3, 1] ∧
      s1.m_graph.nodes.map (fun n => n.state) =
        [FlowNodeState.OnUnsaturatedPath, FlowNodeState.OnUnsaturatedPath,
          FlowNodeState.Default, FlowNodeState.Default] ∧
      diamondFlowConfig.end_node = 3 :=
  ⟨by decide, by decide, _, _, _, rfl, rfl, rfl, rfl,
    ParentChain.cons (by decide) rfl rfl
      (ParentChain.cons (by decide) rfl rfl ParentChain.nil),
    rfl, rfl⟩

/-- C23 (amended): for every well-formed flow graph (with or without parallel edges), whenever
a `nextStep` call in the `PathFind` phase of a reachable state returns `true`: the recorded
parent chain is a directed path `es` from start to end; every node on it other than the end
node (the start node included) has state `OnUnsaturatedPath`, every edge of `es` has state
`OnUnsaturatedPath`, nothing else of any node or edge changed (so the end node keeps its
state, and no `current_flow` changed), `m_max_flow` is unchanged and the next phase is
`UpdatePath`. -/
theorem ff_path_find_marks (c : FlowGraphConfig) (fuel k : Nat) (hc : c.WellFormed)
    (hfuel : c.nodes.length < fuel) :
    ∃ (g : FlowGraph) (s s1 : FordFulkersonGraphAlgorithm) (b : Bool),
      FlowGraph.new c = .ok g ∧
      FordFulkersonGraphAlgorithm.steps fuel k (FordFulkersonGraphAlgorithm.new g) = .ok s ∧
      FordFulkersonGraphAlgorithm.nextStep fuel s = .ok (b, s1) ∧
      (s.m_next_step_state = NextStepState.PathFind → b = true →
        s1.m_next_step_state = NextStepState.UpdatePath ∧ s1.m_max_flow = s.m_max_flow ∧
        ∃ (es L : List Nat),
          ParentChain s.m_graph s1.m_parent c.start_node c.end_node es L ∧
          PathFrom s.m_graph.ends c.start_node c.end_node es.reverse L.reverse ∧
          es ≠ [] ∧ L.Nodup ∧ c.end_node ∉ (L ++ [c.start_node]).tail ∧
          (∀ (x : Nat) (nd : FlowNode), s.m_graph.nodes[x]? = some nd →
            s1.m_graph.nodes[x]? = some (if x ∈ (L ++ [c.start_node]).tail then
              { nd with state := FlowNodeState.OnUnsaturatedPath } else nd)) ∧
          (∀ (j : Nat) (e : FlowEdge), s.m_graph.edges[j]? = some e →
            s1.m_graph.edges[j]? = some (if j ∈ es then
              { e with state := FlowEdgeState.OnUnsaturatedPath } else e))) := by
  obtain ⟨g, hnew, hfresh⟩ := FlowGraph.new_fresh c hc
  have hfuel0 : (FordFulkersonGraphAlgorithm.new g).m_graph.nodes.length < fuel := by
    show g.nodes.length < fuel
    rw [hfresh.len]; exact hfuel
  obtain ⟨s, hsteps, hinv, hsk⟩ := FFInv.steps k _ (FFInv.init_fresh hfresh) hfuel0
  have hfuel1 : s.m_graph.nodes.length < fuel := by
    rw [FlowGraph.flow_skel_nodes_length hsk]; exact hfuel0
  have hs : s.m_start_node = c.start_node := by
    rw [hinv.start_eq, FlowGraph.flow_skel_start hsk]; exact hfresh.start_eq
  have he : s.m_end_node = c.end_node := by
    rw [hinv.end_eq, FlowGraph.flow_skel_end hsk]; exact hfresh.end_eq
  cases hp : s.m_next_step_state with
  | CleanGraph =>
    exact ⟨g, s, _, true, hnew, hsteps, FordFulkersonGraphAlgorithm.nextStep_clean fuel hp,
      fun h => by rw [hp] at h; cases h⟩
  | UpdatePath =>
    obtain ⟨b, s1, hstep, _, _⟩ := hinv.ff_step hfuel1
    exact ⟨g, s, s1, b, hnew, hsteps, hstep, fun h => by rw [hp] at h; cases h⟩
  | PathFind =>
    rcases FordFulkersonGraphAlgorithm.nextStep_pathFind hinv hfuel1 hp with
      ⟨parent, _, hstep⟩ | ⟨parent, es, L, g1, hstep, hchain, hL, hne, _, _, hedges, _⟩
    · exact ⟨g, s, _, false, hnew, hsteps, hstep, fun _ h => by cases h⟩
    · refine ⟨g, s, _, true, hnew, hsteps, hstep, fun _ _ => ⟨rfl, rfl, es, L, ?_⟩⟩
      have hpath := hchain.pathFrom hinv.wf
      -- the graph that `showFoundPath` returned
      have hshow : FordFulkersonGraphAlgorithm.showFoundPath s.m_start_node parent fuel
          s.m_end_node s.m_graph = .ok g1 := by
        have h1 := hstep
        unfold FordFulkersonGraphAlgorithm.nextStep at h1
        simp only [hp] at h1
        cases hb : FordFulkersonGraphAlgorithm.BFS fuel s with
        | error f => simp [hb] at h1
        | ok r =>
          obtain ⟨found, parent1⟩ := r
          cases found with
          | false => simp [hb] at h1
          | true =>
            simp only [hb] at h1
            cases hsh : FordFulkersonGraphAlgorithm.showFoundPath s.m_start_node parent1 fuel
                s.m_end_node s.m_graph with
            | error f => simp [hsh] at h1
            | ok g2 =>
              simp only [hsh, Except.ok.injEq, Prod.mk.injEq, true_and] at h1
              have hg : g2 = g1 := congrArg (fun t => t.m_graph) h1
              have hpar : parent1 = parent := congrArg (fun t => t.m_parent) h1
              rw [← hg, ← hpar]
              exact hsh
      have hnodes := FordFulkersonGraphAlgorithm.showFoundPath_nodes hchain s.m_graph g1 rfl
        fuel hshow
      have hend : s.m_end_node ∉ (L ++ [s.m_start_node]).tail := by
        rcases hchain.head_node with ⟨hL0, _⟩ | ⟨L1, hL1⟩
        · subst hL0
          simp
        · subst hL1
          have hnd := List.nodup_cons.1 hL
          have hns : s.m_start_node ∉ s.m_end_node :: L1 := hchain.start_not_mem
          simp only [List.cons_append, List.tail_cons, List.mem_append, List.mem_singleton,
            not_or]
          exact ⟨hnd.1, fun h => hns (by rw [← h]; exact List.mem_cons_self _ _)⟩
      rw [hs, he] at hchain hpath hend
      rw [hs] at hnodes
      exact ⟨hchain, hpath, hne, hL, hend, hnodes, hedges⟩

theorem ff_path_find_marks_witness :
    diamondFlowConfig.WellFormed ∧
    ∃ (g : FlowGraph) (s s1 : FordFulkersonGraphAlgorithm) (b : Bool),
      FlowGraph.new diamondFlowConfig = .ok g ∧
      FordFulkersonGraphAlgorithm.steps 5 1 (FordFulkersonGraphAlgorithm.new g) = .ok s ∧
      FordFulkersonGraphAlgorithm.nextStep 5 s = .ok (b, s1) ∧
      (s.m_next_step_state = NextStepState.PathFind → b = true →
        s1.m_next_step_state = NextStepState.UpdatePath ∧ s1.m_max_flow = s.m_max_flow ∧
        ∃ (es L : List Nat),
          ParentChain s.m_graph s1.m_parent diamondFlowConfig.start_node
            diamondFlowConfig.end_node es L ∧
          PathFrom s.m_graph.ends diamondFlowConfig.start_node diamondFlowConfig.end_node
            es.reverse L.reverse ∧
          es ≠ [] ∧ L.Nodup ∧
          diamondFlowConfig.end_node ∉ (L ++ [diamondFlowConfig.start_node]).tail ∧
          (∀ (x : Nat) (nd : FlowNode), s.m_graph.nodes[x]? = some nd →
            s1.m_graph.nodes[x]? = some (if x ∈ (L ++ [diamondFlowConfig.start_node]).tail then
              { nd with state := FlowNodeState.OnUnsaturatedPath } else nd)) ∧
          (∀ (j : Nat) (e : FlowEdge), s.m_graph.edges[j]? = some e →
            s1.m_graph.edges[j]? = some (if j ∈ es then
              { e with state := FlowEdgeState.OnUnsaturatedPath } else e))) :=
  ⟨by decide, ff_path_find_marks diamondFlowConfig 5 1 (by decide) (by decide)⟩

/-! ## The search of `FordFulkersonGraphAlgorithm::BFS` finds a path whenever there is one -/

theorem FlowGraph.mem_unsatEnds {g : FlowGraph} {u w : Nat} :
    (u, w) ∈ g.unsatEnds ↔ ∃ (ei : Nat) (e : FlowEdge), g.edges[ei]? = some e ∧
      e.current_flow < e.capacity ∧ e.from_node_index = u ∧ e.to_node_index = w := by
  unfold FlowGraph.unsatEnds
  simp only [List.mem_map, List.mem_filter, decide_eq_true_eq, Prod.mk.injEq]
  constructor
  · rintro ⟨e, ⟨hmem, hlt⟩, hf, ht⟩
    obtain ⟨ei, hei⟩ := List.getElem?_of_mem hmem
    exact ⟨ei, e, hei, hlt, hf, ht⟩
  · rintro ⟨ei, e, hei, hlt, hf, ht⟩
    exact ⟨e, ⟨List.getElem?_mem hei, hlt⟩, hf, ht⟩

theorem ParentChain.residual_walk {g : FlowGraph} {parent : List Nat} {start v : Nat}
    {es L : List Nat} (hc : ParentChain g parent start v es L)
    (hu : UnsatLinks g parent L) : Reachable g.unsatEnds start v := by
  induction hc with
  | nil => exact ⟨0, Walk.refl _⟩
  | @cons v p ei es L _ hp _ _ ih =>
    obtain ⟨k, hk⟩ := ih (fun x hx => hu x (List.mem_cons_of_mem _ hx))
    obtain ⟨p1, ej, e, hp1, he, hfrom, hto, hlt⟩ := hu v (List.mem_cons_self _ _)
    rw [hp] at hp1
    cases hp1
    exact ⟨k + 1, Walk.step hk (FlowGraph.mem_unsatEnds.2 ⟨ej, e, he, hlt, hfrom, hto⟩)⟩

theorem FordFulkersonGraphAlgorithm.bfsScan_closed {g : FlowGraph}
    {start_node end_node cur : Nat} :
    ∀ (rest : List Nat) (l l1 : BFSLocals),
      FordFulkersonGraphAlgorithm.bfsScan g end_node cur rest l = .ok (false, l1) →
      ScanClosed g start_node end_node cur rest l →
      ScanClosed g start_node end_node cur [] l1 := by
  intro rest
  induction rest with
  | nil =>
    intro l l1 h hinv
    simp only [FordFulkersonGraphAlgorithm.bfsScan, Except.ok.injEq, Prod.mk.injEq,
      true_and] at h
    rw [← h]
    exact hinv
  | cons ei rest ih =>
    intro l l1 h hinv
    unfold FordFulkersonGraphAlgorithm.bfsScan at h
    cases hedge : g.edges[ei]? with
    | none => simp [hedge] at h
    | some edge =>
      simp only [hedge] at h
      cases hseen : l.visited[edge.to_node_index]? with
      | none => simp [hseen] at h
      | some seen =>
        simp only [hseen] at h
        split at h
        · rename_i hcond
          split at h
          · split at h
            · simp at h
            · rename_i hplen hnotend
              refine ih _ l1 h ?_
              have hlt : edge.to_node_index < l.visited.length := getElem?_lt hseen
              have hmono : ∀ x : Nat, l.visited[x]? = some true →
                  (l.visited.set edge.to_node_index true)[x]? = some true := by
                intro x hx
                by_cases hxe : edge.to_node_index = x
                · subst hxe
                  simp [hlt]
                · rw [List.getElem?_set_ne hxe]
                  exact hx
              constructor
              · exact hmono _ hinv.start_seen
              · show (l.visited.set edge.to_node_index true)[end_node]? ≠ some true
                rw [List.getElem?_set_ne hnotend]
                exact hinv.end_fresh
              · intro ej e he hunsat hfrom hnq hpend
                show (l.visited.set edge.to_node_index true)[e.to_node_index]? = some true
                by_cases hje : ej = ei
                · subst hje
                  rw [hedge] at he
                  cases he
                  simp [hlt]
                · have hfrom1 : (l.visited.set edge.to_node_index true)[e.from_node_index]? =
                      some true := hfrom
                  have hnq1 : e.from_node_index ∉ l.queue ++ [edge.to_node_index] := hnq
                  have hne : edge.to_node_index ≠ e.from_node_index := by
                    intro heq
                    exact hnq1 (by rw [← heq]; simp)
                  rw [List.getElem?_set_ne hne] at hfrom1
                  refine hmono _ (hinv.closed ej e he hunsat hfrom1
                    (fun hm => hnq1 (List.mem_append_left _ hm)) ?_)
                  intro hc hm
                  rcases List.mem_cons.1 hm with h1 | h1
                  · exact hje h1
                  · exact hpend hc h1
          · cases h
        · rename_i hcond
          refine ih l l1 h ?_
          constructor
          · exact hinv.start_seen
          · exact hinv.end_fresh
          · intro ej e he hunsat hfrom hnq hpend
            by_cases hje : ej = ei
            · subst hje
              rw [hedge] at he
              cases he
              have hs : seen = true := by
                cases seen with
                | true => rfl
                | false => simp [hunsat] at hcond
              rw [hseen, hs]
            · refine hinv.closed ej e he hunsat hfrom hnq ?_
              intro hc hm
              rcases List.mem_cons.1 hm with h1 | h1
              · exact hje h1
              · exact hpend hc h1

theorem FordFulkersonGraphAlgorithm.bfsLoop_closed {g : FlowGraph} (hwf : g.WF)
    {start_node end_node : Nat} :
    ∀ (fuel : Nat) (l : BFSLocals) (parent : List Nat) (cur : Nat),
      FordFulkersonGraphAlgorithm.bfsLoop g end_node fuel l = .ok (false, parent) →
      ScanClosed g start_node end_node cur [] l →
      ¬ Reachable g.unsatEnds start_node end_node := by
  intro fuel
  induction fuel with
  | zero => intro l parent cur h; simp [FordFulkersonGraphAlgorithm.bfsLoop] at h
  | succ fuel ih =>
    intro l parent cur h hinv
    unfold FordFulkersonGraphAlgorithm.bfsLoop at h
    cases hq : l.queue with
    | nil =>
      rintro ⟨k, hk⟩
      have hall : ∀ (v j : Nat), Walk g.unsatEnds start_node v j →
          l.visited[v]? = some true := by
        intro v j hw
        induction hw with
        | refl => exact hinv.start_seen
        | step _ hedge ihw =>
          obtain ⟨ei, e, he, hlt, hfrom, hto⟩ := FlowGraph.mem_unsatEnds.1 hedge
          rw [← hto]
          refine hinv.closed ei e he hlt (by rw [hfrom]; exact ihw) ?_ (fun _ hm => by cases hm)
          rw [hq]
          simp
      exact hinv.end_fresh (hall _ k hk)
    | cons u q =>
      simp only [hq] at h
      cases hn : g.nodes[u]? with
      | none => simp [hn] at h
      | some node =>
        simp only [hn] at h
        cases hs : FordFulkersonGraphAlgorithm.bfsScan g end_node u node.edges
            { l with queue := q } with
        | error f => simp [hs] at h
        | ok r =>
          obtain ⟨b, l1⟩ := r
          cases b with
          | true => simp [hs] at h
          | false =>
            simp only [hs] at h
            refine ih l1 parent u h (FordFulkersonGraphAlgorithm.bfsScan_closed _ _ _ hs ?_)
            constructor
            · exact hinv.start_seen
            · exact hinv.end_fresh
            · intro ej e he hunsat hfrom hnq hpend
              by_cases hfu : e.from_node_index = u
              · exfalso
                obtain ⟨node1, hnode1, hmem⟩ := hwf.adj_complete ej e he
                rw [hfu, hn] at hnode1
                cases hnode1
                exact hpend hfu hmem
              · refine hinv.closed ej e he hunsat hfrom ?_ (fun _ hm => by cases hm)
                rw [hq]
                intro hm
                rcases List.mem_cons.1 hm with h1 | h1
                · exact hfu h1
                · exact hnq h1

theorem FordFulkersonGraphAlgorithm.BFS_complete {s : FordFulkersonGraphAlgorithm}
    (hwf : s.m_graph.WF) (hne : s.m_start_node ≠ s.m_end_node) {fuel : Nat}
    {parent : List Nat} (h : FordFulkersonGraphAlgorithm.BFS fuel s = .ok (false, parent)) :
    ¬ Reachable s.m_graph.unsatEnds s.m_start_node s.m_end_node := by
  unfold FordFulkersonGraphAlgorithm.BFS at h
  dsimp only at h
  split at h
  · rename_i hlt
    have hlt1 : s.m_start_node < s.m_graph.node_count := by simpa using hlt
    refine FordFulkersonGraphAlgorithm.bfsLoop_closed hwf fuel _ parent 0 h ?_
    constructor
    · show ((List.replicate s.m_graph.node_count false).set s.m_start_node true)[s.m_start_node]?
        = some true
      rw [List.getElem?_set_self (by simpa using hlt1)]
    · show ((List.replicate s.m_graph.node_count false).set s.m_start_node true)[s.m_end_node]?
        ≠ some true
      rw [List.getElem?_set_ne hne, List.getElem?_replicate]
      split <;> simp
    · intro ej e he hunsat hfrom hnq _
      exfalso
      have hfrom1 : ((List.replicate s.m_graph.node_count false).set s.m_start_node
          true)[e.from_node_index]? = some true := hfrom
      have hnq1 : e.from_node_index ∉ [s.m_start_node] := hnq
      have hx : s.m_start_node ≠ e.from_node_index := by
        intro heq
        exact hnq1 (by rw [heq]; simp)
      rw [List.getElem?_set_ne hx, List.getElem?_replicate] at hfrom1
      split at hfrom1 <;> simp at hfrom1
  · cases h

/-- C25: for every well-formed flow graph with start different from end, and every state
reached by `nextStep` calls that is in the `PathFind` phase: the call returns, and it returns
`true` exactly when the end node can be reached from the start node over edges with
`current_flow < capacity`; when it returns `true` the recorded parent chain leads from the end
node back to the start node and every link `(parent[v], v)` of it is an edge with
`current_flow < capacity`; when it returns `false` the graph (node states, edge states and
flows) and `m_max_flow` are unchanged and the phase stays `PathFind`. -/
theorem ff_path_find_iff_residual_path (c : FlowGraphConfig) (fuel k : Nat)
    (hc : c.WellFormed) (hse : c.start_node ≠ c.end_node) (hfuel : c.nodes.length < fuel) :
    ∃ (g : FlowGraph) (s s1 : FordFulkersonGraphAlgorithm) (b : Bool),
      FlowGraph.new c = .ok g ∧
      FordFulkersonGraphAlgorithm.steps fuel k (FordFulkersonGraphAlgorithm.new g) = .ok s ∧
      FordFulkersonGraphAlgorithm.nextStep fuel s = .ok (b, s1) ∧
      (s.m_next_step_state = NextStepState.PathFind →
        (b = true ↔ Reachable s.m_graph.unsatEnds c.start_node c.end_node) ∧
        (b = true → ∃ (es L : List Nat),
          ParentChain s.m_graph s1.m_parent c.start_node c.end_node es L ∧
          UnsatLinks s.m_graph s1.m_parent L) ∧
        (b = false → s1.m_graph = s.m_graph ∧ s1.m_max_flow = s.m_max_flow ∧
          s1.m_next_step_state = NextStepState.PathFind)) := by
  obtain ⟨g, hnew, hfresh⟩ := FlowGraph.new_fresh c hc
  have hfuel0 : (FordFulkersonGraphAlgorithm.new g).m_graph.nodes.length < fuel := by
    show g.nodes.length < fuel
    rw [hfresh.len]; exact hfuel
  obtain ⟨s, hsteps, hinv, hsk⟩ := FFInv.steps k _ (FFInv.init_fresh hfresh) hfuel0
  have hfuel1 : s.m_graph.nodes.length < fuel := by
    rw [FlowGraph.flow_skel_nodes_length hsk]; exact hfuel0
  have hs : s.m_start_node = c.start_node := by
    rw [hinv.start_eq, FlowGraph.flow_skel_start hsk]; exact hfresh.start_eq
  have he : s.m_end_node = c.end_node := by
    rw [hinv.end_eq, FlowGraph.flow_skel_end hsk]; exact hfresh.end_eq
  cases hp : s.m_next_step_state with
  | CleanGraph =>
    exact ⟨g, s, _, true, hnew, hsteps, FordFulkersonGraphAlgorithm.nextStep_clean fuel hp,
      fun h => by rw [hp] at h; cases h⟩
  | UpdatePath =>
    obtain ⟨b, s1, hstep, _, _⟩ := hinv.ff_step hfuel1
    exact ⟨g, s, s1, b, hnew, hsteps, hstep, fun h => by rw [hp] at h; cases h⟩
  | PathFind =>
    rcases FordFulkersonGraphAlgorithm.nextStep_pathFind hinv hfuel1 hp with
      ⟨parent, hbfs, hstep⟩ | ⟨parent, es, L, g1, hstep, hchain, _, _, hunsat, _, _, _⟩
    · have hno := FordFulkersonGraphAlgorithm.BFS_complete hinv.wf
        (by rw [hs, he]; exact hse) hbfs
      rw [hs, he] at hno
      refine ⟨g, s, _, false, hnew, hsteps, hstep, fun _ => ⟨?_, ?_, ?_⟩⟩
      · constructor
        · intro h; cases h
        · intro h; exact absurd h hno
      · intro h; cases h
      · intro _; exact ⟨rfl, rfl, hp⟩
    · rw [hs, he] at hchain
      refine ⟨g, s, _, true, hnew, hsteps, hstep, fun _ => ⟨?_, ?_, ?_⟩⟩
      · constructor
        · intro _; exact hchain.residual_walk hunsat
        · intro _; rfl
      · intro _; exact ⟨es, L, hchain, hunsat⟩
      · intro h; cases h

theorem ff_path_find_iff_residual_path_witness :
    diamondFlowConfig.WellFormed ∧ diamondFlowConfig.start_node ≠ diamondFlowConfig.end_node ∧
    ∃ (g : FlowGraph) (s s1 : FordFulkersonGraphAlgorithm) (b : Bool),
      FlowGraph.new diamondFlowConfig = .ok g ∧
      FordFulkersonGraphAlgorithm.steps 5 1 (FordFulkersonGraphAlgorithm.new g) = .ok s ∧
      FordFulkersonGraphAlgorithm.nextStep 5 s = .ok (b, s1) ∧
      (s.m_next_step_state = NextStepState.PathFind →
        (b = true ↔ Reachable s.m_graph.unsatEnds diamondFlowConfig.start_node
          diamondFlowConfig.end_node) ∧
        (b = true → ∃ (es L : List Nat),
          ParentChain s.m_graph s1.m_parent diamondFlowConfig.start_node
            diamondFlowConfig.end_node es L ∧
          UnsatLinks s.m_graph s1.m_parent L) ∧
        (b = false → s1.m_graph = s.m_graph ∧ s1.m_max_flow = s.m_max_flow ∧
          s1.m_next_step_state = NextStepState.PathFind)) :=
  ⟨by decide, by decide,
    ff_path_find_iff_residual_path diamondFlowConfig 5 1 (by decide) (by decide) (by decide)⟩

/-! ## Back-pointer chains -/

theorem BackChain.back_start_not_mem {g : PathGraph} {v : Nat} {es vs : List Nat}
    (h : BackChain g v es vs) : g.start_node ∉ vs := by
  induction h with
  | start => simp
  | @link v node e es vs hne _ _ _ _ ih =>
    intro hm
    rcases List.mem_cons.1 hm with h1 | h1
    · exact hne h1.symm
    · exact ih h1

theorem BackChain.back_length {g : PathGraph} {v : Nat} {es vs : List Nat}
    (h : BackChain g v es vs) : vs.length = es.length := by
  induction h with
  | start => rfl
  | link _ _ _ _ _ ih => simp [ih]

theorem BackChain.back_path {g : PathGraph} {v : Nat} {es vs : List Nat}
    (h : BackChain g v es vs) : PathFrom g.ends g.start_node v es.reverse vs.reverse := by
  induction h with
  | start => exact PathFrom.nil
  | @link v node e es vs _ _ he hto _ ih =>
    have hends : g.ends[node.entered_by]? = some (e.from_node_index, v) := by
      simp [PathGraph.ends, List.getElem?_map, he, hto]
    rw [List.reverse_cons, List.reverse_cons]
    exact PathFrom.snoc ih hends

theorem BackChain.transfer {g g1 : PathGraph} (hsk : g1.skel = g.skel)
    (hnodes : ∀ (x : Nat) (nd : PathNode), g.nodes[x]? = some nd →
      ∃ nd1 : PathNode, g1.nodes[x]? = some nd1 ∧ nd1.entered_by = nd.entered_by)
    {v : Nat} {es vs : List Nat} (h : BackChain g v es vs) : BackChain g1 v es vs := by
  induction h with
  | start =>
    rw [← PathGraph.skel_start hsk]
    exact BackChain.start
  | @link v node e es vs hne hv he hto _ ih =>
    obtain ⟨nd1, hnd1, hent⟩ := hnodes v node hv
    obtain ⟨e1, he1, hf1, ht1⟩ := @PathGraph.skel_edges g1 g hsk.symm _ _ he
    rw [← hent]
    have ih1 : BackChain g1 e1.from_node_index es vs := by rw [hf1]; exact ih
    refine BackChain.link ?_ hnd1 (by rw [hent]; exact he1) (by rw [ht1]; exact hto) ih1
    rw [PathGraph.skel_start hsk]
    exact hne

theorem BackChain.of_links {g : PathGraph} (hl : ParentLinks g) :
    ∀ (d v : Nat) (nd : PathNode), g.nodes[v]? = some nd →
      (v ≠ g.start_node → nd.state ≠ PathNodeState.NotFound) →
      IsDist g.ends g.start_node v d →
      ∃ (es vs : List Nat), BackChain g v es vs ∧ es.length = d ∧
        ∀ x ∈ vs, ∃ ndx : PathNode, g.nodes[x]? = some ndx ∧
          ndx.state ≠ PathNodeState.NotFound := by
  intro d
  induction d with
  | zero =>
    intro v nd _ _ hd
    have hv := hd.eq_start
    subst hv
    exact ⟨[], [], BackChain.start, rfl, fun x hx => by cases hx⟩
  | succ d ih =>
    intro v nd hv hs hd
    have hne : v ≠ g.start_node := by
      intro heq
      subst heq
      have := hd.unique (IsDist.self _ _)
      omega
    obtain ⟨e, unode, d1, he, hto, hun, hus, hd1, hd2⟩ := hl v nd hv (hs hne) hne
    have hdd : d1 = d := by
      have := hd.unique hd2
      omega
    subst hdd
    obtain ⟨es, vs, hch, hlen, hvs⟩ := ih e.from_node_index unode hun (fun _ => hus) hd1
    refine ⟨nd.entered_by :: es, v :: vs, BackChain.link hne hv he hto hch, by simp [hlen], ?_⟩
    intro x hx
    rcases List.mem_cons.1 hx with h1 | h1
    · subst h1
      exact ⟨nd, hv, hs hne⟩
    · exact hvs x h1

/-! ## What the backtracking loop writes -/

theorem BFSGraphAlgorithm.backtrack_chain :
    ∀ (fuel : Nat) (g : PathGraph) (i : Nat) (e : PathEdge) (v : Nat) (es vs : List Nat),
      g.WF → g.edges[i]? = some e → e.from_node_index = v → BackChain g v es vs →
      es.length < fuel →
      ∃ g1 : PathGraph, BFSGraphAlgorithm.backtrack fuel g i = .ok g1 ∧
        (∀ (ej : Nat) (ee : PathEdge), g.edges[ej]? = some ee →
          g1.edges[ej]? = some (if ej ∈ i :: es then
            { ee with state := PathEdgeState.OnShortestPath } else ee)) ∧
        (∀ (x : Nat) (nd : PathNode), g.nodes[x]? = some nd →
          g1.nodes[x]? = some (if x ∈ vs then
            { nd with state := PathNodeState.OnShortestPath } else nd)) := by
  intro fuel
  induction fuel with
  | zero => intro g i e v es vs _ _ _ _ hf; omega
  | succ fuel ih =>
    intro g i e v es vs hwf he hfrom hch hf
    unfold BFSGraphAlgorithm.backtrack
    simp only [he]
    cases hch with
    | start =>
      obtain ⟨node, hnode⟩ := getElem?_of_lt hwf.start_lt
      have hflag : node.is_start_node = true := by
        rw [(hwf.flags _ node hnode).1]; simp
      have hnode1 : g.nodes[e.from_node_index]? = some node := by rw [hfrom]; exact hnode
      simp only [hnode1, hflag, if_true]
      refine ⟨_, rfl, ?_, ?_⟩
      · intro ej ee hee
        show (g.edges.set i { e with state := PathEdgeState.OnShortestPath })[ej]? = _
        by_cases hji : ej = i
        · subst hji
          rw [he] at hee
          cases hee
          rw [List.getElem?_set_self (getElem?_lt he)]
          simp
        · rw [List.getElem?_set_ne (Ne.symm hji), hee]
          simp [hji]
      · intro x nd hx
        simp [hx]
    | @link _ node e1 es1 vs1 hne hv he1 hto1 hch1 =>
      have hflag : node.is_start_node = false := by
        rw [(hwf.flags _ node hv).1]; simp [hne]
      have hv1 : g.nodes[e.from_node_index]? = some node := by rw [hfrom]; exact hv
      have hfl : ¬ node.is_start_node = true := by rw [hflag]; simp
      simp only [hv1]
      rw [if_neg hfl]
      let eo : PathEdge := { e with state := PathEdgeState.OnShortestPath }
      let no : PathNode := { node with state := PathNodeState.OnShortestPath }
      let gA : PathGraph := { g with edges := g.edges.set i eo }
      let g2 : PathGraph := { g with edges := g.edges.set i eo, nodes := g.nodes.set v no }
      have hskA : gA.skel = g.skel := PathGraph.skel_set_edge g he rfl rfl
      have hskB : g2.skel = gA.skel := @PathGraph.skel_set_node gA v node no hv rfl rfl rfl
      have hsk2 : g2.skel = g.skel := hskB.trans hskA
      have hedge2 : ∀ (ej : Nat) (ee : PathEdge), g.edges[ej]? = some ee →
          g2.edges[ej]? = some (if ej = i then
            { ee with state := PathEdgeState.OnShortestPath } else ee) := by
        intro ej ee hee
        show (g.edges.set i { e with state := PathEdgeState.OnShortestPath })[ej]? = _
        by_cases hji : ej = i
        · subst hji
          rw [he] at hee
          cases hee
          rw [List.getElem?_set_self (getElem?_lt he)]
          simp
        · rw [List.getElem?_set_ne (Ne.symm hji), hee]
          simp [hji]
      have hnode2 : ∀ (x : Nat) (nd : PathNode), g.nodes[x]? = some nd →
          g2.nodes[x]? = some (if x = v then
            { nd with state := PathNodeState.OnShortestPath } else nd) := by
        intro x nd hx
        show (g.nodes.set v no)[x]? = _
        by_cases hxv : x = v
        · subst hxv
          rw [hv] at hx
          cases hx
          rw [List.getElem?_set_self (getElem?_lt hv)]
          simp
        · rw [List.getElem?_set_ne (Ne.symm hxv), hx]
          simp [hxv]
      have he2 := hedge2 _ e1 he1
      have hch2 : BackChain g2 e1.from_node_index es1 vs1 :=
        BackChain.transfer hsk2 (fun x nd hx => ⟨_, hnode2 x nd hx, by split <;> rfl⟩) hch1
      obtain ⟨g1, hrun, hedges, hnodes⟩ := ih g2 node.entered_by _ e1.from_node_index es1 vs1
        (hwf.of_skel hsk2) he2 (by split <;> rfl) hch2 (by simp at hf; omega)
      have hrun1 : BFSGraphAlgorithm.backtrack fuel
          { g with edges := g.edges.set i eo, nodes := g.nodes.set e.from_node_index no }
          node.entered_by = .ok g1 := by
        rw [hfrom]; exact hrun
      refine ⟨g1, hrun1, ?_, ?_⟩
      · intro ej ee hee
        rw [hedges ej _ (hedge2 ej ee hee)]
        by_cases hji : ej = i
        · subst hji
          simp
        · by_cases hm : ej ∈ node.entered_by :: es1
          · simp [hji, hm]
          · simp [hji, hm]
      · intro x nd hx
        rw [hnodes x _ (hnode2 x nd hx)]
        by_cases hxv : x = v
        · subst hxv
          simp
        · by_cases hm : x ∈ vs1
          · simp [hxv, hm]
          · simp [hxv, hm]

/-! ## The call of `BFSGraphAlgorithm::nextStep` that dequeues the end node -/

theorem BFSInv.reach_end (fuel : Nat) :
    ∀ (m : Nat) (st : BFSGraphAlgorithm) (k : Nat) (A B : List Nat), BFSInv st k A B →
      st.m_graph.unvisited < m →
      Reachable st.m_graph.ends st.m_graph.start_node st.m_graph.end_node →
      ∃ (j : Nat) (st0 : BFSGraphAlgorithm) (k0 : Nat) (A0 B0 : List Nat),
        BFSGraphAlgorithm.steps fuel j st = .ok st0 ∧
        BFSInv st0 k0 (st0.m_graph.end_node :: A0) B0 ∧
        st0.m_graph.skel = st.m_graph.skel := by
  intro m
  induction m with
  | zero => intro st k A B _ hlt; omega
  | succ m ih =>
    intro st k A B hinv hlt hreach
    have hnorm : (A = [] ∧ B = []) ∨ ∃ k1 u A1 B1, BFSInv st k1 (u :: A1) B1 := by
      cases A with
      | nil =>
        cases B with
        | nil => exact Or.inl ⟨rfl, rfl⟩
        | cons b B1 => exact Or.inr ⟨k + 1, b, B1, [], hinv.relevel⟩
      | cons a A1 => exact Or.inr ⟨k, a, A1, B, hinv⟩
    rcases hnorm with ⟨hA, hB⟩ | ⟨k1, u, A1, B1, h1⟩
    · subst hA; subst hB
      exact absurd hreach hinv.exhausted_unreachable
    · by_cases hu : u = st.m_graph.end_node
      · subst hu
        exact ⟨0, st, k1, A1, B1, rfl, h1, rfl⟩
      · obtain ⟨st1, N, hstep, hinv1, hunv, hsk⟩ := @BFSInv.step fuel _ _ _ _ _ h1 hu
        have hreach1 : Reachable st1.m_graph.ends st1.m_graph.start_node
            st1.m_graph.end_node := by
          rw [PathGraph.skel_ends hsk, PathGraph.skel_start hsk, PathGraph.skel_end hsk]
          exact hreach
        obtain ⟨j, st0, k0, A0, B0, hsteps, hinv0, hsk0⟩ :=
          ih st1 k1 A1 (B1 ++ N) hinv1 (by omega) hreach1
        refine ⟨j + 1, st0, k0, A0, B0, ?_, hinv0, hsk0.trans hsk⟩
        simp only [BFSGraphAlgorithm.steps, hstep, hsteps]

theorem BFSInv.start_visited {st : BFSGraphAlgorithm} {k u : Nat} {A B : List Nat}
    (h : BFSInv st k (u :: A) B) (hus : u ≠ st.m_graph.start_node) :
    ∃ node : PathNode, st.m_graph.nodes[st.m_graph.start_node]? = some node ∧
      node.state = PathNodeState.Visited := by
  have hdu : IsDist st.m_graph.ends st.m_graph.start_node u k :=
    h.distA u (List.mem_cons_self _ _)
  have hk : k ≠ 0 := by
    intro hk0
    rw [hk0] at hdu
    exact hus hdu.eq_start
  rcases h.complete st.m_graph.start_node 0 (IsDist.self _ _) (Nat.zero_le _) with hq | hv
  · exfalso
    rcases List.mem_append.1 hq with hA | hB
    · have := (h.distA _ hA).unique (IsDist.self _ _)
      exact hk this
    · have := (h.distB _ hB).unique (IsDist.self _ _)
      omega
  · exact hv

theorem BFSInv.finish_chain {fuel : Nat} {st : BFSGraphAlgorithm} {k u : Nat} {A B : List Nat}
    (h : BFSInv st k (u :: A) B) (hu : u = st.m_graph.end_node)
    (hus : u ≠ st.m_graph.start_node) (hfuel : st.m_graph.nodes.length ≤ fuel) :
    ∃ (st1 : BFSGraphAlgorithm) (es vs : List Nat),
      BFSGraphAlgorithm.nextStep fuel st = .ok (true, st1) ∧
      BackChain st.m_graph u es vs ∧ es.length = k ∧
      (∀ x ∈ vs, ∃ ndx : PathNode, st.m_graph.nodes[x]? = some ndx ∧
        ndx.state ≠ PathNodeState.NotFound) ∧
      (∀ (ej : Nat) (ee : PathEdge), st.m_graph.edges[ej]? = some ee →
        st1.m_graph.edges[ej]? = some (if ej ∈ es then
          { ee with state := PathEdgeState.OnShortestPath } else ee)) ∧
      (∀ (x : Nat) (nd : PathNode), st.m_graph.nodes[x]? = some nd →
        st1.m_graph.nodes[x]? = some (if x ∈ vs.tail then
          { nd with state := PathNodeState.OnShortestPath }
          else if x = u then { nd with state := PathNodeState.Visited } else nd)) ∧
      st1.m_unvisited_node_queue = A ++ B ∧ st1.m_first_step = false ∧
      st1.m_found_end = true := by
  obtain ⟨g, q0, f0, e0⟩ := st
  have hwf : g.WF := h.wf
  have hqu : u ∈ u :: A ++ B := List.mem_cons_self _ _
  obtain ⟨node0, hnode0, hstate0⟩ := h.queue_state u hqu
  simp only at hnode0 hstate0 hu hus hfuel
  have hflags := hwf.flags u node0 hnode0
  have hend0 : node0.is_end_node = true := by rw [hflags.2]; simp [hu]
  have hstart0 : node0.is_start_node = false := by rw [hflags.1]; simp [hus]
  have hdu : IsDist g.ends g.start_node u k := h.distA u (List.mem_cons_self _ _)
  have hs0 : node0.state ≠ PathNodeState.NotFound := by
    rcases hstate0 with hs | ⟨_, hs, _⟩
    · rw [hs]; simp
    · exact absurd hs hus
  obtain ⟨e, unode, d, he, hto, hun, hustate, hd1, hd2⟩ := h.parent u node0 hnode0 hs0 hus
  simp only at he hun hd1 hd2
  have hkd : k = d + 1 := hdu.unique hd2
  obtain ⟨es1, vs1, hch, hlen, hvs⟩ := BackChain.of_links h.parentLinks d e.from_node_index
    unode hun (fun _ => by rw [hustate]; simp) hd1
  let node : PathNode := { node0 with state := PathNodeState.Visited }
  let g1 : PathGraph := { g with nodes := g.nodes.set u node }
  let eu : PathEdge := { e with state := PathEdgeState.Used }
  let g2 : PathGraph := { g1 with edges := g1.edges.set node0.entered_by eu }
  have hsk1 : g1.skel = g.skel := PathGraph.skel_set_node g hnode0 rfl rfl rfl
  have he1 : g1.edges[node0.entered_by]? = some e := he
  have hsk2 : g2.skel = g1.skel := PathGraph.skel_set_edge g1 he1 rfl rfl
  have hsk2g : g2.skel = g.skel := hsk2.trans hsk1
  have hwf2 : g2.WF := hwf.of_skel hsk2g
  have hmark : BFSGraphAlgorithm.markUsed g1 node = .ok g2 := by
    unfold BFSGraphAlgorithm.markUsed
    have hfl : ¬ node.is_start_node = true := by
      show ¬ node0.is_start_node = true
      rw [hstart0]; simp
    rw [if_neg hfl]
    have : g1.edges[node.entered_by]? = some e := he
    simp only [this]
  have hedge2 : ∀ (ej : Nat) (ee : PathEdge), g.edges[ej]? = some ee →
      g2.edges[ej]? = some (if ej = node0.entered_by then
        { ee with state := PathEdgeState.Used } else ee) := by
    intro ej ee hee
    show (g.edges.set node0.entered_by eu)[ej]? = _
    by_cases hji : ej = node0.entered_by
    · subst hji
      rw [he] at hee
      cases hee
      rw [List.getElem?_set_self (getElem?_lt he)]
      simp [eu]
    · rw [List.getElem?_set_ne (Ne.symm hji), hee]
      simp [hji]
  have hnode2 : ∀ (x : Nat) (nd : PathNode), g.nodes[x]? = some nd →
      g2.nodes[x]? = some (if x = u then
        { nd with state := PathNodeState.Visited } else nd) := by
    intro x nd hx
    show (g.nodes.set u node)[x]? = _
    by_cases hxu : x = u
    · subst hxu
      rw [hnode0] at hx
      cases hx
      rw [List.getElem?_set_self (getElem?_lt hnode0)]
      simp [node]
    · rw [List.getElem?_set_ne (Ne.symm hxu), hx]
      simp [hxu]
  have he2 : g2.edges[node0.entered_by]? = some eu := by
    have := hedge2 _ e he
    rw [if_pos rfl] at this
    exact this
  have hch2 : BackChain g2 e.from_node_index es1 vs1 :=
    BackChain.transfer hsk2g (fun x nd hx => ⟨_, hnode2 x nd hx, by split <;> rfl⟩) hch
  have hdlt := IsDist.lt_length hwf hd2
  obtain ⟨g3, hrun, hedges, hnodes⟩ := BFSGraphAlgorithm.backtrack_chain fuel g2
    node0.entered_by eu e.from_node_index es1 vs1 hwf2 he2 rfl hch2 (by omega)
  refine ⟨{ m_graph := g3, m_unvisited_node_queue := A ++ B, m_first_step := f0,
            m_found_end := true }, node0.entered_by :: es1, u :: vs1, ?_, ?_, ?_, ?_, ?_, ?_,
    rfl, h.first, rfl⟩
  · exact BFSGraphAlgorithm.nextStep_end h.first h.not_found h.queue_eq hnode0 hend0
      hstart0 hmark hrun
  · exact BackChain.link hus hnode0 he hto hch
  · simp [hlen, hkd]
  · intro x hx
    rcases List.mem_cons.1 hx with h1 | h1
    · subst h1
      exact ⟨node0, hnode0, hs0⟩
    · exact hvs x h1
  · intro ej ee hee
    show g3.edges[ej]? = _
    rw [hedges ej _ (hedge2 ej ee hee)]
    by_cases hji : ej = node0.entered_by
    · subst hji
      simp
    · by_cases hm : ej ∈ es1
      · simp [hji, hm]
      · simp [hji, hm]
  · intro x nd hx
    show g3.nodes[x]? = _
    rw [hnodes x _ (hnode2 x nd hx), List.tail_cons]
    by_cases hm : x ∈ vs1
    · by_cases hxu : x = u
      · simp [hm, hxu]
      · simp [hm, hxu]
    · simp [hm]

theorem BackChain.nodes_head {g : PathGraph} {v : Nat} {es vs : List Nat}
    (h : BackChain g v es vs) (hne : v ≠ g.start_node) : ∃ vs1 : List Nat, vs = v :: vs1 := by
  cases h with
  | start => exact absurd rfl hne
  | link _ _ _ _ _ => exact ⟨_, rfl⟩

/-- C22 (as stated, refuted): on the diamond `0 -> 1`, `0 -> 2`, `1 -> 3`, `2 -> 3` with
start `0` and end `3`, the fifth `nextStep` call dequeues the end node and follows the
back-pointers `3 -> 1 -> 0` over the edges `2` and `0` (`entered_by` of node `3` is edge `2`,
that of node `1` is edge `0`). When it returns, both edges and the inner node `1` are
`OnShortestPath`, but the start node `0` and the end node `3` are `Visited`. -/
theorem bfs_end_step_leaves_start_end_visited :
    ∃ (g : PathGraph) (st0 st1 : BFSGraphAlgorithm),
      PathGraph.new diamondPathConfig (fun _ => 0) = .ok g ∧
      BFSGraphAlgorithm.steps 4 4 (BFSGraphAlgorithm.new g) = .ok st0 ∧
      st0.m_unvisited_node_queue = [3] ∧ st0.m_found_end = false ∧
      BFSGraphAlgorithm.nextStep 4 st0 = .ok (true, st1) ∧
      st0.m_graph.nodes.map (fun n => n.entered_by) = [0, 0, 1, 2] ∧
      st0.m_graph.ends = [(0, 1), (0, 2), (1, 3), (2, 3)] ∧
      st1.m_graph.nodes.map (fun n => n.state) =
        [PathNodeState.Visited, PathNodeState.OnShortestPath, PathNodeState.Visited,
          PathNodeState.Visited] ∧
      st1.m_graph.edges.map (fun e => e.state) =
        [PathEdgeState.OnShortestPath, PathEdgeState.Used, PathEdgeState.OnShortestPath,
          PathEdgeState.Default] ∧
      diamondPathConfig.start_node = 0 ∧ diamondPathConfig.end_node = 3 ∧
      diamondPathConfig.WellFormed :=
  ⟨_, _, _, rfl, rfl, rfl, rfl, rfl, rfl, rfl, rfl, rfl, rfl, rfl, by decide⟩

/-- C22 (amended): for every well-formed path graph with start different from end in which
the end node is reachable, some `nextStep` call dequeues the end node (the state `st0` before
it has the end node at the front of the queue). That call returns `true` and follows the
`entered_by` back-pointers from the end node to the start node: the chain `es` of edges,
leaving the nodes `vs` (the end node first), is a shortest path from start to end. When the
call returns, every edge of the chain and every node of the chain other than the end node and
the start node has state `OnShortestPath`; the start node and the end node have state
`Visited`; no other edge or node has changed. -/
theorem bfs_end_step_marks_chain (c : PathGraphConfig) (gb : Nat → Nat) (fuel : Nat)
    (hc : c.WellFormed) (hse : c.start_node ≠ c.end_node)
    (hreach : Reachable c.edges c.start_node c.end_node) (hfuel : c.nodes.length ≤ fuel) :
    ∃ (g : PathGraph) (n : Nat) (st0 st1 : BFSGraphAlgorithm) (q es vs : List Nat),
      PathGraph.new c gb = .ok g ∧
      BFSGraphAlgorithm.steps fuel n (BFSGraphAlgorithm.new g) = .ok st0 ∧
      st0.m_first_step = false ∧ st0.m_found_end = false ∧
      st0.m_unvisited_node_queue = c.end_node :: q ∧
      BFSGraphAlgorithm.nextStep fuel st0 = .ok (true, st1) ∧
      st1.m_found_end = true ∧ st1.m_unvisited_node_queue = q ∧
      BackChain st0.m_graph c.end_node es vs ∧
      PathFrom c.edges c.start_node c.end_node es.reverse vs.reverse ∧
      IsDist c.edges c.start_node c.end_node es.length ∧
      c.start_node ∉ vs ∧ c.end_node ∉ vs.tail ∧
      (∀ (ej : Nat) (ee : PathEdge), st0.m_graph.edges[ej]? = some ee →
        st1.m_graph.edges[ej]? = some (if ej ∈ es then
          { ee with state := PathEdgeState.OnShortestPath } else ee)) ∧
      (∀ (x : Nat) (nd : PathNode), st0.m_graph.nodes[x]? = some nd →
        st1.m_graph.nodes[x]? = some (if x ∈ vs.tail then
          { nd with state := PathNodeState.OnShortestPath }
          else if x = c.end_node then { nd with state := PathNodeState.Visited } else nd)) ∧
      (∃ nd : PathNode, st1.m_graph.nodes[c.start_node]? = some nd ∧
        nd.state = PathNodeState.Visited) ∧
      (∃ nd : PathNode, st1.m_graph.nodes[c.end_node]? = some nd ∧
        nd.state = PathNodeState.Visited) := by
  obtain ⟨g, hnew, hfresh⟩ := PathGraph.new_spec c gb hc
  have hinit := BFSInv.init c g hfresh
  have hreach0 : Reachable g.ends g.start_node g.end_node := by
    rw [hfresh.ends_eq, hfresh.start_eq, hfresh.end_eq]; exact hreach
  obtain ⟨j, st0, k0, A0, B0, hsteps, hinv0, hsk0⟩ :=
    BFSInv.reach_end fuel (g.unvisited + 1) _ 0 [g.start_node] [] hinit
      (Nat.lt_succ_self _) hreach0
  have hsk : st0.m_graph.skel = g.skel := hsk0
  have hends : st0.m_graph.ends = c.edges := (PathGraph.skel_ends hsk).trans hfresh.ends_eq
  have hstart : st0.m_graph.start_node = c.start_node :=
    (PathGraph.skel_start hsk).trans hfresh.start_eq
  have hend : st0.m_graph.end_node = c.end_node := (PathGraph.skel_end hsk).trans hfresh.end_eq
  have hus : st0.m_graph.end_node ≠ st0.m_graph.start_node := by
    rw [hstart, hend]; exact Ne.symm hse
  have hfuel0 : st0.m_graph.nodes.length ≤ fuel := by
    rw [PathGraph.skel_nodes_length hsk, hfresh.len]; exact hfuel
  obtain ⟨st1, es, vs, hstep, hch, hlen, hvs, hedges, hnodes, hq, _, hfe⟩ :=
    hinv0.finish_chain rfl hus hfuel0
  have hdist : IsDist st0.m_graph.ends st0.m_graph.start_node st0.m_graph.end_node k0 :=
    hinv0.distA _ (List.mem_cons_self _ _)
  have hpath := hch.back_path
  have hsimple := hpath.nodup_of_shortest (by
    rw [List.length_reverse, hlen]; exact hdist.2)
  obtain ⟨vs1, hvs1⟩ := hch.nodes_head hus
  have hnd : vs.Nodup := List.nodup_reverse.1 hsimple.2.1
  have hend_tail : st0.m_graph.end_node ∉ vs.tail := by
    rw [hvs1] at hnd ⊢
    exact (List.nodup_cons.1 hnd).1
  have hstart_vs : st0.m_graph.start_node ∉ vs := hch.back_start_not_mem
  obtain ⟨snode, hsnode, hsstate⟩ := hinv0.start_visited hus
  obtain ⟨enode, henode, _⟩ := hvs st0.m_graph.end_node (by rw [hvs1]; simp)
  have hsteps1 : BFSGraphAlgorithm.steps fuel (j + 1) (BFSGraphAlgorithm.new g) = .ok st0 := by
    simp only [BFSGraphAlgorithm.steps, BFSGraphAlgorithm.nextStep_first, hsteps]
  have hs1 := hnodes _ snode hsnode
  rw [if_neg (fun hm => hstart_vs (List.mem_of_mem_tail hm)), if_neg (Ne.symm hus)] at hs1
  have he1 := hnodes _ enode henode
  rw [if_neg hend_tail, if_pos rfl] at he1
  rw [hends, hstart, hend] at hpath
  rw [hends, hstart, hend, ← hlen] at hdist
  rw [hstart] at hstart_vs hs1
  rw [hend] at hend_tail he1 hch hnodes
  refine ⟨g, j + 1, st0, st1, A0 ++ B0, es, vs, hnew, hsteps1, hinv0.first, hinv0.not_found,
    ?_, hstep, hfe, hq, hch, hpath, hdist, hstart_vs, hend_tail, hedges, hnodes,
    ⟨_, hs1, hsstate⟩, ⟨_, he1, rfl⟩⟩
  rw [hinv0.queue_eq, hend]
  rfl

theorem bfs_end_step_marks_chain_witness :
    diamondPathConfig.WellFormed ∧ diamondPathConfig.start_node ≠ diamondPathConfig.end_node ∧
    Reachable diamondPathConfig.edges diamondPathConfig.start_node
      diamondPathConfig.end_node ∧
    ∃ (g : PathGraph) (n : Nat) (st0 st1 : BFSGraphAlgorithm) (q es vs : List Nat),
      PathGraph.new diamondPathConfig (fun _ => 0) = .ok g ∧
      BFSGraphAlgorithm.steps 4 n (BFSGraphAlgorithm.new g) = .ok st0 ∧
      st0.m_first_step = false ∧ st0.m_found_end = false ∧
      st0.m_unvisited_node_queue = diamondPathConfig.end_node :: q ∧
      BFSGraphAlgorithm.nextStep 4 st0 = .ok (true, st1) ∧
      st1.m_found_end = true ∧ st1.m_unvisited_node_queue = q ∧
      BackChain st0.m_graph diamondPathConfig.end_node es vs ∧
      PathFrom diamondPathConfig.edges diamondPathConfig.start_node
        diamondPathConfig.end_node es.reverse vs.reverse ∧
      IsDist diamondPathConfig.edges diamondPathConfig.start_node
        diamondPathConfig.end_node es.length ∧
      diamondPathConfig.start_node ∉ vs ∧ diamondPathConfig.end_node ∉ vs.tail ∧
      (∀ (ej : Nat) (ee : PathEdge), st0.m_graph.edges[ej]? = some ee →
        st1.m_graph.edges[ej]? = some (if ej ∈ es then
          { ee with state := PathEdgeState.OnShortestPath } else ee)) ∧
      (∀ (x : Nat) (nd : PathNode), st0.m_graph.nodes[x]? = some nd →
        st1.m_graph.nodes[x]? = some (if x ∈ vs.tail then
          { nd with state := PathNodeState.OnShortestPath }
          else if x = diamondPathConfig.end_node then
            { nd with state := PathNodeState.Visited } else nd)) ∧
      (∃ nd : PathNode, st1.m_graph.nodes[diamondPathConfig.start_node]? = some nd ∧
        nd.state = PathNodeState.Visited) ∧
      (∃ nd : PathNode, st1.m_graph.nodes[diamondPathConfig.end_node]? = some nd ∧
        nd.state = PathNodeState.Visited) :=
  ⟨by decide, by decide, ⟨2, Walk.step (v := 1) (Walk.step (v := 0) (Walk.refl 0) (by decide))
      (by decide)⟩,
    bfs_end_step_marks_chain diamondPathConfig (fun _ => 0) 4 (by decide) (by decide)
      ⟨2, Walk.step (v := 1) (Walk.step (v := 0) (Walk.refl 0) (by decide)) (by decide)⟩
      (by decide)⟩

/-! ## Back-pointers record shortest paths in every reachable state -/

theorem ParentLinks.of_marked_off_start {g g1 : PathGraph} (h : ParentLinks g)
    (hsk : g1.skel = g.skel)
    (hnodes : ∀ (v : Nat) (nd1 : PathNode), g1.nodes[v]? = some nd1 → v ≠ g.start_node →
      ∃ nd : PathNode, g.nodes[v]? = some nd ∧ nd.entered_by = nd1.entered_by ∧
        (nd1.state ≠ PathNodeState.NotFound → nd.state ≠ PathNodeState.NotFound))
    (hback : ∀ (v : Nat) (nd : PathNode), g.nodes[v]? = some nd →
      nd.state ≠ PathNodeState.NotFound →
      ∃ nd1 : PathNode, g1.nodes[v]? = some nd1 ∧ nd1.state ≠ PathNodeState.NotFound) :
    ParentLinks g1 := by
  intro v nd1 hv1 hs1 hvs
  rw [PathGraph.skel_start hsk] at hvs
  rw [PathGraph.skel_ends hsk, PathGraph.skel_start hsk]
  obtain ⟨nd, hnd, hent, hst⟩ := hnodes v nd1 hv1 hvs
  obtain ⟨e, unode, d, he, hto, hun, hus, hd1, hd2⟩ := h v nd hnd (hst hs1) hvs
  obtain ⟨e1, he1⟩ : ∃ e1, g1.edges[nd1.entered_by]? = some e1 := by
    apply getElem?_of_lt
    rw [PathGraph.skel_edges_length hsk, ← hent]
    exact getElem?_lt he
  obtain ⟨e', he', hf, ht⟩ := PathGraph.skel_edges hsk he1
  rw [← hent, he] at he'
  cases he'
  obtain ⟨un1, hun1, hus1⟩ := hback _ unode hun hus
  exact ⟨e1, un1, d, he1, by rw [← ht]; exact hto, by rw [← hf]; exact hun1, hus1,
    by rw [← hf]; exact hd1, hd2⟩

theorem BFSInv.finish_links {fuel : Nat} {st st1 : BFSGraphAlgorithm} {k u : Nat}
    {A B : List Nat} {b : Bool} (h : BFSInv st k (u :: A) B) (hu : u = st.m_graph.end_node)
    (hfuel : st.m_graph.nodes.length ≤ fuel)
    (hstep : BFSGraphAlgorithm.nextStep fuel st = .ok (b, st1)) :
    ParentLinks st1.m_graph := by
  have hsk := (BFSGraphAlgorithm.nextStep_frame hstep).1
  by_cases hus : u = st.m_graph.start_node
  · -- start and end coincide: only the start node is written
    obtain ⟨node0, hnode0, _⟩ := h.queue_state u (List.mem_cons_self _ _)
    have hflags := h.wf.flags u node0 hnode0
    have hend0 : node0.is_end_node = true := by rw [hflags.2]; simp [hu]
    have hstart0 : node0.is_start_node = true := by rw [hflags.1]; simp [hus]
    let node : PathNode := { node0 with state := PathNodeState.Visited }
    let g1 : PathGraph := { st.m_graph with nodes := st.m_graph.nodes.set u node }
    have hmark : BFSGraphAlgorithm.markUsed g1 node = .ok g1 := by
      unfold BFSGraphAlgorithm.markUsed
      have hfl : node.is_start_node = true := hstart0
      rw [if_pos hfl]
    have hstep1 := @BFSGraphAlgorithm.nextStep_end_start fuel st u (A ++ B) node0 g1
      h.first h.not_found h.queue_eq hnode0 hend0 hstart0 hmark
    rw [hstep1] at hstep
    simp only [Except.ok.injEq, Prod.mk.injEq] at hstep
    obtain ⟨_, hst1⟩ := hstep
    have hn1 : st1.m_graph.nodes = (st.m_graph.nodes.set u node).set u
        { node0 with state := PathNodeState.OnShortestPath } := by
      rw [← hst1]
    have hlt : u < st.m_graph.nodes.length := getElem?_lt hnode0
    apply h.parentLinks.of_marked_off_start hsk
    · intro v nd1 hv1 hvs
      rw [hn1, List.getElem?_set_ne (by rw [hus]; exact Ne.symm hvs),
        List.getElem?_set_ne (by rw [hus]; exact Ne.symm hvs)] at hv1
      exact ⟨nd1, hv1, rfl, fun hs => hs⟩
    · intro v nd hv hs
      rw [hn1]
      by_cases hvu : v = u
      · subst hvu
        rw [List.getElem?_set_self (by simpa using hlt)]
        exact ⟨_, rfl, by simp⟩
      · rw [List.getElem?_set_ne (Ne.symm hvu), List.getElem?_set_ne (Ne.symm hvu)]
        exact ⟨nd, hv, hs⟩
  · obtain ⟨st2, es, vs, hstep2, hch, _, hvs, _, hnodes, _, _, _⟩ :=
      h.finish_chain hu hus hfuel
    rw [hstep2] at hstep
    simp only [Except.ok.injEq, Prod.mk.injEq] at hstep
    obtain ⟨_, hst1⟩ := hstep
    subst hst1
    obtain ⟨vs1, hvs1⟩ := hch.nodes_head hus
    apply h.parentLinks.of_marked hsk
    · intro v nd1 hv1
      have hlt : v < st.m_graph.nodes.length := by
        rw [← PathGraph.skel_nodes_length hsk]
        exact getElem?_lt hv1
      obtain ⟨nd, hnd⟩ := getElem?_of_lt hlt
      have h1 := hnodes v nd hnd
      rw [hv1] at h1
      simp only [Option.some.injEq] at h1
      refine ⟨nd, hnd, ?_, ?_⟩
      · rw [h1]
        split
        · rfl
        · split <;> rfl
      · intro _
        by_cases hm : v ∈ vs
        · obtain ⟨ndx, hndx, hsx⟩ := hvs v hm
          rw [hnd] at hndx
          cases hndx
          exact hsx
        · have hmt : v ∉ vs.tail := fun hm1 => hm (List.mem_of_mem_tail hm1)
          have hvu : v ≠ u := by
            intro hvu
            apply hm
            rw [hvs1, hvu]
            exact List.mem_cons_self _ _
          rw [if_neg hmt, if_neg hvu] at h1
          rw [← h1]
          assumption
    · intro v nd hv hs
      refine ⟨_, hnodes v nd hv, ?_⟩
      split
      · simp
      · split
        · simp
        · exact hs

theorem BFSReach.links_next {c : PathGraphConfig} {g : PathGraph} (hf : PathGraph.Fresh c g)
    {fuel : Nat} (hfuel : g.nodes.length ≤ fuel) {s s1 : BFSGraphAlgorithm} {b : Bool}
    (h : BFSReach g s) (hl : ParentLinks s.m_graph)
    (hstep : BFSGraphAlgorithm.nextStep fuel s = .ok (b, s1)) : ParentLinks s1.m_graph := by
  obtain ⟨hsk, _, _, hcase⟩ := h
  rcases hcase with hnew | ⟨k, A, B, hinv⟩ | ⟨P, V, d, hfound⟩
  · subst hnew
    rw [BFSGraphAlgorithm.nextStep_first] at hstep
    simp only [Except.ok.injEq, Prod.mk.injEq] at hstep
    rw [← hstep.2]
    exact (BFSInv.init c g hf).parentLinks
  · have hnorm : (A = [] ∧ B = []) ∨ ∃ k1 u A1 B1, BFSInv s k1 (u :: A1) B1 := by
      cases A with
      | nil =>
        cases B with
        | nil => exact Or.inl ⟨rfl, rfl⟩
        | cons b B1 => exact Or.inr ⟨k + 1, b, B1, [], hinv.relevel⟩
      | cons a A1 => exact Or.inr ⟨k, a, A1, B, hinv⟩
    rcases hnorm with ⟨hA, hB⟩ | ⟨k1, u, A1, B1, h1⟩
    · subst hA; subst hB
      rw [BFSGraphAlgorithm.nextStep_empty hinv.first hinv.queue_eq] at hstep
      simp only [Except.ok.injEq, Prod.mk.injEq] at hstep
      rw [← hstep.2]
      exact hl
    · by_cases hu : u = s.m_graph.end_node
      · exact h1.finish_links hu (by rw [PathGraph.skel_nodes_length hsk]; exact hfuel) hstep
      · obtain ⟨st1, N, hstep1, hinv1, _, _⟩ := @BFSInv.step fuel _ _ _ _ _ h1 hu
        rw [hstep1] at hstep
        simp only [Except.ok.injEq, Prod.mk.injEq] at hstep
        rw [← hstep.2]
        exact hinv1.parentLinks
  · rw [BFSGraphAlgorithm.nextStep_found hfound.first hfound.found] at hstep
    simp only [Except.ok.injEq, Prod.mk.injEq] at hstep
    rw [← hstep.2]
    exact hl

theorem BFSReach.steps_links {c : PathGraphConfig} {g : PathGraph} (hf : PathGraph.Fresh c g)
    {fuel : Nat} (hfuel : g.nodes.length ≤ fuel) :
    ∀ (k : Nat) (s : BFSGraphAlgorithm), BFSReach g s → ParentLinks s.m_graph →
      ∃ s1 : BFSGraphAlgorithm, BFSGraphAlgorithm.steps fuel k s = .ok s1 ∧ BFSReach g s1 ∧
        ParentLinks s1.m_graph := by
  intro k
  induction k with
  | zero => intro s h hl; exact ⟨s, rfl, h, hl⟩
  | succ k ih =>
    intro s h hl
    obtain ⟨b, s1, hstep, h1⟩ := h.next hf hfuel
    obtain ⟨s2, hsteps, h2, hl2⟩ := ih s1 h1 (h.links_next hf hfuel hl hstep)
    exact ⟨s2, by simp only [BFSGraphAlgorithm.steps, hstep, hsteps], h2, hl2⟩

/-- C27: for every well-formed path graph and every state reached by `k` calls of `nextStep`
(every such run returns): for every node `v` other than the start node whose state is not
`NotFound`, `entered_by` is a valid edge index, the edge it names ends in `v`, and following the
`entered_by` back-pointers from `v` (first over that edge) reaches the start node after
exactly `d` edges, where `d` is the shortest edge-count distance from the start node to `v`. -/
theorem bfs_back_pointers_shortest (c : PathGraphConfig) (gb : Nat → Nat) (fuel k : Nat)
    (hc : c.WellFormed) (hfuel : c.nodes.length ≤ fuel) :
    ∃ (g : PathGraph) (s : BFSGraphAlgorithm),
      PathGraph.new c gb = .ok g ∧
      BFSGraphAlgorithm.steps fuel k (BFSGraphAlgorithm.new g) = .ok s ∧
      ∀ (v : Nat) (node : PathNode), s.m_graph.nodes[v]? = some node → v ≠ c.start_node →
        node.state ≠ PathNodeState.NotFound →
        ∃ (e : PathEdge) (es vs : List Nat) (d : Nat),
          node.entered_by < c.edges.length ∧
          s.m_graph.edges[node.entered_by]? = some e ∧ e.to_node_index = v ∧
          BackChain s.m_graph v es vs ∧ es.head? = some node.entered_by ∧
          es.length = d ∧ IsDist c.edges c.start_node v d := by
  obtain ⟨g, hnew, hfresh⟩ := PathGraph.new_spec c gb hc
  have hfuel0 : g.nodes.length ≤ fuel := by rw [hfresh.len]; exact hfuel
  have hl0 : ParentLinks (BFSGraphAlgorithm.new g).m_graph := by
    intro v node hv hs _
    exact absurd (hfresh.node_init v node hv) hs
  obtain ⟨s, hsteps, hreach, hl⟩ := BFSReach.steps_links hfresh hfuel0 k
    (BFSGraphAlgorithm.new g) ⟨rfl, rfl, rfl, Or.inl rfl⟩ hl0
  have hsk := hreach.1
  have hends : s.m_graph.ends = c.edges := (PathGraph.skel_ends hsk).trans hfresh.ends_eq
  have hstart : s.m_graph.start_node = c.start_node :=
    (PathGraph.skel_start hsk).trans hfresh.start_eq
  refine ⟨g, s, hnew, hsteps, ?_⟩
  intro v node hv hvs hs
  have hvs1 : v ≠ s.m_graph.start_node := by rw [hstart]; exact hvs
  obtain ⟨e, unode, d, he, hto, _, _, _, hd2⟩ := hl v node hv hs hvs1
  obtain ⟨es, vs, hch, hlen, _⟩ := BackChain.of_links hl (d + 1) v node hv (fun _ => hs) hd2
  have hhead : es.head? = some node.entered_by := by
    cases hch with
    | start => exact absurd rfl hvs1
    | @link _ node1 _ _ _ _ hv1 _ _ _ =>
      rw [hv] at hv1
      cases hv1
      rfl
  have hlt : node.entered_by < c.edges.length := by
    rw [← hfresh.edges_len, ← PathGraph.skel_edges_length hsk]
    exact getElem?_lt he
  rw [hends, hstart] at hd2
  exact ⟨e, es, vs, d + 1, hlt, he, hto, hch, hhead, hlen, hd2⟩

theorem bfs_back_pointers_shortest_witness :
    diamondPathConfig.WellFormed ∧
    ∃ (g : PathGraph) (s : BFSGraphAlgorithm),
      PathGraph.new diamondPathConfig (fun _ => 0) = .ok g ∧
      BFSGraphAlgorithm.steps 4 3 (BFSGraphAlgorithm.new g) = .ok s ∧
      ∀ (v : Nat) (node : PathNode), s.m_graph.nodes[v]? = some node →
        v ≠ diamondPathConfig.start_node → node.state ≠ PathNodeState.NotFound →
        ∃ (e : PathEdge) (es vs : List Nat) (d : Nat),
          node.entered_by < diamondPathConfig.edges.length ∧
          s.m_graph.edges[node.entered_by]? = some e ∧ e.to_node_index = v ∧
          BackChain s.m_graph v es vs ∧ es.head? = some node.entered_by ∧
          es.length = d ∧
          IsDist diamondPathConfig.edges diamondPathConfig.start_node v d :=
  ⟨by decide, bfs_back_pointers_shortest diamondPathConfig (fun _ => 0) 4 3 (by decide)
    (by decide)⟩

/-! ## What the neighbour loop of `BFSGraphAlgorithm::nextStep` writes, exactly -/

theorem exists_first_split {α : Type} (p : α → Prop) :
    ∀ (l : List α), (∃ a ∈ l, p a) →
      ∃ (pre : List α) (a : α) (post : List α), l = pre ++ a :: post ∧ p a ∧
        ∀ b ∈ pre, ¬ p b := by
  intro l
  induction l with
  | nil => rintro ⟨a, ha, _⟩; cases ha
  | cons x rest ih =>
    rintro ⟨a, ha, hpa⟩
    by_cases hx : p x
    · exact ⟨[], x, rest, rfl, hx, fun b hb => by cases hb⟩
    · have hrest : ∃ a ∈ rest, p a := by
        rcases List.mem_cons.1 ha with h1 | h1
        · subst h1; exact absurd hpa hx
        · exact ⟨a, h1, hpa⟩
      obtain ⟨pre, a1, post, hsplit, hp1, hpre⟩ := ih hrest
      refine ⟨x :: pre, a1, post, by rw [hsplit]; rfl, hp1, ?_⟩
      intro b hb
      rcases List.mem_cons.1 hb with h1 | h1
      · subst h1; exact hx
      · exact hpre b h1

theorem BFSGraphAlgorithm.scanNeighbours_exact (es : List Nat) :
    ∀ (g : PathGraph) (q : List Nat),
      (∀ ei ∈ es, ∃ e : PathEdge, g.edges[ei]? = some e ∧ e.to_node_index < g.nodes.length) →
      ∃ (g1 : PathGraph) (D : List Nat),
        BFSGraphAlgorithm.scanNeighbours es g q = .ok (g1, q ++ D.filterMap g.targetOf) ∧
        D.Sublist es ∧ (D.filterMap g.targetOf).Nodup ∧
        (∀ ei, ei ∈ D ↔ ∃ (pre post : List Nat) (w : Nat) (nd : PathNode),
          es = pre ++ ei :: post ∧ g.targetOf ei = some w ∧ g.nodes[w]? = some nd ∧
          nd.state = PathNodeState.NotFound ∧ ∀ ej ∈ pre, g.targetOf ej ≠ some w) ∧
        (∀ (ej : Nat) (e : PathEdge), g.edges[ej]? = some e →
          g1.edges[ej]? = some (if ej ∈ D then
            { e with state := PathEdgeState.Peeked } else e)) ∧
        (∀ (x : Nat) (nd : PathNode), g.nodes[x]? = some nd →
          (∀ ei ∈ D, g.targetOf ei ≠ some x) → g1.nodes[x]? = some nd) ∧
        (∀ ei ∈ D, ∀ (x : Nat) (nd : PathNode), g.targetOf ei = some x →
          g.nodes[x]? = some nd →
          g1.nodes[x]? = some { nd with state := PathNodeState.Found, entered_by := ei }) := by
  induction es with
  | nil =>
    intro g q _
    refine ⟨g, [], by simp [BFSGraphAlgorithm.scanNeighbours], List.Sublist.slnil, by simp,
      ?_, ?_, ?_, ?_⟩
    · intro ei
      constructor
      · intro h; cases h
      · rintro ⟨pre, post, _, _, hsplit, _⟩
        cases pre <;> cases hsplit
    · intro ej e he; simp [he]
    · intro x nd hx _; exact hx
    · intro ei h; cases h
  | cons ei rest ih =>
    intro g q hpre
    obtain ⟨e, he, hto⟩ := hpre ei (List.mem_cons_self _ _)
    obtain ⟨nb, hnb⟩ := getElem?_of_lt hto
    have htgt : g.targetOf ei = some e.to_node_index := by
      simp [PathGraph.targetOf, he]
    unfold BFSGraphAlgorithm.scanNeighbours
    simp only [he, hnb]
    by_cases hstate : nb.state = PathNodeState.NotFound
    · rw [if_pos hstate]
      let ep : PathEdge := { e with state := PathEdgeState.Peeked }
      let nf : PathNode := { nb with state := PathNodeState.Found, entered_by := ei }
      let gA : PathGraph := { g with edges := g.edges.set ei ep }
      let g2 : PathGraph :=
        { g with edges := g.edges.set ei ep, nodes := g.nodes.set e.to_node_index nf }
      have hskA : gA.skel = g.skel := PathGraph.skel_set_edge g he rfl rfl
      have hskB : g2.skel = gA.skel :=
        @PathGraph.skel_set_node gA e.to_node_index nb nf hnb rfl rfl rfl
      have hsk2 : g2.skel = g.skel := hskB.trans hskA
      have hT : ∀ j, g2.targetOf j = g.targetOf j := PathGraph.targetOf_skel hsk2
      have hedge2 : ∀ (ej : Nat) (ee : PathEdge), g.edges[ej]? = some ee →
          g2.edges[ej]? = some (if ej = ei then
            { ee with state := PathEdgeState.Peeked } else ee) := by
        intro ej ee hee
        show (g.edges.set ei ep)[ej]? = _
        by_cases hji : ej = ei
        · subst hji
          rw [he] at hee
          cases hee
          rw [List.getElem?_set_self (getElem?_lt he)]
          simp [ep]
        · rw [List.getElem?_set_ne (Ne.symm hji), hee]
          simp [hji]
      have hnodeW : g2.nodes[e.to_node_index]? = some nf := by
        show (g.nodes.set e.to_node_index nf)[e.to_node_index]? = _
        rw [List.getElem?_set_self hto]
      have hnodeX : ∀ x, x ≠ e.to_node_index → g2.nodes[x]? = g.nodes[x]? := by
        intro x hx
        show (g.nodes.set e.to_node_index nf)[x]? = _
        rw [List.getElem?_set_ne (Ne.symm hx)]
      have hpre2 : ∀ ej ∈ rest, ∃ e2 : PathEdge, g2.edges[ej]? = some e2 ∧
          e2.to_node_index < g2.nodes.length := by
        intro ej hej
        obtain ⟨ee, hee, hlt⟩ := hpre ej (List.mem_cons_of_mem _ hej)
        refine ⟨_, hedge2 ej ee hee, ?_⟩
        rw [PathGraph.skel_nodes_length hsk2]
        split <;> exact hlt
      obtain ⟨g1, D, hrun, hsub, hnd, hmem, hedges, hkeep, hfound⟩ :=
        ih g2 (q ++ [e.to_node_index]) hpre2
      have hfm : D.filterMap g2.targetOf = D.filterMap g.targetOf := by
        congr 1
        funext j
        exact hT j
      rw [hfm] at hrun hnd
      have hwD : ∀ ej ∈ D, g.targetOf ej ≠ some e.to_node_index := by
        intro ej hej htj
        obtain ⟨_, _, w, nd, _, hw, hndw, hs, _⟩ := (hmem ej).1 hej
        rw [hT, htj] at hw
        cases hw
        rw [hnodeW] at hndw
        cases hndw
        simp [nf] at hs
      refine ⟨g1, ei :: D, ?_, hsub.cons₂ _, ?_, ?_, ?_, ?_, ?_⟩
      · rw [hrun]
        simp [List.filterMap_cons, htgt]
      · rw [List.filterMap_cons, htgt]
        refine List.nodup_cons.2 ⟨?_, hnd⟩
        intro hm
        obtain ⟨ej, hej, htj⟩ := List.mem_filterMap.1 hm
        exact hwD ej hej htj
      · intro ei0
        constructor
        · intro hm
          rcases List.mem_cons.1 hm with h1 | h1
          · subst h1
            exact ⟨[], rest, e.to_node_index, nb, rfl, htgt, hnb, hstate,
              fun ej hej => by cases hej⟩
          · obtain ⟨pre, post, w, nd, hsplit, hw, hndw, hs, hfirst⟩ := (hmem ei0).1 h1
            have hww : w ≠ e.to_node_index := by
              intro hww
              rw [hww, hnodeW] at hndw
              cases hndw
              simp [nf] at hs
            rw [hT] at hw
            rw [hnodeX w hww] at hndw
            refine ⟨ei :: pre, post, w, nd, by rw [hsplit]; rfl, hw, hndw, hs, ?_⟩
            intro ej hej
            rcases List.mem_cons.1 hej with h2 | h2
            · subst h2
              rw [htgt]
              intro hc
              cases hc
              exact hww rfl
            · rw [← hT]
              exact hfirst ej h2
        · rintro ⟨pre, post, w, nd, hsplit, hw, hndw, hs, hfirst⟩
          cases pre with
          | nil =>
            simp only [List.nil_append, List.cons.injEq] at hsplit
            rw [hsplit.1]
            exact List.mem_cons_self _ _
          | cons p pre1 =>
            simp only [List.cons_append, List.cons.injEq] at hsplit
            obtain ⟨hp, hrest⟩ := hsplit
            have hww : w ≠ e.to_node_index := by
              intro hww
              apply hfirst p (List.mem_cons_self _ _)
              rw [← hp, htgt, hww]
            refine List.mem_cons_of_mem _ ((hmem ei0).2 ⟨pre1, post, w, nd, hrest, ?_, ?_, hs, ?_⟩)
            · rw [hT]; exact hw
            · rw [hnodeX w hww]; exact hndw
            · intro ej hej
              rw [hT]
              exact hfirst ej (List.mem_cons_of_mem _ hej)
      · intro ej ee hee
        rw [hedges ej _ (hedge2 ej ee hee)]
        by_cases hji : ej = ei
        · subst hji
          simp
        · by_cases hm : ej ∈ D
          · simp [hji, hm]
          · simp [hji, hm]
      · intro x nd hx hno
        have hxw : x ≠ e.to_node_index := by
          intro hxw
          apply hno ei (List.mem_cons_self _ _)
          rw [htgt, hxw]
        apply hkeep x nd (by rw [hnodeX x hxw]; exact hx)
        intro ej hej
        rw [hT]
        exact hno ej (List.mem_cons_of_mem _ hej)
      · intro ei0 hm x nd htx hx
        by_cases h1 : ei0 = ei
        · subst h1
          rw [htgt] at htx
          cases htx
          rw [hnb] at hx
          cases hx
          apply hkeep _ nf hnodeW
          intro ej hej
          rw [hT]
          exact hwD ej hej
        · have h2 : ei0 ∈ D := by
            rcases List.mem_cons.1 hm with h3 | h3
            · exact absurd h3 h1
            · exact h3
          have hxw : x ≠ e.to_node_index := by
            intro hxw
            apply hwD ei0 h2
            rw [htx, hxw]
          exact hfound ei0 h2 x nd (by rw [hT]; exact htx) (by rw [hnodeX x hxw]; exact hx)
    · rw [if_neg hstate]
      obtain ⟨g1, D, hrun, hsub, hnd, hmem, hedges, hkeep, hfound⟩ :=
        ih g q (fun ej hej => hpre ej (List.mem_cons_of_mem _ hej))
      refine ⟨g1, D, hrun, hsub.cons _, hnd, ?_, hedges, hkeep, hfound⟩
      intro ei0
      constructor
      · intro hm
        obtain ⟨pre, post, w, nd, hsplit, hw, hndw, hs, hfirst⟩ := (hmem ei0).1 hm
        refine ⟨ei :: pre, post, w, nd, by rw [hsplit]; rfl, hw, hndw, hs, ?_⟩
        intro ej hej
        rcases List.mem_cons.1 hej with h2 | h2
        · subst h2
          rw [htgt]
          intro hc
          cases hc
          rw [hnb] at hndw
          cases hndw
          exact hstate hs
        · exact hfirst ej h2
      · rintro ⟨pre, post, w, nd, hsplit, hw, hndw, hs, hfirst⟩
        cases pre with
        | nil =>
          exfalso
          simp only [List.nil_append, List.cons.injEq] at hsplit
          rw [← hsplit.1, htgt] at hw
          cases hw
          rw [hnb] at hndw
          cases hndw
          exact hstate hs
        | cons p pre1 =>
          simp only [List.cons_append, List.cons.injEq] at hsplit
          exact (hmem ei0).2 ⟨pre1, post, w, nd, hsplit.2, hw, hndw, hs,
            fun ej hej => hfirst ej (List.mem_cons_of_mem _ hej)⟩

/-! ## One traversal step of `BFSGraphAlgorithm::nextStep` -/

theorem BFSInv.scan_step_exact {fuel : Nat} {st : BFSGraphAlgorithm} {k v : Nat}
    {A B : List Nat} (h : BFSInv st k (v :: A) B) (hv : v ≠ st.m_graph.end_node) :
    ∃ (node : PathNode) (st1 : BFSGraphAlgorithm) (D : List Nat),
      st.m_graph.nodes[v]? = some node ∧
      BFSGraphAlgorithm.nextStep fuel st = .ok (true, st1) ∧
      st1.m_unvisited_node_queue = (A ++ B) ++ D.filterMap st.m_graph.targetOf ∧
      st1.m_first_step = false ∧ st1.m_found_end = false ∧
      st1.m_graph.skel = st.m_graph.skel ∧
      D.Sublist node.edges ∧ (D.filterMap st.m_graph.targetOf).Nodup ∧
      (∀ ei, ei ∈ D ↔ ∃ (pre post : List Nat) (w : Nat) (nd : PathNode),
        node.edges = pre ++ ei :: post ∧ st.m_graph.targetOf ei = some w ∧
        (st.m_graph.nodes.set v { node with state := PathNodeState.Visited })[w]? = some nd ∧
        nd.state = PathNodeState.NotFound ∧ ∀ ej ∈ pre, st.m_graph.targetOf ej ≠ some w) ∧
      st1.m_graph.nodes[v]? = some { node with state := PathNodeState.Visited } ∧
      (∀ ei ∈ D, ∀ (w : Nat) (nd : PathNode), st.m_graph.targetOf ei = some w →
        st.m_graph.nodes[w]? = some nd →
        st1.m_graph.nodes[w]? =
          some { nd with state := PathNodeState.Found, entered_by := ei }) ∧
      (∀ (x : Nat) (nd : PathNode), st.m_graph.nodes[x]? = some nd → x ≠ v →
        (∀ ei ∈ D, st.m_graph.targetOf ei ≠ some x) → st1.m_graph.nodes[x]? = some nd) ∧
      (∀ (ej : Nat) (e : PathEdge), st.m_graph.edges[ej]? = some e →
        st1.m_graph.edges[ej]? = some (if ej ∈ D then
          { e with state := PathEdgeState.Peeked }
          else if v ≠ st.m_graph.start_node ∧ ej = node.entered_by then
            { e with state := PathEdgeState.Used } else e)) ∧
      (v ≠ st.m_graph.start_node → ∃ e : PathEdge,
        st.m_graph.edges[node.entered_by]? = some e ∧ e.to_node_index = v ∧
        node.entered_by ∉ D) := by
  obtain ⟨g, q0, f0, e0⟩ := st
  have hwf : g.WF := h.wf
  obtain ⟨node0, hnode0, hstate0⟩ := h.queue_state v (List.mem_cons_self _ _)
  simp only at hnode0 hstate0 hv
  have hflags := hwf.flags v node0 hnode0
  have hend0 : node0.is_end_node = false := by rw [hflags.2]; simp [hv]
  let node : PathNode := { node0 with state := PathNodeState.Visited }
  let g1 : PathGraph := { g with nodes := g.nodes.set v node }
  have hsk1 : g1.skel = g.skel := PathGraph.skel_set_node g hnode0 rfl rfl rfl
  have hm : ∃ g2 : PathGraph, BFSGraphAlgorithm.markUsed g1 node = .ok g2 ∧
      ∀ (ej : Nat) (ee : PathEdge), g.edges[ej]? = some ee →
        g2.edges[ej]? = some (if v ≠ g.start_node ∧ ej = node0.entered_by then
          { ee with state := PathEdgeState.Used } else ee) := by
    by_cases hvs : v = g.start_node
    · refine ⟨g1, ?_, ?_⟩
      · unfold BFSGraphAlgorithm.markUsed
        have hfl : node.is_start_node = true := by
          show node0.is_start_node = true
          rw [hflags.1]; simp [hvs]
        rw [if_pos hfl]
      · intro ej ee hee
        rw [if_neg (fun hc => hc.1 hvs)]
        exact hee
    · have hs0 : node0.state ≠ PathNodeState.NotFound := by
        rcases hstate0 with hs | ⟨_, hs, _⟩
        · rw [hs]; simp
        · exact absurd hs hvs
      obtain ⟨e, _, _, he, _⟩ := h.parent v node0 hnode0 hs0 hvs
      simp only at he
      let eu : PathEdge := { e with state := PathEdgeState.Used }
      refine ⟨{ g1 with edges := g1.edges.set node0.entered_by eu }, ?_, ?_⟩
      · unfold BFSGraphAlgorithm.markUsed
        have hfl : ¬ node.is_start_node = true := by
          show ¬ node0.is_start_node = true
          rw [hflags.1]; simp [hvs]
        rw [if_neg hfl]
        have : g1.edges[node.entered_by]? = some e := he
        simp only [this]
      · intro ej ee hee
        show (g.edges.set node0.entered_by eu)[ej]? = _
        by_cases hji : ej = node0.entered_by
        · subst hji
          rw [he] at hee
          cases hee
          rw [List.getElem?_set_self (getElem?_lt he), if_pos ⟨hvs, rfl⟩]
        · rw [List.getElem?_set_ne (Ne.symm hji), hee, if_neg (fun hc => hji hc.2)]
  obtain ⟨g2, hmark, hedge2⟩ := hm
  obtain ⟨hsk21, _, _, hnodes2⟩ := BFSGraphAlgorithm.markUsed_frame hmark
  have hsk2 : g2.skel = g.skel := hsk21.trans hsk1
  have hwf2 : g2.WF := hwf.of_skel hsk2
  have hT : ∀ j, g2.targetOf j = g.targetOf j := PathGraph.targetOf_skel hsk2
  have hlt : v < g.nodes.length := getElem?_lt hnode0
  have hn2 : g2.nodes = g.nodes.set v node := hnodes2
  have hnode2v : g2.nodes[v]? = some node := by
    rw [hn2, List.getElem?_set_self hlt]
  have hnode2x : ∀ x, x ≠ v → g2.nodes[x]? = g.nodes[x]? := by
    intro x hx
    rw [hn2, List.getElem?_set_ne (Ne.symm hx)]
  have hpre : ∀ ei ∈ node0.edges, ∃ e : PathEdge, g2.edges[ei]? = some e ∧
      e.to_node_index < g2.nodes.length := by
    intro ei hei
    obtain ⟨e, he, _⟩ := hwf2.adj_sound v node ei hnode2v hei
    exact ⟨e, he, hwf2.to_lt ei e he⟩
  obtain ⟨g3, D, hrun, hsub, hnd, hmem, hedges, hkeep, hfound⟩ :=
    BFSGraphAlgorithm.scanNeighbours_exact node0.edges g2 (A ++ B) hpre
  have hfm : D.filterMap g2.targetOf = D.filterMap g.targetOf := by
    congr 1
    funext j
    exact hT j
  rw [hfm] at hrun hnd
  have hstep := @BFSGraphAlgorithm.nextStep_scan fuel _ v (A ++ B) node0 g2 g3 _
    h.first h.not_found h.queue_eq hnode0 hend0 hmark hrun
  have hsk3 : g3.skel = g2.skel := (BFSGraphAlgorithm.scanNeighbours_frame _ _ _ _ _ hrun).1
  have hvD : ∀ ei ∈ D, g.targetOf ei ≠ some v := by
    intro ei hei htv
    obtain ⟨_, _, w, nd, _, hw, hndw, hs, _⟩ := (hmem ei).1 hei
    rw [hT, htv] at hw
    cases hw
    rw [hnode2v] at hndw
    cases hndw
    simp [node] at hs
  refine ⟨node0, _, D, hnode0, hstep, rfl, h.first, h.not_found, hsk3.trans hsk2, hsub, hnd,
    ?_, ?_, ?_, ?_, ?_, ?_⟩
  · intro ei
    rw [hmem ei]
    constructor
    · rintro ⟨pre, post, w, nd, hsplit, hw, hndw, hs, hfirst⟩
      refine ⟨pre, post, w, nd, hsplit, by rw [← hT]; exact hw, by rw [← hn2]; exact hndw, hs,
        fun ej hej => by rw [← hT]; exact hfirst ej hej⟩
    · rintro ⟨pre, post, w, nd, hsplit, hw, hndw, hs, hfirst⟩
      refine ⟨pre, post, w, nd, hsplit, by rw [hT]; exact hw, by rw [hn2]; exact hndw, hs,
        fun ej hej => by rw [hT]; exact hfirst ej hej⟩
  · exact hkeep v node hnode2v (fun ei hei => by rw [hT]; exact hvD ei hei)
  · intro ei hei w nd htw hw
    have hwv : w ≠ v := by
      intro hwv
      apply hvD ei hei
      rw [htw, hwv]
    exact hfound ei hei w nd (by rw [hT]; exact htw) (by rw [hnode2x w hwv]; exact hw)
  · intro x nd hx hxv hno
    exact hkeep x nd (by rw [hnode2x x hxv]; exact hx)
      (fun ei hei => by rw [hT]; exact hno ei hei)
  · intro ej e he
    show g3.edges[ej]? = _
    rw [hedges ej _ (hedge2 ej e he)]
    by_cases hm : ej ∈ D
    · rw [if_pos hm, if_pos hm]
      split <;> rfl
    · rw [if_neg hm, if_neg hm]
  · intro hvs
    have hs0 : node0.state ≠ PathNodeState.NotFound := by
      rcases hstate0 with hs | ⟨_, hs, _⟩
      · rw [hs]; simp
      · exact absurd hs hvs
    obtain ⟨e, _, _, he, hto, _⟩ := h.parent v node0 hnode0 hs0 hvs
    exact ⟨e, he, hto, fun hm => hvD _ hm (by simp [PathGraph.targetOf, he, hto])⟩

/-- C26: for every well-formed path graph and every state `s` reached by `nextStep` calls in
which the queue is `v :: q` (frontier non-empty), the end node has not been found and `v` is not
the end node, the next call returns `true` and does exactly this: `v` leaves the queue and
becomes `Visited`; when `v` is not the start node the edge `v.entered_by` becomes `Used`; with
`D` the edges of `v` that are, in adjacency order, the first edge to a node that was `NotFound`
at that point (so `D` is a sublist of the adjacency list and its targets are pairwise
distinct), the targets of `D` are exactly the `NotFound` targets of edges of `v`, each becomes
`Found` with `entered_by` its edge of `D`, every edge of `D` becomes `Peeked`, and the targets
are appended to the queue in the order of `D`; no other node or edge changes, nor do the
flags. -/
theorem bfs_traversal_step (c : PathGraphConfig) (gb : Nat → Nat) (fuel k : Nat)
    (hc : c.WellFormed) (hfuel : c.nodes.length ≤ fuel) :
    ∃ (g : PathGraph) (s : BFSGraphAlgorithm),
      PathGraph.new c gb = .ok g ∧
      BFSGraphAlgorithm.steps fuel k (BFSGraphAlgorithm.new g) = .ok s ∧
      ∀ (v : Nat) (q : List Nat), s.m_first_step = false → s.m_found_end = false →
        s.m_unvisited_node_queue = v :: q → v ≠ c.end_node →
        ∃ (node : PathNode) (s1 : BFSGraphAlgorithm) (D : List Nat),
          s.m_graph.nodes[v]? = some node ∧
          BFSGraphAlgorithm.nextStep fuel s = .ok (true, s1) ∧
          s1.m_unvisited_node_queue = q ++ D.filterMap s.m_graph.targetOf ∧
          s1.m_first_step = false ∧ s1.m_found_end = false ∧
          s1.m_graph.skel = s.m_graph.skel ∧
          D.Sublist node.edges ∧ (D.filterMap s.m_graph.targetOf).Nodup ∧
          (∀ ei, ei ∈ D ↔ ∃ (pre post : List Nat) (w : Nat) (nd : PathNode),
            node.edges = pre ++ ei :: post ∧ s.m_graph.targetOf ei = some w ∧
            (s.m_graph.nodes.set v { node with state := PathNodeState.Visited })[w]? =
              some nd ∧
            nd.state = PathNodeState.NotFound ∧
            ∀ ej ∈ pre, s.m_graph.targetOf ej ≠ some w) ∧
          (∀ w, w ∈ D.filterMap s.m_graph.targetOf ↔
            (∃ ei ∈ node.edges, s.m_graph.targetOf ei = some w) ∧
            ∃ nd : PathNode,
              (s.m_graph.nodes.set v { node with state := PathNodeState.Visited })[w]? =
                some nd ∧ nd.state = PathNodeState.NotFound) ∧
          s1.m_graph.nodes[v]? = some { node with state := PathNodeState.Visited } ∧
          (∀ ei ∈ D, ∀ (w : Nat) (nd : PathNode), s.m_graph.targetOf ei = some w →
            s.m_graph.nodes[w]? = some nd →
            s1.m_graph.nodes[w]? =
              some { nd with state := PathNodeState.Found, entered_by := ei }) ∧
          (∀ (x : Nat) (nd : PathNode), s.m_graph.nodes[x]? = some nd → x ≠ v →
            (∀ ei ∈ D, s.m_graph.targetOf ei ≠ some x) → s1.m_graph.nodes[x]? = some nd) ∧
          (∀ (ej : Nat) (e : PathEdge), s.m_graph.edges[ej]? = some e →
            s1.m_graph.edges[ej]? = some (if ej ∈ D then
              { e with state := PathEdgeState.Peeked }
              else if v ≠ c.start_node ∧ ej = node.entered_by then
                { e with state := PathEdgeState.Used } else e)) ∧
          (v ≠ c.start_node → ∃ e : PathEdge,
            s.m_graph.edges[node.entered_by]? = some e ∧ e.to_node_index = v ∧
            s1.m_graph.edges[node.entered_by]? =
              some { e with state := PathEdgeState.Used }) := by
  obtain ⟨g, hnew, hfresh⟩ := PathGraph.new_spec c gb hc
  have hfuel0 : g.nodes.length ≤ fuel := by rw [hfresh.len]; exact hfuel
  obtain ⟨s, hsteps, hreach⟩ := BFSReach.steps_total hfresh hfuel0 k
    (BFSGraphAlgorithm.new g) ⟨rfl, rfl, rfl, Or.inl rfl⟩
  refine ⟨g, s, hnew, hsteps, ?_⟩
  intro v q hfirst hfound hq hve
  obtain ⟨hsk, _, _, hcase⟩ := hreach
  have hstart : s.m_graph.start_node = c.start_node :=
    (PathGraph.skel_start hsk).trans hfresh.start_eq
  have hend : s.m_graph.end_node = c.end_node := (PathGraph.skel_end hsk).trans hfresh.end_eq
  have hinv : ∃ (k1 : Nat) (A1 B1 : List Nat), BFSInv s k1 (v :: A1) B1 ∧ q = A1 ++ B1 := by
    rcases hcase with hnew1 | ⟨k0, A, B, hinv⟩ | ⟨P, V, d, hf⟩
    · rw [hnew1] at hfirst
      cases hfirst
    · have hqe := hinv.queue_eq
      rw [hq] at hqe
      cases A with
      | nil =>
        cases B with
        | nil => cases hqe
        | cons b B1 =>
          simp only [List.nil_append, List.cons.injEq] at hqe
          obtain ⟨hvb, hqB⟩ := hqe
          subst hvb
          exact ⟨k0 + 1, B1, [], hinv.relevel, by simp [hqB]⟩
      | cons a A1 =>
        simp only [List.cons_append, List.cons.injEq] at hqe
        obtain ⟨hva, hqA⟩ := hqe
        subst hva
        exact ⟨k0, A1, B, hinv, hqA⟩
    · rw [hf.found] at hfound
      cases hfound
  obtain ⟨k1, A1, B1, hinv1, hqq⟩ := hinv
  obtain ⟨node, s1, D, hnode, hstep, hq1, hf1, hfe1, hsk1, hsub, hnd, hmem, hv1, hfoundD, hkeep,
    hedges, hused⟩ := @BFSInv.scan_step_exact fuel _ _ _ _ _ hinv1 (by rw [hend]; exact hve)
  rw [hstart] at hedges hused
  refine ⟨node, s1, D, hnode, hstep, by rw [hq1, hqq], hf1, hfe1, hsk1, hsub, hnd, hmem, ?_,
    hv1, hfoundD, hkeep, hedges, ?_⟩
  swap
  · intro hvs
    obtain ⟨e, he, hto, hnot⟩ := hused hvs
    refine ⟨e, he, hto, ?_⟩
    have h1 := hedges _ e he
    rw [if_neg hnot, if_pos ⟨hvs, rfl⟩] at h1
    exact h1
  intro w
  constructor
  · intro hw
    obtain ⟨ei, hei, htw⟩ := List.mem_filterMap.1 hw
    obtain ⟨pre, post, w1, nd, hsplit, hw1, hndw, hs, _⟩ := (hmem ei).1 hei
    rw [htw] at hw1
    cases hw1
    exact ⟨⟨ei, by rw [hsplit]; simp, htw⟩, nd, hndw, hs⟩
  · rintro ⟨hex, nd, hndw, hs⟩
    obtain ⟨pre, ei, post, hsplit, hp, hpre⟩ :=
      exists_first_split (fun ei => s.m_graph.targetOf ei = some w) node.edges hex
    exact List.mem_filterMap.2 ⟨ei, (hmem ei).2 ⟨pre, post, w, nd, hsplit, hp, hndw, hs, hpre⟩,
      hp⟩

theorem bfs_traversal_step_witness :
    diamondPathConfig.WellFormed ∧
    ∃ (g : PathGraph) (s : BFSGraphAlgorithm),
      PathGraph.new diamondPathConfig (fun _ => 0) = .ok g ∧
      BFSGraphAlgorithm.steps 4 2 (BFSGraphAlgorithm.new g) = .ok s ∧
      ∀ (v : Nat) (q : List Nat), s.m_first_step = false → s.m_found_end = false →
        s.m_unvisited_node_queue = v :: q → v ≠ diamondPathConfig.end_node →
        ∃ (node : PathNode) (s1 : BFSGraphAlgorithm) (D : List Nat),
          s.m_graph.nodes[v]? = some node ∧
          BFSGraphAlgorithm.nextStep 4 s = .ok (true, s1) ∧
          s1.m_unvisited_node_queue = q ++ D.filterMap s.m_graph.targetOf ∧
          s1.m_first_step = false ∧ s1.m_found_end = false ∧
          s1.m_graph.skel = s.m_graph.skel ∧
          D.Sublist node.edges ∧ (D.filterMap s.m_graph.targetOf).Nodup ∧
          (∀ ei, ei ∈ D ↔ ∃ (pre post : List Nat) (w : Nat) (nd : PathNode),
            node.edges = pre ++ ei :: post ∧ s.m_graph.targetOf ei = some w ∧
            (s.m_graph.nodes.set v { node with state := PathNodeState.Visited })[w]? =
              some nd ∧
            nd.state = PathNodeState.NotFound ∧
            ∀ ej ∈ pre, s.m_graph.targetOf ej ≠ some w) ∧
          (∀ w, w ∈ D.filterMap s.m_graph.targetOf ↔
            (∃ ei ∈ node.edges, s.m_graph.targetOf ei = some w) ∧
            ∃ nd : PathNode,
              (s.m_graph.nodes.set v { node with state := PathNodeState.Visited })[w]? =
                some nd ∧ nd.state = PathNodeState.NotFound) ∧
          s1.m_graph.nodes[v]? = some { node with state := PathNodeState.Visited } ∧
          (∀ ei ∈ D, ∀ (w : Nat) (nd : PathNode), s.m_graph.targetOf ei = some w →
            s.m_graph.nodes[w]? = some nd →
            s1.m_graph.nodes[w]? =
              some { nd with state := PathNodeState.Found, entered_by := ei }) ∧
          (∀ (x : Nat) (nd : PathNode), s.m_graph.nodes[x]? = some nd → x ≠ v →
            (∀ ei ∈ D, s.m_graph.targetOf ei ≠ some x) → s1.m_graph.nodes[x]? = some nd) ∧
          (∀ (ej : Nat) (e : PathEdge), s.m_graph.edges[ej]? = some e →
            s1.m_graph.edges[ej]? = some (if ej ∈ D then
              { e with state := PathEdgeState.Peeked }
              else if v ≠ diamondPathConfig.start_node ∧ ej = node.entered_by then
                { e with state := PathEdgeState.Used } else e)) ∧
          (v ≠ diamondPathConfig.start_node → ∃ e : PathEdge,
            s.m_graph.edges[node.entered_by]? = some e ∧ e.to_node_index = v ∧
            s1.m_graph.edges[node.entered_by]? =
              some { e with state := PathEdgeState.Used }) :=
  ⟨by decide, bfs_traversal_step diamondPathConfig (fun _ => 0) 4 2 (by decide) (by decide)⟩

/-! ## Flow at the start node and at the end node -/

theorem sum_filter_pointwise (p : FlowEdge → Bool) :
    ∀ (l l1 : List FlowEdge), l1.length = l.length →
      (∀ (j : Nat) (e : FlowEdge), l[j]? = some e →
        ∃ e1 : FlowEdge, l1[j]? = some e1 ∧ p e1 = p e ∧
          (p e = true → e1.current_flow = e.current_flow)) →
      ((l1.filter p).map (fun e => e.current_flow)).sum =
        ((l.filter p).map (fun e => e.current_flow)).sum := by
  intro l
  induction l with
  | nil =>
    intro l1 hlen _
    cases l1 with
    | nil => rfl
    | cons a l1 => simp at hlen
  | cons a l ih =>
    intro l1 hlen h
    cases l1 with
    | nil => simp at hlen
    | cons a1 l1 =>
      have h0 := h 0 a (by simp)
      obtain ⟨e1, he1, hp, hfl⟩ := h0
      simp only [List.getElem?_cons_zero, Option.some.injEq] at he1
      subst he1
      have ih1 := ih l1 (by simpa using hlen) (fun j e hj => by
        have := h (j + 1) e (by simpa using hj)
        simpa using this)
      simp only [List.filter_cons, hp]
      cases hpa : p a
      · simpa using ih1
      · simp only [if_true, List.map_cons, List.sum_cons, ih1, hfl hpa]

theorem FlowGraph.inflow_keep {g g1 : FlowGraph} (x : Nat)
    (hlen : g1.edges.length = g.edges.length)
    (h : ∀ (j : Nat) (e : FlowEdge), g.edges[j]? = some e →
      ∃ e1 : FlowEdge, g1.edges[j]? = some e1 ∧ e1.to_node_index = e.to_node_index ∧
        (e.to_node_index = x → e1.current_flow = e.current_flow)) :
    g1.inflow x = g.inflow x := by
  unfold FlowGraph.inflow
  apply sum_filter_pointwise _ _ _ hlen
  intro j e he
  obtain ⟨e1, he1, hto, hfl⟩ := h j e he
  exact ⟨e1, he1, by simp [hto], fun hp => hfl (by simpa using hp)⟩

theorem FlowGraph.outflow_keep {g g1 : FlowGraph} (x : Nat)
    (hlen : g1.edges.length = g.edges.length)
    (h : ∀ (j : Nat) (e : FlowEdge), g.edges[j]? = some e →
      ∃ e1 : FlowEdge, g1.edges[j]? = some e1 ∧ e1.from_node_index = e.from_node_index ∧
        (e.from_node_index = x → e1.current_flow = e.current_flow)) :
    g1.outflow x = g.outflow x := by
  unfold FlowGraph.outflow
  apply sum_filter_pointwise _ _ _ hlen
  intro j e he
  obtain ⟨e1, he1, hfrom, hfl⟩ := h j e he
  exact ⟨e1, he1, by simp [hfrom], fun hp => hfl (by simpa using hp)⟩

theorem ParentChain.edge_source {g : FlowGraph} (hwf : g.WF) {parent : List Nat}
    {start v : Nat} {es L : List Nat} (hc : ParentChain g parent start v es L) :
    ∀ ei ∈ es, ∃ e : FlowEdge, g.edges[ei]? = some e ∧
      e.from_node_index ∈ (L ++ [start]).tail := by
  induction hc with
  | nil => intro ei hei; cases hei
  | @cons v p ei es L _ _ hf hrest ih =>
    intro ej hej
    rw [List.cons_append, List.tail_cons]
    rcases List.mem_cons.1 hej with h1 | h1
    · subst h1
      obtain ⟨e, he, hfrom, _⟩ := FordFulkersonGraphAlgorithm.findEdge_ok hwf hf
      refine ⟨e, he, ?_⟩
      rw [hfrom]
      rcases hrest.head_node with ⟨hL, hp⟩ | ⟨L1, hL⟩
      · rw [hL, hp]; simp
      · rw [hL]; simp
    · obtain ⟨e, he, hm⟩ := ih ej h1
      exact ⟨e, he, List.mem_of_mem_tail hm⟩

theorem FordFulkersonGraphAlgorithm.update_balance {s : FordFulkersonGraphAlgorithm}
    (h : FFInv s) {fuel : Nat} (hfuel : s.m_graph.nodes.length < fuel)
    (hp : s.m_next_step_state = NextStepState.UpdatePath) :
    ∃ (es L : List Nat) (f : Nat) (g1 : FlowGraph),
      ParentChain s.m_graph s.m_parent s.m_start_node s.m_end_node es L ∧ L.Nodup ∧
      es ≠ [] ∧ UnsatLinks s.m_graph s.m_parent L ∧
      FordFulkersonGraphAlgorithm.updateFlow fuel s = .ok (f, g1) ∧
      FordFulkersonGraphAlgorithm.nextStep fuel s =
        .ok (true, { s with m_graph := g1, m_max_flow := sizeAdd s.m_max_flow f,
                            m_next_step_state := NextStepState.CleanGraph }) ∧
      g1.skel = s.m_graph.skel ∧
      (∀ (j : Nat) (e : FlowEdge), s.m_graph.edges[j]? = some e →
        g1.edges[j]? = some (if j ∈ es then e.augmented f else e)) ∧
      (∀ ei ∈ es, ∃ e : FlowEdge, s.m_graph.edges[ei]? = some e ∧
        f ≤ e.capacity - e.current_flow ∧ e.current_flow + f ≤ e.capacity) ∧
      (∃ ei ∈ es, ∃ e : FlowEdge, s.m_graph.edges[ei]? = some e ∧
        f = e.capacity - e.current_flow) ∧
      (∀ x : Nat, g1.inflow x + s.m_graph.outflow x +
          (if x = s.m_start_node ∧ s.m_end_node ≠ s.m_start_node then f else 0) =
        g1.outflow x + s.m_graph.inflow x +
          (if x = s.m_end_node ∧ s.m_end_node ≠ s.m_start_node then f else 0)) := by
  obtain ⟨es, L, f, g1, hchain, hL, hesnd, hne, hunsat, hf, hroom, hatt, _, _, _, _, _⟩ :=
    FordFulkersonGraphAlgorithm.nextStep_update h hfuel hp
  have hlen := hchain.fuel_bound h.wf hL
  have hbot := FordFulkersonGraphAlgorithm.bottleneck_spec hchain h.wf fuel SIZE_MAX (by omega)
  obtain ⟨g2, haug, hsk, _, hedges, hbal⟩ :=
    @FordFulkersonGraphAlgorithm.augment_spec s.m_parent s.m_start_node f s.m_graph
      s.m_end_node es L hchain s.m_graph rfl h.wf hesnd fuel (by omega)
      (fun ei hei => by
        obtain ⟨e, he, _, hle⟩ := hroom ei hei
        exact ⟨e, he, hle⟩)
  have hupd : FordFulkersonGraphAlgorithm.updateFlow fuel s = .ok (f, g2) := by
    simp only [FordFulkersonGraphAlgorithm.updateFlow, hbot, ← hf, haug]
  refine ⟨es, L, f, g2, hchain, hL, hne, hunsat, hupd, ?_, hsk, hedges, hroom, hatt, hbal⟩
  unfold FordFulkersonGraphAlgorithm.nextStep
  rw [hp]
  simp only [hupd]

/-! ## `m_max_flow` is the flow that leaves the start node, modulo `2 ^ 64` -/

theorem FlowEnds.ends_init {c : FlowGraphConfig} {g : FlowGraph} (hf : FlowGraph.Fresh c g) :
    FlowEnds (FordFulkersonGraphAlgorithm.new g) := by
  have hz := FlowGraph.inflow_zero (g := g) (fun j e he => (hf.edge_init j e he).2)
  constructor
  · show 0 = g.outflow g.start_node % SIZE_MOD
    rw [(hz _).2]
    rfl
  · show g.inflow g.end_node = g.outflow g.start_node
    rw [(hz _).1, (hz _).2]
  · exact (hz _).1
  · exact (hz _).2

theorem FlowEnds.ends_step {s : FordFulkersonGraphAlgorithm} (h : FFInv s) (he : FlowEnds s)
    {fuel : Nat} (hfuel : s.m_graph.nodes.length < fuel) :
    ∃ (b : Bool) (s1 : FordFulkersonGraphAlgorithm) (a : Nat),
      FordFulkersonGraphAlgorithm.nextStep fuel s = .ok (b, s1) ∧
      FordFulkersonGraphAlgorithm.addedBy fuel s = .ok a ∧
      FFInv s1 ∧ FlowEnds s1 ∧ s1.m_graph.skel = s.m_graph.skel ∧
      s1.m_start_node = s.m_start_node ∧ s1.m_end_node = s.m_end_node ∧
      s1.m_graph.outflow s1.m_start_node = s.m_graph.outflow s.m_start_node + a ∧
      (s.m_next_step_state ≠ NextStepState.UpdatePath → a = 0 ∧ s1.m_max_flow = s.m_max_flow) ∧
      s1.m_max_flow = sizeAdd s.m_max_flow a := by
  obtain ⟨b0, s0, hstep0, hinv0, hsk0⟩ := h.ff_step hfuel
  have hsame : ∀ (b : Bool) (g1 : FlowGraph) (par : List Nat) (ph : NextStepState),
      FordFulkersonGraphAlgorithm.nextStep fuel s =
        .ok (b, { s with m_graph := g1, m_parent := par, m_next_step_state := ph }) →
      s.m_next_step_state ≠ NextStepState.UpdatePath →
      g1.edges.map (fun e => (e.from_node_index, e.to_node_index, e.current_flow)) =
        s.m_graph.edges.map (fun e => (e.from_node_index, e.to_node_index, e.current_flow)) →
      ∃ (b : Bool) (s1 : FordFulkersonGraphAlgorithm) (a : Nat),
        FordFulkersonGraphAlgorithm.nextStep fuel s = .ok (b, s1) ∧
        FordFulkersonGraphAlgorithm.addedBy fuel s = .ok a ∧
        FFInv s1 ∧ FlowEnds s1 ∧ s1.m_graph.skel = s.m_graph.skel ∧
        s1.m_start_node = s.m_start_node ∧ s1.m_end_node = s.m_end_node ∧
        s1.m_graph.outflow s1.m_start_node = s.m_graph.outflow s.m_start_node + a ∧
        (s.m_next_step_state ≠ NextStepState.UpdatePath →
          a = 0 ∧ s1.m_max_flow = s.m_max_flow) ∧
        s1.m_max_flow = sizeAdd s.m_max_flow a := by
    intro b g1 par ph hstep hph hview
    have heq : s0 = { s with m_graph := g1, m_parent := par, m_next_step_state := ph } := by
      rw [hstep0] at hstep
      simp only [Except.ok.injEq, Prod.mk.injEq] at hstep
      exact hstep.2
    have hadd : FordFulkersonGraphAlgorithm.addedBy fuel s = .ok 0 := by
      unfold FordFulkersonGraphAlgorithm.addedBy
      cases hq : s.m_next_step_state with
      | UpdatePath => exact absurd hq hph
      | CleanGraph => rfl
      | PathFind => rfl
    have hio := FlowGraph.inflow_congr hview
    have hmf : sizeAdd s.m_max_flow 0 = s.m_max_flow := by
      unfold sizeAdd
      rw [Nat.add_zero, he.value]
      exact Nat.mod_mod _ _
    refine ⟨b, _, 0, hstep, hadd, by rw [← heq]; exact hinv0, ?_, by rw [← heq]; exact hsk0,
      rfl, rfl, ?_, fun _ => ⟨rfl, rfl⟩, hmf.symm⟩
    · constructor
      · show s.m_max_flow = g1.outflow s.m_start_node % SIZE_MOD
        rw [(hio _).2]; exact he.value
      · show g1.inflow s.m_end_node = g1.outflow s.m_start_node
        rw [(hio _).1, (hio _).2]; exact he.into_end
      · show g1.inflow s.m_start_node = 0
        rw [(hio _).1]; exact he.start_in
      · show g1.outflow s.m_end_node = 0
        rw [(hio _).2]; exact he.end_out
    · show g1.outflow s.m_start_node = _
      rw [(hio _).2]; rfl
  have hphase : s.m_next_step_state = NextStepState.CleanGraph ∨
      s.m_next_step_state = NextStepState.PathFind ∨
      s.m_next_step_state = NextStepState.UpdatePath := by
    cases s.m_next_step_state <;> simp
  rcases hphase with hp | hp | hp
  · have hstep := FordFulkersonGraphAlgorithm.nextStep_clean fuel hp
    exact hsame true (cleanGraph s.m_graph) s.m_parent NextStepState.PathFind hstep
      (by rw [hp]; simp) (cleanGraph_view _)
  · rcases FordFulkersonGraphAlgorithm.nextStep_pathFind h hfuel hp with
      ⟨parent, _, hstep⟩ | ⟨parent, es, L, g1, hstep, _, _, _, _, hsk, hedges, _⟩
    · have hstep1 : FordFulkersonGraphAlgorithm.nextStep fuel s =
          .ok (false, { s with m_graph := s.m_graph, m_parent := parent,
                               m_next_step_state := s.m_next_step_state }) := hstep
      exact hsame false s.m_graph parent s.m_next_step_state hstep1 (by rw [hp]; simp) rfl
    · exact hsame true g1 parent NextStepState.UpdatePath hstep (by rw [hp]; simp)
        (FlowGraph.view_eq_of_pointwise (FlowGraph.flow_skel_edges_length hsk)
          (fun j e hje => ⟨_, hedges j e hje, by split <;> exact ⟨rfl, rfl, rfl⟩⟩))
  · obtain ⟨es, L, f, g1, hchain, hL, hnee, _, hupd, hstep, hsk, hedges, hroom, _, hbal⟩ :=
      FordFulkersonGraphAlgorithm.update_balance h hfuel hp
    have hne : s.m_start_node ≠ s.m_end_node := by
      intro hse
      rcases hchain.head_node with ⟨hL0, _⟩ | ⟨L1, hL1⟩
      · have := hchain.chain_length
        rw [hL0] at this
        exact hnee (List.length_eq_zero.1 (by simpa using this))
      · apply hchain.start_not_mem
        rw [hL1, hse]
        exact List.mem_cons_self _ _
    have heq : s0 = { s with m_graph := g1, m_max_flow := sizeAdd s.m_max_flow f,
                             m_next_step_state := NextStepState.CleanGraph } := by
      rw [hstep0] at hstep
      simp only [Except.ok.injEq, Prod.mk.injEq] at hstep
      exact hstep.2
    have hadd : FordFulkersonGraphAlgorithm.addedBy fuel s = .ok f := by
      unfold FordFulkersonGraphAlgorithm.addedBy
      rw [hp]
      simp only [hupd]
    have hlen : g1.edges.length = s.m_graph.edges.length := FlowGraph.flow_skel_edges_length hsk
    have haugf : ∀ (e : FlowEdge), (e.augmented f).from_node_index = e.from_node_index ∧
        (e.augmented f).to_node_index = e.to_node_index := fun e => ⟨rfl, rfl⟩
    have hin : g1.inflow s.m_start_node = s.m_graph.inflow s.m_start_node := by
      apply FlowGraph.inflow_keep _ hlen
      intro j e hje
      refine ⟨_, hedges j e hje, by split <;> rfl, ?_⟩
      intro hto
      rw [if_neg]
      intro hj
      obtain ⟨e', he', hm⟩ := hchain.edge_target h.wf j hj
      rw [hje] at he'
      cases he'
      rw [hto] at hm
      exact hchain.start_not_mem hm
    have hout : g1.outflow s.m_end_node = s.m_graph.outflow s.m_end_node := by
      apply FlowGraph.outflow_keep _ hlen
      intro j e hje
      refine ⟨_, hedges j e hje, by split <;> rfl, ?_⟩
      intro hfrom
      rw [if_neg]
      intro hj
      obtain ⟨e', he', hm⟩ := hchain.edge_source h.wf j hj
      rw [hje] at he'
      cases he'
      rw [hfrom] at hm
      rcases hchain.head_node with ⟨hL0, _⟩ | ⟨L1, hL1⟩
      · rw [hL0] at hm
        simp at hm
      · rw [hL1, List.cons_append, List.tail_cons] at hm
        rw [hL1] at hL
        rcases List.mem_append.1 hm with h1 | h1
        · exact (List.nodup_cons.1 hL).1 h1
        · simp at h1
          exact hne h1.symm
    have hbs := hbal s.m_start_node
    have hbe := hbal s.m_end_node
    rw [if_pos ⟨rfl, Ne.symm hne⟩, if_neg (fun hc => hne hc.1), hin, he.start_in] at hbs
    rw [if_neg (fun hc => hne hc.1.symm), if_pos ⟨rfl, Ne.symm hne⟩, hout, he.end_out] at hbe
    have hos : g1.outflow s.m_start_node = s.m_graph.outflow s.m_start_node + f := by omega
    have hie : g1.inflow s.m_end_node = s.m_graph.inflow s.m_end_node + f := by omega
    refine ⟨true, _, f, hstep, hadd, by rw [← heq]; exact hinv0, ?_, hsk, rfl, rfl, hos,
      fun hc => absurd hp hc, rfl⟩
    constructor
    · show sizeAdd s.m_max_flow f = g1.outflow s.m_start_node % SIZE_MOD
      rw [hos, he.value]
      unfold sizeAdd
      rw [Nat.add_mod, Nat.mod_mod, ← Nat.add_mod]
    · show g1.inflow s.m_end_node = g1.outflow s.m_start_node
      rw [hos, hie, he.into_end]
    · show g1.inflow s.m_start_node = 0
      rw [hin]; exact he.start_in
    · show g1.outflow s.m_end_node = 0
      rw [hout]; exact he.end_out

theorem FlowEnds.ends_run {fuel : Nat} :
    ∀ (k : Nat) (s : FordFulkersonGraphAlgorithm), FFInv s → FlowEnds s →
      s.m_graph.nodes.length < fuel →
      ∃ (s1 : FordFulkersonGraphAlgorithm) (A : Nat),
        FordFulkersonGraphAlgorithm.steps fuel k s = .ok s1 ∧
        FordFulkersonGraphAlgorithm.addedSoFar fuel k s = .ok A ∧
        FFInv s1 ∧ FlowEnds s1 ∧ s1.m_graph.skel = s.m_graph.skel ∧
        s1.m_start_node = s.m_start_node ∧ s1.m_end_node = s.m_end_node ∧
        s1.m_graph.outflow s1.m_start_node = s.m_graph.outflow s.m_start_node + A := by
  intro k
  induction k with
  | zero => intro s h he _; exact ⟨s, 0, rfl, rfl, h, he, rfl, rfl, rfl, rfl⟩
  | succ k ih =>
    intro s h he hfuel
    obtain ⟨b, s1, a, hstep, hadd, hinv1, he1, hsk1, hs1, he1', hout1, _, _⟩ :=
      he.ends_step h hfuel
    obtain ⟨s2, A, hsteps, hsum, hinv2, he2, hsk2, hs2, he2', hout2⟩ :=
      ih s1 hinv1 he1 (by rw [FlowGraph.flow_skel_nodes_length hsk1]; exact hfuel)
    refine ⟨s2, a + A, ?_, ?_, hinv2, he2, hsk2.trans hsk1, hs2.trans hs1, he2'.trans he1', ?_⟩
    · simp only [FordFulkersonGraphAlgorithm.steps, hstep, hsteps]
    · simp only [FordFulkersonGraphAlgorithm.addedSoFar, hadd, hstep, hsum]
    · rw [hout2, hout1]; omega

/-! ## The reported value and the flow at the start and end nodes -/

theorem sum_filter_zero (p : FlowEdge → Bool) :
    ∀ (l : List FlowEdge), ((l.filter p).map (fun e => e.current_flow)).sum = 0 →
      ∀ e ∈ l, p e = true → e.current_flow = 0 := by
  intro l h e he hp
  have hm : e.current_flow ∈ (l.filter p).map (fun e => e.current_flow) :=
    List.mem_map.2 ⟨e, List.mem_filter.2 ⟨he, hp⟩, rfl⟩
  exact List.sum_eq_zero_iff.1 h _ hm

theorem sum_filter_le (p : FlowEdge → Bool) :
    ∀ (l : List FlowEdge), (∀ e ∈ l, e.current_flow ≤ e.capacity) →
      ((l.filter p).map (fun e => e.current_flow)).sum ≤
        ((l.filter p).map (fun e => e.capacity)).sum := by
  intro l
  induction l with
  | nil => intro _; simp
  | cons a l ih =>
    intro h
    have ha := h a (List.mem_cons_self _ _)
    have ih1 := ih (fun e he => h e (List.mem_cons_of_mem _ he))
    simp only [List.filter_cons]
    cases hpa : p a
    · simpa using ih1
    · simp only [if_true, List.map_cons, List.sum_cons]
      omega

theorem FlowGraph.Fresh.config_edges {c : FlowGraphConfig} {g0 g : FlowGraph}
    (hf : FlowGraph.Fresh c g0) (hsk : g.skel = g0.skel) :
    g.edges.map (fun e => ((e.from_node_index, e.to_node_index), e.capacity)) = c.edges := by
  have h1 : g.edges.map (fun e => (e.from_node_index, e.to_node_index, e.capacity)) =
      g0.edges.map (fun e => (e.from_node_index, e.to_node_index, e.capacity)) := by
    have := congrArg (fun p => p.1) hsk
    simpa [FlowGraph.skel] using this
  have h2 := congrArg (List.map (fun t : Nat × Nat × Nat => ((t.1, t.2.1), t.2.2))) h1
  simp only [List.map_map, Function.comp_def] at h2
  rw [h2]
  exact hf.edges_eq

theorem FlowGraph.outflow_le_startCapacity {c : FlowGraphConfig} {g0 g : FlowGraph}
    (hf : FlowGraph.Fresh c g0) (hsk : g.skel = g0.skel)
    (hcap : ∀ (ei : Nat) (e : FlowEdge), g.edges[ei]? = some e → e.current_flow ≤ e.capacity) :
    g.outflow c.start_node ≤ c.startCapacity := by
  have hle := sum_filter_le (fun e => decide (e.from_node_index = c.start_node)) g.edges
    (fun e he => by
      obtain ⟨ei, hei⟩ := List.getElem?_of_mem he
      exact hcap ei e hei)
  have hcfg := hf.config_edges hsk
  unfold FlowGraphConfig.startCapacity
  rw [← hcfg]
  unfold FlowGraph.outflow
  simpa [List.filter_map, List.map_map, Function.comp_def] using hle

/-- C37 (as stated, refuted): on the diamond with every capacity `2 ^ 64 - 1` (start `0`,
end `3`) the state after six calls is in the `CleanGraph` phase; `2 * (2 ^ 64 - 1)` units leave
the start node and enter the end node, but `m_max_flow` is `2 ^ 64 - 2`. -/
theorem ff_max_flow_is_not_start_outflow :
    hugeDiamondFlowConfig.WellFormed ∧
    hugeDiamondFlowConfig.start_node ≠ hugeDiamondFlowConfig.end_node ∧
    ∃ (g : FlowGraph) (s : FordFulkersonGraphAlgorithm),
      FlowGraph.new hugeDiamondFlowConfig = .ok g ∧
      FordFulkersonGraphAlgorithm.steps 5 6 (FordFulkersonGraphAlgorithm.new g) = .ok s ∧
      s.m_next_step_state = NextStepState.CleanGraph ∧
      s.m_max_flow = 2 ^ 64 - 2 ∧
      s.m_graph.outflow hugeDiamondFlowConfig.start_node = 2 * (2 ^ 64 - 1) ∧
      s.m_graph.inflow hugeDiamondFlowConfig.end_node = 2 * (2 ^ 64 - 1) ∧
      s.m_max_flow ≠ s.m_graph.outflow hugeDiamondFlowConfig.start_node :=
  ⟨by decide, by decide, _, _, rfl, rfl, rfl, by decide, by decide, by decide, by decide⟩

/-- C37 (amended): for every well-formed flow graph, in every state reached by `nextStep`
calls (whatever its phase, and also when start and end coincide): `m_max_flow` equals, modulo
`2 ^ 64`, the sum of `current_flow` over the edges leaving the start node, which is also the
sum of `current_flow` over the edges entering the end node; it equals these sums exactly
whenever they are below `2 ^ 64`; every edge entering the start node and every edge leaving
the end node has `current_flow` `0`. -/
theorem ff_max_flow_is_start_outflow_mod (c : FlowGraphConfig) (fuel k : Nat)
    (hc : c.WellFormed) (hfuel : c.nodes.length < fuel) :
    ∃ (g : FlowGraph) (s : FordFulkersonGraphAlgorithm),
      FlowGraph.new c = .ok g ∧
      FordFulkersonGraphAlgorithm.steps fuel k (FordFulkersonGraphAlgorithm.new g) = .ok s ∧
      s.m_max_flow = s.m_graph.outflow c.start_node % 2 ^ 64 ∧
      s.m_graph.inflow c.end_node = s.m_graph.outflow c.start_node ∧
      (s.m_graph.outflow c.start_node < 2 ^ 64 →
        s.m_max_flow = s.m_graph.outflow c.start_node ∧
        s.m_max_flow = s.m_graph.inflow c.end_node) ∧
      (∀ (j : Nat) (e : FlowEdge), s.m_graph.edges[j]? = some e →
        e.to_node_index = c.start_node → e.current_flow = 0) ∧
      (∀ (j : Nat) (e : FlowEdge), s.m_graph.edges[j]? = some e →
        e.from_node_index = c.end_node → e.current_flow = 0) := by
  obtain ⟨g, hnew, hfresh⟩ := FlowGraph.new_fresh c hc
  have hfuel0 : (FordFulkersonGraphAlgorithm.new g).m_graph.nodes.length < fuel := by
    show g.nodes.length < fuel
    rw [hfresh.len]; exact hfuel
  obtain ⟨s, A, hsteps, _, hinv, hends, hsk, hs, he, _⟩ :=
    FlowEnds.ends_run k _ (FFInv.init_fresh hfresh) (FlowEnds.ends_init hfresh) hfuel0
  have hs1 : s.m_start_node = c.start_node := hs.trans hfresh.start_eq
  have he1 : s.m_end_node = c.end_node := he.trans hfresh.end_eq
  have hval := hends.value
  have hinto := hends.into_end
  have hin := hends.start_in
  have hout := hends.end_out
  rw [hs1] at hval hinto hin
  rw [he1] at hinto hout
  refine ⟨g, s, hnew, hsteps, hval, hinto, ?_, ?_, ?_⟩
  · intro hlt
    have : s.m_max_flow = s.m_graph.outflow c.start_node := by
      rw [hval]
      exact Nat.mod_eq_of_lt hlt
    exact ⟨this, by rw [hinto]; exact this⟩
  · intro j e hje hto
    exact sum_filter_zero _ _ hin e (List.getElem?_mem hje) (by simpa using hto)
  · intro j e hje hfrom
    exact sum_filter_zero _ _ hout e (List.getElem?_mem hje) (by simpa using hfrom)

theorem ff_max_flow_is_start_outflow_mod_witness :
    diamondFlowConfig.WellFormed ∧
    ∃ (g : FlowGraph) (s : FordFulkersonGraphAlgorithm),
      FlowGraph.new diamondFlowConfig = .ok g ∧
      FordFulkersonGraphAlgorithm.steps 5 4 (FordFulkersonGraphAlgorithm.new g) = .ok s ∧
      s.m_max_flow = s.m_graph.outflow diamondFlowConfig.start_node % 2 ^ 64 ∧
      s.m_graph.inflow diamondFlowConfig.end_node =
        s.m_graph.outflow diamondFlowConfig.start_node ∧
      (s.m_graph.outflow diamondFlowConfig.start_node < 2 ^ 64 →
        s.m_max_flow = s.m_graph.outflow diamondFlowConfig.start_node ∧
        s.m_max_flow = s.m_graph.inflow diamondFlowConfig.end_node) ∧
      (∀ (j : Nat) (e : FlowEdge), s.m_graph.edges[j]? = some e →
        e.to_node_index = diamondFlowConfig.start_node → e.current_flow = 0) ∧
      (∀ (j : Nat) (e : FlowEdge), s.m_graph.edges[j]? = some e →
        e.from_node_index = diamondFlowConfig.end_node → e.current_flow = 0) :=
  ⟨by decide, ff_max_flow_is_start_outflow_mod diamondFlowConfig 5 4 (by decide) (by decide)⟩

/-- C39 (as stated, refuted): on the diamond with every capacity `2 ^ 64 - 1` (each
representable in 64 bits) the first six calls add `2 ^ 64 - 1` twice, `2 * (2 ^ 64 - 1)` in
all, but `m_max_flow` is `2 ^ 64 - 2` after them: the second addition wrapped. -/
theorem ff_max_flow_accumulation_wraps :
    hugeDiamondFlowConfig.WellFormed ∧
    ∃ (g : FlowGraph) (s : FordFulkersonGraphAlgorithm),
      FlowGraph.new hugeDiamondFlowConfig = .ok g ∧
      FordFulkersonGraphAlgorithm.steps 5 6 (FordFulkersonGraphAlgorithm.new g) = .ok s ∧
      FordFulkersonGraphAlgorithm.addedSoFar 5 6 (FordFulkersonGraphAlgorithm.new g) =
        .ok (2 * (2 ^ 64 - 1)) ∧
      s.m_max_flow = 2 ^ 64 - 2 ∧ s.m_max_flow ≠ 2 * (2 ^ 64 - 1) :=
  ⟨by decide, _, _, rfl, rfl, rfl, by decide, by decide⟩

/-- C39 (amended): with `std::size_t` as 64-bit wrapping arithmetic, for every well-formed flow
graph (every capacity below `2 ^ 64`) and every number `k` of `nextStep` calls: the calls
return, and with `A` the exact (unbounded) sum of the bottleneck amounts added so far,
`m_max_flow` equals `A` modulo `2 ^ 64`; `A` is at most the sum of the capacities of the edges
leaving the start node, so when that sum is below `2 ^ 64` the accumulation never wraps and
`m_max_flow` equals `A`. -/
theorem ff_max_flow_exact_sum (c : FlowGraphConfig) (fuel k : Nat) (hc : c.WellFormed)
    (hfuel : c.nodes.length < fuel) :
    ∃ (g : FlowGraph) (s : FordFulkersonGraphAlgorithm) (A : Nat),
      FlowGraph.new c = .ok g ∧
      FordFulkersonGraphAlgorithm.steps fuel k (FordFulkersonGraphAlgorithm.new g) = .ok s ∧
      FordFulkersonGraphAlgorithm.addedSoFar fuel k (FordFulkersonGraphAlgorithm.new g) =
        .ok A ∧
      s.m_max_flow = A % 2 ^ 64 ∧ A ≤ c.startCapacity ∧
      (c.startCapacity < 2 ^ 64 → s.m_max_flow = A) := by
  obtain ⟨g, hnew, hfresh⟩ := FlowGraph.new_fresh c hc
  have hfuel0 : (FordFulkersonGraphAlgorithm.new g).m_graph.nodes.length < fuel := by
    show g.nodes.length < fuel
    rw [hfresh.len]; exact hfuel
  obtain ⟨s, A, hsteps, hsum, hinv, hends, hsk, hs, _, hout⟩ :=
    FlowEnds.ends_run k _ (FFInv.init_fresh hfresh) (FlowEnds.ends_init hfresh) hfuel0
  have hs1 : s.m_start_node = c.start_node := hs.trans hfresh.start_eq
  have hz : (FordFulkersonGraphAlgorithm.new g).m_graph.outflow
      (FordFulkersonGraphAlgorithm.new g).m_start_node = 0 :=
    (FlowGraph.inflow_zero (g := g) (fun j e he => (hfresh.edge_init j e he).2) _).2
  rw [hz, Nat.zero_add, hs1] at hout
  have hval := hends.value
  rw [hs1, hout] at hval
  have hle := FlowGraph.outflow_le_startCapacity hfresh hsk hinv.cap
  rw [hout] at hle
  refine ⟨g, s, A, hnew, hsteps, hsum, hval, hle, ?_⟩
  intro hlt
  rw [hval]
  exact Nat.mod_eq_of_lt (show A < SIZE_MOD by unfold SIZE_MOD; omega)

theorem ff_max_flow_exact_sum_witness :
    diamondFlowConfig.WellFormed ∧
    ∃ (g : FlowGraph) (s : FordFulkersonGraphAlgorithm) (A : Nat),
      FlowGraph.new diamondFlowConfig = .ok g ∧
      FordFulkersonGraphAlgorithm.steps 5 7 (FordFulkersonGraphAlgorithm.new g) = .ok s ∧
      FordFulkersonGraphAlgorithm.addedSoFar 5 7 (FordFulkersonGraphAlgorithm.new g) =
        .ok A ∧
      s.m_max_flow = A % 2 ^ 64 ∧ A ≤ diamondFlowConfig.startCapacity ∧
      (diamondFlowConfig.startCapacity < 2 ^ 64 → s.m_max_flow = A) :=
  ⟨by decide, ff_max_flow_exact_sum diamondFlowConfig 5 7 (by decide) (by decide)⟩

/-! ## The reported value is bounded by every cut -/

theorem sum_map_indicator (a c : Nat) :
    ∀ (R : List Nat), R.Nodup →
      (R.map (fun v => if a = v then c else 0)).sum = if a ∈ R then c else 0 := by
  intro R
  induction R with
  | nil => intro _; simp
  | cons x R ih =>
    intro hnd
    obtain ⟨hx, hR⟩ := List.nodup_cons.1 hnd
    simp only [List.map_cons, List.sum_cons, ih hR, List.mem_cons]
    by_cases hax : a = x
    · subst hax
      simp [hx]
    · simp [hax]

theorem sum_map_shift (g h : Nat → Nat) (a : Nat) :
    ∀ (R : List Nat), R.Nodup → a ∈ R → h a = 0 → (∀ v ∈ R, v ≠ a → g v = h v) →
      (R.map g).sum = (R.map h).sum + g a := by
  intro R
  induction R with
  | nil => intro _ ha; cases ha
  | cons x R ih =>
    intro hnd ha h0 heq
    obtain ⟨hx, hR⟩ := List.nodup_cons.1 hnd
    simp only [List.map_cons, List.sum_cons]
    by_cases hxa : x = a
    · subst hxa
      have hrest : (R.map g).sum = (R.map h).sum := by
        congr 1
        apply List.map_congr_left
        intro v hv
        exact heq v (List.mem_cons_of_mem _ hv) (fun hva => hx (hva ▸ hv))
      rw [hrest, h0]
      omega
    · have haR : a ∈ R := by
        rcases List.mem_cons.1 ha with h1 | h1
        · exact absurd h1.symm hxa
        · exact h1
      rw [ih hR haR h0 (fun v hv => heq v (List.mem_cons_of_mem _ hv)),
        heq x (List.mem_cons_self _ _) hxa]
      omega

theorem sum_filter_split (p q : FlowEdge → Bool) (f : FlowEdge → Nat) :
    ∀ (l : List FlowEdge), ((l.filter p).map f).sum =
      ((l.filter (fun e => p e && q e)).map f).sum +
        ((l.filter (fun e => p e && !q e)).map f).sum := by
  intro l
  induction l with
  | nil => simp
  | cons a l ih =>
    simp only [List.filter_cons]
    cases hp : p a <;> cases hq : q a <;> simp [ih] <;> omega

theorem sum_over_nodes (S : Nat → Bool) (n : Nat) (key : FlowEdge → Nat) :
    ∀ (l : List FlowEdge), (∀ e ∈ l, key e < n) →
      (((List.range n).filter S).map (fun v =>
        ((l.filter (fun e => decide (key e = v))).map (fun e => e.current_flow)).sum)).sum =
        ((l.filter (fun e => S (key e))).map (fun e => e.current_flow)).sum := by
  intro l
  induction l with
  | nil => intro _; simp
  | cons a l ih =>
    intro h
    have ha := h a (List.mem_cons_self _ _)
    have ih1 := ih (fun e he => h e (List.mem_cons_of_mem _ he))
    have hfun : (fun v => (((a :: l).filter (fun e => decide (key e = v))).map
        (fun e => e.current_flow)).sum) =
        (fun v => (if key a = v then a.current_flow else 0) +
          ((l.filter (fun e => decide (key e = v))).map (fun e => e.current_flow)).sum) := by
      funext v
      simp only [List.filter_cons]
      by_cases hv : key a = v
      · simp [hv]
      · simp [hv]
    rw [hfun, List.sum_map_add, ih1,
      sum_map_indicator _ _ _ ((List.nodup_range n).filter _)]
    simp only [List.filter_cons, List.mem_filter, List.mem_range, ha, true_and]
    cases hS : S (key a)
    · simp
    · simp

theorem FlowGraph.value_le_cut {g : FlowGraph} (hwf : g.WF) (S : Nat → Bool)
    {start_node end_node : Nat} (hlt : start_node < g.nodes.length)
    (hS : S start_node = true) (hE : S end_node = false) (hin : g.inflow start_node = 0)
    (hcons : ∀ v, v ≠ start_node → v ≠ end_node → g.inflow v = g.outflow v) :
    g.outflow start_node ≤
      ((g.edges.filter (fun e => S e.from_node_index && !S e.to_node_index)).map
        (fun e => e.current_flow)).sum := by
  have hfrom : ∀ e ∈ g.edges, e.from_node_index < g.nodes.length := by
    intro e he
    obtain ⟨ei, hei⟩ := List.getElem?_of_mem he
    obtain ⟨node, hnode, _⟩ := hwf.adj_complete ei e hei
    exact getElem?_lt hnode
  have hto : ∀ e ∈ g.edges, e.to_node_index < g.nodes.length := by
    intro e he
    obtain ⟨ei, hei⟩ := List.getElem?_of_mem he
    exact hwf.to_lt ei e hei
  have hA := sum_over_nodes S g.nodes.length (fun e => e.from_node_index) g.edges hfrom
  have hB := sum_over_nodes S g.nodes.length (fun e => e.to_node_index) g.edges hto
  have hstart : start_node ∈ (List.range g.nodes.length).filter S := by
    rw [List.mem_filter, List.mem_range]
    exact ⟨hlt, hS⟩
  have hC := sum_map_shift (fun v => g.outflow v) (fun v => g.inflow v) start_node
    ((List.range g.nodes.length).filter S) ((List.nodup_range _).filter _) hstart hin
    (fun v hv hvs => by
      have hve : v ≠ end_node := by
        intro hve
        rw [hve, List.mem_filter, hE] at hv
        exact absurd hv.2 (by simp)
      exact (hcons v hvs hve).symm)
  have hsplit1 := sum_filter_split (fun e => S e.from_node_index) (fun e => S e.to_node_index)
    (fun e => e.current_flow) g.edges
  have hsplit2 := sum_filter_split (fun e => S e.to_node_index) (fun e => S e.from_node_index)
    (fun e => e.current_flow) g.edges
  have hcomm : (g.edges.filter (fun e => S e.to_node_index && S e.from_node_index)) =
      (g.edges.filter (fun e => S e.from_node_index && S e.to_node_index)) := by
    congr 1
    funext e
    exact Bool.and_comm _ _
  rw [hcomm] at hsplit2
  unfold FlowGraph.outflow FlowGraph.inflow at hC
  unfold FlowGraph.outflow
  simp only at hA hB hC hsplit1 hsplit2
  omega

theorem FlowGraph.Fresh.zip_flows {c : FlowGraphConfig} {g0 g : FlowGraph}
    (hf : FlowGraph.Fresh c g0) (hsk : g.skel = g0.skel) :
    c.edges.zip g.flows =
      g.edges.map (fun e => (((e.from_node_index, e.to_node_index), e.capacity),
        e.current_flow)) := by
  rw [← hf.config_edges hsk]
  unfold FlowGraph.flows
  rw [List.zip_map']

theorem FlowGraph.Fresh.sums_eq {c : FlowGraphConfig} {g0 g : FlowGraph}
    (hf : FlowGraph.Fresh c g0) (hsk : g.skel = g0.skel) (v : Nat) :
    c.inSum g.flows v = g.inflow v ∧ c.outSum g.flows v = g.outflow v := by
  unfold FlowGraphConfig.inSum FlowGraphConfig.outSum FlowGraph.inflow FlowGraph.outflow
  rw [hf.zip_flows hsk]
  constructor <;> simp [List.filter_map, List.map_map, Function.comp_def]

/-- C38: for every well-formed flow graph, in every state reached by `nextStep` calls,
`m_max_flow` is at most the capacity of every cut that separates the start node from the end
node (the node set `S` holds the start node and not the end node; its capacity is the sum of
the capacities of the edges leading from `S` to its complement). Moreover the `current_flow`
values form a feasible flow of the configuration whose value is at least `m_max_flow`, so the
reported value never exceeds the value of a maximum flow. -/
theorem ff_max_flow_le_every_cut (c : FlowGraphConfig) (fuel k : Nat) (hc : c.WellFormed)
    (hfuel : c.nodes.length < fuel) :
    ∃ (g : FlowGraph) (s : FordFulkersonGraphAlgorithm),
      FlowGraph.new c = .ok g ∧
      FordFulkersonGraphAlgorithm.steps fuel k (FordFulkersonGraphAlgorithm.new g) = .ok s ∧
      (∀ S : Nat → Bool, S c.start_node = true → S c.end_node = false →
        s.m_max_flow ≤ c.cutCapacity S) ∧
      c.IsFlow s.m_graph.flows ∧ s.m_max_flow ≤ c.flowValue s.m_graph.flows := by
  obtain ⟨g, hnew, hfresh⟩ := FlowGraph.new_fresh c hc
  have hfuel0 : (FordFulkersonGraphAlgorithm.new g).m_graph.nodes.length < fuel := by
    show g.nodes.length < fuel
    rw [hfresh.len]; exact hfuel
  obtain ⟨s, A, hsteps, _, hinv, hends, hsk, hs, he, _⟩ :=
    FlowEnds.ends_run k _ (FFInv.init_fresh hfresh) (FlowEnds.ends_init hfresh) hfuel0
  have hs1 : s.m_start_node = c.start_node := hs.trans hfresh.start_eq
  have he1 : s.m_end_node = c.end_node := he.trans hfresh.end_eq
  have hval := hends.value
  have hin := hends.start_in
  rw [hs1] at hval hin
  have hle : s.m_max_flow ≤ s.m_graph.outflow c.start_node := by
    rw [hval]
    exact Nat.mod_le _ _
  have hcapE : ∀ e ∈ s.m_graph.edges, e.current_flow ≤ e.capacity := by
    intro e hmem
    obtain ⟨ei, hei⟩ := List.getElem?_of_mem hmem
    exact hinv.cap ei e hei
  have hcfg := hfresh.config_edges hsk
  have hlen : s.m_graph.nodes.length = c.nodes.length :=
    (FlowGraph.flow_skel_nodes_length hsk).trans hfresh.len
  refine ⟨g, s, hnew, hsteps, ?_, ?_, ?_⟩
  · intro S hS hE
    have hcut := FlowGraph.value_le_cut hinv.wf S
      (by rw [hlen]; exact hc.1 : c.start_node < s.m_graph.nodes.length) hS hE hin
      (fun v hvs hve => hinv.conserve v (by rw [hs1]; exact hvs) (by rw [he1]; exact hve))
    have hcap := sum_filter_le (fun e => S e.from_node_index && !S e.to_node_index)
      s.m_graph.edges hcapE
    have hcc : c.cutCapacity S =
        ((s.m_graph.edges.filter (fun e => S e.from_node_index && !S e.to_node_index)).map
          (fun e => e.capacity)).sum := by
      unfold FlowGraphConfig.cutCapacity
      rw [← hcfg]
      simp [List.filter_map, List.map_map, Function.comp_def]
    rw [hcc]
    omega
  · refine ⟨?_, ?_, ?_⟩
    · unfold FlowGraph.flows
      rw [← hcfg]
      simp
    · intro p hp
      rw [hfresh.zip_flows hsk] at hp
      obtain ⟨e, hmem, rfl⟩ := List.mem_map.1 hp
      exact hcapE e hmem
    · intro v _ hvs hve
      rw [(hfresh.sums_eq hsk v).1, (hfresh.sums_eq hsk v).2]
      exact hinv.conserve v (by rw [hs1]; exact hvs) (by rw [he1]; exact hve)
  · unfold FlowGraphConfig.flowValue
    rw [(hfresh.sums_eq hsk _).1, (hfresh.sums_eq hsk _).2, hin]
    exact hle

theorem ff_max_flow_le_every_cut_witness :
    diamondFlowConfig.WellFormed ∧
    ∃ (g : FlowGraph) (s : FordFulkersonGraphAlgorithm),
      FlowGraph.new diamondFlowConfig = .ok g ∧
      FordFulkersonGraphAlgorithm.steps 5 7 (FordFulkersonGraphAlgorithm.new g) = .ok s ∧
      (∀ S : Nat → Bool, S diamondFlowConfig.start_node = true →
        S diamondFlowConfig.end_node = false →
        s.m_max_flow ≤ diamondFlowConfig.cutCapacity S) ∧
      diamondFlowConfig.IsFlow s.m_graph.flows ∧
      s.m_max_flow ≤ diamondFlowConfig.flowValue s.m_graph.flows :=
  ⟨by decide, ff_max_flow_le_every_cut diamondFlowConfig 5 7 (by decide) (by decide)⟩

/-! ## Termination of `FordFulkersonGraphAlgorithm` without parallel edges -/

theorem count_filter_pointwise (q : FlowEdge → Bool) :
    ∀ (l l1 : List FlowEdge), l1.length = l.length →
      (∀ (j : Nat) (e : FlowEdge), l[j]? = some e →
        ∃ e1 : FlowEdge, l1[j]? = some e1 ∧ (q e1 = true → q e = true)) →
      (l1.filter q).length ≤ (l.filter q).length ∧
      ((∃ (j : Nat) (e e1 : FlowEdge), l[j]? = some e ∧ l1[j]? = some e1 ∧ q e = true ∧
          q e1 = false) → (l1.filter q).length < (l.filter q).length) := by
  intro l
  induction l with
  | nil =>
    intro l1 hlen _
    cases l1 with
    | nil => exact ⟨Nat.le_refl _, fun ⟨j, e, _, h, _⟩ => by simp at h⟩
    | cons a l1 => simp at hlen
  | cons a l ih =>
    intro l1 hlen h
    cases l1 with
    | nil => simp at hlen
    | cons a1 l1 =>
      obtain ⟨e1, he1, hq⟩ := h 0 a (by simp)
      simp only [List.getElem?_cons_zero, Option.some.injEq] at he1
      subst he1
      obtain ⟨ihle, ihlt⟩ := ih l1 (by simpa using hlen) (fun j e hj => by
        have := h (j + 1) e (by simpa using hj)
        simpa using this)
      have hcases : (q a1 = false ∧ q a = false) ∨ (q a1 = false ∧ q a = true) ∨
          (q a1 = true ∧ q a = true) := by
        cases h1 : q a1
        · cases h2 : q a <;> simp
        · simp [hq h1]
      constructor
      · simp only [List.filter_cons]
        rcases hcases with ⟨h1, h2⟩ | ⟨h1, h2⟩ | ⟨h1, h2⟩ <;> simp [h1, h2] <;> omega
      · rintro ⟨j, e, e', hj, hj1, hqe, hqe'⟩
        simp only [List.filter_cons]
        cases j with
        | zero =>
          simp only [List.getElem?_cons_zero, Option.some.injEq] at hj hj1
          subst hj; subst hj1
          simp [hqe, hqe']
          omega
        | succ j =>
          have hlt := ihlt ⟨j, e, e', by simpa using hj, by simpa using hj1, hqe, hqe'⟩
          rcases hcases with ⟨h1, h2⟩ | ⟨h1, h2⟩ | ⟨h1, h2⟩ <;> simp [h1, h2] <;> omega

theorem FlowGraph.unsatCount_eq {g g1 : FlowGraph} (hlen : g1.edges.length = g.edges.length)
    (h : ∀ (j : Nat) (e : FlowEdge), g.edges[j]? = some e →
      ∃ e1 : FlowEdge, g1.edges[j]? = some e1 ∧ e1.current_flow = e.current_flow ∧
        e1.capacity = e.capacity) :
    g1.unsatCount = g.unsatCount := by
  unfold FlowGraph.unsatCount
  apply Nat.le_antisymm
  · refine (count_filter_pointwise _ g.edges g1.edges hlen ?_).1
    intro j e he
    obtain ⟨e1, he1, hfl, hcp⟩ := h j e he
    exact ⟨e1, he1, by simp [hfl, hcp]⟩
  · refine (count_filter_pointwise _ g1.edges g.edges hlen.symm ?_).1
    intro j e1 he1
    obtain ⟨e, he⟩ := getElem?_of_lt (by rw [← hlen]; exact getElem?_lt he1 :
      j < g.edges.length)
    obtain ⟨e1', he1', hfl, hcp⟩ := h j e he
    rw [he1] at he1'
    cases he1'
    exact ⟨e, he, by simp [hfl, hcp]⟩

theorem FordFulkersonGraphAlgorithm.ff_runUntilFalse_false {fuel : Nat}
    {st st1 : FordFulkersonGraphAlgorithm}
    (h : FordFulkersonGraphAlgorithm.nextStep fuel st = .ok (false, st1)) :
    ∀ budget, 1 ≤ budget →
      FordFulkersonGraphAlgorithm.runUntilFalse fuel budget st = .ok (1, st1) := by
  intro budget hb
  obtain ⟨b, rfl⟩ : ∃ b, budget = b + 1 := ⟨budget - 1, by omega⟩
  simp only [FordFulkersonGraphAlgorithm.runUntilFalse, h]

theorem FordFulkersonGraphAlgorithm.ff_runUntilFalse_true {fuel cnt : Nat}
    {st st1 st2 : FordFulkersonGraphAlgorithm}
    (h : FordFulkersonGraphAlgorithm.nextStep fuel st = .ok (true, st1))
    (h2 : ∀ budget, cnt ≤ budget →
      FordFulkersonGraphAlgorithm.runUntilFalse fuel budget st1 = .ok (cnt, st2)) :
    ∀ budget, cnt + 1 ≤ budget →
      FordFulkersonGraphAlgorithm.runUntilFalse fuel budget st = .ok (cnt + 1, st2) := by
  intro budget hb
  obtain ⟨b, rfl⟩ : ∃ b, budget = b + 1 := ⟨budget - 1, by omega⟩
  simp only [FordFulkersonGraphAlgorithm.runUntilFalse, h, h2 b (by omega)]

theorem cleanGraph_unsatCount (g : FlowGraph) : (cleanGraph g).unsatCount = g.unsatCount := by
  apply FlowGraph.unsatCount_eq (FlowGraph.flow_skel_edges_length (cleanGraph_skel g))
  intro j e hje
  refine ⟨{ e with state := if e.current_flow = e.capacity then FlowEdgeState.Saturated
                            else FlowEdgeState.Default }, ?_, rfl, rfl⟩
  rw [cleanGraph_edges, hje]
  rfl

theorem FFInv.ff_cycle {s : FordFulkersonGraphAlgorithm} (h : FFInv s)
    (hnd : s.m_graph.ends.Nodup) (hp : s.m_next_step_state = NextStepState.PathFind)
    {fuel : Nat} (hfuel : s.m_graph.nodes.length < fuel) :
    (∃ s1 : FordFulkersonGraphAlgorithm,
      FordFulkersonGraphAlgorithm.nextStep fuel s = .ok (false, s1) ∧
      s1.m_graph = s.m_graph) ∨
    (∃ s1 s2 s3 : FordFulkersonGraphAlgorithm,
      FordFulkersonGraphAlgorithm.nextStep fuel s = .ok (true, s1) ∧
      FordFulkersonGraphAlgorithm.nextStep fuel s1 = .ok (true, s2) ∧
      FordFulkersonGraphAlgorithm.nextStep fuel s2 = .ok (true, s3) ∧
      FFInv s3 ∧ s3.m_graph.skel = s.m_graph.skel ∧
      s3.m_next_step_state = NextStepState.PathFind ∧
      s3.m_graph.unsatCount < s.m_graph.unsatCount) := by
  obtain ⟨b0, s0, hstep0, hinv0, _⟩ := h.ff_step hfuel
  rcases FordFulkersonGraphAlgorithm.nextStep_pathFind h hfuel hp with
    ⟨parent, _, hstep⟩ | ⟨parent, es, L, g1, hstep, _, _, _, _, hsk1, hedges1, _⟩
  · exact Or.inl ⟨_, hstep, rfl⟩
  · right
    let t1 : FordFulkersonGraphAlgorithm :=
      { s with m_graph := g1, m_parent := parent,
               m_next_step_state := NextStepState.UpdatePath }
    have hinv1 : FFInv t1 := by
      rw [hstep0] at hstep
      simp only [Except.ok.injEq, Prod.mk.injEq] at hstep
      have h01 : s0 = t1 := hstep.2
      rw [← h01]
      exact hinv0
    have hfuel1 : g1.nodes.length < fuel := by
      rw [FlowGraph.flow_skel_nodes_length hsk1]; exact hfuel
    have hnd1 : g1.ends.Nodup := by rw [FlowGraph.ends_skel hsk1]; exact hnd
    obtain ⟨es2, L2, f, g2, hchain, _, _, hunsat, _, hstep2, hsk2, hedges2, hroom, hatt, _⟩ :=
      @FordFulkersonGraphAlgorithm.update_balance _ hinv1 fuel hfuel1 rfl
    obtain ⟨b2, s2, hstep2', hinv2, _⟩ := @FFInv.ff_step _ hinv1 fuel hfuel1
    rw [hstep2] at hstep2'
    simp only [Except.ok.injEq, Prod.mk.injEq] at hstep2'
    rw [← hstep2'.2] at hinv2
    let t2 : FordFulkersonGraphAlgorithm :=
      { s with m_graph := g2, m_parent := parent, m_max_flow := sizeAdd s.m_max_flow f,
               m_next_step_state := NextStepState.CleanGraph }
    have hstep3 := @FordFulkersonGraphAlgorithm.nextStep_clean t2 fuel rfl
    have hfuel2 : g2.nodes.length < fuel := by
      rw [FlowGraph.flow_skel_nodes_length hsk2]; exact hfuel1
    obtain ⟨b3, s3, hstep3', hinv3, _⟩ := @FFInv.ff_step _ hinv2 fuel hfuel2
    rw [hstep3] at hstep3'
    simp only [Except.ok.injEq, Prod.mk.injEq] at hstep3'
    rw [← hstep3'.2] at hinv3
    refine ⟨_, _, _, hstep, hstep2, hstep3, hinv3, ?_, rfl, ?_⟩
    · exact (cleanGraph_skel g2).trans (hsk2.trans hsk1)
    · have hunsatE := hchain.edges_unsat hinv1.wf hnd1 hunsat
      have h1 : g1.unsatCount = s.m_graph.unsatCount :=
        FlowGraph.unsatCount_eq (FlowGraph.flow_skel_edges_length hsk1)
          (fun j e hje => ⟨_, hedges1 j e hje, by split <;> exact ⟨rfl, rfl⟩⟩)
      have h3 : (cleanGraph g2).unsatCount = g2.unsatCount := cleanGraph_unsatCount g2
      have haug : ∀ (j : Nat) (e : FlowEdge), g1.edges[j]? = some e → j ∈ es2 →
          (e.augmented f).current_flow = e.current_flow + f ∧
          e.current_flow + f ≤ e.capacity := by
        intro j e hje hj
        obtain ⟨e', he', _, hle⟩ := hroom j hj
        have he'' : g1.edges[j]? = some e' := he'
        rw [hje] at he''
        cases he''
        exact ⟨sizeAdd_eq hle (hinv1.wf.cap_lt j e hje), hle⟩
      have h2 : g2.unsatCount < g1.unsatCount := by
        unfold FlowGraph.unsatCount
        refine (count_filter_pointwise _ g1.edges g2.edges
          (FlowGraph.flow_skel_edges_length hsk2) ?_).2 ?_
        · intro j e hje
          refine ⟨_, hedges2 j e hje, ?_⟩
          by_cases hj : j ∈ es2
          · rw [if_pos hj]
            have hfl := (haug j e hje hj).1
            intro hq
            have hq1 : (e.augmented f).current_flow < (e.augmented f).capacity := by
              simpa using hq
            have hcp : (e.augmented f).capacity = e.capacity := rfl
            rw [hfl, hcp] at hq1
            simp
            omega
          · rw [if_neg hj]
            exact fun hq => hq
        · obtain ⟨ei, hei, e, he, hf⟩ := hatt
          have he' : g1.edges[ei]? = some e := he
          obtain ⟨e2, he2, hlt⟩ := hunsatE ei hei
          rw [he'] at he2
          cases he2
          have hfl := (haug ei e he' hei).1
          have hnew := hedges2 ei e he'
          rw [if_pos hei] at hnew
          refine ⟨ei, e, _, he', hnew, by simpa using hlt, ?_⟩
          have hcp : (e.augmented f).capacity = e.capacity := rfl
          simp only [decide_eq_false_iff_not, hfl, hcp]
          omega
      show (cleanGraph g2).unsatCount < s.m_graph.unsatCount
      omega

theorem FFInv.ff_run {fuel : Nat} :
    ∀ (m : Nat) (s : FordFulkersonGraphAlgorithm), FFInv s → s.m_graph.ends.Nodup →
      s.m_next_step_state = NextStepState.PathFind → s.m_graph.nodes.length < fuel →
      s.m_graph.unsatCount ≤ m →
      ∃ (k : Nat) (st : FordFulkersonGraphAlgorithm),
        k + st.m_graph.unsatCount ≤ s.m_graph.unsatCount ∧
        (∀ budget, 3 * k + 1 ≤ budget →
          FordFulkersonGraphAlgorithm.runUntilFalse fuel budget s = .ok (3 * k + 1, st)) := by
  intro m
  induction m with
  | zero =>
    intro s h hnd hp hfuel hm
    rcases h.ff_cycle hnd hp hfuel with ⟨s1, hstep, hg⟩ | ⟨_, _, s3, _, _, _, _, _, _, hlt⟩
    · exact ⟨0, s1, by rw [hg]; omega,
        FordFulkersonGraphAlgorithm.ff_runUntilFalse_false hstep⟩
    · omega
  | succ m ih =>
    intro s h hnd hp hfuel hm
    rcases h.ff_cycle hnd hp hfuel with
      ⟨s1, hstep, hg⟩ | ⟨s1, s2, s3, hstep1, hstep2, hstep3, hinv3, hsk3, hp3, hlt⟩
    · exact ⟨0, s1, by rw [hg]; omega,
        FordFulkersonGraphAlgorithm.ff_runUntilFalse_false hstep⟩
    · obtain ⟨k, st, hk, hrun⟩ := ih s3 hinv3
        (by rw [FlowGraph.ends_skel hsk3]; exact hnd) hp3
        (by rw [FlowGraph.flow_skel_nodes_length hsk3]; exact hfuel) (by omega)
      refine ⟨k + 1, st, by omega, ?_⟩
      have h3 := FordFulkersonGraphAlgorithm.ff_runUntilFalse_true hstep3 hrun
      have h2 := FordFulkersonGraphAlgorithm.ff_runUntilFalse_true hstep2 h3
      have h1 := FordFulkersonGraphAlgorithm.ff_runUntilFalse_true hstep1 h2
      intro budget hb
      have := h1 budget (by omega)
      rw [this]
      congr 2

theorem FlowGraph.Fresh.unsat_positive {c : FlowGraphConfig} {g : FlowGraph}
    (hf : FlowGraph.Fresh c g) : g.unsatCount = c.positiveCount := by
  unfold FlowGraph.unsatCount FlowGraphConfig.positiveCount
  rw [← hf.edges_eq, List.filter_map, List.length_map]
  congr 1
  apply List.filter_congr
  intro e he
  obtain ⟨ei, hei⟩ := List.getElem?_of_mem he
  have h0 := (hf.edge_init ei e hei).2
  simp [h0]

/-- C34: for every well-formed flow graph in which no two edges share the same ordered
`(from, to)` pair (start different from end or not), repeated `nextStep` calls return `false`
after finitely many calls: with `k` the number of augmentations, exactly `3 * k + 1` calls
return `true` and call number `3 * k + 2` returns `false`; `k` is at most the number of edges
with positive capacity, and even `k` plus the number of edges left unsaturated at the end is
at most that number (each augmentation fills at least one edge that was not full, and no edge
becomes unsaturated again). -/
theorem ff_terminates_without_parallel_edges (c : FlowGraphConfig) (fuel : Nat)
    (hc : c.WellFormed) (hnp : c.NoParallel) (hfuel : c.nodes.length < fuel) :
    ∃ (g : FlowGraph) (k : Nat) (st : FordFulkersonGraphAlgorithm),
      FlowGraph.new c = .ok g ∧ k ≤ c.positiveCount ∧
      k + st.m_graph.unsatCount ≤ c.positiveCount ∧
      (∀ budget, 3 * k + 2 ≤ budget →
        FordFulkersonGraphAlgorithm.runUntilFalse fuel budget
          (FordFulkersonGraphAlgorithm.new g) = .ok (3 * k + 2, st)) := by
  obtain ⟨g, hnew, hfresh⟩ := FlowGraph.new_fresh c hc
  have hfuel0 : (FordFulkersonGraphAlgorithm.new g).m_graph.nodes.length < fuel := by
    show g.nodes.length < fuel
    rw [hfresh.len]; exact hfuel
  have hinv0 := FFInv.init_fresh hfresh
  have hnd0 : g.ends.Nodup := hfresh.ends_nodup hnp
  have hstep1 := @FordFulkersonGraphAlgorithm.nextStep_clean
    (FordFulkersonGraphAlgorithm.new g) fuel rfl
  obtain ⟨b1, s1, hstep1', hinv1, hsk1⟩ := hinv0.ff_step hfuel0
  rw [hstep1] at hstep1'
  simp only [Except.ok.injEq, Prod.mk.injEq] at hstep1'
  rw [← hstep1'.2] at hinv1 hsk1
  have hcount : (cleanGraph g).unsatCount = c.positiveCount := by
    rw [← hfresh.unsat_positive]
    exact cleanGraph_unsatCount g
  obtain ⟨k, st, hk, hrun⟩ := @FFInv.ff_run fuel (cleanGraph g).unsatCount _ hinv1
    (by
      show (cleanGraph g).ends.Nodup
      rw [FlowGraph.ends_skel (cleanGraph_skel g)]; exact hnd0)
    rfl
    (by
      show (cleanGraph g).nodes.length < fuel
      rw [FlowGraph.flow_skel_nodes_length (cleanGraph_skel g)]; exact hfuel0)
    (Nat.le_refl _)
  have hk' : k + st.m_graph.unsatCount ≤ (cleanGraph g).unsatCount := hk
  rw [hcount] at hk'
  refine ⟨g, k, st, hnew, by omega, hk', ?_⟩
  exact FordFulkersonGraphAlgorithm.ff_runUntilFalse_true hstep1 hrun

theorem ff_terminates_without_parallel_edges_witness :
    diamondFlowConfig.WellFormed ∧ diamondFlowConfig.NoParallel ∧
    ∃ (g : FlowGraph) (k : Nat) (st : FordFulkersonGraphAlgorithm),
      FlowGraph.new diamondFlowConfig = .ok g ∧ k ≤ diamondFlowConfig.positiveCount ∧
      k + st.m_graph.unsatCount ≤ diamondFlowConfig.positiveCount ∧
      (∀ budget, 3 * k + 2 ≤ budget →
        FordFulkersonGraphAlgorithm.runUntilFalse 5 budget
          (FordFulkersonGraphAlgorithm.new g) = .ok (3 * k + 2, st)) :=
  ⟨by decide, by decide,
    ff_terminates_without_parallel_edges diamondFlowConfig 5 (by decide) (by decide)
      (by decide)⟩

/-! ## Parallel edges: the update can miss the edge that the search traversed -/

theorem FordFulkersonGraphAlgorithm.run_forever {fuel : Nat}
    {t a s s1 s2 : FordFulkersonGraphAlgorithm}
    (h0 : FordFulkersonGraphAlgorithm.nextStep fuel t = .ok (true, a))
    (ha : FordFulkersonGraphAlgorithm.nextStep fuel a = .ok (true, s))
    (h1 : FordFulkersonGraphAlgorithm.nextStep fuel s = .ok (true, s1))
    (h2 : FordFulkersonGraphAlgorithm.nextStep fuel s1 = .ok (true, s2))
    (h3 : FordFulkersonGraphAlgorithm.nextStep fuel s2 = .ok (true, s)) :
    ∀ budget, FordFulkersonGraphAlgorithm.runUntilFalse fuel budget t =
      .error Fault.outOfFuel := by
  have hloop : ∀ n,
      FordFulkersonGraphAlgorithm.runUntilFalse fuel n s = .error Fault.outOfFuel ∧
      FordFulkersonGraphAlgorithm.runUntilFalse fuel n s1 = .error Fault.outOfFuel ∧
      FordFulkersonGraphAlgorithm.runUntilFalse fuel n s2 = .error Fault.outOfFuel := by
    intro n
    induction n with
    | zero => exact ⟨rfl, rfl, rfl⟩
    | succ n ih =>
      obtain ⟨i0, i1, i2⟩ := ih
      refine ⟨?_, ?_, ?_⟩
      · simp only [FordFulkersonGraphAlgorithm.runUntilFalse, h1, i1]
      · simp only [FordFulkersonGraphAlgorithm.runUntilFalse, h2, i2]
      · simp only [FordFulkersonGraphAlgorithm.runUntilFalse, h3, i0]
  intro budget
  cases budget with
  | zero => rfl
  | succ b =>
    cases b with
    | zero => simp only [FordFulkersonGraphAlgorithm.runUntilFalse, h0]
    | succ b =>
      simp only [FordFulkersonGraphAlgorithm.runUntilFalse, h0, ha, (hloop b).1]

/-- C35 (the code makes no progress when parallel edges are present): the configuration has
the two parallel edges `0 -> 1`, edge `0` of capacity `0` and edge `1` of capacity `1`, start
`0` and end `1`. The search of the second call crosses the unsaturated edge `1` and records
`parent[1] = 0`; `findEdge(0, 1)` returns edge `0`, which is full. So the third call, in the
`UpdatePath` phase, adds `0` to `m_max_flow` and raises no `current_flow`; three calls later
the algorithm is in the very same state again, and no call ever returns `false`. -/
theorem ff_parallel_edges_no_progress :
    parallelFlowConfig.WellFormed ∧
    ∃ (g : FlowGraph) (s s1 : FordFulkersonGraphAlgorithm),
      FlowGraph.new parallelFlowConfig = .ok g ∧
      FordFulkersonGraphAlgorithm.steps 3 2 (FordFulkersonGraphAlgorithm.new g) = .ok s ∧
      s.m_next_step_state = NextStepState.UpdatePath ∧
      s.m_parent = [SIZE_MAX, 0] ∧
      s.m_graph.edges.map (fun e => (e.from_node_index, e.to_node_index, e.current_flow,
        e.capacity)) = [(0, 1, 0, 0), (0, 1, 0, 1)] ∧
      FordFulkersonGraphAlgorithm.findEdge s.m_graph 0 1 = .ok 0 ∧
      FordFulkersonGraphAlgorithm.nextStep 3 s = .ok (true, s1) ∧
      FordFulkersonGraphAlgorithm.addedBy 3 s = .ok 0 ∧
      s.m_max_flow = 0 ∧ s1.m_max_flow = 0 ∧
      s.m_graph.flows = [0, 0] ∧ s1.m_graph.flows = [0, 0] ∧
      FordFulkersonGraphAlgorithm.steps 3 3 s = .ok s ∧
      ∀ budget, FordFulkersonGraphAlgorithm.runUntilFalse 3 budget
        (FordFulkersonGraphAlgorithm.new g) = .error Fault.outOfFuel :=
  ⟨by decide, _, _, _, rfl, rfl, rfl, rfl, rfl, rfl, rfl, rfl, rfl, rfl, rfl, rfl, rfl,
    @FordFulkersonGraphAlgorithm.run_forever 3 _ _ _ _ _ rfl rfl rfl rfl rfl⟩

/-! ## The display states of a path graph only move forward -/

theorem PathNodeState.rank_le_three (s : PathNodeState) : s.rank ≤ 3 := by
  cases s <;> simp [PathNodeState.rank]

theorem PathEdgeState.edge_rank_le_three (s : PathEdgeState) : s.rank ≤ 3 := by
  cases s <;> simp [PathEdgeState.rank]

theorem PathNodeState.rank_le_two {s : PathNodeState} (h : s ≠ PathNodeState.OnShortestPath) :
    s.rank ≤ 2 := by
  cases s <;> simp [PathNodeState.rank] at h ⊢

theorem PathEdgeState.edge_rank_le_two {s : PathEdgeState}
    (h : s ≠ PathEdgeState.OnShortestPath) : s.rank ≤ 2 := by
  cases s <;> simp [PathEdgeState.rank] at h ⊢

theorem PathNodeState.rank_pos {s : PathNodeState} (h : s ≠ PathNodeState.NotFound) :
    1 ≤ s.rank := by
  cases s <;> simp [PathNodeState.rank] at h ⊢

theorem PathNodeState.of_rank_pos {s : PathNodeState} (h : 1 ≤ s.rank) :
    s ≠ PathNodeState.NotFound := by
  cases s <;> simp [PathNodeState.rank] at h ⊢

theorem PathNodeState.rank_top {s : PathNodeState} (h : 3 ≤ s.rank) :
    s = PathNodeState.OnShortestPath := by
  cases s <;> simp [PathNodeState.rank] at h ⊢

theorem PathEdgeState.edge_rank_top {s : PathEdgeState} (h : 3 ≤ s.rank) :
    s = PathEdgeState.OnShortestPath := by
  cases s <;> simp [PathEdgeState.rank] at h ⊢

theorem PathGraph.StatesLe.same (g : PathGraph) : g.StatesLe g :=
  ⟨fun _ n hn => ⟨n, hn, le_refl _⟩, fun _ e he => ⟨e, he, le_refl _⟩⟩

theorem PathGraph.StatesLe.chain {g g1 g2 : PathGraph} (h1 : g.StatesLe g1)
    (h2 : g1.StatesLe g2) : g.StatesLe g2 := by
  constructor
  · intro v n hn
    obtain ⟨n1, hn1, hle1⟩ := h1.1 v n hn
    obtain ⟨n2, hn2, hle2⟩ := h2.1 v n1 hn1
    exact ⟨n2, hn2, le_trans hle1 hle2⟩
  · intro ei e he
    obtain ⟨e1, he1, hle1⟩ := h1.2 ei e he
    obtain ⟨e2, he2, hle2⟩ := h2.2 ei e1 he1
    exact ⟨e2, he2, le_trans hle1 hle2⟩

/-- One call of `nextStep` from a reachable state moves no state backwards. The auxiliary
fact carried along: while the end node is not found, an edge that left `Default` leads to a
node that left `NotFound`. -/
theorem BFSReach.mono_next {c : PathGraphConfig} {g : PathGraph} (_hf : PathGraph.Fresh c g)
    {fuel : Nat} (hfuel : g.nodes.length ≤ fuel) {s : BFSGraphAlgorithm} (h : BFSReach g s)
    (ht : s.m_found_end = false → s.m_graph.Touched)
    {b : Bool} {s1 : BFSGraphAlgorithm}
    (hstep : BFSGraphAlgorithm.nextStep fuel s = .ok (b, s1)) :
    s.m_graph.StatesLe s1.m_graph ∧ (s1.m_found_end = false → s1.m_graph.Touched) := by
  obtain ⟨hsk, hnc, hec, hcase⟩ := h
  rcases hcase with hnew | ⟨k, A, B, hinv⟩ | ⟨P, V, d, hfound⟩
  · subst hnew
    rw [BFSGraphAlgorithm.nextStep_first] at hstep
    cases hstep
    exact ⟨PathGraph.StatesLe.same g, fun _ => ht rfl⟩
  · have hnorm : (A = [] ∧ B = []) ∨ ∃ k1 u A1 B1, BFSInv s k1 (u :: A1) B1 := by
      cases A with
      | nil =>
        cases B with
        | nil => exact Or.inl ⟨rfl, rfl⟩
        | cons b B1 => exact Or.inr ⟨k + 1, b, B1, [], hinv.relevel⟩
      | cons a A1 => exact Or.inr ⟨k, a, A1, B, hinv⟩
    rcases hnorm with ⟨hA, hB⟩ | ⟨k1, u, A1, B1, h1⟩
    · subst hA; subst hB
      rw [BFSGraphAlgorithm.nextStep_empty hinv.first hinv.queue_eq] at hstep
      cases hstep
      exact ⟨PathGraph.StatesLe.same _, ht⟩
    · have htouched := ht h1.not_found
      by_cases hu : u = s.m_graph.end_node
      · by_cases hus : u = s.m_graph.start_node
        · -- the start node is the end node
          obtain ⟨node0, hnode0, _⟩ := h1.queue_state u (List.mem_cons_self _ _)
          have hflags := h1.wf.flags u node0 hnode0
          have hend0 : node0.is_end_node = true := by rw [hflags.2]; simp [hu]
          have hstart0 : node0.is_start_node = true := by rw [hflags.1]; simp [hus]
          have hmark : BFSGraphAlgorithm.markUsed
              { s.m_graph with
                nodes := s.m_graph.nodes.set u { node0 with state := PathNodeState.Visited } }
              { node0 with state := PathNodeState.Visited } =
              .ok { s.m_graph with
                nodes := s.m_graph.nodes.set u
                  { node0 with state := PathNodeState.Visited } } := by
            unfold BFSGraphAlgorithm.markUsed
            simp [hstart0]
          have hstep2 := @BFSGraphAlgorithm.nextStep_end_start fuel s u (A1 ++ B1) node0 _
            h1.first h1.not_found h1.queue_eq hnode0 hend0 hstart0 hmark
          rw [hstep2] at hstep
          cases hstep
          refine ⟨⟨?_, fun ei e he => ⟨e, he, le_refl _⟩⟩, fun hfe => by cases hfe⟩
          intro x n hn
          by_cases hxu : x = u
          · subst hxu
            refine ⟨{ node0 with state := PathNodeState.OnShortestPath }, ?_,
              PathNodeState.rank_le_three _⟩
            have hlt : x < s.m_graph.nodes.length := getElem?_lt hnode0
            simp [hlt]
          · refine ⟨n, ?_, le_refl _⟩
            show ((s.m_graph.nodes.set u _).set u _)[x]? = some n
            rw [List.getElem?_set_ne (Ne.symm hxu), List.getElem?_set_ne (Ne.symm hxu)]
            exact hn
        · obtain ⟨st1, es, vs, hstep2, _, _, _, hedges, hnodes, _, _, hf1⟩ :=
            @BFSInv.finish_chain fuel _ _ _ _ _ h1 hu hus
              (by rw [PathGraph.skel_nodes_length hsk]; exact hfuel)
          rw [hstep2] at hstep
          cases hstep
          refine ⟨⟨?_, ?_⟩, fun hfe => by rw [hf1] at hfe; cases hfe⟩
          · intro x n hn
            refine ⟨_, hnodes x n hn, ?_⟩
            by_cases hx : x ∈ vs.tail
            · rw [if_pos hx]; exact PathNodeState.rank_le_three _
            · rw [if_neg hx]
              by_cases hxu : x = u
              · rw [if_pos hxu]
                exact PathNodeState.rank_le_two (h1.no_osp_node x n hn)
              · rw [if_neg hxu]
          · intro ej e he
            refine ⟨_, hedges ej e he, ?_⟩
            by_cases hj : ej ∈ es
            · rw [if_pos hj]; exact PathEdgeState.edge_rank_le_three _
            · rw [if_neg hj]
      · obtain ⟨node, st1, D, hnode, hstep2, _, _, _, hsk1, _, _, hD, hv1, hDnodes, hother,
          hedges, hent⟩ := @BFSInv.scan_step_exact fuel _ _ _ _ _ h1 hu
        rw [hstep2] at hstep
        cases hstep
        -- the target of a newly peeked edge was `NotFound`
        have hDtarget : ∀ ei ∈ D, ∃ (w : Nat) (nd : PathNode),
            s.m_graph.targetOf ei = some w ∧ w ≠ u ∧ s.m_graph.nodes[w]? = some nd ∧
            nd.state = PathNodeState.NotFound := by
          intro ei hei
          obtain ⟨_, _, w, nd, _, htgt, hnd, hs, _⟩ := (hD ei).1 hei
          rcases getElem?_set_some hnd with ⟨huw, hndeq, _⟩ | ⟨huw, hnd0⟩
          · rw [hndeq] at hs
            cases hs
          · exact ⟨w, nd, htgt, fun hwu => huw hwu.symm, hnd0, hs⟩
        have hnodesLe : ∀ (x : Nat) (n : PathNode), s.m_graph.nodes[x]? = some n →
            ∃ n1 : PathNode, s1.m_graph.nodes[x]? = some n1 ∧
              n.state.rank ≤ n1.state.rank := by
          intro x n hn
          by_cases hxu : x = u
          · subst hxu
            have hnn : n = node := Option.some.inj (hn.symm.trans hnode)
            subst hnn
            exact ⟨_, hv1, PathNodeState.rank_le_two (h1.no_osp_node x n hn)⟩
          · by_cases hex : ∃ ei ∈ D, s.m_graph.targetOf ei = some x
            · obtain ⟨ei, hei, htgt⟩ := hex
              obtain ⟨w, nd, htgt1, _, hnd, hs⟩ := hDtarget ei hei
              have hwx : w = x := Option.some.inj (htgt1.symm.trans htgt)
              subst hwx
              have hnn : nd = n := Option.some.inj (hnd.symm.trans hn)
              subst hnn
              refine ⟨_, hDnodes ei hei w nd htgt hn, ?_⟩
              rw [hs]
              simp [PathNodeState.rank]
            · refine ⟨n, hother x n hn hxu ?_, le_refl _⟩
              intro ei hei htgt
              exact hex ⟨ei, hei, htgt⟩
        refine ⟨⟨hnodesLe, ?_⟩, fun _ => ?_⟩
        · intro ej e he
          refine ⟨_, hedges ej e he, ?_⟩
          by_cases hj : ej ∈ D
          · rw [if_pos hj]
            obtain ⟨w, nd, htgt, _, hnd, hs⟩ := hDtarget ej hj
            obtain ⟨e0, he0, hto0⟩ := PathGraph.targetOf_eq_some.1 htgt
            have hee : e0 = e := Option.some.inj (he0.symm.trans he)
            subst hee
            have hdef : e0.state = PathEdgeState.Default := by
              by_contra hne
              obtain ⟨nd1, hnd1, hs1⟩ := htouched ej e0 he hne
              rw [hto0] at hnd1
              have : nd1 = nd := Option.some.inj (hnd1.symm.trans hnd)
              rw [this] at hs1
              exact hs1 hs
            rw [hdef]
            simp [PathEdgeState.rank]
          · rw [if_neg hj]
            by_cases hused : u ≠ s.m_graph.start_node ∧ ej = node.entered_by
            · rw [if_pos hused]
              exact PathEdgeState.edge_rank_le_two (h1.no_osp_edge ej e he)
            · rw [if_neg hused]
        · intro ei e1 he1 hne
          have hlt : ei < s.m_graph.edges.length := by
            rw [← PathGraph.skel_edges_length hsk1]
            exact getElem?_lt he1
          obtain ⟨e, he⟩ : ∃ e : PathEdge, s.m_graph.edges[ei]? = some e :=
            getElem?_of_lt hlt
          have he1eq := hedges ei e he
          rw [he1] at he1eq
          have he1eq := Option.some.inj he1eq
          by_cases hj : ei ∈ D
          · rw [if_pos hj] at he1eq
            obtain ⟨w, nd, htgt, _, hnd, _⟩ := hDtarget ei hj
            obtain ⟨e0, he0, hto0⟩ := PathGraph.targetOf_eq_some.1 htgt
            have hee : e0 = e := Option.some.inj (he0.symm.trans he)
            subst hee
            refine ⟨{ nd with state := PathNodeState.Found, entered_by := ei }, ?_, ?_⟩
            · rw [he1eq]
              show s1.m_graph.nodes[e0.to_node_index]? = _
              rw [hto0]
              exact hDnodes ei hj w nd htgt hnd
            · simp
          · rw [if_neg hj] at he1eq
            by_cases hused : u ≠ s.m_graph.start_node ∧ ei = node.entered_by
            · rw [if_pos hused] at he1eq
              obtain ⟨e0, he0, hto0⟩ := hent hused.1
              rw [← hused.2] at he0
              have hee : e0 = e := Option.some.inj (he0.symm.trans he)
              subst hee
              refine ⟨{ node with state := PathNodeState.Visited }, ?_, ?_⟩
              · rw [he1eq]
                show s1.m_graph.nodes[e0.to_node_index]? = _
                rw [hto0.1]
                exact hv1
              · simp
            · rw [if_neg hused] at he1eq
              subst he1eq
              obtain ⟨nd, hnd, hs⟩ := htouched ei e1 he hne
              obtain ⟨n1, hn1, hle⟩ := hnodesLe _ nd hnd
              exact ⟨n1, hn1, PathNodeState.of_rank_pos
                (le_trans (PathNodeState.rank_pos hs) hle)⟩
  · rw [BFSGraphAlgorithm.nextStep_found hfound.first hfound.found] at hstep
    cases hstep
    exact ⟨PathGraph.StatesLe.same _, ht⟩

theorem BFSReach.mono_steps {c : PathGraphConfig} {g : PathGraph} (hf : PathGraph.Fresh c g)
    {fuel : Nat} (hfuel : g.nodes.length ≤ fuel) :
    ∀ (j : Nat) (s : BFSGraphAlgorithm), BFSReach g s →
      (s.m_found_end = false → s.m_graph.Touched) →
      ∃ s1 : BFSGraphAlgorithm, BFSGraphAlgorithm.steps fuel j s = .ok s1 ∧ BFSReach g s1 ∧
        (s1.m_found_end = false → s1.m_graph.Touched) ∧ s.m_graph.StatesLe s1.m_graph := by
  intro j
  induction j with
  | zero => intro s h ht; exact ⟨s, rfl, h, ht, PathGraph.StatesLe.same _⟩
  | succ j ih =>
    intro s h ht
    obtain ⟨b, s1, hstep, h1⟩ := h.next hf hfuel
    obtain ⟨hle, ht1⟩ := h.mono_next hf hfuel ht hstep
    obtain ⟨s2, hsteps, h2, ht2, hle2⟩ := ih s1 h1 ht1
    exact ⟨s2, by simp only [BFSGraphAlgorithm.steps, hstep, hsteps], h2, ht2, hle.chain hle2⟩

theorem BFSReach.start {g : PathGraph} : BFSReach g (BFSGraphAlgorithm.new g) :=
  ⟨rfl, rfl, rfl, Or.inl rfl⟩

/-- C31: along the calls of `BFSGraphAlgorithm::nextStep` no state moves backwards. Between the
state after `k` calls and the state after `j` further calls every node keeps or raises its
position in `NotFound < Found < Visited < OnShortestPath`, every edge keeps or raises its
position in `Default < Peeked < Used < OnShortestPath`, and what is `OnShortestPath` stays
`OnShortestPath`. -/
theorem bfs_states_never_regress (c : PathGraphConfig) (gb : Nat → Nat) (fuel k j : Nat)
    (hc : c.WellFormed) (hfuel : c.nodes.length ≤ fuel) :
    ∃ (g : PathGraph) (s s1 : BFSGraphAlgorithm),
      PathGraph.new c gb = .ok g ∧
      BFSGraphAlgorithm.steps fuel k (BFSGraphAlgorithm.new g) = .ok s ∧
      BFSGraphAlgorithm.steps fuel j s = .ok s1 ∧
      s1.m_graph.nodes.length = s.m_graph.nodes.length ∧
      s1.m_graph.edges.length = s.m_graph.edges.length ∧
      (∀ (v : Nat) (n n1 : PathNode), s.m_graph.nodes[v]? = some n →
        s1.m_graph.nodes[v]? = some n1 →
        n.state.rank ≤ n1.state.rank ∧
          (n.state = PathNodeState.OnShortestPath → n1.state = PathNodeState.OnShortestPath)) ∧
      (∀ (ei : Nat) (e e1 : PathEdge), s.m_graph.edges[ei]? = some e →
        s1.m_graph.edges[ei]? = some e1 →
        e.state.rank ≤ e1.state.rank ∧
          (e.state = PathEdgeState.OnShortestPath →
            e1.state = PathEdgeState.OnShortestPath)) := by
  obtain ⟨g, hnew, hfresh⟩ := PathGraph.new_spec c gb hc
  have hfuel1 : g.nodes.length ≤ fuel := by rw [hfresh.len]; exact hfuel
  have ht0 : (BFSGraphAlgorithm.new g).m_found_end = false → (BFSGraphAlgorithm.new g).m_graph.Touched := by
    intro _ ei e he hne
    exact absurd (hfresh.edge_init ei e he) hne
  obtain ⟨s, hs, hreach, ht, _⟩ := BFSReach.mono_steps hfresh hfuel1 k _ BFSReach.start ht0
  obtain ⟨s1, hs1, hreach1, _, hle⟩ := BFSReach.mono_steps hfresh hfuel1 j s hreach ht
  refine ⟨g, s, s1, hnew, hs, hs1, ?_, ?_, ?_, ?_⟩
  · rw [PathGraph.skel_nodes_length hreach1.1, PathGraph.skel_nodes_length hreach.1]
  · rw [PathGraph.skel_edges_length hreach1.1, PathGraph.skel_edges_length hreach.1]
  · intro v n n1 hn hn1
    obtain ⟨n2, hn2, hle2⟩ := hle.1 v n hn
    have : n2 = n1 := Option.some.inj (hn2.symm.trans hn1)
    subst this
    refine ⟨hle2, fun hosp => PathNodeState.rank_top ?_⟩
    rw [hosp] at hle2
    exact hle2
  · intro ei e e1 he he1
    obtain ⟨e2, he2, hle2⟩ := hle.2 ei e he
    have : e2 = e1 := Option.some.inj (he2.symm.trans he1)
    subst this
    refine ⟨hle2, fun hosp => PathEdgeState.edge_rank_top ?_⟩
    rw [hosp] at hle2
    exact hle2

theorem bfs_states_never_regress_witness :
    diamondPathConfig.WellFormed ∧ diamondPathConfig.nodes.length ≤ 4 ∧
    ∃ (g : PathGraph) (s s1 : BFSGraphAlgorithm),
      PathGraph.new diamondPathConfig (fun _ => 0) = .ok g ∧
      BFSGraphAlgorithm.steps 4 2 (BFSGraphAlgorithm.new g) = .ok s ∧
      BFSGraphAlgorithm.steps 4 3 s = .ok s1 ∧
      s1.m_graph.nodes.length = s.m_graph.nodes.length ∧
      s1.m_graph.edges.length = s.m_graph.edges.length ∧
      (∀ (v : Nat) (n n1 : PathNode), s.m_graph.nodes[v]? = some n →
        s1.m_graph.nodes[v]? = some n1 →
        n.state.rank ≤ n1.state.rank ∧
          (n.state = PathNodeState.OnShortestPath → n1.state = PathNodeState.OnShortestPath)) ∧
      (∀ (ei : Nat) (e e1 : PathEdge), s.m_graph.edges[ei]? = some e →
        s1.m_graph.edges[ei]? = some e1 →
        e.state.rank ≤ e1.state.rank ∧
          (e.state = PathEdgeState.OnShortestPath →
            e1.state = PathEdgeState.OnShortestPath)) :=
  ⟨by decide, by decide,
    bfs_states_never_regress diamondPathConfig (fun _ => 0) 4 2 3 (by decide) (by decide)⟩

/-! ## Bounded work of `BFSGraphAlgorithm` -/

theorem PathGraph.unvisited_pos {g : PathGraph} {u : Nat} {n : PathNode}
    (hn : g.nodes[u]? = some n) (hs : n.state ≠ PathNodeState.Visited) : 1 ≤ g.unvisited := by
  unfold PathGraph.unvisited
  apply List.count_pos_iff.2
  exact List.mem_map.2 ⟨n, List.getElem?_mem hn, by simp [hs]⟩

theorem BFSInv.head_not_visited {st : BFSGraphAlgorithm} {k u : Nat} {A B : List Nat}
    (h : BFSInv st k (u :: A) B) : 1 ≤ st.m_graph.unvisited := by
  obtain ⟨node0, hnode0, hstate0⟩ := h.queue_state u (List.mem_cons_self _ _)
  apply PathGraph.unvisited_pos hnode0
  rcases hstate0 with hs | ⟨hs, _, _⟩ <;> rw [hs] <;> simp

/-- From a traversal state with `m` unvisited nodes the run stops within `m + 1` calls. -/
theorem BFSInv.run_sharp (fuel : Nat) :
    ∀ (m : Nat) (st : BFSGraphAlgorithm) (k : Nat) (A B : List Nat), BFSInv st k A B →
      st.m_graph.unvisited ≤ m →
      (∀ d, IsDist st.m_graph.ends st.m_graph.start_node st.m_graph.end_node d → d ≤ fuel) →
      ∃ (cnt : Nat) (st1 : BFSGraphAlgorithm), cnt ≤ m + 1 ∧
        (∀ budget, cnt ≤ budget →
          BFSGraphAlgorithm.runUntilFalse fuel budget st = .ok (cnt, st1)) := by
  intro m
  induction m with
  | zero =>
    intro st k A B h hm _
    have hnorm : (A = [] ∧ B = []) ∨ ∃ k1 u A1 B1, BFSInv st k1 (u :: A1) B1 := by
      cases A with
      | nil =>
        cases B with
        | nil => exact Or.inl ⟨rfl, rfl⟩
        | cons b B1 => exact Or.inr ⟨k + 1, b, B1, [], h.relevel⟩
      | cons a A1 => exact Or.inr ⟨k, a, A1, B, h⟩
    rcases hnorm with ⟨hA, hB⟩ | ⟨k1, u, A1, B1, h1⟩
    · subst hA; subst hB
      exact ⟨1, st, by omega, BFSGraphAlgorithm.runUntilFalse_false
        (BFSGraphAlgorithm.nextStep_empty h.first h.queue_eq)⟩
    · have := h1.head_not_visited
      omega
  | succ m ih =>
    intro st k A B h hm hfuel
    have hnorm : (A = [] ∧ B = []) ∨ ∃ k1 u A1 B1, BFSInv st k1 (u :: A1) B1 := by
      cases A with
      | nil =>
        cases B with
        | nil => exact Or.inl ⟨rfl, rfl⟩
        | cons b B1 => exact Or.inr ⟨k + 1, b, B1, [], h.relevel⟩
      | cons a A1 => exact Or.inr ⟨k, a, A1, B, h⟩
    rcases hnorm with ⟨hA, hB⟩ | ⟨k1, u, A1, B1, h1⟩
    · subst hA; subst hB
      exact ⟨1, st, by omega, BFSGraphAlgorithm.runUntilFalse_false
        (BFSGraphAlgorithm.nextStep_empty h.first h.queue_eq)⟩
    · by_cases hu : u = st.m_graph.end_node
      · obtain ⟨st1, P, V, d, hstep, hfound, _⟩ := h1.finish hu hfuel
        exact ⟨2, st1, by omega, BFSGraphAlgorithm.runUntilFalse_true hstep
          (BFSGraphAlgorithm.runUntilFalse_false
            (BFSGraphAlgorithm.nextStep_found hfound.first hfound.found))⟩
      · obtain ⟨st1, N, hstep, hinv1, hcount, hsk⟩ := @BFSInv.step fuel _ _ _ _ _ h1 hu
        have hfuel1 : ∀ d, IsDist st1.m_graph.ends st1.m_graph.start_node
            st1.m_graph.end_node d → d ≤ fuel := by
          rw [PathGraph.skel_ends hsk, PathGraph.skel_start hsk, PathGraph.skel_end hsk]
          exact hfuel
        obtain ⟨cnt, st2, hcnt, hrun⟩ := ih st1 k1 A1 (B1 ++ N) hinv1 (by omega) hfuel1
        exact ⟨cnt + 1, st2, by omega, BFSGraphAlgorithm.runUntilFalse_true hstep hrun⟩

theorem BFSReach.inv_of_flags {g : PathGraph} {s : BFSGraphAlgorithm} (h : BFSReach g s)
    (h1 : s.m_first_step = false) (h2 : s.m_found_end = false) :
    ∃ (k : Nat) (A B : List Nat), BFSInv s k A B := by
  rcases h.2.2.2 with hnew | hinv | ⟨P, V, d, hfound⟩
  · subst hnew
    cases h1
  · exact hinv
  · rw [hfound.found] at h2
    cases h2

/-- One call keeps the bookkeeping of the queue traffic: the popped node joins the history, and
the queue after the call is the old queue without the popped node, followed by the pushed
nodes. -/
theorem BFSReach.hist_next {c : PathGraphConfig} {g : PathGraph} (hf : PathGraph.Fresh c g)
    {fuel : Nat} (hfuel : g.nodes.length ≤ fuel) {s : BFSGraphAlgorithm} (h : BFSReach g s)
    {Dq : List Nat} (hh : BFSHistory s Dq) {b : Bool} {s1 : BFSGraphAlgorithm}
    (hstep : BFSGraphAlgorithm.nextStep fuel s = .ok (b, s1)) (h1 : BFSReach g s1) :
    BFSHistory s1 (Dq ++ s.dequeued) ∧
      s.m_unvisited_node_queue ++ s.enqueued s1 = s.dequeued ++ s1.m_unvisited_node_queue := by
  obtain ⟨hle, ht1⟩ := h.mono_next hf hfuel hh.touched hstep
  have hdone1 : ∀ v ∈ Dq, ∃ n : PathNode, s1.m_graph.nodes[v]? = some n ∧ 2 ≤ n.state.rank := by
    intro v hv
    obtain ⟨n, hn, hr⟩ := hh.done v hv
    obtain ⟨n1, hn1, hr1⟩ := hle.1 v n hn
    exact ⟨n1, hn1, le_trans hr hr1⟩
  obtain ⟨hsk, hnc, hec, hcase⟩ := h
  rcases hcase with hnew | ⟨k, A, B, hinv⟩ | ⟨P, V, d, hfound⟩
  · subst hnew
    rw [BFSGraphAlgorithm.nextStep_first] at hstep
    cases hstep
    have hDq : Dq = [] := by
      cases Dq with
      | nil => rfl
      | cons v rest =>
        obtain ⟨n, hn, hr⟩ := hh.done v (List.mem_cons_self _ _)
        have hs : n.state = PathNodeState.NotFound := hf.node_init v n hn
        rw [hs] at hr
        simp [PathNodeState.rank] at hr
    subst hDq
    refine ⟨⟨?_, ?_, ht1⟩, ?_⟩
    · simp [BFSGraphAlgorithm.dequeued, BFSGraphAlgorithm.new]
    · intro v hv
      simp [BFSGraphAlgorithm.dequeued, BFSGraphAlgorithm.new] at hv
    · simp [BFSGraphAlgorithm.dequeued, BFSGraphAlgorithm.enqueued, BFSGraphAlgorithm.new]
  · have hnorm : (A = [] ∧ B = []) ∨ ∃ k1 u A1 B1, BFSInv s k1 (u :: A1) B1 := by
      cases A with
      | nil =>
        cases B with
        | nil => exact Or.inl ⟨rfl, rfl⟩
        | cons b B1 => exact Or.inr ⟨k + 1, b, B1, [], hinv.relevel⟩
      | cons a A1 => exact Or.inr ⟨k, a, A1, B, hinv⟩
    rcases hnorm with ⟨hA, hB⟩ | ⟨k1, u, A1, B1, hi⟩
    · subst hA; subst hB
      rw [BFSGraphAlgorithm.nextStep_empty hinv.first hinv.queue_eq] at hstep
      cases hstep
      have hq : s.m_unvisited_node_queue = [] := hinv.queue_eq
      have hd : s.dequeued = [] := by
        simp [BFSGraphAlgorithm.dequeued, hinv.first, hinv.not_found, hq]
      refine ⟨⟨?_, ?_, ht1⟩, ?_⟩
      · rw [hd, List.append_nil]; exact hh.nodup
      · rw [hd, List.append_nil]; exact hdone1
      · simp [BFSGraphAlgorithm.enqueued, hd, hq]
    · have hq : s.m_unvisited_node_queue = u :: (A1 ++ B1) := hi.queue_eq
      have hd : s.dequeued = [u] := by
        simp [BFSGraphAlgorithm.dequeued, hi.first, hi.not_found, hq]
      -- the popped node is `Visited` or `OnShortestPath` after the call, and the queue
      -- after the call starts with the rest of the old queue
      have hafter : (∃ n : PathNode, s1.m_graph.nodes[u]? = some n ∧ 2 ≤ n.state.rank) ∧
          ∃ N : List Nat, s1.m_unvisited_node_queue = (A1 ++ B1) ++ N ∧
            (s1.m_found_end = true → N = []) := by
        by_cases hu : u = s.m_graph.end_node
        · by_cases hus : u = s.m_graph.start_node
          · obtain ⟨node0, hnode0, _⟩ := hi.queue_state u (List.mem_cons_self _ _)
            have hflags := hi.wf.flags u node0 hnode0
            have hend0 : node0.is_end_node = true := by rw [hflags.2]; simp [hu]
            have hstart0 : node0.is_start_node = true := by rw [hflags.1]; simp [hus]
            have hmark : BFSGraphAlgorithm.markUsed
                { s.m_graph with
                  nodes := s.m_graph.nodes.set u { node0 with state := PathNodeState.Visited } }
                { node0 with state := PathNodeState.Visited } =
                .ok { s.m_graph with
                  nodes := s.m_graph.nodes.set u
                    { node0 with state := PathNodeState.Visited } } := by
              unfold BFSGraphAlgorithm.markUsed
              simp [hstart0]
            have hstep2 := @BFSGraphAlgorithm.nextStep_end_start fuel s u (A1 ++ B1) node0 _
              hi.first hi.not_found hi.queue_eq hnode0 hend0 hstart0 hmark
            rw [hstep2] at hstep
            cases hstep
            have hlt : u < s.m_graph.nodes.length := getElem?_lt hnode0
            refine ⟨⟨{ node0 with state := PathNodeState.OnShortestPath }, ?_, ?_⟩, [], ?_,
              fun _ => rfl⟩
            · simp [hlt]
            · simp [PathNodeState.rank]
            · simp
          · obtain ⟨st1, es, vs, hstep2, _, _, _, _, hnodes, hq1, _, hf1⟩ :=
              @BFSInv.finish_chain fuel _ _ _ _ _ hi hu hus
                (by rw [PathGraph.skel_nodes_length hsk]; exact hfuel)
            rw [hstep2] at hstep
            cases hstep
            obtain ⟨node0, hnode0, _⟩ := hi.queue_state u (List.mem_cons_self _ _)
            refine ⟨⟨_, hnodes u node0 hnode0, ?_⟩, [], by rw [hq1]; simp, fun _ => rfl⟩
            by_cases hx : u ∈ vs.tail
            · rw [if_pos hx]; simp [PathNodeState.rank]
            · rw [if_neg hx, if_pos rfl]; simp [PathNodeState.rank]
        · obtain ⟨node, st1, D, _, hstep2, hq1, _, hf1, _, _, _, _, hv1, _⟩ :=
            @BFSInv.scan_step_exact fuel _ _ _ _ _ hi hu
          rw [hstep2] at hstep
          cases hstep
          refine ⟨⟨_, hv1, by simp [PathNodeState.rank]⟩, _, hq1, ?_⟩
          intro hfe
          rw [hf1] at hfe
          cases hfe
      obtain ⟨⟨nu, hnu, hru⟩, N, hq1, hN⟩ := hafter
      have hnodup0 : (Dq ++ u :: (A1 ++ B1)).Nodup := by rw [← hq]; exact hh.nodup
      have hfirst1 : s1.m_first_step = false := by
        have := h1
        rcases h1.2.2.2 with hnew | ⟨_, _, _, hinv1⟩ | ⟨_, _, _, hfound1⟩
        · exfalso
          have hqq : s1.m_unvisited_node_queue = [] := by rw [hnew]; rfl
          have hstate : nu.state = PathNodeState.NotFound := by
            have : s1.m_graph = g := by rw [hnew]; rfl
            rw [this] at hnu
            exact hf.node_init u nu hnu
          rw [hstate] at hru
          simp [PathNodeState.rank] at hru
        · exact hinv1.first
        · exact hfound1.first
      refine ⟨⟨?_, ?_, ht1⟩, ?_⟩
      · rw [hd, hq1]
        by_cases hfe : s1.m_found_end = true
        · rw [hN hfe, List.append_nil]
          simpa using hnodup0
        · have hfe1 : s1.m_found_end = false := by
            cases hx : s1.m_found_end with
            | true => exact absurd hx hfe
            | false => rfl
          obtain ⟨k2, A2, B2, hinv1⟩ := h1.inv_of_flags hfirst1 hfe1
          have hq2 : (A1 ++ B1) ++ N = A2 ++ B2 := by rw [← hq1]; exact hinv1.queue_eq
          have hnd2 : ((A1 ++ B1) ++ N).Nodup := by rw [hq2]; exact hinv1.nodup
          have hleft : (Dq ++ [u]).Nodup := by
            have := hnodup0
            rw [List.nodup_append] at this ⊢
            refine ⟨this.1, List.nodup_singleton u, ?_⟩
            intro a ha hau
            exact this.2.2 ha (by simp at hau; rw [hau]; exact List.mem_cons_self _ _)
          rw [List.nodup_append]
          refine ⟨hleft, hnd2, ?_⟩
          intro a ha haq
          -- a queued node is not yet visited, a popped node is
          have hlow : ∃ n : PathNode, s1.m_graph.nodes[a]? = some n ∧ n.state.rank ≤ 1 := by
            obtain ⟨n, hn, hs⟩ := hinv1.queue_state a (by rw [← hq2]; exact haq)
            refine ⟨n, hn, ?_⟩
            rcases hs with hs | ⟨hs, _, _⟩ <;> rw [hs] <;> simp [PathNodeState.rank]
          have hhigh : ∃ n : PathNode, s1.m_graph.nodes[a]? = some n ∧ 2 ≤ n.state.rank := by
            rcases List.mem_append.1 ha with ha1 | ha1
            · exact hdone1 a ha1
            · have : a = u := by simpa using ha1
              rw [this]
              exact ⟨nu, hnu, hru⟩
          obtain ⟨n, hn, hl⟩ := hlow
          obtain ⟨n2, hn2, hh2⟩ := hhigh
          have : n2 = n := Option.some.inj (hn2.symm.trans hn)
          rw [this] at hh2
          omega
      · intro v hv
        rw [hd] at hv
        rcases List.mem_append.1 hv with hv1 | hv1
        · exact hdone1 v hv1
        · have : v = u := by simpa using hv1
          rw [this]
          exact ⟨nu, hnu, hru⟩
      · rw [hd]
        unfold BFSGraphAlgorithm.enqueued
        rw [hd, hq, hq1]
        simp
  · rw [BFSGraphAlgorithm.nextStep_found hfound.first hfound.found] at hstep
    cases hstep
    have hd : s.dequeued = [] := by
      simp [BFSGraphAlgorithm.dequeued, hfound.first, hfound.found]
    refine ⟨⟨?_, ?_, ht1⟩, ?_⟩
    · rw [hd, List.append_nil]; exact hh.nodup
    · rw [hd, List.append_nil]; exact hdone1
    · simp [BFSGraphAlgorithm.enqueued, hd]

theorem BFSReach.trace_nodup {c : PathGraphConfig} {g : PathGraph} (hf : PathGraph.Fresh c g)
    {fuel : Nat} (hfuel : g.nodes.length ≤ fuel) :
    ∀ (k : Nat) (s : BFSGraphAlgorithm) (Dq : List Nat), BFSReach g s → BFSHistory s Dq →
      ∃ D E : List Nat, BFSGraphAlgorithm.queueTrace fuel k s = .ok (D, E) ∧
        (Dq ++ D).Nodup ∧ (Dq ++ s.m_unvisited_node_queue ++ E).Nodup := by
  intro k
  induction k with
  | zero =>
    intro s Dq _ hh
    refine ⟨[], [], rfl, ?_, ?_⟩
    · rw [List.append_nil]
      exact (List.nodup_append.1 hh.nodup).1
    · rw [List.append_nil]
      exact hh.nodup
  | succ k ih =>
    intro s Dq h hh
    obtain ⟨b, s1, hstep, h1⟩ := h.next hf hfuel
    obtain ⟨hh1, hfifo⟩ := h.hist_next hf hfuel hh hstep h1
    obtain ⟨D, E, htr, hD, hE⟩ := ih s1 (Dq ++ s.dequeued) h1 hh1
    refine ⟨s.dequeued ++ D, s.enqueued s1 ++ E, ?_, ?_, ?_⟩
    · simp only [BFSGraphAlgorithm.queueTrace, hstep, htr]
    · rw [← List.append_assoc]; exact hD
    · have : Dq ++ s.m_unvisited_node_queue ++ (s.enqueued s1 ++ E) =
          Dq ++ s.dequeued ++ s1.m_unvisited_node_queue ++ E := by
        rw [List.append_assoc Dq, ← List.append_assoc s.m_unvisited_node_queue, hfifo]
        simp [List.append_assoc]
      rw [this]
      exact hE

/-- C36: the work of a breadth-first run on `n` nodes is bounded. The run stops within `n + 2`
calls of `nextStep`, the last of which returns `false`, so at most `n + 1` calls return
`true`; the nodes popped from the queue over any number of calls are pairwise different, and
so are the nodes pushed; the loop bound `n` is enough for the backtrace from the end node. -/
theorem bfs_bounded_work (c : PathGraphConfig) (gb : Nat → Nat) (hc : c.WellFormed) :
    ∃ (g : PathGraph) (cnt : Nat) (st : BFSGraphAlgorithm),
      PathGraph.new c gb = .ok g ∧ cnt ≤ c.nodes.length + 2 ∧
      (∀ budget, cnt ≤ budget →
        BFSGraphAlgorithm.runUntilFalse c.nodes.length budget (BFSGraphAlgorithm.new g) =
          .ok (cnt, st)) ∧
      ∀ k : Nat, ∃ D E : List Nat,
        BFSGraphAlgorithm.queueTrace c.nodes.length k (BFSGraphAlgorithm.new g) = .ok (D, E) ∧
        D.Nodup ∧ E.Nodup := by
  obtain ⟨g, hnew, hfresh⟩ := PathGraph.new_spec c gb hc
  have hinit := BFSInv.init c g hfresh
  have hfuel : ∀ d, IsDist g.ends g.start_node g.end_node d → d ≤ c.nodes.length := by
    intro d hd
    have := IsDist.lt_length hfresh.wf hd
    rw [hfresh.len] at this
    omega
  obtain ⟨cnt, st, hcnt, hrun⟩ :=
    BFSInv.run_sharp c.nodes.length g.unvisited _ 0 [g.start_node] [] hinit (le_refl _) hfuel
  have hle := g.unvisited_le
  rw [hfresh.len] at hle
  refine ⟨g, cnt + 1, st, hnew, by omega,
    BFSGraphAlgorithm.runUntilFalse_true (BFSGraphAlgorithm.nextStep_first _ g) hrun, ?_⟩
  intro k
  have hh : BFSHistory (BFSGraphAlgorithm.new g) [] :=
    ⟨List.nodup_nil, fun v hv => (by cases hv),
      fun _ ei e he hne => absurd (hfresh.edge_init ei e he) hne⟩
  obtain ⟨D, E, htr, hD, hE⟩ := BFSReach.trace_nodup hfresh (le_of_eq hfresh.len) k _ []
    BFSReach.start hh
  refine ⟨D, E, htr, by simpa using hD, ?_⟩
  have : ([] : List Nat) ++ (BFSGraphAlgorithm.new g).m_unvisited_node_queue ++ E = E := by
    simp [BFSGraphAlgorithm.new]
  rw [this] at hE
  exact hE

theorem bfs_bounded_work_witness :
    diamondPathConfig.WellFormed ∧
    ∃ (g : PathGraph) (cnt : Nat) (st : BFSGraphAlgorithm),
      PathGraph.new diamondPathConfig (fun _ => 0) = .ok g ∧
      cnt ≤ diamondPathConfig.nodes.length + 2 ∧
      (∀ budget, cnt ≤ budget →
        BFSGraphAlgorithm.runUntilFalse diamondPathConfig.nodes.length budget
          (BFSGraphAlgorithm.new g) = .ok (cnt, st)) ∧
      ∀ k : Nat, ∃ D E : List Nat,
        BFSGraphAlgorithm.queueTrace diamondPathConfig.nodes.length k
          (BFSGraphAlgorithm.new g) = .ok (D, E) ∧
        D.Nodup ∧ E.Nodup :=
  ⟨by decide, bfs_bounded_work diamondPathConfig (fun _ => 0) (by decide)⟩

/-! ## What the graph constructors build -/

/-- Pushing the index of a new edge on the adjacency list of its source node keeps every
adjacency list strictly increasing and exact: list `v` holds the indices of the edges that
leave node `v`. `F` lists the source nodes of the edges built so far. -/
theorem adjacency_push {F : List Nat} {L : List (List Nat)}
    (h : ∀ (v : Nat) (l : List Nat), L[v]? = some l →
      l.Pairwise (· < ·) ∧ ∀ j, j ∈ l ↔ F[j]? = some v)
    {f : Nat} {l0 : List Nat} (hf : L[f]? = some l0) :
    ∀ (v : Nat) (l : List Nat), (L.set f (l0 ++ [F.length]))[v]? = some l →
      l.Pairwise (· < ·) ∧ ∀ j, j ∈ l ↔ (F ++ [f])[j]? = some v := by
  intro v l hl
  rcases getElem?_set_some hl with ⟨hfv, hleq, _⟩ | ⟨hfv, hl0⟩
  · subst hfv
    subst hleq
    obtain ⟨hp, hm⟩ := h f l0 hf
    have hlt : ∀ j ∈ l0, j < F.length := by
      intro j hj
      exact getElem?_lt ((hm j).1 hj)
    constructor
    · rw [List.pairwise_append]
      refine ⟨hp, List.pairwise_singleton _ _, ?_⟩
      intro a ha b hb
      have hb1 : b = F.length := by simpa using hb
      rw [hb1]
      exact hlt a ha
    · intro j
      constructor
      · intro hj
        rcases List.mem_append.1 hj with hj1 | hj1
        · have hj2 := (hm j).1 hj1
          rw [List.getElem?_append_left (getElem?_lt hj2)]
          exact hj2
        · have hj2 : j = F.length := by simpa using hj1
          rw [hj2]
          simp
      · intro hj
        by_cases hjl : j < F.length
        · rw [List.getElem?_append_left hjl] at hj
          exact List.mem_append.2 (Or.inl ((hm j).2 hj))
        · have hj1 : j < (F ++ [f]).length := getElem?_lt hj
          simp at hj1
          have hj2 : j = F.length := by omega
          rw [hj2]
          simp
  · obtain ⟨hp, hm⟩ := h v l hl0
    refine ⟨hp, ?_⟩
    intro j
    constructor
    · intro hj
      have hj2 := (hm j).1 hj
      rw [List.getElem?_append_left (getElem?_lt hj2)]
      exact hj2
    · intro hj
      by_cases hjl : j < F.length
      · rw [List.getElem?_append_left hjl] at hj
        exact (hm j).2 hj
      · have hj1 : j < (F ++ [f]).length := getElem?_lt hj
        simp at hj1
        have hj2 : j = F.length := by omega
        rw [hj2] at hj
        simp at hj
        exact absurd hj hfv

/-- The edge loop of the `PathGraph` constructor: it appends the configured edges in order,
changes nothing of a node but its adjacency list, and keeps the adjacency lists exact. -/
theorem PathGraph.populateEdges_adj :
    ∀ (rest : List (Nat × Nat)) (F : List Nat) (nodes : List PathNode) (edges : List PathEdge),
      (∀ e ∈ rest, e.1 < nodes.length ∧ e.2 < nodes.length) →
      (∀ (v : Nat) (l : List Nat), (nodes.map (fun n => n.edges))[v]? = some l →
        l.Pairwise (· < ·) ∧ ∀ j, j ∈ l ↔ F[j]? = some v) →
      ∃ (nodes1 : List PathNode) (edges1 : List PathEdge),
        PathGraph.populateEdges F.length rest nodes edges = .ok (nodes1, edges1) ∧
        edges1 = edges ++ rest.map (fun e =>
          { state := PathEdgeState.Default, from_node_index := e.1, to_node_index := e.2 }) ∧
        nodes1.map (fun n => { n with edges := [] }) =
          nodes.map (fun n => { n with edges := [] }) ∧
        ∀ (v : Nat) (l : List Nat), (nodes1.map (fun n => n.edges))[v]? = some l →
          l.Pairwise (· < ·) ∧ ∀ j, j ∈ l ↔ (F ++ rest.map Prod.fst)[j]? = some v := by
  intro rest
  induction rest with
  | nil =>
    intro F nodes edges _ hadj
    refine ⟨nodes, edges, rfl, by simp, rfl, ?_⟩
    simpa using hadj
  | cons x rest ih =>
    intro F nodes edges hvalid hadj
    obtain ⟨f, t⟩ := x
    have hx := hvalid (f, t) (List.mem_cons_self _ _)
    obtain ⟨from_node, hfrom⟩ : ∃ a, nodes[f]? = some a := getElem?_of_lt hx.1
    obtain ⟨to_node, hto⟩ : ∃ a, nodes[t]? = some a := getElem?_of_lt hx.2
    have hL : (nodes.map (fun n => n.edges))[f]? = some from_node.edges := by
      rw [List.getElem?_map, hfrom]; rfl
    have hadj1 := adjacency_push hadj hL
    have hmapset : (nodes.set f { from_node with edges := from_node.edges ++ [F.length] }).map
        (fun n => n.edges) =
        (nodes.map (fun n => n.edges)).set f (from_node.edges ++ [F.length]) := by
      rw [List.map_set]
    have hstrip : (nodes.set f { from_node with edges := from_node.edges ++ [F.length] }).map
        (fun n => ({ n with edges := [] } : PathNode)) =
        nodes.map (fun n => ({ n with edges := [] } : PathNode)) := by
      rw [List.map_set]
      apply List.ext_getElem? 
      intro i
      by_cases hi : f = i
      · subst hi
        rw [List.getElem?_set_self (by simpa using hx.1), List.getElem?_map, hfrom]
        rfl
      · rw [List.getElem?_set_ne hi]
    obtain ⟨nodes1, edges1, hrun, hedges, hnodes, hadj2⟩ :=
      ih (F ++ [f]) (nodes.set f { from_node with edges := from_node.edges ++ [F.length] })
        (edges ++ [{ state := PathEdgeState.Default, from_node_index := f,
                     to_node_index := t }])
        (by
          intro e he
          rw [List.length_set]
          exact hvalid e (List.mem_cons_of_mem _ he))
        (by rw [hmapset]; exact hadj1)
    refine ⟨nodes1, edges1, ?_, ?_, ?_, ?_⟩
    · have hlen : (F ++ [f]).length = F.length + 1 := by simp
      rw [hlen] at hrun
      simp only [PathGraph.populateEdges, hfrom, hto]
      exact hrun
    · rw [hedges]; simp
    · rw [hnodes, hstrip]
    · intro v l hl
      have := hadj2 v l hl
      simpa [List.append_assoc] using this

theorem FlowGraph.populateNodes_type (c : FlowGraphConfig) (l : List (Nat × Nat)) :
    ∀ (i v : Nat) (node : FlowNode), (FlowGraph.populateNodes c i l)[v]? = some node →
      node.type = (if i + v = c.end_node then FlowNodeType.End
        else if i + v = c.start_node then FlowNodeType.Start else FlowNodeType.Normal) := by
  induction l with
  | nil => intro i v node h; simp [FlowGraph.populateNodes] at h
  | cons a l ih =>
    intro i v node h
    cases v with
    | zero =>
      simp [FlowGraph.populateNodes] at h
      subst h
      simp
    | succ v =>
      simp [FlowGraph.populateNodes] at h
      have := ih (i + 1) v node h
      have e : i + 1 + v = i + (v + 1) := by omega
      rw [e] at this
      exact this

/-- The edge loop of the `FlowGraph` constructor: it appends the configured edges in order with
flow `0`, changes nothing of a node but its adjacency list, and keeps the adjacency lists
exact. -/
theorem FlowGraph.flow_populateEdges_adj :
    ∀ (rest : List ((Nat × Nat) × Nat)) (F : List Nat) (nodes : List FlowNode)
      (edges : List FlowEdge),
      (∀ e ∈ rest, e.1.1 < nodes.length ∧ e.1.2 < nodes.length) →
      (∀ (v : Nat) (l : List Nat), (nodes.map (fun n => n.edges))[v]? = some l →
        l.Pairwise (· < ·) ∧ ∀ j, j ∈ l ↔ F[j]? = some v) →
      ∃ (nodes1 : List FlowNode) (edges1 : List FlowEdge),
        FlowGraph.populateEdges F.length rest nodes edges = .ok (nodes1, edges1) ∧
        edges1 = edges ++ rest.map (fun e =>
          { capacity := e.2, current_flow := 0, state := FlowEdgeState.Default,
            from_node_index := e.1.1, to_node_index := e.1.2 }) ∧
        nodes1.map (fun n => { n with edges := [] }) =
          nodes.map (fun n => { n with edges := [] }) ∧
        ∀ (v : Nat) (l : List Nat), (nodes1.map (fun n => n.edges))[v]? = some l →
          l.Pairwise (· < ·) ∧
            ∀ j, j ∈ l ↔ (F ++ rest.map (fun e => e.1.1))[j]? = some v := by
  intro rest
  induction rest with
  | nil =>
    intro F nodes edges _ hadj
    refine ⟨nodes, edges, rfl, by simp, rfl, ?_⟩
    simpa using hadj
  | cons x rest ih =>
    intro F nodes edges hvalid hadj
    obtain ⟨⟨f, t⟩, cap⟩ := x
    have hx := hvalid ((f, t), cap) (List.mem_cons_self _ _)
    obtain ⟨from_node, hfrom⟩ : ∃ a, nodes[f]? = some a := getElem?_of_lt hx.1
    obtain ⟨to_node, hto⟩ : ∃ a, nodes[t]? = some a := getElem?_of_lt hx.2
    have hL : (nodes.map (fun n => n.edges))[f]? = some from_node.edges := by
      rw [List.getElem?_map, hfrom]; rfl
    have hadj1 := adjacency_push hadj hL
    have hmapset : (nodes.set f { from_node with edges := from_node.edges ++ [F.length] }).map
        (fun n => n.edges) =
        (nodes.map (fun n => n.edges)).set f (from_node.edges ++ [F.length]) := by
      rw [List.map_set]
    have hstrip : (nodes.set f { from_node with edges := from_node.edges ++ [F.length] }).map
        (fun n => ({ n with edges := [] } : FlowNode)) =
        nodes.map (fun n => ({ n with edges := [] } : FlowNode)) := by
      rw [List.map_set]
      apply List.ext_getElem?
      intro i
      by_cases hi : f = i
      · subst hi
        rw [List.getElem?_set_self (by simpa using hx.1), List.getElem?_map, hfrom]
        rfl
      · rw [List.getElem?_set_ne hi]
    obtain ⟨nodes1, edges1, hrun, hedges, hnodes, hadj2⟩ :=
      ih (F ++ [f]) (nodes.set f { from_node with edges := from_node.edges ++ [F.length] })
        (edges ++ [{ capacity := cap, current_flow := 0, state := FlowEdgeState.Default,
                     from_node_index := f, to_node_index := t }])
        (by
          intro e he
          rw [List.length_set]
          exact hvalid e (List.mem_cons_of_mem _ he))
        (by rw [hmapset]; exact hadj1)
    refine ⟨nodes1, edges1, ?_, ?_, ?_, ?_⟩
    · have hlen : (F ++ [f]).length = F.length + 1 := by simp
      rw [hlen] at hrun
      simp only [FlowGraph.populateEdges, hfrom, hto]
      exact hrun
    · rw [hedges]; simp
    · rw [hnodes, hstrip]
    · intro v l hl
      have := hadj2 v l hl
      simpa [List.append_assoc] using this

theorem PathGraph.populateNodes_entered_by (c : PathGraphConfig) (gb : Nat → Nat)
    (l : List (Nat × Nat)) :
    ∀ (i v : Nat) (node : PathNode), (PathGraph.populateNodes c gb i l)[v]? = some node →
      node.entered_by = gb (i + v) := by
  induction l with
  | nil => intro i v node h; simp [PathGraph.populateNodes] at h
  | cons a l ih =>
    intro i v node h
    cases v with
    | zero =>
      simp [PathGraph.populateNodes] at h
      subst h
      simp
    | succ v =>
      simp [PathGraph.populateNodes] at h
      have := ih (i + 1) v node h
      have e : i + 1 + v = i + (v + 1) := by omega
      rw [e] at this
      exact this

theorem PathGraph.new_exact (c : PathGraphConfig) (gb : Nat → Nat)
    (hc : ∀ e ∈ c.edges, e.1 < c.nodes.length ∧ e.2 < c.nodes.length) :
    ∃ g : PathGraph, PathGraph.new c gb = .ok g ∧
      g.node_count = c.nodes.length ∧ g.edge_count = c.edges.length ∧
      g.start_node = c.start_node ∧ g.end_node = c.end_node ∧
      g.nodes.length = c.nodes.length ∧
      g.edges = c.edges.map (fun e =>
        { state := PathEdgeState.Default, from_node_index := e.1, to_node_index := e.2 }) ∧
      ∀ (i : Nat) (node : PathNode), g.nodes[i]? = some node →
        node.state = PathNodeState.NotFound ∧
        node.is_start_node = decide (i = c.start_node) ∧
        node.is_end_node = decide (i = c.end_node) ∧
        node.edges.Pairwise (· < ·) ∧
        (∀ j, j ∈ node.edges ↔ ∃ e, c.edges[j]? = some e ∧ e.1 = i) ∧
        node.entered_by = gb i := by
  have hlen0 := PathGraph.populateNodes_length c gb c.nodes 0
  obtain ⟨nodes1, edges1, hrun, hedges, hnodes, hadj⟩ :=
    PathGraph.populateEdges_adj c.edges [] (PathGraph.populateNodes c gb 0 c.nodes) []
      (by rw [hlen0]; exact hc)
      (by
        intro v l hl
        rw [List.getElem?_map] at hl
        obtain ⟨n0, hn0, hl0⟩ := Option.map_eq_some'.1 hl
        have := (PathGraph.populateNodes_getElem c gb c.nodes 0 v n0 hn0).2.1
        rw [this] at hl0
        subst hl0
        simp)
  simp only [List.length_nil, List.nil_append] at hrun hedges hadj
  have hlen1 : nodes1.length = c.nodes.length := by
    have := congrArg List.length hnodes
    simpa [hlen0] using this
  refine ⟨{ edge_count := c.edges.length, node_count := c.nodes.length,
            start_node := c.start_node, end_node := c.end_node, edges := edges1,
            nodes := nodes1 },
    by simp only [PathGraph.new, hrun], rfl, rfl, rfl, rfl, hlen1, hedges, ?_⟩
  intro i node hnode
  have hnode : nodes1[i]? = some node := hnode
  have h1 : (nodes1.map (fun n => ({ n with edges := [] } : PathNode)))[i]? =
      some { node with edges := [] } := by
    rw [List.getElem?_map, hnode]; rfl
  rw [hnodes, List.getElem?_map] at h1
  obtain ⟨n0, hn0, hstrip⟩ := Option.map_eq_some'.1 h1
  obtain ⟨hs, _, hst, hen⟩ := PathGraph.populateNodes_getElem c gb c.nodes 0 i n0 hn0
  have hstate : n0.state = node.state := by
    have := congrArg PathNode.state hstrip
    exact this
  have hstart : n0.is_start_node = node.is_start_node := by
    have := congrArg PathNode.is_start_node hstrip
    exact this
  have hend : n0.is_end_node = node.is_end_node := by
    have := congrArg PathNode.is_end_node hstrip
    exact this
  have h2 : (nodes1.map (fun n => n.edges))[i]? = some node.edges := by
    rw [List.getElem?_map, hnode]; rfl
  obtain ⟨hp, hm⟩ := hadj i node.edges h2
  rw [Nat.zero_add] at hst hen
  have hent0 := PathGraph.populateNodes_entered_by c gb c.nodes 0 i n0 hn0
  rw [Nat.zero_add] at hent0
  have hent : n0.entered_by = node.entered_by := by
    have := congrArg PathNode.entered_by hstrip
    exact this
  refine ⟨hstate ▸ hs, hstart ▸ hst, hend ▸ hen, hp, ?_, hent ▸ hent0⟩
  intro j
  rw [hm j, List.getElem?_map]
  exact Option.map_eq_some'

theorem FlowGraph.flow_new_exact (c : FlowGraphConfig)
    (hc : ∀ e ∈ c.edges, e.1.1 < c.nodes.length ∧ e.1.2 < c.nodes.length) :
    ∃ g : FlowGraph, FlowGraph.new c = .ok g ∧
      g.node_count = c.nodes.length ∧ g.edge_count = c.edges.length ∧
      g.start_node = c.start_node ∧ g.end_node = c.end_node ∧
      g.nodes.length = c.nodes.length ∧
      g.edges = c.edges.map (fun e =>
        { capacity := e.2, current_flow := 0, state := FlowEdgeState.Default,
          from_node_index := e.1.1, to_node_index := e.1.2 }) ∧
      ∀ (i : Nat) (node : FlowNode), g.nodes[i]? = some node →
        node.state = FlowNodeState.Default ∧
        node.type = (if i = c.end_node then FlowNodeType.End
          else if i = c.start_node then FlowNodeType.Start else FlowNodeType.Normal) ∧
        node.edges.Pairwise (· < ·) ∧
        ∀ j, j ∈ node.edges ↔ ∃ e, c.edges[j]? = some e ∧ e.1.1 = i := by
  have hlen0 := FlowGraph.populateNodes_len c c.nodes 0
  obtain ⟨nodes1, edges1, hrun, hedges, hnodes, hadj⟩ :=
    FlowGraph.flow_populateEdges_adj c.edges [] (FlowGraph.populateNodes c 0 c.nodes) []
      (by rw [hlen0]; exact hc)
      (by
        intro v l hl
        rw [List.getElem?_map] at hl
        obtain ⟨n0, hn0, hl0⟩ := Option.map_eq_some'.1 hl
        have := (FlowGraph.populateNodes_get c c.nodes 0 v n0 hn0).2
        rw [this] at hl0
        subst hl0
        simp)
  simp only [List.length_nil, List.nil_append] at hrun hedges hadj
  have hlen1 : nodes1.length = c.nodes.length := by
    have := congrArg List.length hnodes
    simpa [hlen0] using this
  refine ⟨{ edge_count := c.edges.length, node_count := c.nodes.length,
            start_node := c.start_node, end_node := c.end_node, edges := edges1,
            nodes := nodes1 },
    by simp only [FlowGraph.new, hrun], rfl, rfl, rfl, rfl, hlen1, hedges, ?_⟩
  intro i node hnode
  have hnode : nodes1[i]? = some node := hnode
  have h1 : (nodes1.map (fun n => ({ n with edges := [] } : FlowNode)))[i]? =
      some { node with edges := [] } := by
    rw [List.getElem?_map, hnode]; rfl
  rw [hnodes, List.getElem?_map] at h1
  obtain ⟨n0, hn0, hstrip⟩ := Option.map_eq_some'.1 h1
  have hs := (FlowGraph.populateNodes_get c c.nodes 0 i n0 hn0).1
  have hty := FlowGraph.populateNodes_type c c.nodes 0 i n0 hn0
  have hstate : n0.state = node.state := by
    have := congrArg FlowNode.state hstrip
    exact this
  have htype : n0.type = node.type := by
    have := congrArg FlowNode.type hstrip
    exact this
  have h2 : (nodes1.map (fun n => n.edges))[i]? = some node.edges := by
    rw [List.getElem?_map, hnode]; rfl
  obtain ⟨hp, hm⟩ := hadj i node.edges h2
  rw [Nat.zero_add] at hty
  refine ⟨hstate ▸ hs, htype ▸ hty, hp, ?_⟩
  intro j
  rw [hm j, List.getElem?_map]
  exact Option.map_eq_some'

/-- C33, where the claim fails: in the flow graph built from a configuration whose start node
is also its end node, node `0` is the configured start node but carries the type `End`, not
`Start`. -/
theorem flow_constructor_start_equal_end_is_end :
    (∀ e ∈ startIsEndFlowConfig.edges,
      e.1.1 < startIsEndFlowConfig.nodes.length ∧ e.1.2 < startIsEndFlowConfig.nodes.length) ∧
    startIsEndFlowConfig.start_node = 0 ∧
    ∃ (g : FlowGraph) (node : FlowNode),
      FlowGraph.new startIsEndFlowConfig = .ok g ∧ g.nodes[0]? = some node ∧
      node.type = FlowNodeType.End ∧ node.type ≠ FlowNodeType.Start := by
  refine ⟨by decide, rfl, _, _, rfl, rfl, rfl, by decide⟩

/-- C33, amended: for every configuration whose edge endpoints are valid node indices the
`PathGraph` and the `FlowGraph` constructor build a graph with as many nodes and edges as the
configuration; edge `j` has the configured endpoints (and capacity, with flow `0`) and the
state `Default`; every node is `NotFound` (`Default` in a flow graph); the adjacency list of
node `i` is strictly increasing and holds exactly the indices of the edges that leave `i`;
a path node is flagged start (end) exactly when it is the configured start (end) node; a flow
node has type `End` exactly when it is the configured end node, and type `Start` exactly when
it is the configured start node and not the end node. -/
theorem constructors_build_configured_graph (cp : PathGraphConfig) (gb : Nat → Nat)
    (cf : FlowGraphConfig)
    (hp : ∀ e ∈ cp.edges, e.1 < cp.nodes.length ∧ e.2 < cp.nodes.length)
    (hfl : ∀ e ∈ cf.edges, e.1.1 < cf.nodes.length ∧ e.1.2 < cf.nodes.length) :
    (∃ g : PathGraph, PathGraph.new cp gb = .ok g ∧
      g.node_count = cp.nodes.length ∧ g.edge_count = cp.edges.length ∧
      g.nodes.length = cp.nodes.length ∧ g.edges.length = cp.edges.length ∧
      (∀ (j : Nat) (e : Nat × Nat), cp.edges[j]? = some e →
        g.edges[j]? = some { state := PathEdgeState.Default, from_node_index := e.1,
                             to_node_index := e.2 }) ∧
      ∀ (i : Nat) (node : PathNode), g.nodes[i]? = some node →
        node.state = PathNodeState.NotFound ∧
        (node.is_start_node = true ↔ i = cp.start_node) ∧
        (node.is_end_node = true ↔ i = cp.end_node) ∧
        node.edges.Pairwise (· < ·) ∧
        ∀ j, j ∈ node.edges ↔ ∃ e, cp.edges[j]? = some e ∧ e.1 = i) ∧
    (∃ g : FlowGraph, FlowGraph.new cf = .ok g ∧
      g.node_count = cf.nodes.length ∧ g.edge_count = cf.edges.length ∧
      g.nodes.length = cf.nodes.length ∧ g.edges.length = cf.edges.length ∧
      (∀ (j : Nat) (e : (Nat × Nat) × Nat), cf.edges[j]? = some e →
        g.edges[j]? = some { capacity := e.2, current_flow := 0,
                             state := FlowEdgeState.Default, from_node_index := e.1.1,
                             to_node_index := e.1.2 }) ∧
      ∀ (i : Nat) (node : FlowNode), g.nodes[i]? = some node →
        node.state = FlowNodeState.Default ∧
        (node.type = FlowNodeType.End ↔ i = cf.end_node) ∧
        (node.type = FlowNodeType.Start ↔ i = cf.start_node ∧ i ≠ cf.end_node) ∧
        node.edges.Pairwise (· < ·) ∧
        ∀ j, j ∈ node.edges ↔ ∃ e, cf.edges[j]? = some e ∧ e.1.1 = i) := by
  constructor
  · obtain ⟨g, hnew, hnc, hec, _, _, hlen, hedges, hnodes⟩ := PathGraph.new_exact cp gb hp
    refine ⟨g, hnew, hnc, hec, hlen, by rw [hedges]; simp, ?_, ?_⟩
    · intro j e he
      rw [hedges, List.getElem?_map, he]
      rfl
    · intro i node hnode
      obtain ⟨hs, hst, hen, hpw, hm, _⟩ := hnodes i node hnode
      refine ⟨hs, ?_, ?_, hpw, hm⟩
      · rw [hst]; simp
      · rw [hen]; simp
  · obtain ⟨g, hnew, hnc, hec, _, _, hlen, hedges, hnodes⟩ := FlowGraph.flow_new_exact cf hfl
    refine ⟨g, hnew, hnc, hec, hlen, by rw [hedges]; simp, ?_, ?_⟩
    · intro j e he
      rw [hedges, List.getElem?_map, he]
      rfl
    · intro i node hnode
      obtain ⟨hs, hty, hpw, hm⟩ := hnodes i node hnode
      refine ⟨hs, ?_, ?_, hpw, hm⟩
      · rw [hty]
        by_cases h1 : i = cf.end_node
        · simp [h1]
        · by_cases h2 : i = cf.start_node <;> simp [h1, h2]
      · rw [hty]
        by_cases h1 : i = cf.end_node
        · simp [h1]
        · by_cases h2 : i = cf.start_node <;> simp [h1, h2]

theorem constructors_build_configured_graph_witness :
    (∀ e ∈ diamondPathConfig.edges,
      e.1 < diamondPathConfig.nodes.length ∧ e.2 < diamondPathConfig.nodes.length) ∧
    (∀ e ∈ diamondFlowConfig.edges,
      e.1.1 < diamondFlowConfig.nodes.length ∧ e.1.2 < diamondFlowConfig.nodes.length) ∧
    (∃ g : PathGraph, PathGraph.new diamondPathConfig (fun _ => 0) = .ok g ∧
      g.node_count = diamondPathConfig.nodes.length ∧
      g.edge_count = diamondPathConfig.edges.length ∧
      g.nodes.length = diamondPathConfig.nodes.length ∧
      g.edges.length = diamondPathConfig.edges.length ∧
      (∀ (j : Nat) (e : Nat × Nat), diamondPathConfig.edges[j]? = some e →
        g.edges[j]? = some { state := PathEdgeState.Default, from_node_index := e.1,
                             to_node_index := e.2 }) ∧
      ∀ (i : Nat) (node : PathNode), g.nodes[i]? = some node →
        node.state = PathNodeState.NotFound ∧
        (node.is_start_node = true ↔ i = diamondPathConfig.start_node) ∧
        (node.is_end_node = true ↔ i = diamondPathConfig.end_node) ∧
        node.edges.Pairwise (· < ·) ∧
        ∀ j, j ∈ node.edges ↔ ∃ e, diamondPathConfig.edges[j]? = some e ∧ e.1 = i) ∧
    (∃ g : FlowGraph, FlowGraph.new diamondFlowConfig = .ok g ∧
      g.node_count = diamondFlowConfig.nodes.length ∧
      g.edge_count = diamondFlowConfig.edges.length ∧
      g.nodes.length = diamondFlowConfig.nodes.length ∧
      g.edges.length = diamondFlowConfig.edges.length ∧
      (∀ (j : Nat) (e : (Nat × Nat) × Nat), diamondFlowConfig.edges[j]? = some e →
        g.edges[j]? = some { capacity := e.2, current_flow := 0,
                             state := FlowEdgeState.Default, from_node_index := e.1.1,
                             to_node_index := e.1.2 }) ∧
      ∀ (i : Nat) (node : FlowNode), g.nodes[i]? = some node →
        node.state = FlowNodeState.Default ∧
        (node.type = FlowNodeType.End ↔ i = diamondFlowConfig.end_node) ∧
        (node.type = FlowNodeType.Start ↔
          i = diamondFlowConfig.start_node ∧ i ≠ diamondFlowConfig.end_node) ∧
        node.edges.Pairwise (· < ·) ∧
        ∀ j, j ∈ node.edges ↔ ∃ e, diamondFlowConfig.edges[j]? = some e ∧ e.1.1 = i) :=
  ⟨by decide, by decide,
    constructors_build_configured_graph diamondPathConfig (fun _ => 0) diamondFlowConfig
      (by decide) (by decide)⟩

/-! ## Ford-Fulkerson never reads the position of a node -/

theorem FlowGraph.core_edges (g : FlowGraph) : g.core.edges = g.edges := rfl

theorem FlowGraph.core_node_count (g : FlowGraph) : g.core.node_count = g.node_count :=
  rfl

theorem FlowNode.node_core_edges (n : FlowNode) : n.core.edges = n.edges := rfl

theorem FlowNode.core_state (n : FlowNode) : n.core.state = n.state := rfl

theorem FordFulkersonGraphAlgorithm.core_graph (s : FordFulkersonGraphAlgorithm) :
    s.core.m_graph = s.m_graph.core := rfl

theorem FordFulkersonGraphAlgorithm.core_start (s : FordFulkersonGraphAlgorithm) :
    s.core.m_start_node = s.m_start_node := rfl

theorem FordFulkersonGraphAlgorithm.core_end (s : FordFulkersonGraphAlgorithm) :
    s.core.m_end_node = s.m_end_node := rfl

theorem FordFulkersonGraphAlgorithm.core_parent (s : FordFulkersonGraphAlgorithm) :
    s.core.m_parent = s.m_parent := rfl

theorem FordFulkersonGraphAlgorithm.core_max_flow (s : FordFulkersonGraphAlgorithm) :
    s.core.m_max_flow = s.m_max_flow := rfl

theorem FordFulkersonGraphAlgorithm.core_phase (s : FordFulkersonGraphAlgorithm) :
    s.core.m_next_step_state = s.m_next_step_state := rfl

theorem FlowGraph.core_get (g : FlowGraph) (v : Nat) :
    g.core.nodes[v]? = (g.nodes[v]?).map FlowNode.core := by
  simp [FlowGraph.core]

theorem FordFulkersonGraphAlgorithm.bfsScan_core (g : FlowGraph) (end_node current_node : Nat) :
    ∀ (es : List Nat) (l : BFSLocals),
      FordFulkersonGraphAlgorithm.bfsScan g.core end_node current_node es l =
        FordFulkersonGraphAlgorithm.bfsScan g end_node current_node es l := by
  intro es
  induction es with
  | nil => intro l; rfl
  | cons ei rest ih =>
    intro l
    simp only [FordFulkersonGraphAlgorithm.bfsScan, FlowGraph.core_edges, ih]

theorem FordFulkersonGraphAlgorithm.bfsLoop_core (g : FlowGraph) (end_node : Nat) :
    ∀ (fuel : Nat) (l : BFSLocals),
      FordFulkersonGraphAlgorithm.bfsLoop g.core end_node fuel l =
        FordFulkersonGraphAlgorithm.bfsLoop g end_node fuel l := by
  intro fuel
  induction fuel with
  | zero => intro l; rfl
  | succ fuel ih =>
    intro l
    simp only [FordFulkersonGraphAlgorithm.bfsLoop]
    cases l.queue with
    | nil => rfl
    | cons current_node queue =>
      simp only [FlowGraph.core_get]
      cases g.nodes[current_node]? with
      | none => rfl
      | some node =>
        simp only [Option.map, FlowNode.node_core_edges,
          FordFulkersonGraphAlgorithm.bfsScan_core, ih]

theorem FordFulkersonGraphAlgorithm.BFS_core (fuel : Nat) (s : FordFulkersonGraphAlgorithm) :
    FordFulkersonGraphAlgorithm.BFS fuel s.core = FordFulkersonGraphAlgorithm.BFS fuel s := by
  simp only [FordFulkersonGraphAlgorithm.BFS, FordFulkersonGraphAlgorithm.core_graph,
    FordFulkersonGraphAlgorithm.core_start, FordFulkersonGraphAlgorithm.core_end,
    FlowGraph.core_node_count, FordFulkersonGraphAlgorithm.bfsLoop_core]

theorem FordFulkersonGraphAlgorithm.findEdgeIn_core (g : FlowGraph) (to_node : Nat) :
    ∀ es : List Nat, FordFulkersonGraphAlgorithm.findEdgeIn g.core to_node es =
      FordFulkersonGraphAlgorithm.findEdgeIn g to_node es := by
  intro es
  induction es with
  | nil => rfl
  | cons ei rest ih =>
    simp only [FordFulkersonGraphAlgorithm.findEdgeIn, FlowGraph.core_edges, ih]

theorem FordFulkersonGraphAlgorithm.findEdge_core (g : FlowGraph) (from_node to_node : Nat) :
    FordFulkersonGraphAlgorithm.findEdge g.core from_node to_node =
      FordFulkersonGraphAlgorithm.findEdge g from_node to_node := by
  unfold FordFulkersonGraphAlgorithm.findEdge
  rw [FlowGraph.core_get]
  cases g.nodes[from_node]? with
  | none => rfl
  | some node =>
    simp only [Option.map, FlowNode.node_core_edges,
      FordFulkersonGraphAlgorithm.findEdgeIn_core]

theorem FordFulkersonGraphAlgorithm.bottleneck_core (g : FlowGraph) (start_node : Nat)
    (parent : List Nat) :
    ∀ (fuel node flow : Nat),
      FordFulkersonGraphAlgorithm.bottleneck g.core start_node parent fuel node flow =
        FordFulkersonGraphAlgorithm.bottleneck g start_node parent fuel node flow := by
  intro fuel
  induction fuel with
  | zero => intro node flow; rfl
  | succ fuel ih =>
    intro node flow
    simp only [FordFulkersonGraphAlgorithm.bottleneck,
      FordFulkersonGraphAlgorithm.findEdge_core, FlowGraph.core_edges, ih]

theorem FordFulkersonGraphAlgorithm.augment_core (start_node : Nat) (parent : List Nat)
    (flow : Nat) :
    ∀ (fuel node : Nat) (g : FlowGraph),
      FordFulkersonGraphAlgorithm.augment start_node parent flow fuel node g.core =
        (FordFulkersonGraphAlgorithm.augment start_node parent flow fuel node g).map
          FlowGraph.core := by
  intro fuel
  induction fuel with
  | zero => intro node g; rfl
  | succ fuel ih =>
    intro node g
    simp only [FordFulkersonGraphAlgorithm.augment,
      FordFulkersonGraphAlgorithm.findEdge_core, FlowGraph.core_edges]
    by_cases hn : node = start_node
    · simp only [hn, if_true]; rfl
    · simp only [hn, if_false]
      cases parent[node]? with
      | none => rfl
      | some parent_node =>
        simp only
        cases FordFulkersonGraphAlgorithm.findEdge g parent_node node with
        | error f => rfl
        | ok edge_index =>
          simp only
          cases g.edges[edge_index]? with
          | none => rfl
          | some edge =>
            simp only
            let e1 : FlowEdge :=
              { edge with
                current_flow := sizeAdd edge.current_flow flow,
                state := if sizeAdd edge.current_flow flow = edge.capacity
                  then FlowEdgeState.Saturated else edge.state }
            exact ih parent_node { g with edges := g.edges.set edge_index e1 }

theorem FordFulkersonGraphAlgorithm.updateFlow_core (fuel : Nat)
    (s : FordFulkersonGraphAlgorithm) :
    FordFulkersonGraphAlgorithm.updateFlow fuel s.core =
      (FordFulkersonGraphAlgorithm.updateFlow fuel s).map (fun r => (r.1, r.2.core)) := by
  simp only [FordFulkersonGraphAlgorithm.updateFlow, FordFulkersonGraphAlgorithm.core_graph,
    FordFulkersonGraphAlgorithm.core_start, FordFulkersonGraphAlgorithm.core_end,
    FordFulkersonGraphAlgorithm.core_parent, FordFulkersonGraphAlgorithm.bottleneck_core]
  cases FordFulkersonGraphAlgorithm.bottleneck s.m_graph s.m_start_node s.m_parent fuel
      s.m_end_node SIZE_MAX with
  | error f => rfl
  | ok flow =>
    simp only [FordFulkersonGraphAlgorithm.augment_core]
    cases FordFulkersonGraphAlgorithm.augment s.m_start_node s.m_parent flow fuel s.m_end_node
        s.m_graph with
    | error f => rfl
    | ok g => rfl

theorem cleanGraph_core (g : FlowGraph) : cleanGraph g.core = (cleanGraph g).core := by
  simp [cleanGraph, FlowGraph.core, FlowNode.core]

theorem FordFulkersonGraphAlgorithm.showFoundPath_core (start_node : Nat) (parent : List Nat) :
    ∀ (fuel node : Nat) (g : FlowGraph),
      FordFulkersonGraphAlgorithm.showFoundPath start_node parent fuel node g.core =
        (FordFulkersonGraphAlgorithm.showFoundPath start_node parent fuel node g).map
          FlowGraph.core := by
  intro fuel
  induction fuel with
  | zero => intro node g; rfl
  | succ fuel ih =>
    intro node g
    simp only [FordFulkersonGraphAlgorithm.showFoundPath]
    by_cases hn : node = start_node
    · simp only [hn, if_true]; rfl
    · simp only [hn, if_false]
      cases parent[node]? with
      | none => rfl
      | some parent_node =>
        simp only [FlowGraph.core_get]
        cases hp : g.nodes[parent_node]? with
        | none => rfl
        | some pnode =>
          simp only [Option.map]
          let p1 : FlowNode := { pnode with state := FlowNodeState.OnUnsaturatedPath }
          let g1 : FlowGraph := { g with nodes := g.nodes.set parent_node p1 }
          let q1 : FlowNode := { pnode.core with state := FlowNodeState.OnUnsaturatedPath }
          let h1 : FlowGraph := { g.core with nodes := g.core.nodes.set parent_node q1 }
          have hg1 : h1 = g1.core := by
            simp [h1, g1, q1, p1, FlowGraph.core, List.map_set, FlowNode.core]
          let mark : FlowEdge → FlowEdge :=
            fun edge => { edge with state := FlowEdgeState.OnUnsaturatedPath }
          let next : FlowGraph → Nat → Except Fault FlowGraph := fun gg edge_index =>
            match gg.edges[edge_index]? with
            | none => .error Fault.outOfBounds
            | some edge =>
              FordFulkersonGraphAlgorithm.showFoundPath start_node parent fuel parent_node
                { gg with edges := gg.edges.set edge_index (mark edge) }
          show (match FordFulkersonGraphAlgorithm.findEdge h1 parent_node node with
            | .error f => Except.error f
            | .ok edge_index => next h1 edge_index) = _
          rw [hg1, FordFulkersonGraphAlgorithm.findEdge_core]
          show _ = (match FordFulkersonGraphAlgorithm.findEdge g1 parent_node node with
            | .error f => Except.error f
            | .ok edge_index => next g1 edge_index).map FlowGraph.core
          cases FordFulkersonGraphAlgorithm.findEdge g1 parent_node node with
          | error f => rfl
          | ok edge_index =>
            show next g1.core edge_index = (next g1 edge_index).map FlowGraph.core
            simp only [next, FlowGraph.core_edges]
            cases g1.edges[edge_index]? with
            | none => rfl
            | some edge =>
              simp only
              exact ih parent_node { g1 with edges := g1.edges.set edge_index (mark edge) }

theorem FordFulkersonGraphAlgorithm.nextStep_core (fuel : Nat)
    (s : FordFulkersonGraphAlgorithm) :
    FordFulkersonGraphAlgorithm.nextStep fuel s.core =
      (FordFulkersonGraphAlgorithm.nextStep fuel s).map (fun r => (r.1, r.2.core)) := by
  unfold FordFulkersonGraphAlgorithm.nextStep
  have hphase : s.core.m_next_step_state = s.m_next_step_state := rfl
  rw [hphase]
  cases s.m_next_step_state with
  | CleanGraph =>
    simp only [FordFulkersonGraphAlgorithm.core_graph, cleanGraph_core]
    rfl
  | PathFind =>
    simp only [FordFulkersonGraphAlgorithm.BFS_core]
    cases FordFulkersonGraphAlgorithm.BFS fuel s with
    | error f => rfl
    | ok r =>
      obtain ⟨b, parent⟩ := r
      cases b with
      | false => rfl
      | true =>
        simp only [FordFulkersonGraphAlgorithm.core_graph,
          FordFulkersonGraphAlgorithm.core_start, FordFulkersonGraphAlgorithm.core_end,
          FordFulkersonGraphAlgorithm.showFoundPath_core]
        cases FordFulkersonGraphAlgorithm.showFoundPath s.m_start_node parent fuel
            s.m_end_node s.m_graph with
        | error f => rfl
        | ok g => rfl
  | UpdatePath =>
    simp only [FordFulkersonGraphAlgorithm.updateFlow_core]
    cases FordFulkersonGraphAlgorithm.updateFlow fuel s with
    | error f => rfl
    | ok r => rfl

theorem FordFulkersonGraphAlgorithm.steps_core (fuel : Nat) :
    ∀ (k : Nat) (s : FordFulkersonGraphAlgorithm),
      FordFulkersonGraphAlgorithm.steps fuel k s.core =
        (FordFulkersonGraphAlgorithm.steps fuel k s).map
          FordFulkersonGraphAlgorithm.core := by
  intro k
  induction k with
  | zero => intro s; rfl
  | succ k ih =>
    intro s
    simp only [FordFulkersonGraphAlgorithm.steps, FordFulkersonGraphAlgorithm.nextStep_core]
    cases FordFulkersonGraphAlgorithm.nextStep fuel s with
    | error f => rfl
    | ok r =>
      obtain ⟨b, s1⟩ := r
      exact ih s1

/-! ### The constructor -/

theorem FlowGraph.flow_populateNodes_core (c1 c2 : FlowGraphConfig)
    (hs : c1.start_node = c2.start_node) (he : c1.end_node = c2.end_node) :
    ∀ (l1 l2 : List (Nat × Nat)) (i : Nat), l1.length = l2.length →
      (FlowGraph.populateNodes c1 i l1).map FlowNode.core =
        (FlowGraph.populateNodes c2 i l2).map FlowNode.core := by
  intro l1
  induction l1 with
  | nil =>
    intro l2 i hl
    cases l2 with
    | nil => rfl
    | cons b l2 => simp at hl
  | cons a l1 ih =>
    intro l2 i hl
    cases l2 with
    | nil => simp at hl
    | cons b l2 =>
      simp only [FlowGraph.populateNodes, List.map_cons]
      rw [ih l2 (i + 1) (by simpa using hl)]
      simp [FlowNode.core, hs, he]

theorem FlowGraph.flow_populateEdges_core :
    ∀ (rest : List ((Nat × Nat) × Nat)) (i : Nat) (nodes : List FlowNode)
      (edges : List FlowEdge),
      FlowGraph.populateEdges i rest (nodes.map FlowNode.core) edges =
        (FlowGraph.populateEdges i rest nodes edges).map
          (fun r => (r.1.map FlowNode.core, r.2)) := by
  intro rest
  induction rest with
  | nil => intro i nodes edges; rfl
  | cons x rest ih =>
    intro i nodes edges
    obtain ⟨⟨f, t⟩, cap⟩ := x
    simp only [FlowGraph.populateEdges, List.getElem?_map]
    cases hf : nodes[f]? with
    | none => rfl
    | some from_node =>
      cases ht : nodes[t]? with
      | none => rfl
      | some to_node =>
        simp only [Option.map]
        have hset : (nodes.map FlowNode.core).set f
            { from_node.core with edges := from_node.core.edges ++ [i] } =
            (nodes.set f { from_node with edges := from_node.edges ++ [i] }).map
              FlowNode.core := by
          rw [List.map_set]
          rfl
        rw [hset]
        exact ih (i + 1) _ _

theorem FlowGraph.flow_new_core (c1 c2 : FlowGraphConfig) (h : c1.SameTopology c2) :
    (FlowGraph.new c1).map FlowGraph.core = (FlowGraph.new c2).map FlowGraph.core := by
  obtain ⟨hn, hedges, hs, he⟩ := h
  have hnodes := FlowGraph.flow_populateNodes_core c1 c2 hs he c1.nodes c2.nodes 0 hn
  have h1 := FlowGraph.flow_populateEdges_core c1.edges 0 (FlowGraph.populateNodes c1 0 c1.nodes) []
  have h2 := FlowGraph.flow_populateEdges_core c2.edges 0 (FlowGraph.populateNodes c2 0 c2.nodes) []
  rw [hnodes, hedges, h2] at h1
  unfold FlowGraph.new
  rw [← hedges] at h1 ⊢
  rw [← hn, ← hs, ← he]
  cases hr1 : FlowGraph.populateEdges 0 c1.edges (FlowGraph.populateNodes c1 0 c1.nodes) [] with
  | error f =>
    rw [hr1] at h1
    cases hr2 : FlowGraph.populateEdges 0 c1.edges (FlowGraph.populateNodes c2 0 c2.nodes) [] with
    | error f2 =>
      rw [hr2] at h1
      cases h1
      rfl
    | ok r2 =>
      rw [hr2] at h1
      cases h1
  | ok r1 =>
    rw [hr1] at h1
    cases hr2 : FlowGraph.populateEdges 0 c1.edges (FlowGraph.populateNodes c2 0 c2.nodes) [] with
    | error f2 =>
      rw [hr2] at h1
      cases h1
    | ok r2 =>
      rw [hr2] at h1
      obtain ⟨n1, e1⟩ := r1
      obtain ⟨n2, e2⟩ := r2
      have h3 : (n2.map FlowNode.core, e2) = (n1.map FlowNode.core, e1) := Except.ok.inj h1
      have h4 : n2.map FlowNode.core = n1.map FlowNode.core := congrArg Prod.fst h3
      have h5 : e2 = e1 := congrArg Prod.snd h3
      simp only [Except.map, FlowGraph.core]
      rw [h4, h5]

/-! ## The breadth-first search reads neither positions nor unset back-pointers -/

theorem PathNode.node_core_fields {n n1 : PathNode} (h : n.core = n1.core) :
    n.state = n1.state ∧ n.is_start_node = n1.is_start_node ∧
      n.is_end_node = n1.is_end_node ∧ n.edges = n1.edges ∧
      (n.state ≠ PathNodeState.NotFound → n.is_start_node = false →
        n.entered_by = n1.entered_by) := by
  have h1 : n.state = n1.state := by
    have := congrArg PathNode.state h
    exact this
  have h2 : n.is_start_node = n1.is_start_node := by
    have := congrArg PathNode.is_start_node h
    exact this
  have h3 : n.is_end_node = n1.is_end_node := by
    have := congrArg PathNode.is_end_node h
    exact this
  have h4 : n.edges = n1.edges := by
    have := congrArg PathNode.edges h
    exact this
  refine ⟨h1, h2, h3, h4, ?_⟩
  intro hs hst
  have h5 := congrArg PathNode.entered_by h
  simp only [PathNode.core] at h5
  rw [← h1, ← h2] at h5
  simpa [hs, hst] using h5

theorem PathNode.core_mk {n n1 : PathNode} (h1 : n.state = n1.state)
    (h2 : n.is_start_node = n1.is_start_node) (h3 : n.is_end_node = n1.is_end_node)
    (h4 : n.edges = n1.edges)
    (h5 : n.state ≠ PathNodeState.NotFound → n.is_start_node = false →
      n.entered_by = n1.entered_by) : n.core = n1.core := by
  unfold PathNode.core
  rw [← h1, ← h2, ← h3, ← h4]
  by_cases hc : n.state = PathNodeState.NotFound ∨ n.is_start_node = true
  · simp only [if_pos hc]
  · simp only [if_neg hc]
    have hs : n.state ≠ PathNodeState.NotFound := fun h => hc (Or.inl h)
    have hf : n.is_start_node = false := by
      cases hx : n.is_start_node with
      | true => exact absurd (Or.inr hx) hc
      | false => rfl
    rw [h5 hs hf]

theorem PathGraph.graph_core_fields {g g1 : PathGraph} (h : g.core = g1.core) :
    g.edges = g1.edges ∧ g.start_node = g1.start_node ∧ g.end_node = g1.end_node ∧
      g.node_count = g1.node_count ∧ g.edge_count = g1.edge_count ∧
      g.nodes.map PathNode.core = g1.nodes.map PathNode.core := by
  refine ⟨?_, ?_, ?_, ?_, ?_, ?_⟩
  · have := congrArg PathGraph.edges h
    exact this
  · have := congrArg PathGraph.start_node h
    exact this
  · have := congrArg PathGraph.end_node h
    exact this
  · have := congrArg PathGraph.node_count h
    exact this
  · have := congrArg PathGraph.edge_count h
    exact this
  · have := congrArg PathGraph.nodes h
    exact this

theorem PathGraph.core_lookup {g g1 : PathGraph} (h : g.core = g1.core) (v : Nat) :
    (g.nodes[v]? = none ∧ g1.nodes[v]? = none) ∨
      ∃ n n1 : PathNode, g.nodes[v]? = some n ∧ g1.nodes[v]? = some n1 ∧ n.core = n1.core := by
  have hn := (PathGraph.graph_core_fields h).2.2.2.2.2
  have hv : (g.nodes.map PathNode.core)[v]? = (g1.nodes.map PathNode.core)[v]? := by rw [hn]
  rw [List.getElem?_map, List.getElem?_map] at hv
  cases h1 : g.nodes[v]? with
  | none =>
    cases h2 : g1.nodes[v]? with
    | none => exact Or.inl ⟨rfl, rfl⟩
    | some n1 => rw [h1, h2] at hv; cases hv
  | some n =>
    cases h2 : g1.nodes[v]? with
    | none => rw [h1, h2] at hv; cases hv
    | some n1 =>
      rw [h1, h2] at hv
      exact Or.inr ⟨n, n1, rfl, rfl, Option.some.inj hv⟩

/-- Writing core-equal nodes at the same index, and the same edge list, keeps two graphs
core-equal. -/
theorem PathGraph.core_update {g g1 : PathGraph} (h : g.core = g1.core) (v : Nat)
    {n n1 : PathNode} (hn : n.core = n1.core) {E E1 : List PathEdge} (hE : E = E1) :
    ({ g with edges := E, nodes := g.nodes.set v n } : PathGraph).core =
      ({ g1 with edges := E1, nodes := g1.nodes.set v n1 } : PathGraph).core := by
  obtain ⟨_, h2, h3, h4, h5, h6⟩ := PathGraph.graph_core_fields h
  simp only [PathGraph.core, List.map_set]
  rw [h2, h3, h4, h5, h6, hn, hE]

theorem PathGraph.core_update_edges {g g1 : PathGraph} (h : g.core = g1.core)
    {E E1 : List PathEdge} (hE : E = E1) :
    ({ g with edges := E } : PathGraph).core = ({ g1 with edges := E1 } : PathGraph).core := by
  obtain ⟨_, h2, h3, h4, h5, h6⟩ := PathGraph.graph_core_fields h
  simp only [PathGraph.core]
  rw [h2, h3, h4, h5, h6, hE]

theorem BFSGraphAlgorithm.scanNeighbours_rel :
    ∀ (es : List Nat) (g g1 : PathGraph) (q : List Nat), g.core = g1.core →
      (BFSGraphAlgorithm.scanNeighbours es g q).map (fun r => (r.1.core, r.2)) =
        (BFSGraphAlgorithm.scanNeighbours es g1 q).map (fun r => (r.1.core, r.2)) := by
  intro es
  induction es with
  | nil =>
    intro g g1 q h
    simp only [BFSGraphAlgorithm.scanNeighbours, Except.map, h]
  | cons ei rest ih =>
    intro g g1 q h
    have hE : g1.edges = g.edges := (PathGraph.graph_core_fields h).1.symm
    simp only [BFSGraphAlgorithm.scanNeighbours, hE]
    cases he : g.edges[ei]? with
    | none => rfl
    | some edge =>
      simp only
      rcases PathGraph.core_lookup h edge.to_node_index with ⟨h1, h2⟩ | ⟨n, n1, h1, h2, hn⟩
      · rw [h1, h2]
      · rw [h1, h2]
        simp only
        obtain ⟨hs, hst, hen, hed, _⟩ := PathNode.node_core_fields hn
        by_cases hnf : n.state = PathNodeState.NotFound
        · have hnf1 : n1.state = PathNodeState.NotFound := by rw [← hs]; exact hnf
          rw [if_pos hnf, if_pos hnf1]
          apply ih
          apply PathGraph.core_update h _ _ rfl
          exact PathNode.core_mk rfl hst hen hed (fun _ _ => rfl)
        · have hnf1 : ¬ n1.state = PathNodeState.NotFound := by rw [← hs]; exact hnf
          rw [if_neg hnf, if_neg hnf1]
          exact ih g g1 q h

theorem BFSGraphAlgorithm.markUsed_rel {g g1 : PathGraph} {n n1 : PathNode}
    (h : g.core = g1.core) (hst : n.is_start_node = n1.is_start_node)
    (hent : n.is_start_node = false → n.entered_by = n1.entered_by) :
    (BFSGraphAlgorithm.markUsed g n).map PathGraph.core =
      (BFSGraphAlgorithm.markUsed g1 n1).map PathGraph.core := by
  unfold BFSGraphAlgorithm.markUsed
  rw [← hst]
  cases hf : n.is_start_node with
  | true =>
    simp only [if_true, Except.map, h]
  | false =>
    have hE : g1.edges = g.edges := (PathGraph.graph_core_fields h).1.symm
    simp only [Bool.false_eq_true, if_false, ← hent hf, hE]
    cases g.edges[n.entered_by]? with
    | none => rfl
    | some e =>
      simp only [Except.map]
      rw [PathGraph.core_update_edges h rfl]

/-- The backtracking loop follows back-pointers of discovered nodes only, so it does the same
on two core-equal graphs. -/
theorem BFSGraphAlgorithm.backtrack_rel :
    ∀ (fuel : Nat) (g g1 : PathGraph) (i : Nat), g.core = g1.core → g.WF → ParentLinks g →
      (∀ e : PathEdge, g.edges[i]? = some e →
        ∃ unode : PathNode, g.nodes[e.from_node_index]? = some unode ∧
          unode.state ≠ PathNodeState.NotFound) →
      (BFSGraphAlgorithm.backtrack fuel g i).map PathGraph.core =
        (BFSGraphAlgorithm.backtrack fuel g1 i).map PathGraph.core := by
  intro fuel
  induction fuel with
  | zero => intro g g1 i _ _ _ _; rfl
  | succ fuel ih =>
    intro g g1 i h hwf hpl hfrom
    have hE : g1.edges = g.edges := (PathGraph.graph_core_fields h).1.symm
    simp only [BFSGraphAlgorithm.backtrack, hE]
    cases he : g.edges[i]? with
    | none => rfl
    | some e =>
      simp only
      obtain ⟨unode, hunode, hustate⟩ := hfrom e he
      rcases PathGraph.core_lookup h e.from_node_index with ⟨h1, _⟩ | ⟨n, n1, h1, h2, hn⟩
      · rw [hunode] at h1
        cases h1
      · have hnn : n = unode := Option.some.inj (h1.symm.trans hunode)
        subst hnn
        rw [hunode, h2]
        simp only
        obtain ⟨hs, hst, hen, hed, hent⟩ := PathNode.node_core_fields hn
        by_cases hflagt : n.is_start_node = true
        · have hflag1 : n1.is_start_node = true := by rw [← hst]; exact hflagt
          rw [if_pos hflagt, if_pos hflag1]
          simp only [Except.map]
          rw [PathGraph.core_update_edges h rfl]
        · have hflag1 : ¬ n1.is_start_node = true := by rw [← hst]; exact hflagt
          rw [if_neg hflagt, if_neg hflag1]
          have hflag : n.is_start_node = false := by
            cases hx : n.is_start_node with
            | true => exact absurd hx hflagt
            | false => rfl
          have hentered : n1.entered_by = n.entered_by := (hent hustate hflag).symm
          have hne : e.from_node_index ≠ g.start_node := by
            intro heq
            have := (hwf.flags _ n hunode).1
            rw [hflag] at this
            simp [heq] at this
          obtain ⟨e2, unode2, d2, he2, hto2, hun2, hus2, _, _⟩ :=
            hpl _ n hunode hustate hne
          let ga : PathGraph :=
            { g with edges := g.edges.set i { e with state := PathEdgeState.OnShortestPath } }
          have hska : ga.skel = g.skel := PathGraph.skel_set_edge g he rfl rfl
          let unode1 : PathNode := { n with state := PathNodeState.OnShortestPath }
          let g0 : PathGraph := { ga with nodes := ga.nodes.set e.from_node_index unode1 }
          have hsk0 : g0.skel = g.skel := by
            have : g0.skel = ga.skel := @PathGraph.skel_set_node ga _ n _ hunode rfl rfl rfl
            rw [this, hska]
          have hnode0 : ∀ (v : Nat) (nd : PathNode), g.nodes[v]? = some nd →
              g0.nodes[v]? = some (if v = e.from_node_index then
                { nd with state := PathNodeState.OnShortestPath } else nd) := by
            intro v nd hv
            show (g.nodes.set e.from_node_index unode1)[v]? = _
            by_cases hvu : v = e.from_node_index
            · subst hvu
              rw [List.getElem?_set_self (getElem?_lt hunode)]
              rw [hunode] at hv
              cases hv
              simp [unode1]
            · rw [List.getElem?_set_ne (Ne.symm hvu), hv, if_neg hvu]
          have hedge0 : ∀ (ej : Nat) (ee : PathEdge), g.edges[ej]? = some ee →
              g0.edges[ej]? = some (if ej = i then
                { ee with state := PathEdgeState.OnShortestPath } else ee) := by
            intro ej ee hej
            show (g.edges.set i _)[ej]? = _
            by_cases hij : ej = i
            · subst hij
              rw [List.getElem?_set_self (getElem?_lt he)]
              rw [he] at hej
              cases hej
              simp
            · rw [List.getElem?_set_ne (Ne.symm hij), hej, if_neg hij]
          have hpl0 : ParentLinks g0 := by
            apply hpl.of_marked hsk0
            · intro v nd1 hv1
              have hlt : v < g.nodes.length := by
                rw [← PathGraph.skel_nodes_length hsk0]
                exact getElem?_lt hv1
              obtain ⟨nd, hnd⟩ := getElem?_of_lt hlt
              have := hnode0 v nd hnd
              rw [hv1] at this
              cases this
              refine ⟨nd, hnd, ?_, ?_⟩
              · split <;> rfl
              · intro hs
                by_cases hvu : v = e.from_node_index
                · subst hvu
                  rw [hunode] at hnd
                  cases hnd
                  exact hustate
                · rw [if_neg hvu] at hs
                  exact hs
            · intro v nd hv hs
              refine ⟨_, hnode0 v nd hv, ?_⟩
              split
              · simp
              · exact hs
          have hfrom0 : ∀ e3 : PathEdge, g0.edges[n.entered_by]? = some e3 →
              ∃ un : PathNode, g0.nodes[e3.from_node_index]? = some un ∧
                un.state ≠ PathNodeState.NotFound := by
            intro e3 he3
            have h3 := hedge0 _ e2 he2
            rw [he3] at h3
            have h4 : e3.from_node_index = e2.from_node_index := by
              rw [Option.some.inj h3]
              split <;> rfl
            rw [h4]
            refine ⟨_, hnode0 _ unode2 hun2, ?_⟩
            split
            · simp
            · exact hus2
          let m1 : PathNode := { n1 with state := PathNodeState.OnShortestPath }
          let mark : PathEdge := { e with state := PathEdgeState.OnShortestPath }
          let k0 : PathGraph :=
            { g1 with edges := g.edges.set i mark, nodes := g1.nodes.set e.from_node_index m1 }
          have hcore0 : g0.core = k0.core := by
            apply PathGraph.core_update h _ _ rfl
            exact PathNode.core_mk rfl hst hen hed (fun _ hf => hent hustate hf)
          show (BFSGraphAlgorithm.backtrack fuel g0 n.entered_by).map PathGraph.core =
            (BFSGraphAlgorithm.backtrack fuel k0 n1.entered_by).map PathGraph.core
          rw [congrArg (fun j => BFSGraphAlgorithm.backtrack fuel k0 j) hentered]
          exact ih g0 k0 n.entered_by hcore0 (hwf.of_skel hsk0) hpl0 hfrom0

theorem except_map_ok {α β : Type} {f : α → β} {x y : Except Fault α} {a : α}
    (h : x.map f = y.map f) (hx : x = .ok a) : ∃ b : α, y = .ok b ∧ f a = f b := by
  subst hx
  cases y with
  | error e => cases h
  | ok b => exact ⟨b, rfl, Except.ok.inj h⟩

theorem except_map_error {α β : Type} {f : α → β} {x y : Except Fault α} {e : Fault}
    (h : x.map f = y.map f) (hx : x = .error e) : y = .error e := by
  subst hx
  cases y with
  | error e1 =>
    have : e = e1 := Except.error.inj h
    rw [this]
  | ok b => cases h

theorem BFSGraphAlgorithm.state_core_fields {s s1 : BFSGraphAlgorithm} (h : s.core = s1.core) :
    s.m_graph.core = s1.m_graph.core ∧
      s.m_unvisited_node_queue = s1.m_unvisited_node_queue ∧
      s.m_first_step = s1.m_first_step ∧ s.m_found_end = s1.m_found_end := by
  refine ⟨?_, ?_, ?_, ?_⟩
  · have := congrArg BFSGraphAlgorithm.m_graph h
    exact this
  · have := congrArg BFSGraphAlgorithm.m_unvisited_node_queue h
    exact this
  · have := congrArg BFSGraphAlgorithm.m_first_step h
    exact this
  · have := congrArg BFSGraphAlgorithm.m_found_end h
    exact this

/-- A dequeue step on a graph whose discovered nodes carry parent links: after the node was
set `Visited` and its back-pointer edge `Used`, the parent links still hold. -/
theorem ParentLinks.after_mark {g g2 : PathGraph} (hwf : g.WF) (hpl : ParentLinks g)
    {u : Nat} {n : PathNode} (hn : g.nodes[u]? = some n)
    (hs : n.state ≠ PathNodeState.NotFound) (hst : n.is_start_node = false)
    (hm : BFSGraphAlgorithm.markUsed
      { g with nodes := g.nodes.set u { n with state := PathNodeState.Visited } }
      { n with state := PathNodeState.Visited } = .ok g2) :
    g2.WF ∧ ParentLinks g2 ∧
      ∀ e3 : PathEdge, g2.edges[n.entered_by]? = some e3 →
        ∃ un : PathNode, g2.nodes[e3.from_node_index]? = some un ∧
          un.state ≠ PathNodeState.NotFound := by
  have hne : u ≠ g.start_node := by
    intro heq
    have := (hwf.flags _ n hn).1
    rw [hst] at this
    simp [heq] at this
  obtain ⟨e, unode, d, he, hto, hun, hus, _, _⟩ := hpl u n hn hs hne
  let node : PathNode := { n with state := PathNodeState.Visited }
  let ga : PathGraph := { g with nodes := g.nodes.set u node }
  have hska : ga.skel = g.skel := PathGraph.skel_set_node g hn rfl rfl rfl
  obtain ⟨g2a, hm2, hnodes2, hsk2, _⟩ :=
    @BFSGraphAlgorithm.markUsed_spec ga node (Or.inr ⟨e, he⟩)
  have hgg : g2a = g2 := Except.ok.inj (hm2.symm.trans hm)
  subst hgg
  have hsk : g2a.skel = g.skel := hsk2.trans hska
  have hnode2 : ∀ (v : Nat) (nd : PathNode), g.nodes[v]? = some nd →
      g2a.nodes[v]? = some (if v = u then { nd with state := PathNodeState.Visited }
        else nd) := by
    intro v nd hv
    rw [hnodes2]
    show (g.nodes.set u node)[v]? = _
    by_cases hvu : v = u
    · subst hvu
      rw [List.getElem?_set_self (getElem?_lt hn)]
      rw [hn] at hv
      cases hv
      simp [node]
    · rw [List.getElem?_set_ne (Ne.symm hvu), hv, if_neg hvu]
  have hpl2 : ParentLinks g2a := by
    apply hpl.of_marked hsk
    · intro v nd1 hv1
      have hlt : v < g.nodes.length := by
        rw [← PathGraph.skel_nodes_length hsk]
        exact getElem?_lt hv1
      obtain ⟨nd, hnd⟩ := getElem?_of_lt hlt
      have := hnode2 v nd hnd
      rw [hv1] at this
      cases this
      refine ⟨nd, hnd, ?_, ?_⟩
      · split <;> rfl
      · intro hs1
        by_cases hvu : v = u
        · subst hvu
          rw [hn] at hnd
          cases hnd
          exact hs
        · rw [if_neg hvu] at hs1
          exact hs1
    · intro v nd hv hs1
      refine ⟨_, hnode2 v nd hv, ?_⟩
      split
      · simp
      · exact hs1
  refine ⟨hwf.of_skel hsk, hpl2, ?_⟩
  intro e3 he3
  have hu2 := hnode2 u n hn
  rw [if_pos rfl] at hu2
  obtain ⟨e4, un4, _, he4, _, hun4, hus4, _, _⟩ :=
    hpl2 u _ hu2 (by simp) (by rw [PathGraph.skel_start hsk]; exact hne)
  have he4 : g2a.edges[n.entered_by]? = some e4 := he4
  rw [he3] at he4
  cases he4
  exact ⟨un4, hun4, hus4⟩

/-- One call of `nextStep` does the same on two core-equal states, provided the first state is
one in which the node at the head of the queue is the start node or a discovered node. -/
theorem BFSGraphAlgorithm.nextStep_rel {fuel : Nat} {s s1 : BFSGraphAlgorithm}
    (h : s.core = s1.core) (hwf : s.m_graph.WF) (hpl : ParentLinks s.m_graph)
    (hq : ∀ (u : Nat) (q : List Nat) (n : PathNode), s.m_first_step = false →
      s.m_found_end = false → s.m_unvisited_node_queue = u :: q →
      s.m_graph.nodes[u]? = some n →
      n.is_start_node = true ∨ n.state ≠ PathNodeState.NotFound) :
    (BFSGraphAlgorithm.nextStep fuel s).map (fun r => (r.1, r.2.core)) =
      (BFSGraphAlgorithm.nextStep fuel s1).map (fun r => (r.1, r.2.core)) := by
  obtain ⟨hg, hqq, hf, hfe⟩ := BFSGraphAlgorithm.state_core_fields h
  obtain ⟨g, q0, f0, e0⟩ := s
  obtain ⟨g1, q1, f1, e1⟩ := s1
  simp only at hg hqq hf hfe hwf hpl hq
  subst hqq; subst hf; subst hfe
  have hstart : g.start_node = g1.start_node := (PathGraph.graph_core_fields hg).2.1
  unfold BFSGraphAlgorithm.nextStep
  simp only
  cases f0 with
  | true =>
    simp only [if_true, Except.map, BFSGraphAlgorithm.core, hg, hstart]
  | false =>
    simp only [Bool.false_eq_true, if_false]
    cases q0 with
    | nil => simp only [Except.map, BFSGraphAlgorithm.core, hg]
    | cons u q =>
      simp only
      cases e0 with
      | true => simp only [if_true, Except.map, BFSGraphAlgorithm.core, hg]
      | false =>
        simp only [Bool.false_eq_true, if_false]
        rcases PathGraph.core_lookup hg u with ⟨h1, h2⟩ | ⟨n, n1, h1, h2, hn⟩
        · rw [h1, h2]
        · rw [h1, h2]
          simp only
          have hdisj := hq u q n rfl rfl rfl h1
          obtain ⟨hs, hst, hen, hed, hent⟩ := PathNode.node_core_fields hn
          have hentered : n.is_start_node = false → n.entered_by = n1.entered_by := by
            intro hfl
            apply hent _ hfl
            rcases hdisj with hd | hd
            · rw [hfl] at hd
              cases hd
            · exact hd
          let node : PathNode := { n with state := PathNodeState.Visited }
          let node1 : PathNode := { n1 with state := PathNodeState.Visited }
          let ga : PathGraph := { g with nodes := g.nodes.set u node }
          let gb : PathGraph := { g1 with nodes := g1.nodes.set u node1 }
          have hnodecore : node.core = node1.core :=
            PathNode.core_mk rfl hst hen hed (fun _ hfl => hentered hfl)
          have hcore1 : ga.core = gb.core :=
            PathGraph.core_update hg u hnodecore (PathGraph.graph_core_fields hg).1
          have hmark := @BFSGraphAlgorithm.markUsed_rel ga gb node node1 hcore1 hst hentered
          let mk : PathGraph → List Nat → Bool → BFSGraphAlgorithm := fun gg qq fe =>
            { m_graph := gg, m_unvisited_node_queue := qq, m_first_step := false,
              m_found_end := fe }
          let osp : PathNode → PathNode :=
            fun nd => { nd with state := PathNodeState.OnShortestPath }
          let cont : PathNode → PathGraph → Except Fault (Bool × BFSGraphAlgorithm) :=
            fun nd g2 =>
              if nd.is_end_node then
                if nd.is_start_node then
                  .ok (true, mk { g2 with nodes := g2.nodes.set u (osp nd) } q true)
                else
                  match BFSGraphAlgorithm.backtrack fuel g2 nd.entered_by with
                  | .error f => .error f
                  | .ok g3 => .ok (true, mk g3 q true)
              else
                match BFSGraphAlgorithm.scanNeighbours nd.edges g2 q with
                | .error f => .error f
                | .ok (g3, queue3) => .ok (true, mk g3 queue3 false)
          let F : Bool × BFSGraphAlgorithm → Bool × BFSGraphAlgorithm :=
            fun r => (r.1, r.2.core)
          show Except.map F (match BFSGraphAlgorithm.markUsed ga node with
            | .error f => Except.error f
            | .ok g2 => cont node g2) =
            Except.map F (match BFSGraphAlgorithm.markUsed gb node1 with
            | .error f => Except.error f
            | .ok g2 => cont node1 g2)
          cases hm : BFSGraphAlgorithm.markUsed ga node with
          | error f =>
            rw [except_map_error hmark hm]
          | ok g2 =>
            obtain ⟨g2b, hm1, hcore2⟩ := except_map_ok hmark hm
            rw [hm1]
            simp only [cont]
            have hen1 : node1.is_end_node = node.is_end_node := hen.symm
            have hst1 : node1.is_start_node = node.is_start_node := hst.symm
            have hed1 : node1.edges = node.edges := hed.symm
            rw [hen1, hst1, hed1]
            by_cases hend : node.is_end_node = true
            · rw [if_pos hend, if_pos hend]
              by_cases hsn : node.is_start_node = true
              · rw [if_pos hsn, if_pos hsn]
                simp only [Except.map, BFSGraphAlgorithm.core, mk, osp, F]
                have hc3 := PathGraph.core_update hcore2 u
                  (@PathNode.core_mk (osp node) (osp node1) rfl hst hen hed
                    (fun _ hfl => hentered hfl))
                  (PathGraph.graph_core_fields hcore2).1
                rw [hc3]
              · rw [if_neg hsn, if_neg hsn]
                have hfl : n.is_start_node = false := by
                  cases hx : n.is_start_node with
                  | true => exact absurd hx hsn
                  | false => rfl
                have hnf : n.state ≠ PathNodeState.NotFound := by
                  rcases hdisj with hd | hd
                  · rw [hfl] at hd
                    cases hd
                  · exact hd
                obtain ⟨hwf2, hpl2, hfrom2⟩ := ParentLinks.after_mark hwf hpl h1 hnf hfl hm
                have hback := BFSGraphAlgorithm.backtrack_rel fuel g2 g2b n.entered_by hcore2
                  hwf2 hpl2 hfrom2
                have he1 : node1.entered_by = node.entered_by := (hentered hfl).symm
                rw [he1]
                cases hb : BFSGraphAlgorithm.backtrack fuel g2 node.entered_by with
                | error f =>
                  rw [except_map_error hback hb]
                | ok g3 =>
                  obtain ⟨g3b, hb1, hcore3⟩ := except_map_ok hback hb
                  rw [hb1]
                  simp only [Except.map, BFSGraphAlgorithm.core, mk, F, hcore3]
            · rw [if_neg hend, if_neg hend]
              have hscan := BFSGraphAlgorithm.scanNeighbours_rel node.edges g2 g2b q hcore2
              cases hsc : BFSGraphAlgorithm.scanNeighbours node.edges g2 q with
              | error f =>
                rw [except_map_error hscan hsc]
              | ok r =>
                obtain ⟨r1, hsc1, hcore3⟩ := except_map_ok hscan hsc
                rw [hsc1]
                obtain ⟨g3, q3⟩ := r
                obtain ⟨g3b, q3b⟩ := r1
                simp only [Prod.mk.injEq] at hcore3
                simp only [Except.map, BFSGraphAlgorithm.core, mk, F, hcore3.1, hcore3.2]

/-! ## Two runs of the breadth-first search on the same topology -/

theorem PathGraph.populateNodes_core (c1 c2 : PathGraphConfig) (gb1 gb2 : Nat → Nat)
    (hs : c1.start_node = c2.start_node) (he : c1.end_node = c2.end_node) :
    ∀ (l1 l2 : List (Nat × Nat)) (i : Nat), l1.length = l2.length →
      (PathGraph.populateNodes c1 gb1 i l1).map PathNode.core =
        (PathGraph.populateNodes c2 gb2 i l2).map PathNode.core := by
  intro l1
  induction l1 with
  | nil =>
    intro l2 i hl
    cases l2 with
    | nil => rfl
    | cons b l2 => simp at hl
  | cons a l1 ih =>
    intro l2 i hl
    cases l2 with
    | nil => simp at hl
    | cons b l2 =>
      simp only [PathGraph.populateNodes, List.map_cons]
      rw [ih l2 (i + 1) (by simpa using hl)]
      simp [PathNode.core, hs, he]

theorem PathGraph.populateEdges_core :
    ∀ (rest : List (Nat × Nat)) (i : Nat) (nodes : List PathNode) (edges : List PathEdge),
      PathGraph.populateEdges i rest (nodes.map PathNode.core) edges =
        (PathGraph.populateEdges i rest nodes edges).map
          (fun r => (r.1.map PathNode.core, r.2)) := by
  intro rest
  induction rest with
  | nil => intro i nodes edges; rfl
  | cons x rest ih =>
    intro i nodes edges
    obtain ⟨f, t⟩ := x
    simp only [PathGraph.populateEdges, List.getElem?_map]
    cases hf : nodes[f]? with
    | none => rfl
    | some from_node =>
      cases ht : nodes[t]? with
      | none => rfl
      | some to_node =>
        simp only [Option.map]
        have hset : (nodes.map PathNode.core).set f
            { from_node.core with edges := from_node.core.edges ++ [i] } =
            (nodes.set f { from_node with edges := from_node.edges ++ [i] }).map
              PathNode.core := by
          rw [List.map_set]
          rfl
        rw [hset]
        exact ih (i + 1) _ _

theorem PathGraph.path_new_core (c1 c2 : PathGraphConfig) (gb1 gb2 : Nat → Nat)
    (h : c1.SameTopology c2) :
    (PathGraph.new c1 gb1).map PathGraph.core = (PathGraph.new c2 gb2).map PathGraph.core := by
  obtain ⟨hn, hedges, hs, he⟩ := h
  have hnodes := PathGraph.populateNodes_core c1 c2 gb1 gb2 hs he c1.nodes c2.nodes 0 hn
  have h1 := PathGraph.populateEdges_core c1.edges 0
    (PathGraph.populateNodes c1 gb1 0 c1.nodes) []
  have h2 := PathGraph.populateEdges_core c2.edges 0
    (PathGraph.populateNodes c2 gb2 0 c2.nodes) []
  rw [hnodes, hedges, h2] at h1
  unfold PathGraph.new
  rw [← hedges] at h1 ⊢
  rw [← hn, ← hs, ← he]
  cases hr1 : PathGraph.populateEdges 0 c1.edges
      (PathGraph.populateNodes c1 gb1 0 c1.nodes) [] with
  | error f =>
    rw [hr1] at h1
    cases hr2 : PathGraph.populateEdges 0 c1.edges
        (PathGraph.populateNodes c2 gb2 0 c2.nodes) [] with
    | error f2 =>
      rw [hr2] at h1
      cases h1
      rfl
    | ok r2 =>
      rw [hr2] at h1
      cases h1
  | ok r1 =>
    rw [hr1] at h1
    cases hr2 : PathGraph.populateEdges 0 c1.edges
        (PathGraph.populateNodes c2 gb2 0 c2.nodes) [] with
    | error f2 =>
      rw [hr2] at h1
      cases h1
    | ok r2 =>
      rw [hr2] at h1
      obtain ⟨n1, e1⟩ := r1
      obtain ⟨n2, e2⟩ := r2
      have h3 : (n2.map PathNode.core, e2) = (n1.map PathNode.core, e1) := Except.ok.inj h1
      have h4 : n2.map PathNode.core = n1.map PathNode.core := congrArg Prod.fst h3
      have h5 : e2 = e1 := congrArg Prod.snd h3
      simp only [Except.map, PathGraph.core]
      rw [h4, h5]

theorem BFSReach.head_known {g : PathGraph} {s : BFSGraphAlgorithm} (h : BFSReach g s) :
    ∀ (u : Nat) (q : List Nat) (n : PathNode), s.m_first_step = false →
      s.m_found_end = false → s.m_unvisited_node_queue = u :: q →
      s.m_graph.nodes[u]? = some n →
      n.is_start_node = true ∨ n.state ≠ PathNodeState.NotFound := by
  intro u q n h1 h2 hq hn
  obtain ⟨k, A, B, hinv⟩ := h.inv_of_flags h1 h2
  have hmem : u ∈ A ++ B := by
    rw [← hinv.queue_eq, hq]
    exact List.mem_cons_self _ _
  obtain ⟨n2, hn2, hs⟩ := hinv.queue_state u hmem
  have : n2 = n := Option.some.inj (hn2.symm.trans hn)
  subst this
  rcases hs with hs | ⟨_, hus, _⟩
  · right
    rw [hs]
    simp
  · left
    rw [(hinv.wf.flags u n2 hn).1]
    simp [hus]

/-- Two runs from core-equal states stay core-equal and return the same values. -/
theorem BFSReach.steps_rel {c : PathGraphConfig} {g : PathGraph} (hf : PathGraph.Fresh c g)
    {fuel : Nat} (hfuel : g.nodes.length ≤ fuel) :
    ∀ (k : Nat) (s s1 : BFSGraphAlgorithm), BFSReach g s → ParentLinks s.m_graph →
      s.core = s1.core →
      ∃ t t1 : BFSGraphAlgorithm, BFSGraphAlgorithm.steps fuel k s = .ok t ∧
        BFSGraphAlgorithm.steps fuel k s1 = .ok t1 ∧ BFSReach g t ∧ ParentLinks t.m_graph ∧
        t.core = t1.core := by
  intro k
  induction k with
  | zero => intro s s1 h hl hc; exact ⟨s, s1, rfl, rfl, h, hl, hc⟩
  | succ k ih =>
    intro s s1 h hl hc
    obtain ⟨b, t, hstep, ht⟩ := h.next hf hfuel
    have hl1 := h.links_next hf hfuel hl hstep
    have hrel := @BFSGraphAlgorithm.nextStep_rel fuel s s1 hc (h.wf hf) hl h.head_known
    obtain ⟨r1, hstep1, hr1⟩ := except_map_ok hrel hstep
    obtain ⟨b1, t1⟩ := r1
    simp only [Prod.mk.injEq] at hr1
    obtain ⟨u, u1, hu, hu1, hreach, hlinks, hcore⟩ := ih t t1 ht hl1 hr1.2
    exact ⟨u, u1, by simp only [BFSGraphAlgorithm.steps, hstep, hu],
      by simp only [BFSGraphAlgorithm.steps, hstep1, hu1], hreach, hlinks, hcore⟩

theorem ParentLinks.of_fresh {c : PathGraphConfig} {g : PathGraph} (hf : PathGraph.Fresh c g) :
    ParentLinks g := by
  intro v node hv hs _
  exact absurd (hf.node_init v node hv) hs

/-- The field `entered_by` of a node that is still `NotFound`, and of the start node, holds
the value it had at construction: no call of `nextStep` writes it. -/
theorem BFSReach.unset_next {c : PathGraphConfig} {g : PathGraph} (_hf : PathGraph.Fresh c g)
    {fuel : Nat} (hfuel : g.nodes.length ≤ fuel) {s : BFSGraphAlgorithm} (h : BFSReach g s)
    {gb : Nat → Nat}
    (hJ : ∀ (v : Nat) (n : PathNode), s.m_graph.nodes[v]? = some n →
      n.state = PathNodeState.NotFound ∨ v = g.start_node → n.entered_by = gb v)
    {b : Bool} {s1 : BFSGraphAlgorithm}
    (hstep : BFSGraphAlgorithm.nextStep fuel s = .ok (b, s1)) :
    ∀ (v : Nat) (n : PathNode), s1.m_graph.nodes[v]? = some n →
      n.state = PathNodeState.NotFound ∨ v = g.start_node → n.entered_by = gb v := by
  obtain ⟨hsk, hnc, hec, hcase⟩ := h
  have hstart : s.m_graph.start_node = g.start_node := PathGraph.skel_start hsk
  rcases hcase with hnew | ⟨k, A, B, hinv⟩ | ⟨P, V, d, hfound⟩
  · subst hnew
    rw [BFSGraphAlgorithm.nextStep_first] at hstep
    cases hstep
    exact hJ
  · have hnorm : (A = [] ∧ B = []) ∨ ∃ k1 u A1 B1, BFSInv s k1 (u :: A1) B1 := by
      cases A with
      | nil =>
        cases B with
        | nil => exact Or.inl ⟨rfl, rfl⟩
        | cons b B1 => exact Or.inr ⟨k + 1, b, B1, [], hinv.relevel⟩
      | cons a A1 => exact Or.inr ⟨k, a, A1, B, hinv⟩
    rcases hnorm with ⟨hA, hB⟩ | ⟨k1, u, A1, B1, h1⟩
    · subst hA; subst hB
      rw [BFSGraphAlgorithm.nextStep_empty hinv.first hinv.queue_eq] at hstep
      cases hstep
      exact hJ
    · -- it is enough that every node keeps its back-pointer unless it is discovered now
      have hkey : (∀ (v : Nat) (n : PathNode), s1.m_graph.nodes[v]? = some n →
          ∃ nd : PathNode, s.m_graph.nodes[v]? = some nd ∧
            ((n.entered_by = nd.entered_by ∧
              (n.state = PathNodeState.NotFound → nd.state = PathNodeState.NotFound)) ∨
             (n.state ≠ PathNodeState.NotFound ∧ v ≠ g.start_node))) →
          ∀ (v : Nat) (n : PathNode), s1.m_graph.nodes[v]? = some n →
            n.state = PathNodeState.NotFound ∨ v = g.start_node → n.entered_by = gb v := by
        intro hk v n hn hcond
        obtain ⟨nd, hnd, hor⟩ := hk v n hn
        rcases hor with ⟨he, hs⟩ | ⟨hs, hv⟩
        · rw [he]
          apply hJ v nd hnd
          rcases hcond with hc | hc
          · exact Or.inl (hs hc)
          · exact Or.inr hc
        · rcases hcond with hc | hc
          · exact absurd hc hs
          · exact absurd hc hv
      apply hkey
      by_cases hu : u = s.m_graph.end_node
      · by_cases hus : u = s.m_graph.start_node
        · obtain ⟨node0, hnode0, _⟩ := h1.queue_state u (List.mem_cons_self _ _)
          have hflags := h1.wf.flags u node0 hnode0
          have hend0 : node0.is_end_node = true := by rw [hflags.2]; simp [hu]
          have hstart0 : node0.is_start_node = true := by rw [hflags.1]; simp [hus]
          have hmark : BFSGraphAlgorithm.markUsed
              { s.m_graph with
                nodes := s.m_graph.nodes.set u { node0 with state := PathNodeState.Visited } }
              { node0 with state := PathNodeState.Visited } =
              .ok { s.m_graph with
                nodes := s.m_graph.nodes.set u
                  { node0 with state := PathNodeState.Visited } } := by
            unfold BFSGraphAlgorithm.markUsed
            simp [hstart0]
          have hstep2 := @BFSGraphAlgorithm.nextStep_end_start fuel s u (A1 ++ B1) node0 _
            h1.first h1.not_found h1.queue_eq hnode0 hend0 hstart0 hmark
          rw [hstep2] at hstep
          cases hstep
          intro v n hn
          have hn : ((s.m_graph.nodes.set u _).set u _)[v]? = some n := hn
          by_cases hvu : v = u
          · subst hvu
            have hlt : v < s.m_graph.nodes.length := getElem?_lt hnode0
            rw [List.getElem?_set_self (by simpa using hlt)] at hn
            refine ⟨node0, hnode0, Or.inl ⟨?_, ?_⟩⟩
            · rw [← Option.some.inj hn]
            · intro hs
              rw [← Option.some.inj hn] at hs
              cases hs
          · rw [List.getElem?_set_ne (Ne.symm hvu), List.getElem?_set_ne (Ne.symm hvu)] at hn
            exact ⟨n, hn, Or.inl ⟨rfl, id⟩⟩
        · obtain ⟨st1, es, vs, hstep2, _, _, _, _, hnodes, _, _, _⟩ :=
            @BFSInv.finish_chain fuel _ _ _ _ _ h1 hu hus
              (by rw [PathGraph.skel_nodes_length hsk]; exact hfuel)
          rw [hstep2] at hstep
          cases hstep
          have hsk1 := (BFSGraphAlgorithm.nextStep_frame hstep2).1
          intro v n hn
          have hlt : v < s.m_graph.nodes.length := by
            rw [← PathGraph.skel_nodes_length hsk1]
            exact getElem?_lt hn
          obtain ⟨nd, hnd⟩ := getElem?_of_lt hlt
          have h2 := hnodes v nd hnd
          rw [hn] at h2
          have h3 := Option.some.inj h2
          refine ⟨nd, hnd, Or.inl ?_⟩
          by_cases hx : v ∈ vs.tail
          · rw [if_pos hx] at h3
            rw [h3]
            exact ⟨rfl, fun hs => by cases hs⟩
          · rw [if_neg hx] at h3
            by_cases hvu : v = u
            · rw [if_pos hvu] at h3
              rw [h3]
              exact ⟨rfl, fun hs => by cases hs⟩
            · rw [if_neg hvu] at h3
              rw [h3]
              exact ⟨rfl, id⟩
      · obtain ⟨node, st1, D, hnode, hstep2, _, _, _, hsk1, _, _, hD, hv1, hDnodes, hother,
          _, _⟩ := @BFSInv.scan_step_exact fuel _ _ _ _ _ h1 hu
        rw [hstep2] at hstep
        cases hstep
        have hDtarget : ∀ ei ∈ D, ∃ (w : Nat) (nd : PathNode),
            s.m_graph.targetOf ei = some w ∧ w ≠ u ∧ s.m_graph.nodes[w]? = some nd ∧
            nd.state = PathNodeState.NotFound := by
          intro ei hei
          obtain ⟨_, _, w, nd, _, htgt, hnd, hs, _⟩ := (hD ei).1 hei
          rcases getElem?_set_some hnd with ⟨huw, hndeq, _⟩ | ⟨huw, hnd0⟩
          · rw [hndeq] at hs
            cases hs
          · exact ⟨w, nd, htgt, fun hwu => huw hwu.symm, hnd0, hs⟩
        intro v n hn
        have hlt : v < s.m_graph.nodes.length := by
          rw [← PathGraph.skel_nodes_length hsk1]
          exact getElem?_lt hn
        obtain ⟨nd, hnd⟩ := getElem?_of_lt hlt
        refine ⟨nd, hnd, ?_⟩
        by_cases hvu : v = u
        · subst hvu
          have hnn : nd = node := Option.some.inj (hnd.symm.trans hnode)
          subst hnn
          rw [hv1] at hn
          left
          rw [← Option.some.inj hn]
          exact ⟨rfl, fun hs => by cases hs⟩
        · by_cases hex : ∃ ei ∈ D, s.m_graph.targetOf ei = some v
          · obtain ⟨ei, hei, htgt⟩ := hex
            obtain ⟨w, nd2, htgt1, hwu, hnd2, hs2⟩ := hDtarget ei hei
            have hwv : w = v := Option.some.inj (htgt1.symm.trans htgt)
            subst hwv
            have h2 := hDnodes ei hei w nd htgt hnd
            rw [hn] at h2
            right
            constructor
            · rw [Option.some.inj h2]
              simp
            · intro hws
              have hus : u ≠ s.m_graph.start_node := by
                rw [hstart, ← hws]
                exact fun h => hwu h.symm
              obtain ⟨sn, hsn, hss⟩ := h1.start_visited hus
              rw [hstart, ← hws, hnd2] at hsn
              rw [← Option.some.inj hsn, hs2] at hss
              cases hss
          · have h2 := hother v nd hnd hvu (fun ei hei htgt => hex ⟨ei, hei, htgt⟩)
            rw [hn] at h2
            rw [Option.some.inj h2]
            exact Or.inl ⟨rfl, id⟩
  · rw [BFSGraphAlgorithm.nextStep_found hfound.first hfound.found] at hstep
    cases hstep
    exact hJ

theorem BFSReach.unset_steps {c : PathGraphConfig} {g : PathGraph} (hf : PathGraph.Fresh c g)
    {fuel : Nat} (hfuel : g.nodes.length ≤ fuel) {gb : Nat → Nat} :
    ∀ (k : Nat) (s t : BFSGraphAlgorithm), BFSReach g s →
      (∀ (v : Nat) (n : PathNode), s.m_graph.nodes[v]? = some n →
        n.state = PathNodeState.NotFound ∨ v = g.start_node → n.entered_by = gb v) →
      BFSGraphAlgorithm.steps fuel k s = .ok t →
      BFSReach g t ∧ ∀ (v : Nat) (n : PathNode), t.m_graph.nodes[v]? = some n →
        n.state = PathNodeState.NotFound ∨ v = g.start_node → n.entered_by = gb v := by
  intro k
  induction k with
  | zero =>
    intro s t h hJ hs
    cases hs
    exact ⟨h, hJ⟩
  | succ k ih =>
    intro s t h hJ hs
    obtain ⟨b, s1, hstep, h1⟩ := h.next hf hfuel
    have hJ1 := h.unset_next hf hfuel hJ hstep
    simp only [BFSGraphAlgorithm.steps, hstep] at hs
    exact ih s1 t h1 hJ1 hs

/-! ## Rendering attributes do not influence the algorithms -/

theorem PathGraphConfig.SameTopology.wellFormed {c1 c2 : PathGraphConfig}
    (h : c1.SameTopology c2) (hc : c1.WellFormed) : c2.WellFormed := by
  obtain ⟨hn, he, hs, hen⟩ := h
  unfold PathGraphConfig.WellFormed at hc ⊢
  rw [← hn, ← he, ← hs, ← hen]
  exact hc

theorem PathGraph.states_of_core {g g1 : PathGraph} (h : g.core = g1.core) :
    g.nodes.map (fun n => n.state) = g1.nodes.map (fun n => n.state) := by
  have hn := (PathGraph.graph_core_fields h).2.2.2.2.2
  have := congrArg (List.map (fun n : PathNode => n.state)) hn
  simpa [List.map_map, Function.comp_def, PathNode.core] using this

theorem FlowGraph.flow_states_of_core {g g1 : FlowGraph} (h : g.core = g1.core) :
    g.nodes.map (fun n => n.state) = g1.nodes.map (fun n => n.state) := by
  have hn : g.nodes.map FlowNode.core = g1.nodes.map FlowNode.core := by
    have := congrArg FlowGraph.nodes h
    exact this
  have := congrArg (List.map (fun n : FlowNode => n.state)) hn
  simpa [List.map_map, Function.comp_def, FlowNode.core] using this

/-- Two breadth-first runs on configurations with the same topology. -/
theorem BFSGraphAlgorithm.runs_agree (p1 p2 : PathGraphConfig) (gb1 gb2 : Nat → Nat)
    (fuel k : Nat) (hp : p1.WellFormed) (hpp : p1.SameTopology p2)
    (hfuel : p1.nodes.length ≤ fuel) :
    ∃ (g1 g2 : PathGraph) (s1 s2 t1 t2 : BFSGraphAlgorithm) (b : Bool),
      PathGraph.new p1 gb1 = .ok g1 ∧ PathGraph.new p2 gb2 = .ok g2 ∧
      BFSGraphAlgorithm.steps fuel k (BFSGraphAlgorithm.new g1) = .ok s1 ∧
      BFSGraphAlgorithm.steps fuel k (BFSGraphAlgorithm.new g2) = .ok s2 ∧
      BFSGraphAlgorithm.nextStep fuel s1 = .ok (b, t1) ∧
      BFSGraphAlgorithm.nextStep fuel s2 = .ok (b, t2) ∧
      s1.m_graph.nodes.map (fun n => n.state) = s2.m_graph.nodes.map (fun n => n.state) ∧
      s1.m_graph.edges = s2.m_graph.edges ∧
      s1.m_unvisited_node_queue = s2.m_unvisited_node_queue ∧
      ∀ (v : Nat) (n1 n2 : PathNode), s1.m_graph.nodes[v]? = some n1 →
        s2.m_graph.nodes[v]? = some n2 →
        (n1.state ≠ PathNodeState.NotFound → v ≠ p1.start_node →
          n1.entered_by = n2.entered_by) ∧
        (n1.state = PathNodeState.NotFound ∨ v = p1.start_node →
          n1.entered_by = gb1 v ∧ n2.entered_by = gb2 v) := by
  obtain ⟨g1, hnew1, hfresh1⟩ := PathGraph.new_spec p1 gb1 hp
  obtain ⟨g2, hnew2, hfresh2⟩ := PathGraph.new_spec p2 gb2 (hpp.wellFormed hp)
  have hfuel1 : g1.nodes.length ≤ fuel := by rw [hfresh1.len]; exact hfuel
  have hfuel2 : g2.nodes.length ≤ fuel := by rw [hfresh2.len, ← hpp.1]; exact hfuel
  have hcore0 : g1.core = g2.core := by
    have := PathGraph.path_new_core p1 p2 gb1 gb2 hpp
    rw [hnew1, hnew2] at this
    exact Except.ok.inj this
  have hcoreS : (BFSGraphAlgorithm.new g1).core = (BFSGraphAlgorithm.new g2).core := by
    simp only [BFSGraphAlgorithm.core, BFSGraphAlgorithm.new, hcore0]
  obtain ⟨s1, s2, hs1, hs2, hreach1, hlinks1, hcore⟩ :=
    BFSReach.steps_rel hfresh1 hfuel1 k _ _ BFSReach.start (ParentLinks.of_fresh hfresh1)
      hcoreS
  obtain ⟨b, t1, hstep1, _⟩ := hreach1.next hfresh1 hfuel1
  have hrel := @BFSGraphAlgorithm.nextStep_rel fuel s1 s2 hcore (hreach1.wf hfresh1) hlinks1
    hreach1.head_known
  obtain ⟨r2, hstep2, hr2⟩ := except_map_ok hrel hstep1
  obtain ⟨b2, t2⟩ := r2
  simp only [Prod.mk.injEq] at hr2
  have hb : b2 = b := hr2.1.symm
  subst hb
  obtain ⟨hg, hq, _, _⟩ := BFSGraphAlgorithm.state_core_fields hcore
  -- the unset back-pointers of both runs
  have hun0 : ∀ (gb : Nat → Nat) (c : PathGraphConfig) (g : PathGraph),
      c.WellFormed → PathGraph.new c gb = .ok g →
      ∀ (v : Nat) (n : PathNode), (BFSGraphAlgorithm.new g).m_graph.nodes[v]? = some n →
        n.state = PathNodeState.NotFound ∨ v = g.start_node → n.entered_by = gb v := by
    intro gb c g hc hnew v n hn _
    obtain ⟨g0, hnew0, _, _, _, _, _, _, hnodes⟩ := PathGraph.new_exact c gb hc.2.2
    have : g0 = g := Except.ok.inj (hnew0.symm.trans hnew)
    subst this
    exact (hnodes v n hn).2.2.2.2.2
  obtain ⟨_, hun1⟩ := BFSReach.unset_steps hfresh1 hfuel1 k _ s1 BFSReach.start
    (hun0 gb1 p1 g1 hp hnew1) hs1
  obtain ⟨_, hun2⟩ := BFSReach.unset_steps hfresh2 hfuel2 k _ s2 BFSReach.start
    (hun0 gb2 p2 g2 (hpp.wellFormed hp) hnew2) hs2
  refine ⟨g1, g2, s1, s2, t1, t2, b2, hnew1, hnew2, hs1, hs2, hstep1, hstep2,
    PathGraph.states_of_core hg, (PathGraph.graph_core_fields hg).1, hq, ?_⟩
  intro v n1 n2 hn1 hn2
  have hstart1 : s1.m_graph.start_node = p1.start_node := by
    rw [PathGraph.skel_start hreach1.1]; exact hfresh1.start_eq
  constructor
  · intro hs hv
    rcases PathGraph.core_lookup hg v with ⟨h1, _⟩ | ⟨m1, m2, h1, h2, hm⟩
    · rw [hn1] at h1
      cases h1
    · have e1 : m1 = n1 := Option.some.inj (h1.symm.trans hn1)
      have e2 : m2 = n2 := Option.some.inj (h2.symm.trans hn2)
      subst e1; subst e2
      apply (PathNode.node_core_fields hm).2.2.2.2 hs
      rw [((hreach1.wf hfresh1).flags v m1 hn1).1, hstart1]
      simp [hv]
  · intro hcond
    constructor
    · apply hun1 v n1 hn1
      rcases hcond with hc | hc
      · exact Or.inl hc
      · right
        rw [hfresh1.start_eq]
        exact hc
    · apply hun2 v n2 hn2
      rcases PathGraph.core_lookup hg v with ⟨h1, _⟩ | ⟨m1, m2, h1, h2, hm⟩
      · rw [hn1] at h1
        cases h1
      · have e1 : m1 = n1 := Option.some.inj (h1.symm.trans hn1)
        have e2 : m2 = n2 := Option.some.inj (h2.symm.trans hn2)
        subst e1; subst e2
        rcases hcond with hc | hc
        · left
          rw [← (PathNode.node_core_fields hm).1]
          exact hc
        · right
          rw [hfresh2.start_eq, ← hpp.2.2.1]
          exact hc

/-- Two Ford-Fulkerson runs on configurations with the same topology. -/
theorem FordFulkersonGraphAlgorithm.flow_runs_agree (f1 f2 : FlowGraphConfig) (fuel k : Nat)
    (hf : f1.WellFormed) (hff : f1.SameTopology f2) (hfuel : f1.nodes.length < fuel) :
    ∃ (g1 g2 : FlowGraph) (s1 s2 t1 t2 : FordFulkersonGraphAlgorithm) (b : Bool),
      FlowGraph.new f1 = .ok g1 ∧ FlowGraph.new f2 = .ok g2 ∧
      FordFulkersonGraphAlgorithm.steps fuel k (FordFulkersonGraphAlgorithm.new g1) = .ok s1 ∧
      FordFulkersonGraphAlgorithm.steps fuel k (FordFulkersonGraphAlgorithm.new g2) = .ok s2 ∧
      FordFulkersonGraphAlgorithm.nextStep fuel s1 = .ok (b, t1) ∧
      FordFulkersonGraphAlgorithm.nextStep fuel s2 = .ok (b, t2) ∧
      s1.m_graph.nodes.map (fun n => n.state) = s2.m_graph.nodes.map (fun n => n.state) ∧
      s1.m_graph.edges = s2.m_graph.edges ∧ s1.m_parent = s2.m_parent ∧
      s1.m_max_flow = s2.m_max_flow ∧ s1.m_next_step_state = s2.m_next_step_state := by
  obtain ⟨g1, hnew1, hfresh1⟩ := FlowGraph.new_fresh f1 hf
  have hcoreN := FlowGraph.flow_new_core f1 f2 hff
  obtain ⟨g2, hnew2, hcore0⟩ := except_map_ok hcoreN hnew1
  have hfuel0 : (FordFulkersonGraphAlgorithm.new g1).m_graph.nodes.length < fuel := by
    show g1.nodes.length < fuel
    rw [hfresh1.len]; exact hfuel
  obtain ⟨s1, hs1, hinv1, hsk1⟩ := FFInv.steps k _ (FFInv.init_fresh hfresh1) hfuel0
  have hfuel1 : s1.m_graph.nodes.length < fuel := by
    rw [FlowGraph.flow_skel_nodes_length hsk1]; exact hfuel0
  obtain ⟨b, t1, hstep1, _, _⟩ := hinv1.ff_step hfuel1
  have hnewcore : (FordFulkersonGraphAlgorithm.new g1).core =
      (FordFulkersonGraphAlgorithm.new g2).core := by
    have e1 : g1.start_node = g2.start_node := by
      have := congrArg FlowGraph.start_node hcore0
      exact this
    have e2 : g1.end_node = g2.end_node := by
      have := congrArg FlowGraph.end_node hcore0
      exact this
    simp only [FordFulkersonGraphAlgorithm.core, FordFulkersonGraphAlgorithm.new, hcore0, e1,
      e2]
  -- the second run, through the runs on the cores
  have hA := FordFulkersonGraphAlgorithm.steps_core fuel k (FordFulkersonGraphAlgorithm.new g1)
  have hB := FordFulkersonGraphAlgorithm.steps_core fuel k (FordFulkersonGraphAlgorithm.new g2)
  rw [hnewcore, hB] at hA
  obtain ⟨s2, hs2, hcore⟩ := except_map_ok hA.symm hs1
  have hC := FordFulkersonGraphAlgorithm.nextStep_core fuel s1
  have hD := FordFulkersonGraphAlgorithm.nextStep_core fuel s2
  rw [hcore, hD] at hC
  obtain ⟨r2, hstep2, hr2⟩ := except_map_ok hC.symm hstep1
  obtain ⟨b2, t2⟩ := r2
  simp only [Prod.mk.injEq] at hr2
  have hb : b2 = b := hr2.1.symm
  subst hb
  have hg : s1.m_graph.core = s2.m_graph.core := by
    have := congrArg FordFulkersonGraphAlgorithm.m_graph hcore
    exact this
  refine ⟨g1, g2, s1, s2, t1, t2, b2, hnew1, hnew2, hs1, hs2, hstep1, hstep2,
    FlowGraph.flow_states_of_core hg, ?_, ?_, ?_, ?_⟩
  · have := congrArg FlowGraph.edges hg
    exact this
  · have := congrArg FordFulkersonGraphAlgorithm.m_parent hcore
    exact this
  · have := congrArg FordFulkersonGraphAlgorithm.m_max_flow hcore
    exact this
  · have := congrArg FordFulkersonGraphAlgorithm.m_next_step_state hcore
    exact this

/-- C32: the algorithms depend on the topology only. Take two path configurations and two flow
configurations that agree on the number of nodes, the edge list (with capacities), the start
node and the end node, and differ arbitrarily in node coordinates, node size and edge length
(colours are not part of the model: no algorithm step reads them), with arbitrary
uninitialised memory in both path graphs. Then for every `k` the call number `k + 1` of
`nextStep` returns the same value in both runs, and after `k` calls both runs show the same
node states, the same edges (state, endpoints, capacity, flow), the same queue, the same
parent array, the same `m_max_flow` and the same phase. The back-pointer `entered_by` of every
discovered node other than the start node is the same in both runs; the field of an
undiscovered node and of the start node still holds the uninitialised value of its own run. -/
theorem runs_depend_on_topology_only (p1 p2 : PathGraphConfig) (gb1 gb2 : Nat → Nat)
    (f1 f2 : FlowGraphConfig) (fuel k : Nat)
    (hp : p1.WellFormed) (hpp : p1.SameTopology p2)
    (hf : f1.WellFormed) (hff : f1.SameTopology f2)
    (hfuelp : p1.nodes.length ≤ fuel) (hfuelf : f1.nodes.length < fuel) :
    (∃ (g1 g2 : PathGraph) (s1 s2 t1 t2 : BFSGraphAlgorithm) (b : Bool),
      PathGraph.new p1 gb1 = .ok g1 ∧ PathGraph.new p2 gb2 = .ok g2 ∧
      BFSGraphAlgorithm.steps fuel k (BFSGraphAlgorithm.new g1) = .ok s1 ∧
      BFSGraphAlgorithm.steps fuel k (BFSGraphAlgorithm.new g2) = .ok s2 ∧
      BFSGraphAlgorithm.nextStep fuel s1 = .ok (b, t1) ∧
      BFSGraphAlgorithm.nextStep fuel s2 = .ok (b, t2) ∧
      s1.m_graph.nodes.map (fun n => n.state) = s2.m_graph.nodes.map (fun n => n.state) ∧
      s1.m_graph.edges = s2.m_graph.edges ∧
      s1.m_unvisited_node_queue = s2.m_unvisited_node_queue ∧
      ∀ (v : Nat) (n1 n2 : PathNode), s1.m_graph.nodes[v]? = some n1 →
        s2.m_graph.nodes[v]? = some n2 →
        (n1.state ≠ PathNodeState.NotFound → v ≠ p1.start_node →
          n1.entered_by = n2.entered_by) ∧
        (n1.state = PathNodeState.NotFound ∨ v = p1.start_node →
          n1.entered_by = gb1 v ∧ n2.entered_by = gb2 v)) ∧
    (∃ (g1 g2 : FlowGraph) (s1 s2 t1 t2 : FordFulkersonGraphAlgorithm) (b : Bool),
      FlowGraph.new f1 = .ok g1 ∧ FlowGraph.new f2 = .ok g2 ∧
      FordFulkersonGraphAlgorithm.steps fuel k (FordFulkersonGraphAlgorithm.new g1) = .ok s1 ∧
      FordFulkersonGraphAlgorithm.steps fuel k (FordFulkersonGraphAlgorithm.new g2) = .ok s2 ∧
      FordFulkersonGraphAlgorithm.nextStep fuel s1 = .ok (b, t1) ∧
      FordFulkersonGraphAlgorithm.nextStep fuel s2 = .ok (b, t2) ∧
      s1.m_graph.nodes.map (fun n => n.state) = s2.m_graph.nodes.map (fun n => n.state) ∧
      s1.m_graph.edges = s2.m_graph.edges ∧ s1.m_parent = s2.m_parent ∧
      s1.m_max_flow = s2.m_max_flow ∧ s1.m_next_step_state = s2.m_next_step_state) :=
  ⟨BFSGraphAlgorithm.runs_agree p1 p2 gb1 gb2 fuel k hp hpp hfuelp,
    FordFulkersonGraphAlgorithm.flow_runs_agree f1 f2 fuel k hf hff hfuelf⟩

theorem runs_depend_on_topology_only_witness :
    diamondPathConfig.WellFormed ∧ diamondPathConfig.SameTopology movedDiamondPathConfig ∧
    diamondFlowConfig.WellFormed ∧ diamondFlowConfig.SameTopology movedDiamondFlowConfig ∧
    diamondPathConfig.nodes.length ≤ 5 ∧ diamondFlowConfig.nodes.length < 5 ∧
    (∃ (g1 g2 : PathGraph) (s1 s2 t1 t2 : BFSGraphAlgorithm) (b : Bool),
      PathGraph.new diamondPathConfig (fun _ => 0) = .ok g1 ∧ PathGraph.new movedDiamondPathConfig (fun _ => 7) = .ok g2 ∧
      BFSGraphAlgorithm.steps 5 2 (BFSGraphAlgorithm.new g1) = .ok s1 ∧
      BFSGraphAlgorithm.steps 5 2 (BFSGraphAlgorithm.new g2) = .ok s2 ∧
      BFSGraphAlgorithm.nextStep 5 s1 = .ok (b, t1) ∧
      BFSGraphAlgorithm.nextStep 5 s2 = .ok (b, t2) ∧
      s1.m_graph.nodes.map (fun n => n.state) = s2.m_graph.nodes.map (fun n => n.state) ∧
      s1.m_graph.edges = s2.m_graph.edges ∧
      s1.m_unvisited_node_queue = s2.m_unvisited_node_queue ∧
      ∀ (v : Nat) (n1 n2 : PathNode), s1.m_graph.nodes[v]? = some n1 →
        s2.m_graph.nodes[v]? = some n2 →
        (n1.state ≠ PathNodeState.NotFound → v ≠ diamondPathConfig.start_node →
          n1.entered_by = n2.entered_by) ∧
        (n1.state = PathNodeState.NotFound ∨ v = diamondPathConfig.start_node →
          n1.entered_by = (fun _ => 0) v ∧ n2.entered_by = (fun _ => 7) v)) ∧
    (∃ (g1 g2 : FlowGraph) (s1 s2 t1 t2 : FordFulkersonGraphAlgorithm) (b : Bool),
      FlowGraph.new diamondFlowConfig = .ok g1 ∧ FlowGraph.new movedDiamondFlowConfig = .ok g2 ∧
      FordFulkersonGraphAlgorithm.steps 5 2 (FordFulkersonGraphAlgorithm.new g1) = .ok s1 ∧
      FordFulkersonGraphAlgorithm.steps 5 2 (FordFulkersonGraphAlgorithm.new g2) = .ok s2 ∧
      FordFulkersonGraphAlgorithm.nextStep 5 s1 = .ok (b, t1) ∧
      FordFulkersonGraphAlgorithm.nextStep 5 s2 = .ok (b, t2) ∧
      s1.m_graph.nodes.map (fun n => n.state) = s2.m_graph.nodes.map (fun n => n.state) ∧
      s1.m_graph.edges = s2.m_graph.edges ∧ s1.m_parent = s2.m_parent ∧
      s1.m_max_flow = s2.m_max_flow ∧ s1.m_next_step_state = s2.m_next_step_state) :=
  ⟨by decide, ⟨rfl, rfl, rfl, rfl⟩, by decide, ⟨rfl, rfl, rfl, rfl⟩, by decide, by decide,
    runs_depend_on_topology_only diamondPathConfig movedDiamondPathConfig (fun _ => 0)
      (fun _ => 7) diamondFlowConfig movedDiamondFlowConfig 5 2 (by decide)
      ⟨rfl, rfl, rfl, rfl⟩ (by decide) ⟨rfl, rfl, rfl, rfl⟩ (by decide) (by decide)⟩

/-! ## The end points of the found path stay `Visited` -/

/-- The call that dequeues the end node, when it is not the start node, leaves the start node
and the end node in state `Visited`. -/
theorem BFSInv.finish_ends_visited {fuel : Nat} {st : BFSGraphAlgorithm} {k u : Nat}
    {A B : List Nat} (h : BFSInv st k (u :: A) B) (hu : u = st.m_graph.end_node)
    (hus : u ≠ st.m_graph.start_node) (hfuel : st.m_graph.nodes.length ≤ fuel) :
    ∃ st1 : BFSGraphAlgorithm, BFSGraphAlgorithm.nextStep fuel st = .ok (true, st1) ∧
      (∃ nd : PathNode, st1.m_graph.nodes[st.m_graph.start_node]? = some nd ∧
        nd.state = PathNodeState.Visited) ∧
      (∃ nd : PathNode, st1.m_graph.nodes[st.m_graph.end_node]? = some nd ∧
        nd.state = PathNodeState.Visited) := by
  obtain ⟨st1, es, vs, hstep, hch, hlen, hvs, _, hnodes, _, _, _⟩ :=
    @BFSInv.finish_chain fuel _ _ _ _ _ h hu hus hfuel
  have hdist : IsDist st.m_graph.ends st.m_graph.start_node u k :=
    h.distA _ (List.mem_cons_self _ _)
  have hpath := hch.back_path
  have hsimple := hpath.nodup_of_shortest (by
    rw [List.length_reverse, hlen]; exact hdist.2)
  obtain ⟨vs1, hvs1⟩ := hch.nodes_head hus
  have hnd : vs.Nodup := List.nodup_reverse.1 hsimple.2.1
  have hend_tail : u ∉ vs.tail := by
    rw [hvs1] at hnd ⊢
    exact (List.nodup_cons.1 hnd).1
  have hstart_vs : st.m_graph.start_node ∉ vs := hch.back_start_not_mem
  obtain ⟨snode, hsnode, hsstate⟩ := h.start_visited hus
  obtain ⟨enode, henode, _⟩ := hvs u (by rw [hvs1]; simp)
  have hs1 := hnodes _ snode hsnode
  rw [if_neg (fun hm => hstart_vs (List.mem_of_mem_tail hm)), if_neg (Ne.symm hus)] at hs1
  have he1 := hnodes _ enode henode
  rw [if_neg hend_tail, if_pos rfl] at he1
  rw [hu] at he1
  exact ⟨st1, hstep, ⟨_, hs1, hsstate⟩, ⟨_, he1, rfl⟩⟩

/-- The run from a traversal state, with the states of the two end points of the path in the
state in which it stops. -/
theorem BFSInv.run_ends (fuel : Nat) :
    ∀ (m : Nat) (st : BFSGraphAlgorithm) (k : Nat) (A B : List Nat), BFSInv st k A B →
      st.m_graph.unvisited < m → st.m_graph.nodes.length ≤ fuel →
      ∃ (cnt : Nat) (st1 : BFSGraphAlgorithm),
        (∀ budget, cnt ≤ budget →
          BFSGraphAlgorithm.runUntilFalse fuel budget st = .ok (cnt, st1)) ∧
        st1.m_graph.skel = st.m_graph.skel ∧
        ((∃ (P V : List Nat) (d : Nat), BFSFound st1 P V d) ∨ ∃ k1, BFSInv st1 k1 [] []) ∧
        (st1.m_found_end = true → st.m_graph.start_node ≠ st.m_graph.end_node →
          (∃ nd : PathNode, st1.m_graph.nodes[st.m_graph.start_node]? = some nd ∧
            nd.state = PathNodeState.Visited) ∧
          (∃ nd : PathNode, st1.m_graph.nodes[st.m_graph.end_node]? = some nd ∧
            nd.state = PathNodeState.Visited)) := by
  intro m
  induction m with
  | zero => intro st k A B _ hm; omega
  | succ m ih =>
    intro st k A B h hm hfuel
    have hdfuel : ∀ d, IsDist st.m_graph.ends st.m_graph.start_node st.m_graph.end_node d →
        d ≤ fuel := by
      intro d hd
      have := IsDist.lt_length h.wf hd
      omega
    have hnorm : (A = [] ∧ B = []) ∨ ∃ k1 u A1 B1, BFSInv st k1 (u :: A1) B1 := by
      cases A with
      | nil =>
        cases B with
        | nil => exact Or.inl ⟨rfl, rfl⟩
        | cons b B1 => exact Or.inr ⟨k + 1, b, B1, [], h.relevel⟩
      | cons a A1 => exact Or.inr ⟨k, a, A1, B, h⟩
    rcases hnorm with ⟨hA, hB⟩ | ⟨k1, u, A1, B1, h1⟩
    · subst hA; subst hB
      refine ⟨1, st, ?_, rfl, Or.inr ⟨k, h⟩, ?_⟩
      · exact BFSGraphAlgorithm.runUntilFalse_false
          (BFSGraphAlgorithm.nextStep_empty h.first h.queue_eq)
      · intro hfe
        rw [h.not_found] at hfe
        cases hfe
    · by_cases hu : u = st.m_graph.end_node
      · obtain ⟨st1, P, V, d, hstep, hfound, hsk⟩ := h1.finish hu hdfuel
        refine ⟨2, st1, ?_, hsk, Or.inl ⟨P, V, d, hfound⟩, ?_⟩
        · exact BFSGraphAlgorithm.runUntilFalse_true hstep
            (BFSGraphAlgorithm.runUntilFalse_false
              (BFSGraphAlgorithm.nextStep_found hfound.first hfound.found))
        · intro _ hse
          have hus : u ≠ st.m_graph.start_node := by
            rw [hu]; exact Ne.symm hse
          obtain ⟨st2, hstep2, hs, he⟩ := @BFSInv.finish_ends_visited fuel _ _ _ _ _ h1 hu hus
            hfuel
          have heq : st2 = st1 := by
            have := hstep2.symm.trans hstep
            simp only [Except.ok.injEq, Prod.mk.injEq, true_and] at this
            exact this
          rw [heq] at hs he
          exact ⟨hs, he⟩
      · obtain ⟨st1, N, hstep, hinv1, hcount, hsk⟩ := @BFSInv.step fuel _ _ _ _ _ h1 hu
        have hfuel1 : st1.m_graph.nodes.length ≤ fuel := by
          rw [PathGraph.skel_nodes_length hsk]; exact hfuel
        obtain ⟨cnt, st2, hrun, hsk2, hres, hends⟩ :=
          ih st1 k1 A1 (B1 ++ N) hinv1 (by omega) hfuel1
        refine ⟨cnt + 1, st2, BFSGraphAlgorithm.runUntilFalse_true hstep hrun,
          hsk2.trans hsk, hres, ?_⟩
        intro hfe hse
        rw [PathGraph.skel_start hsk, PathGraph.skel_end hsk] at hends
        exact hends hfe hse

/-- C2 (amended): for every well-formed path graph in which the end node is reachable from
the start node, the run of `nextStep` stops (after `cnt` calls, the last of which returns
`false`), and there is a path `P` from start to end whose number of edges is the shortest
distance `d` such that the nodes in state `OnShortestPath` are exactly the inner nodes of that
path (`V.dropLast`: the nodes the path enters, without the end node) when start and end
differ, and exactly the start node when start and end coincide. When start and end differ,
the start node and the end node themselves are left in state `Visited`. -/
theorem bfs_marked_nodes_inner_shortest_path (c : PathGraphConfig) (gb : Nat → Nat)
    (fuel : Nat) (hc : c.WellFormed) (hreach : Reachable c.edges c.start_node c.end_node)
    (hfuel : c.nodes.length ≤ fuel) :
    ∃ (g : PathGraph) (cnt : Nat) (st : BFSGraphAlgorithm) (P V : List Nat) (d : Nat),
      PathGraph.new c gb = .ok g ∧
      (∀ budget, cnt ≤ budget →
        BFSGraphAlgorithm.runUntilFalse fuel budget (BFSGraphAlgorithm.new g) = .ok (cnt, st)) ∧
      PathFrom c.edges c.start_node c.end_node P V ∧ V.Nodup ∧ c.start_node ∉ V ∧
      P.length = d ∧ IsDist c.edges c.start_node c.end_node d ∧
      st.m_graph.nodes.length = c.nodes.length ∧
      (∀ (v : Nat) (node : PathNode), st.m_graph.nodes[v]? = some node →
        (node.state = PathNodeState.OnShortestPath ↔
          if c.start_node = c.end_node then v = c.start_node else v ∈ V.dropLast)) ∧
      (c.start_node ≠ c.end_node →
        (∃ nd : PathNode, st.m_graph.nodes[c.start_node]? = some nd ∧
          nd.state = PathNodeState.Visited) ∧
        (∃ nd : PathNode, st.m_graph.nodes[c.end_node]? = some nd ∧
          nd.state = PathNodeState.Visited)) := by
  obtain ⟨g, hnew, hfresh⟩ := PathGraph.new_spec c gb hc
  have hinit := BFSInv.init c g hfresh
  have hfuel0 : g.nodes.length ≤ fuel := by rw [hfresh.len]; exact hfuel
  obtain ⟨cnt, st, hrun, hsk, hres, hvis⟩ :=
    BFSInv.run_ends fuel (g.unvisited + 1) _ 0 [g.start_node] [] hinit (Nat.lt_succ_self _)
      hfuel0
  have hsk : st.m_graph.skel = g.skel := hsk
  have hends : st.m_graph.ends = c.edges := (PathGraph.skel_ends hsk).trans hfresh.ends_eq
  have hstart : st.m_graph.start_node = c.start_node :=
    (PathGraph.skel_start hsk).trans hfresh.start_eq
  have hend : st.m_graph.end_node = c.end_node := (PathGraph.skel_end hsk).trans hfresh.end_eq
  rcases hres with ⟨P, V, d, hfound⟩ | ⟨k, hinv⟩
  · have hpath := hfound.path
    have hdist := hfound.dist
    rw [hends, hstart, hend] at hpath hdist
    have hsimple := hpath.nodup_of_shortest (by rw [hfound.len]; exact hdist.2)
    refine ⟨g, cnt + 1, st, P, V, d, hnew,
      BFSGraphAlgorithm.runUntilFalse_true (BFSGraphAlgorithm.nextStep_first fuel g) hrun,
      hpath, hsimple.2.1, hsimple.2.2, hfound.len, hdist,
      (PathGraph.skel_nodes_length hsk).trans hfresh.len, ?_, ?_⟩
    · intro v node hv
      by_cases hse : c.start_node = c.end_node
      · rw [if_pos hse, ← hstart]
        exact hfound.nodes_eq (by rw [hstart, hend]; exact hse) v node hv
      · rw [if_neg hse]
        exact hfound.nodes_ne (by rw [hstart, hend]; exact hse) v node hv
    · intro hse
      have h2 := hvis hfound.found (by
        show g.start_node ≠ g.end_node
        rw [hfresh.start_eq, hfresh.end_eq]; exact hse)
      have h3 : (∃ nd : PathNode, st.m_graph.nodes[g.start_node]? = some nd ∧
            nd.state = PathNodeState.Visited) ∧
          (∃ nd : PathNode, st.m_graph.nodes[g.end_node]? = some nd ∧
            nd.state = PathNodeState.Visited) := h2
      rw [hfresh.start_eq, hfresh.end_eq] at h3
      exact h3
  · exfalso
    apply hinv.exhausted_unreachable
    rw [hends, hstart, hend]
    exact hreach

theorem bfs_marked_nodes_inner_shortest_path_witness :
    diamondPathConfig.WellFormed ∧
    Reachable diamondPathConfig.edges diamondPathConfig.start_node diamondPathConfig.end_node ∧
    diamondPathConfig.nodes.length ≤ 4 ∧
    ∃ (g : PathGraph) (cnt : Nat) (st : BFSGraphAlgorithm) (P V : List Nat) (d : Nat),
      PathGraph.new diamondPathConfig (fun _ => 0) = .ok g ∧
      (∀ budget, cnt ≤ budget →
        BFSGraphAlgorithm.runUntilFalse 4 budget (BFSGraphAlgorithm.new g) = .ok (cnt, st)) ∧
      PathFrom diamondPathConfig.edges diamondPathConfig.start_node
        diamondPathConfig.end_node P V ∧ V.Nodup ∧ diamondPathConfig.start_node ∉ V ∧
      P.length = d ∧
      IsDist diamondPathConfig.edges diamondPathConfig.start_node diamondPathConfig.end_node d ∧
      st.m_graph.nodes.length = diamondPathConfig.nodes.length ∧
      (∀ (v : Nat) (node : PathNode), st.m_graph.nodes[v]? = some node →
        (node.state = PathNodeState.OnShortestPath ↔
          if diamondPathConfig.start_node = diamondPathConfig.end_node then
            v = diamondPathConfig.start_node else v ∈ V.dropLast)) ∧
      (diamondPathConfig.start_node ≠ diamondPathConfig.end_node →
        (∃ nd : PathNode, st.m_graph.nodes[diamondPathConfig.start_node]? = some nd ∧
          nd.state = PathNodeState.Visited) ∧
        (∃ nd : PathNode, st.m_graph.nodes[diamondPathConfig.end_node]? = some nd ∧
          nd.state = PathNodeState.Visited)) :=
  ⟨by decide, ⟨2, diamond_walk⟩, by decide,
    bfs_marked_nodes_inner_shortest_path diamondPathConfig (fun _ => 0) 4 (by decide)
      ⟨2, diamond_walk⟩ (by decide)⟩

end GraphViz
